import Mathlib

/-!
# madronalib: the event-to-signal core (`MLProcInputToSignals`)

A shallow embedding of `source/deprecated/MLControlEvent.{h,cpp}`, of the voice allocator,
the event router, the touch-frame reader, the parameters and the output composer of
`source/deprecated/MLProcInputToSignals.{h,cpp}`, of `MLProcGlide.cpp` and `MLProcDelay.cpp`,
and of parts of `MLProcHostPhasor.cpp`, followed by theorems about voice allocation, voice
stealing, the sustain pedal, unison mode, the router, the rendering of change lists, the
configuration, the offsets of the scheduled changes, the ramp of the glide and the delay line.

Conventions of the embedding.

* `float` values are modelled by rationals (`ℚ`); a C++ conversion `float → int` is
  truncation toward zero (`floatToInt`), a conversion `int → float` is the cast `ℤ → ℚ`.
* `int` values are modelled by `ℤ` (signed overflow is undefined behaviour in C++ and is not
  modelled), except for the counters that the code only sets to `0` and increments, which are
  natural numbers; `uint64_t` times are natural numbers, and the conversion `uint64_t → int` of
  `int time = e.mTime` wraps modulo `2^32` (`uint64ToInt`).
* A `std::vector` is a `List`.  Reading outside the bounds of a vector (undefined behaviour
  in C++) yields a default element, writing outside the bounds does nothing.
* Every method of a class becomes a function from the object (and the arguments) to the
  updated object.
-/

set_option maxRecDepth 8000

/-! ## Machine conversions -/

/-- The C++ conversion `float → int`: truncation toward zero. -/
def floatToInt (q : ℚ) : ℤ := Int.tdiv q.num q.den

/-- The C++ conversion `uint64_t → int` (32-bit two's complement `int`). -/
def uint64ToInt (t : ℕ) : ℤ :=
  if t % 2 ^ 32 < 2 ^ 31 then ((t % 2 ^ 32 : ℕ) : ℤ) else ((t % 2 ^ 32 : ℕ) : ℤ) - 2 ^ 32

/-- The loop `for (i = 0; i < n; ++i) l[i] = f(l[i])` over the first `n` elements of a
vector. -/
def mapFirst {α : Type} (f : α → α) : ℕ → List α → List α
  | 0, l => l
  | _ + 1, [] => []
  | n + 1, x :: xs => f x :: mapFirst f n xs

/-! ## `MLControlEvent.h` / `MLControlEvent.cpp` -/

/-- The enumeration `MLControlEvent::EventType`. -/
inductive EventType where
  | kNull
  | kNoteOff
  | kNoteOn
  | kNoteUpdate
  | kNoteSustain
  | kController
  | kPitchWheel
  | kNotePressure
  | kChannelPressure
  | kProgramChange
  | kSustainPedal
  deriving DecidableEq, Repr

/-- The class `MLControlEvent`.  `mNote` is not set by either constructor; it is zero in the
statically allocated `kMLNullControlEvent`. -/
structure MLControlEvent where
  mTime : ℕ
  mType : EventType
  mChannel : ℤ
  mNote : ℤ
  mID : ℤ
  mValue1 : ℚ
  mValue2 : ℚ
  mValue3 : ℚ
  mValue4 : ℚ
  deriving DecidableEq, Repr

/-- The constant `kMLNullControlEvent`, built by the default constructor. -/
def kMLNullControlEvent : MLControlEvent :=
  { mTime := 0, mType := EventType.kNull, mChannel := 0, mNote := 0, mID := 0,
    mValue1 := 0, mValue2 := 0, mValue3 := 0, mValue4 := 0 }

/-- The constructor `MLControlEvent(type, channel, id, time, value, value2, v3, v4)`. -/
def MLControlEvent.mk8 (type : EventType) (channel id : ℤ) (time : ℕ)
    (value value2 : ℚ) (v3 v4 : ℚ) : MLControlEvent :=
  { mTime := time, mType := type, mChannel := channel, mNote := 0, mID := id,
    mValue1 := value, mValue2 := value2, mValue3 := v3, mValue4 := v4 }

/-- The method `MLControlEvent::isFree`. -/
def MLControlEvent.isFree (e : MLControlEvent) : Bool := decide (e.mType = EventType.kNull)

/-- The method `MLControlEvent::clear`: the event becomes `kMLNullControlEvent`. -/
def MLControlEvent.clear (_e : MLControlEvent) : MLControlEvent := kMLNullControlEvent

/-- The class `MLControlEventVector`, a `std::vector<MLControlEvent>`. -/
abbrev MLControlEventVector := List MLControlEvent

/-- The loop of `MLControlEventVector::findFreeEvent`, from index `i` on. -/
def MLControlEventVector.findFreeEventFrom : List MLControlEvent → ℕ → ℤ
  | [], _ => -1
  | e :: es, i => if e.isFree then (i : ℤ) else MLControlEventVector.findFreeEventFrom es (i + 1)

/-- The method `MLControlEventVector::findFreeEvent`: the index of the first free event,
or `-1`. -/
def MLControlEventVector.findFreeEvent (p : MLControlEventVector) : ℤ :=
  MLControlEventVector.findFreeEventFrom p 0

/-- The method `MLControlEventVector::clearEventsMatchingID`. -/
def MLControlEventVector.clearEventsMatchingID (p : MLControlEventVector) (id : ℤ) :
    MLControlEventVector :=
  p.map (fun event => if event.mID = id then event.clear else event)

/-- The class `MLControlEventStack`: a `std::vector<MLControlEvent>` and the count `mSize`
of the entries in use.  `mSize` starts at `0`, is incremented only below `size()` and
decremented only above `0`, so it is a natural number. -/
structure MLControlEventStack where
  data : List MLControlEvent
  mSize : ℕ
  deriving DecidableEq, Repr

/-- The method `MLControlEventStack::push`. -/
def MLControlEventStack.push (st : MLControlEventStack) (e : MLControlEvent) :
    MLControlEventStack :=
  if st.mSize < st.data.length then
    { data := st.data.set st.mSize e, mSize := st.mSize + 1 }
  else st

/-- The method `MLControlEventStack::pop`: the popped event and the updated stack. -/
def MLControlEventStack.pop (st : MLControlEventStack) : MLControlEvent × MLControlEventStack :=
  if 0 < st.mSize then
    (st.data.getD (st.mSize - 1) kMLNullControlEvent, { st with mSize := st.mSize - 1 })
  else (kMLNullControlEvent, st)

/-- The method `MLControlEventStack::isEmpty`. -/
def MLControlEventStack.isEmpty (st : MLControlEventStack) : Bool := decide (st.mSize = 0)

/-- The method `MLControlEventStack::getSize`. -/
def MLControlEventStack.getSize (st : MLControlEventStack) : ℕ := st.mSize

/-- The compaction loop of `MLControlEventStack::clearEventsMatchingID`:
`for (j = i; j < currentSize - 1; ++j) (*this)[j] = (*this)[j + 1]`. -/
def MLControlEventStack.compact (d : List MLControlEvent) (i currentSize : ℕ) :
    List MLControlEvent :=
  (List.range (currentSize - 1 - i)).foldl
    (fun d (k : ℕ) => d.set (i + k) (d.getD (i + k + 1) kMLNullControlEvent)) d

/-- The outer loop of `MLControlEventStack::clearEventsMatchingID`, with `k` iterations left
and loop counter `i`. -/
def MLControlEventStack.clearLoop (id : ℤ) (currentSize : ℕ) :
    ℕ → ℕ → MLControlEventStack → MLControlEventStack
  | 0, _, st => st
  | k + 1, i, st =>
    if (st.data.getD i kMLNullControlEvent).mID = id then
      let d1 := st.data.set i kMLNullControlEvent
      let d2 := MLControlEventStack.compact d1 i currentSize
      let d3 := d2.set (currentSize - 1) kMLNullControlEvent
      let st1 : MLControlEventStack := { data := d3, mSize := st.mSize - 1 }
      if st1.mSize ≤ 0 then st1
      else MLControlEventStack.clearLoop id currentSize k (i + 1) st1
    else MLControlEventStack.clearLoop id currentSize k (i + 1) st

/-- The method `MLControlEventStack::clearEventsMatchingID`. -/
def MLControlEventStack.clearEventsMatchingID (st : MLControlEventStack) (id : ℤ) :
    MLControlEventStack :=
  MLControlEventStack.clearLoop id st.mSize st.mSize 0 st

/-! ## `MLChangeList` (declared in `MLChangeList.h`, which is not part of the sources) -/

/-- Modelled from the spec: the class `MLChangeList`, whose header `MLChangeList.h` is
missing.  A change list is "an ordered sequence of (target value, sample-offset-within-block)
pairs, plus a glide-time parameter"; the state carried from block to block "is only the last
emitted value".  `mChanges` holds the scheduled pairs in insertion order, `mValue` the last
settled (held) value. -/
structure MLChangeList where
  mChanges : List (ℚ × ℤ)
  mValue : ℚ
  mGlideTime : ℚ
  mSampleRate : ℚ
  deriving DecidableEq, Repr

/-- Modelled from the spec: a freshly constructed `MLChangeList`. -/
def MLChangeList.init : MLChangeList :=
  { mChanges := [], mValue := 0, mGlideTime := 0, mSampleRate := 0 }

/-- Modelled from the spec: `MLChangeList::addChange(value, offset)` "appends a scheduled
change for the current block". -/
def MLChangeList.addChange (c : MLChangeList) (value : ℚ) (time : ℤ) : MLChangeList :=
  { c with mChanges := c.mChanges ++ [(value, time)] }

/-- Modelled from the spec: `MLChangeList::clearChanges()` "discards pending changes without
altering the last settled (held) value". -/
def MLChangeList.clearChanges (c : MLChangeList) : MLChangeList :=
  { c with mChanges := [] }

/-- Modelled from the spec: `MLChangeList::zero()` "forces the held value to 0
immediately". -/
def MLChangeList.zero (c : MLChangeList) : MLChangeList :=
  { c with mValue := 0 }

/-! ## `MLVoice` -/

/-- The enumeration `MLVoice::State`. -/
inductive VoiceState where
  | kOff
  | kOn
  | kSustain
  deriving DecidableEq, Repr

/-- The class `MLVoice`.  The member written by `addNoteEvent` and `stealNoteEvent` is called
`mCurrentNoteEvent` in the `.cpp` file (`mCurrentUnisonNoteEvent` in the header).  `mAge` is
set to `0` or increased by the block size and never decreased, so it is a natural number. -/
structure MLVoice where
  mState : VoiceState
  mInstigatorID : ℤ
  mNote : ℤ
  mAge : ℕ
  mChannel : ℤ
  mStartX : ℚ
  mStartY : ℚ
  mStartVel : ℚ
  mPitch : ℚ
  mX1 : ℚ
  mY1 : ℚ
  mZ1 : ℚ
  mdPitch : MLChangeList
  mdPitchBend : MLChangeList
  mdGate : MLChangeList
  mdAmp : MLChangeList
  mdVel : MLChangeList
  mdNotePressure : MLChangeList
  mdChannelPressure : MLChangeList
  mdMod : MLChangeList
  mdMod2 : MLChangeList
  mdMod3 : MLChangeList
  mdDrift : MLChangeList
  mCurrentNoteEvent : MLControlEvent
  deriving DecidableEq, Repr

/-- The method `MLVoice::clearState`. -/
def MLVoice.clearState (v : MLVoice) : MLVoice :=
  { v with mState := VoiceState.kOff, mInstigatorID := 0, mNote := 0, mAge := 0,
           mStartX := 0, mStartY := 0, mStartVel := 0, mPitch := 0,
           mX1 := 0, mY1 := 0, mZ1 := 0 }

/-- The method `MLVoice::clearChanges`: clear changes but not current state. -/
def MLVoice.clearChanges (v : MLVoice) : MLVoice :=
  { v with mdDrift := v.mdDrift.clearChanges, mdPitch := v.mdPitch.clearChanges,
           mdPitchBend := v.mdPitchBend.clearChanges, mdGate := v.mdGate.clearChanges,
           mdAmp := v.mdAmp.clearChanges, mdVel := v.mdVel.clearChanges,
           mdNotePressure := v.mdNotePressure.clearChanges,
           mdChannelPressure := v.mdChannelPressure.clearChanges,
           mdMod := v.mdMod.clearChanges, mdMod2 := v.mdMod2.clearChanges,
           mdMod3 := v.mdMod3.clearChanges }

/-- The method `MLVoice::zeroPressure`. -/
def MLVoice.zeroPressure (v : MLVoice) : MLVoice :=
  { v with mdGate := v.mdGate.zero, mdAmp := v.mdAmp.zero, mdVel := v.mdVel.zero,
           mdNotePressure := v.mdNotePressure.zero,
           mdChannelPressure := v.mdChannelPressure.zero }

/-- The constructor `MLVoice::MLVoice()`: `clearState()` and `clearChanges()` on the
default-initialised members (`mChannel{0}`, default change lists, default event). -/
def MLVoice.init : MLVoice :=
  { mState := VoiceState.kOff, mInstigatorID := 0, mNote := 0, mAge := 0, mChannel := 0,
    mStartX := 0, mStartY := 0, mStartVel := 0, mPitch := 0, mX1 := 0, mY1 := 0, mZ1 := 0,
    mdPitch := MLChangeList.init, mdPitchBend := MLChangeList.init,
    mdGate := MLChangeList.init, mdAmp := MLChangeList.init, mdVel := MLChangeList.init,
    mdNotePressure := MLChangeList.init, mdChannelPressure := MLChangeList.init,
    mdMod := MLChangeList.init, mdMod2 := MLChangeList.init, mdMod3 := MLChangeList.init,
    mdDrift := MLChangeList.init, mCurrentNoteEvent := kMLNullControlEvent }

/-- The method `MLVoice::addNoteEvent`.  `scale` stands for `MLScale::noteToLogPitch`, the
tuning lookup of the absent `MLScale.h`. -/
def MLVoice.addNoteEvent (v : MLVoice) (e : MLControlEvent) (scale : ℚ → ℚ) : MLVoice :=
  let time : ℤ := uint64ToInt e.mTime
  let newState : VoiceState :=
    match e.mType with
    | EventType.kNoteOn => VoiceState.kOn
    | EventType.kNoteSustain => VoiceState.kSustain
    | _ => VoiceState.kOff
  let note : ℚ :=
    match e.mType with
    | EventType.kNoteOn => e.mValue1
    | EventType.kNoteSustain => e.mValue1
    | _ => (v.mNote : ℚ)
  let gate : ℚ :=
    match e.mType with
    | EventType.kNoteOn => 1
    | EventType.kNoteSustain => 1
    | _ => 0
  let vel : ℚ :=
    match e.mType with
    | EventType.kNoteOn => e.mValue2
    | EventType.kNoteSustain => e.mValue2
    | _ => 0
  -- set immediate state
  let v1 : MLVoice :=
    { v with mState := newState, mInstigatorID := e.mID, mNote := floatToInt note, mAge := 0 }
  -- add timed changes to lists for note ons/offs
  let v2 : MLVoice :=
    if e.mType ≠ EventType.kNoteSustain then
      let a : MLVoice :=
        { v1 with mdGate := v1.mdGate.addChange gate time,
                  mdAmp := v1.mdAmp.addChange vel time }
      let b : MLVoice :=
        if e.mType = EventType.kNoteOff then
          { a with mdNotePressure := a.mdNotePressure.addChange 0 time,
                   mdChannelPressure := a.mdChannelPressure.addChange 0 time }
        else a
      if e.mType = EventType.kNoteOn then
        { b with mdPitch := b.mdPitch.addChange (scale note) time,
                 mdVel := b.mdVel.addChange vel time }
      else b
    else v1
  { v2 with mCurrentNoteEvent := e }

/-- The method `MLVoice::stealNoteEvent`. -/
def MLVoice.stealNoteEvent (v : MLVoice) (e : MLControlEvent) (scale : ℚ → ℚ)
    (retrig : Bool) : MLVoice :=
  let note : ℚ := e.mValue1
  let vel : ℚ := e.mValue2
  let time0 : ℤ := uint64ToInt e.mTime
  -- in case where time = 0, make room for retrigger.
  let time : ℤ := if time0 = 0 then time0 + 1 else time0
  let v1 : MLVoice :=
    { v with mInstigatorID := e.mID, mNote := floatToInt note, mAge := 0,
             mdPitch := v.mdPitch.addChange (scale note) time }
  let v2 : MLVoice :=
    if retrig then
      { v1 with mdGate := v1.mdGate.addChange 0 (time - 1),
                mdNotePressure := v1.mdNotePressure.addChange 0 (time - 1) }
    else v1
  { v2 with mdGate := v2.mdGate.addChange 1 time,
            mdAmp := v2.mdAmp.addChange vel time,
            mdVel := v2.mdVel.addChange vel time,
            mCurrentNoteEvent := e,
            mState := VoiceState.kOn }

/-! ## `MLProcInputToSignals` -/

/-- The constant `kMaxEvents = 1 << 4`. -/
def kMaxEvents : ℕ := 16

/-- The values of the member `mProtocol`.  The constants `kInputProtocolOSC`,
`kInputProtocolMIDI` and `kInputProtocolMIDI_MPE` come from the absent `MLInputProtocols.h`;
`none` stands for every other value of the `int` (the constructor sets `-1`), for which no
`case` of a `switch(mProtocol)` is taken. -/
inductive InputProtocol where
  | kInputProtocolOSC
  | kInputProtocolMIDI
  | kInputProtocolMIDI_MPE
  | none
  deriving DecidableEq, Repr

/-- The member `mRotateMode`: set to `true` by the constructor and assigned nowhere else. -/
def mRotateMode : Bool := true

/-- The member `mGlissando`: set to `false` by the constructor and assigned nowhere else. -/
def mGlissando : Bool := false

/-- The members of the class `MLProcInputToSignals` that the event handlers read or write.
`mCurrentVoices` is clamped to `[0, 15]` by `doParams` and `mVoiceRotateOffset` starts at `0`
and is only incremented, so both are natural numbers. -/
structure MLProcInputToSignals where
  mProtocol : InputProtocol
  mNoteEventsPlaying : MLControlEventVector
  mNoteEventsPending : MLControlEventStack
  mVoices : List MLVoice
  mMPEMainVoice : MLVoice
  mVoiceRotateOffset : ℕ
  mControllerNumber : ℤ
  mCurrentVoices : ℕ
  mUnisonMode : Bool
  mSustainPedal : Bool
  mPitchWheelSemitones : ℚ
  mVectorStartTime : ℕ
  deriving DecidableEq, Repr

namespace MLProcInputToSignals

/-- Assignment to the member `mNoteEventsPlaying`. -/
def withPlaying (s : MLProcInputToSignals) (p : MLControlEventVector) : MLProcInputToSignals :=
  { s with mNoteEventsPlaying := p }

/-- Assignment to the member `mNoteEventsPending`. -/
def withPending (s : MLProcInputToSignals) (st : MLControlEventStack) : MLProcInputToSignals :=
  { s with mNoteEventsPending := st }

/-- Assignment to the member `mVoices`. -/
def withVoices (s : MLProcInputToSignals) (vs : List MLVoice) : MLProcInputToSignals :=
  { s with mVoices := vs }

/-- Assignment to the member `mVoiceRotateOffset`. -/
def withRotateOffset (s : MLProcInputToSignals) (k : ℕ) : MLProcInputToSignals :=
  { s with mVoiceRotateOffset := k }

/-- Assignment to the member `mSustainPedal`. -/
def withSustainPedal (s : MLProcInputToSignals) (b : Bool) : MLProcInputToSignals :=
  { s with mSustainPedal := b }

/-- The read access `mVoices[i]` with an `int` index. -/
def voiceAt (s : MLProcInputToSignals) (i : ℤ) : MLVoice :=
  if 0 ≤ i then s.mVoices.getD i.toNat MLVoice.init else MLVoice.init

/-- The write access `mVoices[i].f(...)` with an `int` index: voice `i` is replaced by
`f` of it. -/
def modifyVoice (s : MLProcInputToSignals) (i : ℤ) (f : MLVoice → MLVoice) :
    MLProcInputToSignals :=
  if 0 ≤ i ∧ i.toNat < s.mVoices.length then
    s.withVoices (s.mVoices.set i.toNat (f (s.voiceAt i)))
  else s

/-- The loop `for (int v = 0; v < mCurrentVoices; ++v) mVoices[v] = f(mVoices[v])` over the
active voices (`foldl_modifyVoice` below relates it to the loop written with indices). -/
def forActiveVoices (s : MLProcInputToSignals) (f : MLVoice → MLVoice) :
    MLProcInputToSignals :=
  s.withVoices (mapFirst f s.mCurrentVoices s.mVoices)

/-- The loop of `findFreeVoice`, with `k` iterations left and loop counter `v`: the index
found (or `-1`) and the updated object (`mVoiceRotateOffset` is incremented on success). -/
def findFreeVoiceFrom (s : MLProcInputToSignals) : ℕ → ℕ → ℤ × MLProcInputToSignals
  | 0, _ => (-1, s)
  | k + 1, v =>
    let vr : ℕ := if mRotateMode then (v + s.mVoiceRotateOffset) % s.mCurrentVoices else v
    if (s.voiceAt (vr : ℤ)).mState = VoiceState.kOff then
      ((vr : ℤ), s.withRotateOffset (s.mVoiceRotateOffset + 1))
    else findFreeVoiceFrom s k (v + 1)

/-- The method `findFreeVoice`: return index of free voice or -1 for none; increments
`mVoiceRotateOffset`. -/
def findFreeVoice (s : MLProcInputToSignals) : ℤ × MLProcInputToSignals :=
  s.findFreeVoiceFrom s.mCurrentVoices 0

/-- The method `findOldestSustainedVoice`: the first loop collects the indices of the
sustained voices, the second one keeps the first index of greatest age above `-1`. -/
def findOldestSustainedVoice (s : MLProcInputToSignals) : ℤ :=
  let sustainedVoices : List ℕ :=
    (List.range s.mCurrentVoices).filter
      (fun (i : ℕ) => decide ((s.voiceAt (i : ℤ)).mState = VoiceState.kSustain))
  (sustainedVoices.foldl
    (fun (acc : ℤ × ℤ) (voiceIdx : ℕ) =>
      let age : ℤ := ((s.voiceAt (voiceIdx : ℤ)).mAge : ℤ)
      if age > acc.2 then ((voiceIdx : ℤ), age) else acc)
    ((-1 : ℤ), (-1 : ℤ))).1

/-- The method `findNearestVoice`: return the index of the voice with the note nearest to
the note n.  The accumulator is the pair `(r, minDist)`, starting at `(0, 128)`. -/
def findNearestVoice (s : MLProcInputToSignals) (note : ℤ) : ℤ :=
  ((List.range s.mCurrentVoices).foldl
    (fun (acc : ℤ × ℤ) (v : ℕ) =>
      let vNote := (s.voiceAt (v : ℤ)).mNote
      let noteDist : ℤ := ((note - vNote).natAbs : ℤ)
      if noteDist < acc.2 then ((v : ℤ), noteDist) else acc)
    ((0 : ℤ), (128 : ℤ))).1

/-- The method `MPEChannelToVoiceIDX`: `(i - 2) % mCurrentVoices`, with the truncating
remainder of C++ (a zero `mCurrentVoices` is undefined behaviour in C++). -/
def MPEChannelToVoiceIDX (s : MLProcInputToSignals) (i : ℤ) : ℤ :=
  Int.tmod (i - 2) (s.mCurrentVoices : ℤ)

/-- The unison branch of `doNoteOn`, after the event has been stored in the pool. -/
def doNoteOnUnison (s1 : MLProcInputToSignals) (event : MLControlEvent) (scale : ℚ → ℚ) :
    MLProcInputToSignals :=
  -- push any event previously occupying voices to pending stack
  let s2 : MLProcInputToSignals :=
    if (s1.voiceAt 0).mState = VoiceState.kOn then
      let prevEvent := (s1.voiceAt 0).mCurrentNoteEvent
      (s1.withPending (s1.mNoteEventsPending.push prevEvent)).withPlaying
        (s1.mNoteEventsPlaying.clearEventsMatchingID prevEvent.mID)
    else s1
  s2.forActiveVoices (fun voice => voice.addNoteEvent event scale)

/-- The branch `case kInputProtocolMIDI` of `doNoteOn`, after the event has been stored in
the pool. -/
def doNoteOnMIDI (s1 : MLProcInputToSignals) (event : MLControlEvent) (scale : ℚ → ℚ) :
    MLProcInputToSignals :=
  let r := s1.findFreeVoice
  let v := r.1
  let s2 := r.2
  if v ≥ 0 then
    s2.modifyVoice v (fun voice => voice.addNoteEvent event scale)
  else
    -- find a sustained voice to steal
    let v1 := s2.findOldestSustainedVoice
    -- or failing that, the voice with the nearest note
    let v2 := if v1 < 0 then s2.findNearestVoice (floatToInt event.mValue1) else v1
    s2.modifyVoice v2 (fun voice => voice.stealNoteEvent event scale true)

/-- The branch `case kInputProtocolMIDI_MPE` of `doNoteOn`, after the event has been stored
in the pool. -/
def doNoteOnMPE (s1 : MLProcInputToSignals) (event : MLControlEvent) (scale : ℚ → ℚ) :
    MLProcInputToSignals :=
  let chan := event.mChannel
  if chan > 1 then
    let v := s1.MPEChannelToVoiceIDX chan
    if (s1.voiceAt v).mState = VoiceState.kOff then
      s1.modifyVoice v (fun voice => voice.addNoteEvent event scale)
    else
      s1.modifyVoice v (fun voice => voice.stealNoteEvent event scale true)
  else s1

/-- The method `doNoteOn`. -/
def doNoteOn (s : MLProcInputToSignals) (event : MLControlEvent) (scale : ℚ → ℚ) :
    MLProcInputToSignals :=
  -- find free event or bail
  let freeEventIdx := s.mNoteEventsPlaying.findFreeEvent
  if freeEventIdx < 0 then s
  else
    let s1 := s.withPlaying (s.mNoteEventsPlaying.set freeEventIdx.toNat event)
    if s1.mUnisonMode then s1.doNoteOnUnison event scale
    else
      match s1.mProtocol with
      | InputProtocol.kInputProtocolMIDI => s1.doNoteOnMIDI event scale
      | InputProtocol.kInputProtocolMIDI_MPE => s1.doNoteOnMPE event scale
      | _ => s1

/-- The first loop of `doNoteOff`:
`for (i < kMaxEvents) if (mNoteEventsPlaying[i].mID == instigator) mNoteEventsPlaying[i].clear()`. -/
def clearPlaying (p : MLControlEventVector) (instigator : ℤ) : MLControlEventVector :=
  mapFirst (fun event => if event.mID = instigator then event.clear else event) kMaxEvents p

/-- The step "activate pending notes" of `doNoteOff`, common to the plain and the
per-channel branch: when the stack is not empty its top is popped, and voice
`voiceReleased` steals it if its `mValue1` is positive. -/
def activatePending (s : MLProcInputToSignals) (voiceReleased : ℤ) (scale : ℚ → ℚ) :
    MLProcInputToSignals :=
  if ¬ s.mNoteEventsPending.isEmpty then
    let r := s.mNoteEventsPending.pop
    let pendingEvent := r.1
    let s1 := s.withPending r.2
    if pendingEvent.mValue1 > 0 then
      s1.modifyVoice voiceReleased (fun voice => voice.stealNoteEvent pendingEvent scale mGlissando)
    else s1
  else s

/-- The value of `voiceReleased` after the loop of the plain branch of `doNoteOff`: the last
active voice whose `mInstigatorID` is `instigator`, or `-1`. -/
def lastVoiceMatching (s : MLProcInputToSignals) (instigator : ℤ) : ℤ :=
  (List.range s.mCurrentVoices).foldl
    (fun (r : ℤ) (v : ℕ) => if (s.voiceAt (v : ℤ)).mInstigatorID = instigator then (v : ℤ) else r)
    (-1)

/-- The type of the event sent to the voices by `doNoteOff`:
`mSustainPedal ? kNoteSustain : kNoteOff`. -/
def newEventType (s : MLProcInputToSignals) : EventType :=
  if s.mSustainPedal then EventType.kNoteSustain else EventType.kNoteOff

/-- The event sent to the voices by `doNoteOff`: `eventToSend = event` with
`eventToSend.mType = newEventType`. -/
def eventToSend (s : MLProcInputToSignals) (event : MLControlEvent) : MLControlEvent :=
  { event with mType := s.newEventType }

/-- The unison branch of `doNoteOff`, after the pool has been cleared of the instigator. -/
def doNoteOffUnison (s1 : MLProcInputToSignals) (event : MLControlEvent) (scale : ℚ → ℚ) :
    MLProcInputToSignals :=
  let instigator := event.mID
  if (s1.voiceAt 0).mInstigatorID = instigator then
    if ¬ s1.mNoteEventsPending.isEmpty then
      let r := s1.mNoteEventsPending.pop
      let pendingEvent := r.1
      (s1.withPending r.2).forActiveVoices
        (fun voice => voice.stealNoteEvent pendingEvent scale mGlissando)
    else
      -- release or sustain
      s1.forActiveVoices (fun voice => voice.addNoteEvent (s1.eventToSend event) scale)
  else
    s1.withPending (s1.mNoteEventsPending.clearEventsMatchingID instigator)

/-- The branch `case kInputProtocolMIDI` of `doNoteOff`, after the pool has been cleared of
the instigator. -/
def doNoteOffMIDI (s1 : MLProcInputToSignals) (event : MLControlEvent) (scale : ℚ → ℚ) :
    MLProcInputToSignals :=
  let instigator := event.mID
  -- send either off or sustain event to voices matching instigator
  let voiceReleased := s1.lastVoiceMatching instigator
  let s2 := s1.forActiveVoices
    (fun voice =>
      if voice.mInstigatorID = instigator then voice.addNoteEvent (s1.eventToSend event) scale
      else voice)
  -- activate pending notes
  let s3 :=
    if voiceReleased ≥ 0 then
      if s1.newEventType = EventType.kNoteOff then s2.activatePending voiceReleased scale
      else s2
    else s2
  s3.withPending (s3.mNoteEventsPending.clearEventsMatchingID instigator)

/-- The branch `case kInputProtocolMIDI_MPE` of `doNoteOff`, after the pool has been cleared
of the instigator. -/
def doNoteOffMPE (s1 : MLProcInputToSignals) (event : MLControlEvent) (scale : ℚ → ℚ) :
    MLProcInputToSignals :=
  let chan := event.mChannel
  if chan > 1 then
    let voiceReleased := s1.MPEChannelToVoiceIDX chan
    let s2 := s1.modifyVoice voiceReleased
      (fun voice => voice.addNoteEvent (s1.eventToSend event) scale)
    if s1.newEventType = EventType.kNoteOff then s2.activatePending voiceReleased scale
    else s2
  else s1

/-- The method `doNoteOff`. -/
def doNoteOff (s : MLProcInputToSignals) (event : MLControlEvent) (scale : ℚ → ℚ) :
    MLProcInputToSignals :=
  -- clear all events matching instigator
  let s1 := s.withPlaying (clearPlaying s.mNoteEventsPlaying event.mID)
  if s1.mUnisonMode then s1.doNoteOffUnison event scale
  else
    match s1.mProtocol with
    | InputProtocol.kInputProtocolMIDI => s1.doNoteOffMIDI event scale
    | InputProtocol.kInputProtocolMIDI_MPE => s1.doNoteOffMPE event scale
    | _ => s1

/-- The method `doSustain`. -/
def doSustain (s : MLProcInputToSignals) (event : MLControlEvent) (scale : ℚ → ℚ) :
    MLProcInputToSignals :=
  let s1 := s.withSustainPedal (decide (floatToInt event.mValue1 ≠ 0))
  if ¬ s1.mSustainPedal then
    -- clear any sustaining voices
    s1.forActiveVoices
      (fun v =>
        if v.mState = VoiceState.kSustain then
          v.addNoteEvent { kMLNullControlEvent with mType := EventType.kNoteOff } scale
        else v)
  else s1

end MLProcInputToSignals

namespace MLProcInputToSignals

/-- The cases `kNoteOn`, `kNoteOff` and `kSustainPedal` of the `switch (event.mType)` of
`processEvent`, for an event whose time is already relative to the start of the block.  The
types `kNull`, `kNoteUpdate`, `kNoteSustain` and `kProgramChange` fall to `default: break`.
The handlers of the four remaining types (controller, pitch wheel, note pressure and channel
pressure) are not part of this section, and events of these types are not interpreted
here. -/
def processNoteEvent (s : MLProcInputToSignals) (event : MLControlEvent) (scale : ℚ → ℚ) :
    MLProcInputToSignals :=
  match event.mType with
  | EventType.kNoteOn => s.doNoteOn event scale
  | EventType.kNoteOff => s.doNoteOff event scale
  | EventType.kSustainPedal => s.doSustain event scale
  | _ => s

/-- The object after a sequence of note and pedal events, handled one after the other. -/
def processNoteEvents (s : MLProcInputToSignals) (events : List MLControlEvent)
    (scale : ℚ → ℚ) : MLProcInputToSignals :=
  events.foldl (fun t e => t.processNoteEvent e scale) s

/-- The object after construction, allocation of `maxVoices` voices, configuration
(`doParams` with the given voice count, clamped to `[0, 15]`, protocol and unison switch) and
`clear()`: every voice is in its cleared state, every entry of the pool of playing events
and of the pending stack is `kMLNullControlEvent`. -/
def cleared (maxVoices voices : ℕ) (protocol : InputProtocol) (unison : Bool) :
    MLProcInputToSignals :=
  { mProtocol := protocol,
    mNoteEventsPlaying := List.replicate kMaxEvents kMLNullControlEvent,
    mNoteEventsPending := { data := List.replicate kMaxEvents kMLNullControlEvent, mSize := 0 },
    mVoices := List.replicate maxVoices MLVoice.init,
    mMPEMainVoice := MLVoice.init,
    mVoiceRotateOffset := 0,
    mControllerNumber := -1,
    mCurrentVoices := min voices 15,
    mUnisonMode := unison,
    mSustainPedal := false,
    mPitchWheelSemitones := 7,
    mVectorStartTime := 0 }

end MLProcInputToSignals

/-- A note-on event `NoteOn(id, note, t)` with velocity `vel`, on channel 1. -/
def noteOn (id : ℤ) (note : ℚ) (t : ℕ) (vel : ℚ) : MLControlEvent :=
  MLControlEvent.mk8 EventType.kNoteOn 1 id t note vel 0 0

/-- A note-off event `NoteOff(id, t)` for the key `note`, on channel 1. -/
def noteOff (id : ℤ) (note : ℚ) (t : ℕ) : MLControlEvent :=
  MLControlEvent.mk8 EventType.kNoteOff 1 id t note 0 0 0

/-- A sustain-pedal event with pedal value `value`, on channel 1. -/
def sustainPedal (value : ℚ) (t : ℕ) : MLControlEvent :=
  MLControlEvent.mk8 EventType.kSustainPedal 1 0 t value 0 0 0

/-! ## Notions used in the statements -/

namespace MLProcInputToSignals

/-- The active voices: those of index below `mCurrentVoices`. -/
def activeVoices (s : MLProcInputToSignals) : List MLVoice :=
  s.mVoices.take s.mCurrentVoices

/-- The `mInstigatorID`s of the active voices that are in state `kOn`, in voice order. -/
def onVoiceIds (s : MLProcInputToSignals) : List ℤ :=
  (s.activeVoices.filter (fun v => decide (v.mState = VoiceState.kOn))).map
    (fun v => v.mInstigatorID)

/-- What `clear()` establishes (with the outputs in place): every voice has the state set by
`clearState()` and no scheduled change, and every entry of the pool of playing events and of
the pending stack is `kMLNullControlEvent`.  (`clear()` leaves `mSize`, `mSustainPedal` and
`mVoiceRotateOffset` as they are.) -/
def IsCleared (s : MLProcInputToSignals) : Prop :=
  (∀ v ∈ s.mVoices, v.mState = VoiceState.kOff ∧ v.mInstigatorID = 0 ∧ v.mNote = 0 ∧
    v.mAge = 0 ∧ v.clearChanges = v) ∧
  s.mNoteEventsPlaying = List.replicate kMaxEvents kMLNullControlEvent ∧
  s.mNoteEventsPending.data = List.replicate kMaxEvents kMLNullControlEvent

/-- The ids of the events of the pool of playing events that are not free, in pool order. -/
def playingIds (s : MLProcInputToSignals) : List ℤ :=
  (s.mNoteEventsPlaying.filter (fun ev => decide (ev.mType ≠ EventType.kNull))).map
    (fun ev => ev.mID)

/-- The invariant of the plain protocol with unison off and the pedal up, `held` being the
ids of the held notes: the active voices are off or on, the ids of the voices that are on
and the ids stored in the pool are those of the held notes, and no event of the pending
stack has a positive `mValue1`. -/
structure PlainInv (s : MLProcInputToSignals) (held : List ℤ) : Prop where
  protocol : s.mProtocol = InputProtocol.kInputProtocolMIDI
  unison : s.mUnisonMode = false
  pedal : s.mSustainPedal = false
  allocated : s.mCurrentVoices ≤ s.mVoices.length
  noSustain : ∀ v ∈ s.activeVoices, v.mState ≠ VoiceState.kSustain
  onIds : List.Perm s.onVoiceIds held
  poolSize : s.mNoteEventsPlaying.length = kMaxEvents
  poolIds : List.Perm s.playingIds held
  pending : ∀ ev ∈ s.mNoteEventsPending.data, ¬ (ev.mValue1 > 0)
  distinct : held.Nodup

instance (s : MLProcInputToSignals) : Decidable s.IsCleared := by
  unfold IsCleared
  infer_instance

/-- All active voices mirror one note: they agree on state, instigator and note. -/
def Unison (s : MLProcInputToSignals) : Prop :=
  ∀ i j : ℕ, i < s.mCurrentVoices → j < s.mCurrentVoices →
    (s.voiceAt i).mState = (s.voiceAt j).mState ∧
    (s.voiceAt i).mInstigatorID = (s.voiceAt j).mInstigatorID ∧
    (s.voiceAt i).mNote = (s.voiceAt j).mNote

end MLProcInputToSignals

/-- The ids of the held notes after one more event: a note-on adds its id, a note-off
removes it. -/
def heldStep (held : List ℤ) (e : MLControlEvent) : List ℤ :=
  match e.mType with
  | EventType.kNoteOn => e.mID :: held
  | EventType.kNoteOff => held.filter (fun i => decide (i ≠ e.mID))
  | _ => held

/-- The ids of the held notes after a sequence of events. -/
def heldAfter (held : List ℤ) (events : List MLControlEvent) : List ℤ :=
  events.foldl heldStep held

/-- A sequence of note-on and note-off events in which the ids of concurrently held notes are
pairwise distinct and at most `n` notes are held at once, `held` being the ids held before
the sequence. -/
def HeldWithin (n : ℕ) : List ℤ → List MLControlEvent → Prop
  | _, [] => True
  | held, e :: es =>
    (e.mType = EventType.kNoteOn ∨ e.mType = EventType.kNoteOff) ∧
    (e.mType = EventType.kNoteOn → e.mID ∉ held ∧ held.length < n) ∧
    HeldWithin n (heldStep held e) es

instance decidableHeldWithin (n : ℕ) :
    (held : List ℤ) → (events : List MLControlEvent) → Decidable (HeldWithin n held events)
  | _, [] => isTrue trivial
  | held, e :: es =>
    have : Decidable (HeldWithin n (heldStep held e) es) :=
      decidableHeldWithin n (heldStep held e) es
    inferInstanceAs (Decidable
      ((e.mType = EventType.kNoteOn ∨ e.mType = EventType.kNoteOff) ∧
       (e.mType = EventType.kNoteOn → e.mID ∉ held ∧ held.length < n) ∧
       HeldWithin n (heldStep held e) es))

/-! ## States and events used in the examples -/

/-- Four voices of the plain protocol holding the notes 60, 64, 67 and 72 (ids 1 to 4),
tuning lookup taken to be the identity. -/
def fourVoicesHeld : MLProcInputToSignals :=
  (MLProcInputToSignals.cleared 4 4 InputProtocol.kInputProtocolMIDI false).processNoteEvents
    [noteOn 1 60 0 1, noteOn 2 64 0 1, noteOn 3 67 0 1, noteOn 4 72 0 1] (fun x => x)

/-- Four voices of the plain protocol after sixteen note-ons (ids 1 to 16, notes 60 to 75)
and no note-off: every voice is sounding and the pool of playing events is full. -/
def sixteenKeysHeld : MLProcInputToSignals :=
  (MLProcInputToSignals.cleared 4 4 InputProtocol.kInputProtocolMIDI false).processNoteEvents
    ((List.range 16).map (fun (k : ℕ) => noteOn ((k : ℤ) + 1) (((60 + k : ℕ) : ℚ)) 0 1))
    (fun x => x)

/-- Two voices, the first one sustained by the pedal and the second one sounding, and a full
pool of playing events.  The state is reached in the per-channel protocol (two notes on the
channels 2 and 3, pedal down, note-off on channel 2, then fifteen note-ons on channel 1,
which are stored in the pool and assigned to no voice) followed by a change of the protocol
parameter to the plain protocol, which `doParams` applies without a `clear()`. -/
def sustainedPoolFull : MLProcInputToSignals :=
  { (MLProcInputToSignals.cleared 2 2 InputProtocol.kInputProtocolMIDI_MPE false).processNoteEvents
      ([MLControlEvent.mk8 EventType.kNoteOn 2 1 0 60 1 0 0,
        MLControlEvent.mk8 EventType.kNoteOn 3 2 0 64 1 0 0,
        MLControlEvent.mk8 EventType.kSustainPedal 1 0 1 127 0 0 0,
        MLControlEvent.mk8 EventType.kNoteOff 2 1 2 60 0 0 0] ++
       (List.range 15).map (fun (k : ℕ) => noteOn ((k : ℤ) + 10) (((70 + k : ℕ) : ℚ)) 3 1))
      (fun x => x) with
    mProtocol := InputProtocol.kInputProtocolMIDI }

/-! ## `MLControlEventStack`: the entries in use -/

/-- The entries of a stack, bottom first: the first `mSize` elements of the vector (the
elements above are storage that is not in use). -/
def MLControlEventStack.entries (st : MLControlEventStack) : List MLControlEvent :=
  st.data.take st.mSize

/-- A sequence of `push` calls, in the order of the list. -/
def MLControlEventStack.pushAll (st : MLControlEventStack) (es : List MLControlEvent) :
    MLControlEventStack :=
  es.foldl MLControlEventStack.push st

/-- A sequence of `k` calls of `pop`: the events returned, in the order of the calls, and the
stack left. -/
def MLControlEventStack.popN : ℕ → MLControlEventStack → List MLControlEvent × MLControlEventStack
  | 0, st => ([], st)
  | k + 1, st => (st.pop.1 :: (MLControlEventStack.popN k st.pop.2).1,
      (MLControlEventStack.popN k st.pop.2).2)

/-! ## `MLProcInputToSignals`: the other event handlers and the event router -/

namespace MLProcInputToSignals

/-- Assignment to the member `mMPEMainVoice`. -/
def withMainVoice (s : MLProcInputToSignals) (v : MLVoice) : MLProcInputToSignals :=
  { s with mMPEMainVoice := v }

/-- The method `clearChangeLists`.  `maxVoices`, the voice count of the root context, is the
size of `mVoices`: `resize()` allocates that many voices before any event is processed. -/
def clearChangeLists (s : MLProcInputToSignals) : MLProcInputToSignals :=
  (s.withVoices (s.mVoices.map MLVoice.clearChanges)).withMainVoice s.mMPEMainVoice.clearChanges

/-- The method `clear`.  `outs` is `getNumOutputs()`, from the absent base class `MLProc`.
`maxVoices` is the size of `mVoices`, so that the guard
`if (mVoices.size() != maxVoices) resize()` ("resize if needed, a hack") is not taken.  The
calls of `writeToSignal` render change lists that have just been cleared into the output
signals, which are not part of the object. -/
def clear (s : MLProcInputToSignals) (outs : ℕ) : MLProcInputToSignals :=
  let s1 := s.clearChangeLists
  let s2 := (s1.withPlaying (mapFirst MLControlEvent.clear kMaxEvents s1.mNoteEventsPlaying)).withPending
    { data := mapFirst MLControlEvent.clear kMaxEvents s1.mNoteEventsPending.data,
      mSize := s1.mNoteEventsPending.mSize }
  if outs ≠ 0 then
    (s2.withVoices
      (s2.mVoices.map (fun v => ((v.clearState).clearChanges).zeroPressure))).withMainVoice
      (((s2.mMPEMainVoice.clearState).clearChanges).zeroPressure)
  else s2

/-- The loop "all notes off" of `doController`: every active voice that is not off receives
the event with its type set to `kNoteOff`. -/
def allNotesOff (s : MLProcInputToSignals) (event : MLControlEvent) (scale : ℚ → ℚ) :
    MLProcInputToSignals :=
  s.forActiveVoices
    (fun voice =>
      if voice.mState ≠ VoiceState.kOff then
        voice.addNoteEvent { event with mType := EventType.kNoteOff } scale
      else voice)

/-- The chain `if (ctrl == 73) mdMod2 ... else if (ctrl == 74) mdMod3 ... else if
(ctrl == mControllerNumber) mdMod ...` of the per-channel branch of `doController`, on one
voice. -/
def mpeControllerChange (s : MLProcInputToSignals) (ctrl : ℤ) (val : ℚ) (time : ℤ)
    (v : MLVoice) : MLVoice :=
  if ctrl = 73 then { v with mdMod2 := v.mdMod2.addChange val time }
  else if ctrl = 74 then { v with mdMod3 := v.mdMod3.addChange val time }
  else if ctrl = s.mControllerNumber then { v with mdMod := v.mdMod.addChange val time }
  else v

/-- The method `doController`. -/
def doController (s : MLProcInputToSignals) (event : MLControlEvent) (scale : ℚ → ℚ)
    (outs : ℕ) : MLProcInputToSignals :=
  let time : ℤ := uint64ToInt event.mTime
  let ctrl : ℤ := floatToInt event.mValue1
  let chan : ℤ := event.mChannel
  let val : ℚ := event.mValue2
  match s.mProtocol with
  | InputProtocol.kInputProtocolMIDI =>
    if ctrl = 120 then
      -- all sound off
      if val = 0 then s.clear outs else s
    else if ctrl = 123 then
      -- all notes off
      if val = 0 then s.allNotesOff event scale else s
    else
      s.forActiveVoices
        (fun v =>
          if ctrl = s.mControllerNumber then { v with mdMod := v.mdMod.addChange val time }
          else if ctrl = s.mControllerNumber + 1 then
            { v with mdMod2 := v.mdMod2.addChange val time }
          else if ctrl = s.mControllerNumber + 2 then
            { v with mdMod3 := v.mdMod3.addChange val time }
          else v)
  | InputProtocol.kInputProtocolMIDI_MPE =>
    if chan = 1 then
      -- MPE main voice
      if ctrl = 120 then
        if val = 0 then s.clear outs else s
      else if ctrl = 123 then
        if val = 0 then s.allNotesOff event scale else s
      else s.withMainVoice (s.mpeControllerChange ctrl val time s.mMPEMainVoice)
    else
      s.modifyVoice (s.MPEChannelToVoiceIDX chan) (s.mpeControllerChange ctrl val time)
  | _ => s

/-- The method `doPitchWheel`. -/
def doPitchWheel (s : MLProcInputToSignals) (event : MLControlEvent) : MLProcInputToSignals :=
  let val : ℚ := event.mValue1
  let ctr : ℚ := val - 8192
  let u : ℚ := ctr / 8191
  let bendAdd : ℚ := u * s.mPitchWheelSemitones / 12
  let chan : ℤ := event.mChannel
  let time : ℤ := uint64ToInt event.mTime
  match s.mProtocol with
  | InputProtocol.kInputProtocolMIDI =>
    s.forActiveVoices (fun v => { v with mdPitchBend := v.mdPitchBend.addChange bendAdd time })
  | InputProtocol.kInputProtocolMIDI_MPE =>
    if chan = 1 then
      -- MPE Main Channel
      s.withMainVoice
        { s.mMPEMainVoice with
          mdPitchBend := s.mMPEMainVoice.mdPitchBend.addChange bendAdd time }
    else
      s.modifyVoice (s.MPEChannelToVoiceIDX chan)
        (fun v => { v with mdPitchBend := v.mdPitchBend.addChange bendAdd time })
  | _ => s

/-- The method `doNotePressure`. -/
def doNotePressure (s : MLProcInputToSignals) (event : MLControlEvent) :
    MLProcInputToSignals :=
  match s.mProtocol with
  | InputProtocol.kInputProtocolMIDI =>
    s.forActiveVoices
      (fun v =>
        if event.mID = v.mInstigatorID then
          { v with mdNotePressure :=
              v.mdNotePressure.addChange event.mValue2 (uint64ToInt event.mTime) }
        else v)
  | _ => s

/-- The method `doChannelPressure`. -/
def doChannelPressure (s : MLProcInputToSignals) (event : MLControlEvent) :
    MLProcInputToSignals :=
  let time : ℤ := uint64ToInt event.mTime
  match s.mProtocol with
  | InputProtocol.kInputProtocolMIDI =>
    s.forActiveVoices
      (fun v => { v with mdChannelPressure := v.mdChannelPressure.addChange event.mValue1 time })
  | InputProtocol.kInputProtocolMIDI_MPE =>
    if event.mChannel = 1 then
      -- MPE Main Channel
      s.withMainVoice
        { s.mMPEMainVoice with
          mdChannelPressure := s.mMPEMainVoice.mdChannelPressure.addChange event.mValue1 time }
    else
      s.modifyVoice (s.MPEChannelToVoiceIDX event.mChannel)
        (fun v =>
          { v with mdChannelPressure := v.mdChannelPressure.addChange event.mValue1 time })
  | _ => s

/-- The difference `a - b` of two `uint64_t` values, modulo `2^64`. -/
def uint64Sub (a b : ℕ) : ℕ :=
  (a % 2 ^ 64 + (2 ^ 64 - b % 2 ^ 64)) % 2 ^ 64

/-- The local copy made by `processEvent`: `event.mTime -= mVectorStartTime`. -/
def eventInVector (s : MLProcInputToSignals) (eventParam : MLControlEvent) : MLControlEvent :=
  { eventParam with mTime := uint64Sub eventParam.mTime s.mVectorStartTime }

/-- The `switch (event.mType)` of `processEvent`. -/
def dispatchEvent (s : MLProcInputToSignals) (event : MLControlEvent) (scale : ℚ → ℚ)
    (outs : ℕ) : MLProcInputToSignals :=
  match event.mType with
  | EventType.kNoteOn => s.doNoteOn event scale
  | EventType.kNoteOff => s.doNoteOff event scale
  | EventType.kController => s.doController event scale outs
  | EventType.kPitchWheel => s.doPitchWheel event
  | EventType.kNotePressure => s.doNotePressure event
  | EventType.kChannelPressure => s.doChannelPressure event
  | EventType.kSustainPedal => s.doSustain event scale
  | _ => s

/-- The method `processEvent`: process one incoming event by making the appropriate changes
in state and change lists. -/
def processEvent (s : MLProcInputToSignals) (eventParam : MLControlEvent) (scale : ℚ → ℚ)
    (outs : ℕ) : MLProcInputToSignals :=
  s.dispatchEvent (s.eventInVector eventParam) scale outs

/-- Modelled from the spec: the event queue, an object of the absent class template `Queue`,
"a bounded event queue type offering `peek/pop` and `elementsAvailable`", is the list of the
queued events, oldest first.  The loop of `processEvents`, with `k` iterations left;
`kFloatsPerDSPVector`, the size of a block, is a constant of the absent DSP headers. -/
def processEventsLoop (kFloatsPerDSPVector : ℕ) (scale : ℚ → ℚ) (outs : ℕ) :
    ℕ → List MLControlEvent → MLProcInputToSignals → List MLControlEvent × MLProcInputToSignals
  | 0, q, s => (q, s)
  | _ + 1, [], s => ([], s)
  | k + 1, e :: q, s =>
    let eventTimeInVector := uint64Sub e.mTime s.mVectorStartTime
    if eventTimeInVector < kFloatsPerDSPVector then
      processEventsLoop kFloatsPerDSPVector scale outs k q (s.processEvent e scale outs)
    else
      -- assuming events are in time order
      (e :: q, s)

/-- The method `processEvents`, for a queue that has been set (`mEventQueue` is not null):
the events left in the queue and the updated object. -/
def processEvents (s : MLProcInputToSignals) (q : List MLControlEvent)
    (kFloatsPerDSPVector : ℕ) (scale : ℚ → ℚ) (outs : ℕ) :
    List MLControlEvent × MLProcInputToSignals :=
  processEventsLoop kFloatsPerDSPVector scale outs q.length q s

end MLProcInputToSignals

/-! ## More events and states used in the examples -/

/-- A pitch-wheel event with wheel value `value` on channel `chan`. -/
def pitchWheel (chan : ℤ) (value : ℚ) (t : ℕ) : MLControlEvent :=
  MLControlEvent.mk8 EventType.kPitchWheel chan 0 t value 0 0 0

/-- A channel-pressure event with pressure `value` on channel `chan`. -/
def channelPressure (chan : ℤ) (value : ℚ) (t : ℕ) : MLControlEvent :=
  MLControlEvent.mk8 EventType.kChannelPressure chan 0 t value 0 0 0

/-- A controller event for controller number `ctrl` with value `value` on channel `chan`. -/
def controller (chan : ℤ) (ctrl : ℚ) (value : ℚ) (t : ℕ) : MLControlEvent :=
  MLControlEvent.mk8 EventType.kController chan 0 t ctrl value 0 0

/-- Two voices of the per-channel protocol, cleared. -/
def twoVoicesMPE : MLProcInputToSignals :=
  MLProcInputToSignals.cleared 2 2 InputProtocol.kInputProtocolMIDI_MPE false

/-- Three voices in unison mode, cleared. -/
def threeVoicesUnison : MLProcInputToSignals :=
  MLProcInputToSignals.cleared 3 3 InputProtocol.kInputProtocolMIDI true

/-! ## The invariant of unison mode -/

namespace MLProcInputToSignals

/-- The invariant of unison mode with the pedal up, for `n` active voices, while the note of
the event `c` sounds and the events `rest` wait on the pending stack, the one pushed last
first: every active voice is on and holds `c`, the entries of the stack are the events of
`rest`, and the pool of playing events holds at most one event that is not free, with the id
of `c`. -/
structure UnisonInv (n : ℕ) (s : MLProcInputToSignals) (c : MLControlEvent)
    (rest : List MLControlEvent) : Prop where
  count : s.mCurrentVoices = n
  pos : 0 < n
  unison : s.mUnisonMode = true
  pedal : s.mSustainPedal = false
  allocated : n ≤ s.mVoices.length
  voices : ∀ i : ℕ, i < n →
    (s.voiceAt (i : ℤ)).mState = VoiceState.kOn ∧
    (s.voiceAt (i : ℤ)).mInstigatorID = c.mID ∧
    (s.voiceAt (i : ℤ)).mCurrentNoteEvent = c
  pendSize : s.mNoteEventsPending.mSize = rest.length
  pendEntries : s.mNoteEventsPending.entries = rest.reverse
  pendCap : s.mNoteEventsPending.data.length = kMaxEvents
  poolLen : s.mNoteEventsPlaying.length = kMaxEvents
  pool : ∃ k : ℕ, ∀ (j : ℕ) (ev : MLControlEvent),
    s.mNoteEventsPlaying[j]? = some ev → ev.mType ≠ EventType.kNull → j = k ∧ ev.mID = c.mID

end MLProcInputToSignals

/-! ## `MLSignal` and the rendering of a change list

Both classes are declared in headers that are not part of the sources (`MLSignal.h`,
`MLChangeList.h`). -/

/-- Modelled from the spec: the class `MLSignal` of the absent DSP library, "a dense sample
buffer for one processing block": the list of its samples. -/
structure MLSignal where
  samples : List ℚ
  deriving DecidableEq, Repr

/-- Modelled from the spec: `MLSignal::setToConstant(k)`, "all-zero constant signals" for
`k = 0`: every sample of the signal reads `k`. -/
def MLSignal.setToConstant (sig : MLSignal) (k : ℚ) : MLSignal :=
  { samples := sig.samples.map (fun _ => k) }

/-- Modelled from the spec: `MLSignal::fill(k)`: every sample of the buffer is set to `k`. -/
def MLSignal.fill (sig : MLSignal) (k : ℚ) : MLSignal :=
  { samples := sig.samples.map (fun _ => k) }

/-- The samples of `a` with the samples of `b` added, index by index. -/
def addSamples : List ℚ → List ℚ → List ℚ
  | [], _ => []
  | x :: xs, [] => x :: xs
  | x :: xs, y :: ys => (x + y) :: addSamples xs ys

/-- Modelled from the spec: `MLSignal::add(const MLSignal&)`, by which signals are
"additively combined": the samples of the argument are added to the samples of the
signal. -/
def MLSignal.add (a b : MLSignal) : MLSignal :=
  { samples := addSamples a.samples b.samples }

/-- Modelled from the spec: `MLSignal::add(float)`, the second half of the remapping
"`value*2 − 1`": the constant is added to every sample. -/
def MLSignal.addConstant (a : MLSignal) (k : ℚ) : MLSignal :=
  { samples := a.samples.map (fun x => x + k) }

/-- Modelled from the spec: `MLSignal::scale(float)`, the first half of the remapping
"`value*2 − 1`": every sample is multiplied by the constant. -/
def MLSignal.scale (a : MLSignal) (k : ℚ) : MLSignal :=
  { samples := a.samples.map (fun x => x * k) }

/-- The buffer `old` with its first samples replaced by the samples of `new`. -/
def overwriteSamples : List ℚ → List ℚ → List ℚ
  | [], _ => []
  | x :: xs, [] => x :: xs
  | _ :: xs, y :: ys => y :: overwriteSamples xs ys

/-- Modelled from the spec: the running state of `MLChangeList::writeToSignal`: the value
emitted last, the goal, and the increment per sample. -/
structure MLChangeList.Ramp where
  value : ℚ
  goal : ℚ
  inc : ℚ
  deriving DecidableEq, Repr

/-- Modelled from the spec: the glide time in samples, "glideTimeInSamples". -/
def MLChangeList.glideTimeInSamples (c : MLChangeList) : ℚ :=
  c.mGlideTime * c.mSampleRate

/-- Modelled from the spec: "at each scheduled offset the target becomes the new goal; if
glide time is zero, the output steps exactly at that sample; if glide time > 0, the output
moves by a fixed per-sample increment computed from
`(target − current) / glideTimeInSamples`". -/
def MLChangeList.setGoal (c : MLChangeList) (r : MLChangeList.Ramp) (target : ℚ) :
    MLChangeList.Ramp :=
  if c.mGlideTime = 0 then { value := target, goal := target, inc := 0 }
  else { value := r.value, goal := target, inc := (target - r.value) / c.glideTimeInSamples }

/-- Modelled from the spec: one sample of glide, "converging and clamping to target when it
would overshoot". -/
def MLChangeList.Ramp.advance (r : MLChangeList.Ramp) : MLChangeList.Ramp :=
  if r.value < r.goal then { r with value := min (r.value + r.inc) r.goal }
  else if r.goal < r.value then { r with value := max (r.value + r.inc) r.goal }
  else r

/-- Modelled from the spec: the sample of index `i` of `writeToSignal`: the changes scheduled
at offset `i` become the goal, in insertion order, then the output moves towards the goal. -/
def MLChangeList.sampleStep (c : MLChangeList) (r : MLChangeList.Ramp) (i : ℕ) :
    MLChangeList.Ramp :=
  ((c.mChanges.filter (fun ch => decide (ch.2 = (i : ℤ)))).foldl
    (fun r ch => c.setGoal r ch.1) r).advance

/-- Modelled from the spec: `k` samples of `writeToSignal` from the sample of index `i` on:
the samples and the running state left. -/
def MLChangeList.renderFrom (c : MLChangeList) :
    ℕ → ℕ → MLChangeList.Ramp → List ℚ × MLChangeList.Ramp
  | 0, _, r => ([], r)
  | k + 1, i, r =>
    ((c.sampleStep r i).value :: (MLChangeList.renderFrom c k (i + 1) (c.sampleStep r i)).1,
      (MLChangeList.renderFrom c k (i + 1) (c.sampleStep r i)).2)

/-- Modelled from the spec: the running state at the start of a block: "state carried
forward is only the last emitted value", the held value. -/
def MLChangeList.start (c : MLChangeList) : MLChangeList.Ramp :=
  { value := c.mValue, goal := c.mValue, inc := 0 }

/-- Modelled from the spec: the `length` samples rendered by `writeToSignal`: "before the
first scheduled offset, the buffer holds the previously settled value". -/
def MLChangeList.render (c : MLChangeList) (length : ℕ) : List ℚ :=
  (c.renderFrom length 0 c.start).1

/-- Modelled from the spec: `MLChangeList::writeToSignal(buffer, length)` "renders exactly
`length` samples" into the buffer; the held value becomes the value emitted last.  The
scheduled changes are discarded by `clearChanges()`, which the callers invoke. -/
def MLChangeList.writeToSignal (c : MLChangeList) (sig : MLSignal) (length : ℕ) :
    MLSignal × MLChangeList :=
  ({ samples := overwriteSamples sig.samples (c.render length) },
   { c with mValue := (c.renderFrom length 0 c.start).2.value })

/-- Modelled from the spec: `MLChangeList::setSampleRate`. -/
def MLChangeList.setSampleRate (c : MLChangeList) (sr : ℚ) : MLChangeList :=
  { c with mSampleRate := sr }

/-- Modelled from the spec: `MLChangeList::setGlideTime`, which sets the "glide-time
parameter". -/
def MLChangeList.setGlideTime (c : MLChangeList) (t : ℚ) : MLChangeList :=
  { c with mGlideTime := t }

/-! ## `MLProcInputToSignals`: the output composer -/

/-- The eight output signals of voice `v`, in the order of `voiceSignalNames`:
`getOutput(v*kNumVoiceSignals + 1)` to `getOutput(v*kNumVoiceSignals + 8)` (the outputs are
kept by the absent base class `MLProc`). -/
structure VoiceSignals where
  pitch : MLSignal
  gate : MLSignal
  velSig : MLSignal
  voiceSig : MLSignal
  after : MLSignal
  mod : MLSignal
  mod2 : MLSignal
  mod3 : MLSignal
  deriving DecidableEq, Repr

/-- The signal members of the class `MLProcInputToSignals`. -/
structure MainSignals where
  mTempSignal : MLSignal
  mMainPitchSignal : MLSignal
  mMainChannelPressureSignal : MLSignal
  mMainModSignal : MLSignal
  mMainMod2Signal : MLSignal
  mMainMod3Signal : MLSignal
  deriving DecidableEq, Repr

namespace MLProcInputToSignals

/-- The first statement of `writeOutputSignals`: get main channel signals for MPE. -/
def writeMainSignals (s : MLProcInputToSignals) (m : MainSignals) (frames : ℕ) :
    MLProcInputToSignals × MainSignals :=
  if s.mProtocol = InputProtocol.kInputProtocolMIDI_MPE then
    let rBend := s.mMPEMainVoice.mdPitchBend.writeToSignal m.mMainPitchSignal frames
    let rPressure :=
      s.mMPEMainVoice.mdChannelPressure.writeToSignal m.mMainChannelPressureSignal frames
    let rMod := s.mMPEMainVoice.mdMod.writeToSignal m.mMainModSignal frames
    let rMod2 := s.mMPEMainVoice.mdMod2.writeToSignal m.mMainMod2Signal frames
    let rMod3 := s.mMPEMainVoice.mdMod3.writeToSignal m.mMainMod3Signal frames
    (s.withMainVoice
      { s.mMPEMainVoice with
        mdPitchBend := rBend.2, mdChannelPressure := rPressure.2, mdMod := rMod.2,
        mdMod2 := rMod2.2, mdMod3 := rMod3.2 },
     { m with
        mMainPitchSignal := rBend.1, mMainChannelPressureSignal := rPressure.1,
        mMainModSignal := rMod.1, mMainMod2Signal := rMod2.1, mMainMod3Signal := rMod3.1 })
  else (s, m)

/-- The pitch output of an active voice: the rendered pitch list, the rendered pitch bend,
the main channel pitch bend for MPE, the drift when `INPUT_DRIFT` is set, and the
`master_tune` offset.  Returns the signal, the temp signal and the three change lists. -/
def writePitch (protocol : InputProtocol) (inputDrift : Bool) (mMasterPitchOffset : ℚ)
    (frames : ℕ) (m : MainSignals) (voice : MLVoice) (pitch : MLSignal) :
    MLSignal × MLSignal × MLChangeList × MLChangeList × MLChangeList :=
  -- write pitch
  let rPitch := voice.mdPitch.writeToSignal pitch frames
  -- add pitch bend in semitones to pitch
  let rBend := voice.mdPitchBend.writeToSignal m.mTempSignal frames
  let pitch1 := rPitch.1.add rBend.1
  -- add main channel pitch bend for MPE
  let pitch2 :=
    if protocol = InputProtocol.kInputProtocolMIDI_MPE then pitch1.add m.mMainPitchSignal
    else pitch1
  let rDrift := voice.mdDrift.writeToSignal rBend.1 frames
  let pitch3 := if inputDrift then pitch2.add rDrift.1 else pitch2
  let temp3 := if inputDrift then rDrift.1 else rBend.1
  let drift3 := if inputDrift then rDrift.2 else voice.mdDrift
  -- write master_tune param offset
  let temp4 := temp3.fill mMasterPitchOffset
  (pitch3.add temp4, temp4, rPitch.2, rBend.2, drift3)

/-- The aftertouch / z output of an active voice (the `switch(mProtocol)` of
`writeOutputSignals`).  Returns the signal, the temp signal and the three change lists
`mdNotePressure`, `mdChannelPressure` and `mdAmp`. -/
def writeAfter (protocol : InputProtocol) (frames : ℕ) (m : MainSignals) (temp : MLSignal)
    (voice : MLVoice) (after : MLSignal) :
    MLSignal × MLSignal × MLChangeList × MLChangeList × MLChangeList :=
  match protocol with
  | InputProtocol.kInputProtocolMIDI =>
    -- add channel aftertouch + poly aftertouch.
    let rNote := voice.mdNotePressure.writeToSignal after frames
    let rChannel := voice.mdChannelPressure.writeToSignal temp frames
    (rNote.1.add rChannel.1, rChannel.1, rNote.2, rChannel.2, voice.mdAmp)
  | InputProtocol.kInputProtocolMIDI_MPE =>
    -- MPE ignores poly aftertouch.
    let rChannel := voice.mdChannelPressure.writeToSignal after frames
    (rChannel.1.add m.mMainChannelPressureSignal, temp, voice.mdNotePressure, rChannel.2,
      voice.mdAmp)
  | InputProtocol.kInputProtocolOSC =>
    -- write amplitude to aftertouch signal
    let rAmp := voice.mdAmp.writeToSignal after frames
    (rAmp.1, temp, voice.mdNotePressure, voice.mdChannelPressure, rAmp.2)
  | InputProtocol.none => (after, temp, voice.mdNotePressure, voice.mdChannelPressure, voice.mdAmp)

/-- The branch `if (v < mCurrentVoices)` of the loop of `writeOutputSignals`, for voice `v`:
write signals, then clear change lists.  `inputDrift` is the macro `INPUT_DRIFT` and
`mMasterPitchOffset` the member of that name. -/
def writeActiveVoice (protocol : InputProtocol) (inputDrift : Bool) (mMasterPitchOffset : ℚ)
    (frames : ℕ) (m : MainSignals) (v : ℕ) (voice : MLVoice) (out : VoiceSignals) :
    MLVoice × VoiceSignals × MainSignals :=
  let rPitch := writePitch protocol inputDrift mMasterPitchOffset frames m voice out.pitch
  let rGate := voice.mdGate.writeToSignal out.gate frames
  -- initial velocity output
  let rVel := voice.mdVel.writeToSignal out.velSig frames
  -- voice constant output
  let voiceSig := out.voiceSig.setToConstant (v : ℚ)
  -- aftertouch / z output
  let rAfter := writeAfter protocol frames m rPitch.2.1 voice out.after
  let rMod := voice.mdMod.writeToSignal out.mod frames
  let rMod2 := voice.mdMod2.writeToSignal out.mod2 frames
  let rMod3 := voice.mdMod3.writeToSignal out.mod3 frames
  let mpe : Bool := decide (protocol = InputProtocol.kInputProtocolMIDI_MPE)
  let mod := if mpe then rMod.1.add m.mMainModSignal else rMod.1
  -- over MPE, we can make bipolar x and y signals to match the OSC usage.
  let mod2 :=
    if mpe then ((rMod2.1.add m.mMainMod2Signal).scale 2).addConstant (-1) else rMod2.1
  let mod3 :=
    if mpe then ((rMod3.1.add m.mMainMod3Signal).scale 2).addConstant (-1) else rMod3.1
  -- clear change lists
  ({ voice with
      mdPitch := rPitch.2.2.1.clearChanges,
      mdPitchBend := rPitch.2.2.2.1.clearChanges,
      mdGate := rGate.2.clearChanges,
      mdAmp := rAfter.2.2.2.2.clearChanges,
      mdVel := rVel.2.clearChanges,
      mdNotePressure := rAfter.2.2.1.clearChanges,
      mdChannelPressure := rAfter.2.2.2.1.clearChanges,
      mdMod := rMod.2.clearChanges,
      mdMod2 := rMod2.2.clearChanges,
      mdMod3 := rMod3.2.clearChanges,
      mdDrift := if inputDrift then rPitch.2.2.2.2.clearChanges else rPitch.2.2.2.2 },
   { pitch := rPitch.1, gate := rGate.1, velSig := rVel.1, voiceSig := voiceSig,
     after := rAfter.1, mod := mod, mod2 := mod2, mod3 := mod3 },
   { m with mTempSignal := rAfter.2.1 })

/-- The branch `else` of the loop of `writeOutputSignals`, for a voice that is not active:
every output is set to the constant 0. -/
def writeIdleVoice (out : VoiceSignals) : VoiceSignals :=
  { pitch := out.pitch.setToConstant 0, gate := out.gate.setToConstant 0,
    velSig := out.velSig.setToConstant 0, voiceSig := out.voiceSig.setToConstant 0,
    after := out.after.setToConstant 0, mod := out.mod.setToConstant 0,
    mod2 := out.mod2.setToConstant 0, mod3 := out.mod3.setToConstant 0 }

/-- The loop `for (int v = 0; v < maxVoices; ++v)` of `writeOutputSignals`, with `k`
iterations left and loop counter `v`, on the voices and the outputs from index `v` on. -/
def writeVoicesLoop (protocol : InputProtocol) (inputDrift : Bool) (mMasterPitchOffset : ℚ)
    (frames mCurrentVoices : ℕ) :
    ℕ → ℕ → List MLVoice → List VoiceSignals → MainSignals →
      List MLVoice × List VoiceSignals × MainSignals
  | 0, _, voices, outs, m => (voices, outs, m)
  | k + 1, v, voice :: voices, out :: outs, m =>
    if v < mCurrentVoices then
      let r := writeActiveVoice protocol inputDrift mMasterPitchOffset frames m v voice out
      let rest := writeVoicesLoop protocol inputDrift mMasterPitchOffset frames mCurrentVoices
        k (v + 1) voices outs r.2.2
      (r.1 :: rest.1, r.2.1 :: rest.2.1, rest.2.2)
    else
      let rest := writeVoicesLoop protocol inputDrift mMasterPitchOffset frames mCurrentVoices
        k (v + 1) voices outs m
      (voice :: rest.1, writeIdleVoice out :: rest.2.1, rest.2.2)
  | _ + 1, _, voices, outs, m => (voices, outs, m)

/-- The method `writeOutputSignals`: process change lists to make output signals.  `outs`
holds the outputs of the voices, one `VoiceSignals` per voice, and `maxVoices` is
`getContext()->getRootContext()->getMaxVoices()`. -/
def writeOutputSignals (s : MLProcInputToSignals) (m : MainSignals) (outs : List VoiceSignals)
    (frames maxVoices : ℕ) (inputDrift : Bool) (mMasterPitchOffset : ℚ) :
    MLProcInputToSignals × MainSignals × List VoiceSignals :=
  let r0 := s.writeMainSignals m frames
  let r := writeVoicesLoop r0.1.mProtocol inputDrift mMasterPitchOffset frames
    r0.1.mCurrentVoices maxVoices 0 r0.1.mVoices outs r0.2
  (r0.1.withVoices r.1, r.2.2, r.2.1)

end MLProcInputToSignals

/-- A signal of `n` samples, all zero. -/
def MLSignal.zeros (n : ℕ) : MLSignal := { samples := List.replicate n 0 }

/-- The outputs of one voice, `n` samples each, all zero. -/
def VoiceSignals.zeros (n : ℕ) : VoiceSignals :=
  { pitch := MLSignal.zeros n, gate := MLSignal.zeros n, velSig := MLSignal.zeros n,
    voiceSig := MLSignal.zeros n, after := MLSignal.zeros n, mod := MLSignal.zeros n,
    mod2 := MLSignal.zeros n, mod3 := MLSignal.zeros n }

/-- The signal members after `resize()` with vector size `n`. -/
def MainSignals.zeros (n : ℕ) : MainSignals :=
  { mTempSignal := MLSignal.zeros n, mMainPitchSignal := MLSignal.zeros n,
    mMainChannelPressureSignal := MLSignal.zeros n, mMainModSignal := MLSignal.zeros n,
    mMainMod2Signal := MLSignal.zeros n, mMainMod3Signal := MLSignal.zeros n }

/-- A `double` argument as the host supplies it: a finite value, an infinity or a NaN. -/
inductive HostDouble where
  | finite (q : ℚ)
  | posInf
  | negInf
  | nan
  deriving DecidableEq, Repr

/-- Modelled from the spec: `ml::isNaN` of the absent math header; the argument is one of the
"non-finite" values, a NaN. -/
def HostDouble.isNaN : HostDouble → Bool
  | HostDouble.nan => true
  | _ => false

/-- Modelled from the spec: `ml::isInfinite` of the absent math header; the argument is one
of the "non-finite" values, an infinity. -/
def HostDouble.isInfinite : HostDouble → Bool
  | HostDouble.posInf => true
  | HostDouble.negInf => true
  | _ => false

/-- The value of a finite `double` (0 stands for the others, which are never read). -/
def HostDouble.value : HostDouble → ℚ
  | HostDouble.finite q => q
  | _ => 0

/-- Modelled from the spec: `ml::clamp(x, lo, hi)` of the absent math header, on finite
values. -/
def ml.clamp (x lo hi : ℚ) : ℚ := min (max x lo) hi

/-- The members of the class `MLProcHostPhasor` (its header is not part of the sources):
time, rate, phase, phase increment, previous phase, sample counter, the flags `mActive` and
`mPlaying`, and `mParamsChanged` of the base class. -/
structure MLProcHostPhasor where
  mTime : ℚ
  mRate : ℚ
  mOmega : ℚ
  mDpDt : ℚ
  mPhase1 : ℚ
  mDt : ℕ
  mActive : Bool
  mPlaying : Bool
  mParamsChanged : Bool
  deriving DecidableEq, Repr

/-- The method `MLProcHostPhasor::clear`. -/
def MLProcHostPhasor.clear (p : MLProcHostPhasor) : MLProcHostPhasor :=
  { p with mTime := 0, mRate := 0, mOmega := 0, mActive := false, mPlaying := false }

/-- The method `MLProcHostPhasor::setTimeAndRate`: set input parameters from host info.
`clampAtZero dPhase` stands for `ml::clamp(dPhase/static_cast<double>(mDt), 0., 1.)` when
`mDt` is 0, where the quotient is an infinity or a NaN. -/
def MLProcHostPhasor.setTimeAndRate (clampAtZero : ℚ → ℚ) (p : MLProcHostPhasor)
    (secs ppqPos bpm : HostDouble) (isPlaying : Bool) : MLProcHostPhasor :=
  -- working around a bug I can't reproduce, so I'm covering all the bases.
  if ((ppqPos.isNaN || ppqPos.isInfinite) || (bpm.isNaN || bpm.isInfinite)
      || (secs.isNaN || secs.isInfinite)) = true then p
  else
    let newTime : ℚ := ml.clamp ppqPos.value 0 100000
    let active : Bool := decide (p.mTime ≠ newTime) && decide (secs.value ≥ 0) && isPlaying
    if active = true then
      let phase : ℚ := newTime - ((floatToInt newTime : ℤ) : ℚ)
      let newRate : ℚ := ml.clamp bpm.value 0 1000
      let dPhase0 : ℚ := phase - p.mPhase1
      let dPhase : ℚ := if dPhase0 < 0 then dPhase0 + 1 else dPhase0
      { p with
        mActive := true,
        mTime := newTime,
        mParamsChanged := true,
        mOmega := phase,
        mRate := if p.mRate ≠ newRate then newRate else p.mRate,
        mDpDt := if p.mDt = 0 then clampAtZero dPhase else ml.clamp (dPhase / (p.mDt : ℚ)) 0 1,
        mPhase1 := phase,
        mDt := 0 }
    else
      { p with mActive := false, mOmega := -(1 / 10000), mDpDt := 0, mPhase1 := 0, mDt := 0 }

/-! ## `MLProcInputToSignals::getOutputIndex` -/

/-- The constant `kNumVoiceSignals`. -/
def kNumVoiceSignals : ℕ := 8

/-- The table `voiceSignalNames` (an `ml::Symbol` is identified with its text). -/
def voiceSignalNames : List String :=
  ["pitch", "gate", "vel", "voice", "after", "moda", "modb", "modc"]

/-- The loop "match signal name with symbol text" of `getOutputIndex`, from index `n` on:
`n + 1` for the first `n` with `name0 == voiceSignalNames[n]`, and 0 when there is none. -/
def matchSignalNameFrom (name0 : String) : List String → ℕ → ℤ
  | [], _ => 0
  | x :: xs, n => if name0 = x then ((n + 1 : ℕ) : ℤ) else matchSignalNameFrom name0 xs (n + 1)

/-- The method `getOutputIndex`.  `stripFinalNumber` and `getFinalNumber` are the functions
of these names of the absent `ml::textUtils`; the final number of a symbol is written with
decimal digits, so it is a natural number (0 when there is none). -/
def MLProcInputToSignals.getOutputIndex (s : MLProcInputToSignals)
    (stripFinalNumber : String → String) (getFinalNumber : String → ℕ) (name : String) : ℤ :=
  -- voice numbers are 1-indexed.
  let name0 := stripFinalNumber name
  -- match signal name with symbol text
  let sig : ℤ := matchSignalNameFrom name0 voiceSignalNames 0
  -- get voice number from end of symbol
  if sig ≠ 0 then
    let voice : ℤ := (getFinalNumber name : ℤ)
    if voice ≠ 0 ∧ voice ≤ (s.mCurrentVoices : ℤ) then (voice - 1) * (kNumVoiceSignals : ℤ) + sig
    else 0
  else 0

/-- The value of a list of decimal digits, most significant digit first. -/
def digitsValue (l : List Char) : ℕ :=
  l.foldl (fun acc ch => 10 * acc + (ch.toNat - 48)) 0

/-- Modelled from the spec: `ml::textUtils::stripFinalNumber`, by which outputs are
"addressed by `(parameterName, voiceNumber)`": the symbol without the decimal digits at its
end. -/
def stripFinalNumber (name : String) : String :=
  String.mk (name.toList.reverse.dropWhile Char.isDigit).reverse

/-- Modelled from the spec: `ml::textUtils::getFinalNumber`: the number written by the
decimal digits at the end of the symbol, 0 when there is none. -/
def getFinalNumber (name : String) : ℕ :=
  digitsValue (name.toList.reverse.takeWhile Char.isDigit).reverse

/-! ## The configuration-time `resize` of `MLProcInputToSignals` and of `MLProcDelay` -/

/-- Modelled from the spec: the values of `MLProc::err` (declared in the absent `MLProc.h`)
that the code names, "an explicit result/error code". -/
inductive MLProcErr where
  | OK
  | memErr
  deriving DecidableEq, Repr

/-- Modelled from the spec: `MLSignal::setDims(n)`, the "signal buffer allocation": the
buffer of `n` samples and, as the `bool` of the pair, whether the pointer returned is not
null.  `alloc n` tells whether an allocation of `n` samples succeeds. -/
def MLSignal.setDims (_sig : MLSignal) (n : ℕ) (alloc : ℕ → Bool) : MLSignal × Bool :=
  if alloc n = true then ({ samples := List.replicate n 0 }, true)
  else ({ samples := [] }, false)

/-- Modelled from the spec: `MLChangeList::setDims(n)`, which reserves room for `n` changes;
the list of scheduled changes of the model is not bounded. -/
def MLChangeList.setDims (c : MLChangeList) (_n : ℕ) : MLChangeList := c

/-- The method `MLVoice::setSampleRate`. -/
def MLVoice.setSampleRate (v : MLVoice) (sr : ℚ) : MLVoice :=
  { v with mdDrift := v.mdDrift.setSampleRate sr, mdPitch := v.mdPitch.setSampleRate sr,
           mdPitchBend := v.mdPitchBend.setSampleRate sr, mdGate := v.mdGate.setSampleRate sr,
           mdAmp := v.mdAmp.setSampleRate sr, mdVel := v.mdVel.setSampleRate sr,
           mdNotePressure := v.mdNotePressure.setSampleRate sr,
           mdChannelPressure := v.mdChannelPressure.setSampleRate sr,
           mdMod := v.mdMod.setSampleRate sr, mdMod2 := v.mdMod2.setSampleRate sr,
           mdMod3 := v.mdMod3.setSampleRate sr }

/-- The method `MLVoice::resize`: make delta lists. -/
def MLVoice.resize (v : MLVoice) (bufSize : ℕ) : MLVoice :=
  { v with mdPitch := v.mdPitch.setDims bufSize, mdPitchBend := v.mdPitchBend.setDims bufSize,
           mdGate := v.mdGate.setDims bufSize, mdAmp := v.mdAmp.setDims bufSize,
           mdVel := v.mdVel.setDims bufSize,
           mdNotePressure := v.mdNotePressure.setDims bufSize,
           mdChannelPressure := v.mdChannelPressure.setDims bufSize,
           mdMod := v.mdMod.setDims bufSize, mdMod2 := v.mdMod2.setDims bufSize,
           mdMod3 := v.mdMod3.setDims bufSize, mdDrift := v.mdDrift.setDims bufSize }

/-- The constant `kDriftInterval`. -/
def kDriftInterval : ℚ := 10

/-- The call `mVoices.resize(maxVoices)` of `std::vector`. -/
def resizeVoices (voices : List MLVoice) (maxVoices : ℕ) : List MLVoice :=
  voices.take maxVoices ++ List.replicate (maxVoices - voices.length) MLVoice.init

namespace MLProcInputToSignals

/-- The loop "do voice params" of `resize`, with `k` iterations left and loop counter `i`:
set initial pitch to 0. -/
def resizeVoiceParams (vecSize numOutputs : ℕ) :
    ℕ → ℕ → List MLVoice → List VoiceSignals → List MLVoice × List VoiceSignals
  | 0, _, voices, outs => (voices, outs)
  | k + 1, i, voice :: voices, out :: outs =>
    let rest := resizeVoiceParams vecSize numOutputs k (i + 1) voices outs
    if i * kNumVoiceSignals + 1 < numOutputs then
      let r := (voice.mdPitch.addChange 0 0).writeToSignal out.pitch vecSize
      ({ voice with
          mdPitch := r.2,
          mdPitchBend := voice.mdPitchBend.addChange 0 0,
          mdDrift := voice.mdDrift.setGlideTime kDriftInterval } :: rest.1,
       { out with pitch := r.1 } :: rest.2)
    else (voice :: rest.1, out :: rest.2)
  | _ + 1, _, voices, outs => (voices, outs)

/-- The method `resize`: set up output buffers.  `sr`, `vecSize` and `maxVoices` come from
the context, `bufSize` is the parameter `bufsize`, `numOutputs` is `getNumOutputs()`,
`nullOutput` is `getContext()->getNullOutput()`, which stands for every output that is not
valid, and `alloc n` tells whether an allocation of
`n` samples succeeds.  The value returned is that of the local `re`. -/
def resize (s : MLProcInputToSignals) (m : MainSignals) (outs : List VoiceSignals) (sr : ℚ)
    (bufSize vecSize maxVoices numOutputs : ℕ) (nullOutput : MLSignal)
    (alloc : ℕ → Bool) :
    MLProcErr × MLProcInputToSignals × MainSignals × List VoiceSignals :=
  let re : MLProcErr := MLProcErr.OK
  -- resize voices
  let voices1 := (resizeVoices s.mVoices maxVoices).map
    (fun v => (v.setSampleRate sr).resize bufSize)
  let main1 := s.mMPEMainVoice.resize bufSize
  -- make signals that apply to all voices
  let m1 : MainSignals :=
    { mTempSignal := (m.mTempSignal.setDims vecSize alloc).1,
      mMainPitchSignal := (m.mMainPitchSignal.setDims vecSize alloc).1,
      mMainChannelPressureSignal := (m.mMainChannelPressureSignal.setDims vecSize alloc).1,
      mMainModSignal := (m.mMainModSignal.setDims vecSize alloc).1,
      mMainMod2Signal := (m.mMainMod2Signal.setDims vecSize alloc).1,
      mMainMod3Signal := (m.mMainMod3Signal.setDims vecSize alloc).1 }
  -- make outputs
  let outs1 := outs ++ List.replicate (maxVoices - outs.length)
    { pitch := nullOutput, gate := nullOutput, velSig := nullOutput, voiceSig := nullOutput,
      after := nullOutput, mod := nullOutput, mod2 := nullOutput, mod3 := nullOutput }
  -- do voice params
  let r := resizeVoiceParams vecSize numOutputs maxVoices 0 voices1 outs1
  (re, ((s.withVoices r.1).withMainVoice main1).clearChangeLists, m1, r.2)

end MLProcInputToSignals

/-- The members of the class `MLProcDelay`. -/
structure MLProcDelay where
  mBuffer : MLSignal
  mWriteIndex : ℕ
  mLengthMask : ℕ
  deriving DecidableEq, Repr

/-- The method `MLProcDelay::resize`.  `lengthParam` is the parameter `length`, `sr` the
sample rate of the context, `bitsToContain` the function `ml::bitsToContain` of the absent
math header, and `alloc n` tells whether an allocation of `n` samples succeeds. -/
def MLProcDelay.resize (d : MLProcDelay) (lengthParam sr : ℚ) (bitsToContain : ℤ → ℕ)
    (alloc : ℕ → Bool) : MLProcErr × MLProcDelay :=
  let lenBits := bitsToContain (floatToInt (lengthParam * sr))
  let length : ℕ := 2 ^ lenBits
  let pBuf := d.mBuffer.setDims length alloc
  (if ¬ (pBuf.2 = true) then MLProcErr.memErr else MLProcErr.OK,
   { d with mLengthMask := length - 1, mBuffer := pBuf.1 })

/-! ## `MLProcInputToSignals`: the per-block age update, the parameters and the touch frames -/

namespace MLProcInputToSignals

/-- Modelled from the spec: the method `setVectorStartTime`, which is declared in the header
and defined nowhere in the sources: it sets the "block start" that `processEvents` compares
the times of the events with. -/
def setVectorStartTime (s : MLProcInputToSignals) (t : ℕ) : MLProcInputToSignals :=
  { s with mVectorStartTime := t }

/-- The loop "update age for each voice" of `process()`; `kFloatsPerDSPVector`, the size of
a block, is a constant of the absent DSP headers. -/
def updateAges (s : MLProcInputToSignals) (kFloatsPerDSPVector : ℕ) : MLProcInputToSignals :=
  s.forActiveVoices
    (fun v => if (v.mAge : ℤ) ≥ 0 then { v with mAge := v.mAge + kFloatsPerDSPVector } else v)

/-- The method `clear`, with its first statement "resize if needed, a hack": when the size of
`mVoices` is not `maxVoices`, `resize()` runs first.  The signal members and the outputs are
threaded through; the other arguments are those of `resize`. -/
def clearResizing (s : MLProcInputToSignals) (m : MainSignals) (outs : List VoiceSignals)
    (sr : ℚ) (bufSize vecSize maxVoices numOutputs : ℕ) (nullOutput : MLSignal)
    (alloc : ℕ → Bool) : MLProcInputToSignals × MainSignals × List VoiceSignals :=
  if s.mVoices.length ≠ maxVoices then
    let r := s.resize m outs sr bufSize vecSize maxVoices numOutputs nullOutput alloc
    (r.2.1.clear numOutputs, r.2.2.1, r.2.2.2)
  else (s.clear numOutputs, m, outs)

/-- The glide times that `doParams` sets on the lists of one voice, for the protocol given:
`mGlide` on pitch and pitch bend, then the `switch(mProtocol)`. -/
def setGlideTimes (protocol : InputProtocol) (mGlide oscGlide : ℚ) (v : MLVoice) : MLVoice :=
  let v1 : MLVoice :=
    { v with mdPitch := v.mdPitch.setGlideTime mGlide,
             mdPitchBend := v.mdPitchBend.setGlideTime mGlide }
  match protocol with
  | InputProtocol.kInputProtocolOSC =>
    { v1 with mdGate := v1.mdGate.setGlideTime 0, mdAmp := v1.mdAmp.setGlideTime oscGlide,
              mdVel := v1.mdVel.setGlideTime 0,
              mdNotePressure := v1.mdNotePressure.setGlideTime oscGlide,
              mdChannelPressure := v1.mdChannelPressure.setGlideTime oscGlide,
              mdMod := v1.mdMod.setGlideTime oscGlide,
              mdMod2 := v1.mdMod2.setGlideTime oscGlide,
              mdMod3 := v1.mdMod3.setGlideTime oscGlide }
  | InputProtocol.none => v1
  | _ =>
    { v1 with mdGate := v1.mdGate.setGlideTime 0, mdAmp := v1.mdAmp.setGlideTime (1 / 1000),
              mdVel := v1.mdVel.setGlideTime 0,
              mdNotePressure := v1.mdNotePressure.setGlideTime (1 / 1000),
              mdChannelPressure := v1.mdChannelPressure.setGlideTime (1 / 1000),
              mdMod := v1.mdMod.setGlideTime (1 / 1000),
              mdMod2 := v1.mdMod2.setGlideTime (1 / 1000),
              mdMod3 := v1.mdMod3.setGlideTime (1 / 1000) }

/-- The parameters read by `doParams` (kept by the absent base class `MLProc`): `voices`,
`data_rate`, `protocol`, `glide`, `bend`, `mod` and `unison`.  The parameters `scale` and
`master_tune` set the tuning and the pitch offset, which are arguments of the functions that
use them. -/
structure Params where
  voices : ℚ
  data_rate : ℚ
  protocol : InputProtocol
  glide : ℚ
  bend : ℚ
  mod : ℚ
  unison : ℚ
  deriving DecidableEq, Repr

/-- The method `doParams`.  `maxVoices` is the voice count of the root context; the signal
members, the outputs and the remaining arguments are those of `clear()` and `resize()`. -/
def doParams (s : MLProcInputToSignals) (p : Params) (m : MainSignals)
    (outs : List VoiceSignals) (sr : ℚ) (bufSize vecSize maxVoices numOutputs : ℕ)
    (nullOutput : MLSignal) (alloc : ℕ → Bool) :
    MLProcInputToSignals × MainSignals × List VoiceSignals :=
  let newVoices : ℤ := max 0 (min (floatToInt p.voices) 15)
  let mOSCDataRate : ℤ := floatToInt p.data_rate
  let s1 : MLProcInputToSignals := { s with mProtocol := p.protocol }
  let oscGlide : ℚ := 1 / max 100 (mOSCDataRate : ℚ)
  let s2 := (s1.withVoices
      (mapFirst (setGlideTimes s1.mProtocol p.glide oscGlide) maxVoices s1.mVoices)).withMainVoice
      { s1.mMPEMainVoice with
        mdPitchBend := s1.mMPEMainVoice.mdPitchBend.setGlideTime p.glide }
  let r3 : MLProcInputToSignals × MainSignals × List VoiceSignals :=
    if newVoices ≠ (s2.mCurrentVoices : ℤ) then
      ({ s2 with mCurrentVoices := newVoices.toNat }).clearResizing m outs sr bufSize vecSize
        maxVoices numOutputs nullOutput alloc
    else (s2, m, outs)
  -- pitch wheel mult, listen to controller number mod
  let s4 : MLProcInputToSignals :=
    { r3.1 with mPitchWheelSemitones := p.bend, mControllerNumber := floatToInt p.mod }
  let unison : ℤ := floatToInt p.unison
  if (if s4.mUnisonMode then (1 : ℤ) else 0) ≠ unison then
    ({ s4 with mUnisonMode := decide (unison ≠ 0) }).clearResizing r3.2.1 r3.2.2 sr bufSize
      vecSize maxVoices numOutputs nullOutput alloc
  else (s4, r3.2.1, r3.2.2)

end MLProcInputToSignals

/-- Modelled from the spec: a touch of a polled frame ("one snapshot of up to N simultaneous
touches"), declared in the absent `MLT3DHub.h`: position, pressure and note. -/
structure Touch where
  x : ℚ
  y : ℚ
  z : ℚ
  note : ℚ
  deriving DecidableEq, Repr

/-- The constant `kZThresh = 0.00001f` of `OSCToEvents`. -/
def kZThresh : ℚ := 1 / 100000

/-- The function `VelocityFromInitialZ`: get initial velocity from first z for OSC. -/
def VelocityFromInitialZ (z : ℚ) : ℚ :=
  let zc := ml.clamp (z * 128) (1 / 4) 1
  zc * zc

/-- The x delta `dx` computed by the body of the loop of `OSCToEvents` for the touch `t`
of the latest frame, the touch `tz1` of the previous frame and the voice. -/
def touchDx (t tz1 : Touch) (voice : MLVoice) : ℚ :=
  if t.z > kZThresh then (if tz1.z ≤ kZThresh then 0 else t.x - voice.mStartX) else 0

/-- The y delta `dy` computed by the body of the loop of `OSCToEvents`. -/
def touchDy (t tz1 : Touch) (voice : MLVoice) : ℚ :=
  if t.z > kZThresh then (if tz1.z ≤ kZThresh then 0 else t.y - voice.mStartY) else 0

/-- The body of the loop `for (int v = 0; v < kMaxTouches; ++v)` of `OSCToEvents` on the
voice `mVoices[v]`, for the touch `t = mLatestTouchFrame[v]` and the touch
`tz1 = mPrevTouchFrame[v]`. -/
def touchToVoice (scale : ℚ → ℚ) (t tz1 : Touch) (voice : MLVoice) : MLVoice :=
  let dx := touchDx t tz1 voice
  let dy := touchDy t tz1 voice
  let voice1 : MLVoice :=
    if t.z > kZThresh then
      if tz1.z ≤ kZThresh then
        -- make note on event
        { voice with mStartX := t.x, mStartY := t.y, mPitch := scale t.note,
                     mStartVel := VelocityFromInitialZ t.z, mX1 := t.x, mY1 := t.y }
      else
        -- note continues
        { voice with mPitch := scale t.note, mX1 := t.x, mY1 := t.y }
    else voice
  -- process note off, set pitch for release
  let t1 : Touch :=
    if ¬ (t.z > kZThresh) ∧ voice.mZ1 > kZThresh then { t with x := voice.mX1, y := voice.mY1 }
    else t
  let voice2 : MLVoice := { voice1 with mZ1 := t1.z }
  let frameTime : ℤ := 1
  { voice2 with
    mdPitch := voice2.mdPitch.addChange voice2.mPitch frameTime,
    mdGate := voice2.mdGate.addChange (if t1.z > kZThresh then 1 else 0) frameTime,
    mdVel := voice2.mdVel.addChange voice2.mStartVel frameTime,
    mdAmp := voice2.mdAmp.addChange t1.z frameTime,
    mdNotePressure := voice2.mdNotePressure.addChange dx frameTime,
    mdMod := voice2.mdMod.addChange dy frameTime,
    mdMod2 := voice2.mdMod2.addChange (t1.x * 2 - 1) frameTime,
    mdMod3 := voice2.mdMod3.addChange (t1.y * 2 - 1) frameTime }

/-- The loop `for (int v = 0; v < kMaxTouches; ++v)` of `OSCToEvents` over the touches of
the latest frame, the touches of the previous frame and the voices, from index `v` on (a
frame holds `kMaxTouches` touches). -/
def touchLoop (scale : ℚ → ℚ) : List Touch → List Touch → List MLVoice → List MLVoice
  | t :: ts, tz1 :: tzs, voice :: voices =>
    touchToVoice scale t tz1 voice :: touchLoop scale ts tzs voices
  | _, _, voices => voices

namespace MLProcInputToSignals

/-- The method `OSCToEvents`, for a frame buffer that has been set: the loop
`while (mpFrameBuf->elementsAvailable() > 0)` over the frames of the buffer, oldest first.
The members `mPrevTouchFrame` and `mLatestTouchFrame` are threaded through. -/
def OSCToEvents (scale : ℚ → ℚ) :
    List (List Touch) → MLProcInputToSignals → List Touch → List Touch →
      MLProcInputToSignals × List Touch × List Touch
  | [], s, mPrevTouchFrame, mLatestTouchFrame => (s, mPrevTouchFrame, mLatestTouchFrame)
  | frame :: frames, s, _, mLatestTouchFrame =>
    OSCToEvents scale frames
      (s.withVoices (touchLoop scale frame mLatestTouchFrame s.mVoices))
      mLatestTouchFrame frame

end MLProcInputToSignals

/-! ## `MLProcGlide.cpp` -/

/-- The members of the class `MLProcGlide`, with the flag `mParamsChanged` of the absent base
class `MLProc`.  `MLSample` is `float`. -/
structure MLProcGlide where
  mY1 : ℚ
  mEndValue : ℚ
  mRampTimeInSamples : ℤ
  mInvRampTimeInSamples : ℚ
  mStep : ℚ
  mActive : Bool
  mParamsChanged : Bool
  deriving DecidableEq, Repr

/-- The method `MLProcGlide::calcCoeffs`.  `time` is the parameter `time`, `sr` the sample
rate of the context. -/
def MLProcGlide.calcCoeffs (g : MLProcGlide) (time sr : ℚ) : MLProcGlide :=
  let t : ℚ := time + 1 / 1000
  let ramp : ℤ := floatToInt (sr * t)
  { g with mRampTimeInSamples := ramp, mInvRampTimeInSamples := 1 / (ramp : ℚ),
           mParamsChanged := false }

/-- The method `MLProcGlide::clear`. -/
def MLProcGlide.clear (g : MLProcGlide) : MLProcGlide :=
  { g with mY1 := 0, mStep := 0, mEndValue := 0, mActive := false }

/-- The statement `if (in != mEndValue) { ... }` of the loop of `MLProcGlide::process`. -/
def MLProcGlide.retarget (g : MLProcGlide) (x : ℚ) : MLProcGlide :=
  if x ≠ g.mEndValue then
    { g with mEndValue := x, mStep := (x - g.mY1) * g.mInvRampTimeInSamples, mActive := true }
  else g

/-- The statement `if (mActive) { ... }` of the loop of `MLProcGlide::process`.  `sign` is
the function `ml::sign` of the absent math header. -/
def MLProcGlide.advance (sign : ℚ → ℚ) (g : MLProcGlide) : MLProcGlide :=
  if g.mActive then
    let signBeforeAdd := sign (g.mY1 - g.mEndValue)
    let g1 : MLProcGlide := { g with mY1 := g.mY1 + g.mStep }
    let signAfterAdd := sign (g1.mY1 - g1.mEndValue)
    if signAfterAdd ≠ signBeforeAdd then { g1 with mY1 := g1.mEndValue, mActive := false }
    else g1
  else g

/-- The body of the loop of `MLProcGlide::process` for the input sample `x[n]`: the updated
object and the output sample `y[n]`. -/
def MLProcGlide.step (sign : ℚ → ℚ) (g : MLProcGlide) (x : ℚ) : MLProcGlide × ℚ :=
  let g1 := MLProcGlide.advance sign (g.retarget x)
  (g1, g1.mY1)

/-- The loop of `MLProcGlide::process` over the samples of the input. -/
def MLProcGlide.processLoop (sign : ℚ → ℚ) : List ℚ → MLProcGlide → MLProcGlide × List ℚ
  | [], g => (g, [])
  | x :: xs, g =>
    let r := g.step sign x
    let rest := MLProcGlide.processLoop sign xs r.1
    (rest.1, r.2 :: rest.2)

/-- The method `MLProcGlide::process` on one block `x` of input samples: the updated object
and the block of output samples. -/
def MLProcGlide.process (sign : ℚ → ℚ) (g : MLProcGlide) (time sr : ℚ) (x : List ℚ) :
    MLProcGlide × List ℚ :=
  MLProcGlide.processLoop sign x (if g.mParamsChanged then g.calcCoeffs time sr else g)

/-- Successive calls of `MLProcGlide::process`, one for each block of input samples: the
object after the last call and the output samples of all the blocks, in order. -/
def MLProcGlide.processBlocks (sign : ℚ → ℚ) (time sr : ℚ) :
    List (List ℚ) → MLProcGlide → MLProcGlide × List ℚ
  | [], g => (g, [])
  | x :: blocks, g =>
    let r := g.process sign time sr x
    let rest := MLProcGlide.processBlocks sign time sr blocks r.1
    (rest.1, r.2 ++ rest.2)

/-- A sign function as the ramp needs it: the same value on two arguments of the same strict
sign, different values on a negative and a positive argument (the value at 0 is free). -/
def IsSign (sign : ℚ → ℚ) : Prop :=
  (∀ a b : ℚ, 0 < a → 0 < b → sign a = sign b) ∧
  (∀ a b : ℚ, a < 0 → b < 0 → sign a = sign b) ∧
  (∀ a b : ℚ, a < 0 → 0 < b → sign a ≠ sign b)

/-- A three-valued sign function, used in the examples. -/
def sign3 (x : ℚ) : ℚ := if x = 0 then 0 else if 0 < x then 1 else -1

/-! ## `MLProcDelay.cpp`: `clear` and `process` -/

/-- Modelled from the spec: `MLSignal::clear()` of the absent DSP library: every sample of
the buffer is set to 0. -/
def MLSignal.clear (sig : MLSignal) : MLSignal :=
  { samples := sig.samples.map (fun _ => 0) }

/-- The method `MLProcDelay::clear`. -/
def MLProcDelay.clear (d : MLProcDelay) : MLProcDelay :=
  { d with mBuffer := d.mBuffer.clear, mWriteIndex := 0 }

/-- The conversion of an integer to `uintptr_t` (64 bits). -/
def toUintptr (i : ℤ) : ℕ := (i % 2 ^ 64).toNat

/-- The value of `mWriteIndex` after the statement `mWriteIndex &= mLengthMask`: the index
of the write `mBuffer[mWriteIndex] = x[n]`. -/
def MLProcDelay.writeIndex (d : MLProcDelay) : ℕ := d.mWriteIndex &&& d.mLengthMask

/-- The value of `readIndex` at the read `y[n] = mBuffer[readIndex]`, for the sample
`delaySig[n]` of the delay input. -/
def MLProcDelay.readIndex (d : MLProcDelay) (sr delaySample : ℚ) : ℕ :=
  let delay : ℚ := delaySample * sr
  let delayInt : ℤ := floatToInt delay
  toUintptr ((d.writeIndex : ℤ) - delayInt) &&& d.mLengthMask

/-- The body of the loop of `MLProcDelay::process` for the samples `x[n]` and `delaySig[n]`:
the updated object and the output sample `y[n]`. -/
def MLProcDelay.step (d : MLProcDelay) (sr : ℚ) (x delaySample : ℚ) : MLProcDelay × ℚ :=
  let buffer : List ℚ := d.mBuffer.samples.set d.writeIndex x
  ({ d with mBuffer := { samples := buffer }, mWriteIndex := (d.writeIndex + 1) % 2 ^ 64 },
   buffer.getD (d.readIndex sr delaySample) 0)

/-- The method `MLProcDelay::process` on one block: `block` holds the pairs
`(x[n], delaySig[n])` of the samples of the two inputs.  The result is the updated object and
the block of output samples. -/
def MLProcDelay.process (sr : ℚ) : List (ℚ × ℚ) → MLProcDelay → MLProcDelay × List ℚ
  | [], d => (d, [])
  | xd :: block, d =>
    let r := d.step sr xd.1 xd.2
    let rest := MLProcDelay.process sr block r.1
    (rest.1, r.2 :: rest.2)

/-- Successive calls of `MLProcDelay::process`, one for each block: the object after the
last call and the output samples of all the blocks, in order. -/
def MLProcDelay.processBlocks (sr : ℚ) :
    List (List (ℚ × ℚ)) → MLProcDelay → MLProcDelay × List ℚ
  | [], d => (d, [])
  | block :: blocks, d =>
    let r := MLProcDelay.process sr block d
    let rest := MLProcDelay.processBlocks sr blocks r.1
    (rest.1, r.2 ++ rest.2)

/-! ## Touch frames used in the examples -/

/-- A frame of two touches, none of them pressed. -/
def noTouchFrame : List Touch :=
  [{ x := 0, y := 0, z := 0, note := 0 }, { x := 0, y := 0, z := 0, note := 0 }]

/-- A frame whose first touch is pressed at `(1/4, 1/2)` with pressure `1/2` on note 60. -/
def touchDownFrame : List Touch :=
  [{ x := 1 / 4, y := 1 / 2, z := 1 / 2, note := 60 }, { x := 0, y := 0, z := 0, note := 0 }]

/-- The frame after `touchDownFrame`: the first touch has moved to `(5/8, 1)`. -/
def touchMovedFrame : List Touch :=
  [{ x := 5 / 8, y := 1, z := 1 / 2, note := 60 }, { x := 0, y := 0, z := 0, note := 0 }]

/-- Two voices of the continuous-touch protocol after the frame `touchDownFrame`. -/
def touchedDown : MLProcInputToSignals :=
  (MLProcInputToSignals.OSCToEvents (fun n => n / 12) [touchDownFrame]
    (MLProcInputToSignals.cleared 2 2 InputProtocol.kInputProtocolOSC false)
    noTouchFrame noTouchFrame).1

/-! ## The offsets of the changes of a block -/

/-- The changes scheduled on the eleven change lists of a voice. -/
def MLVoice.changeLists (v : MLVoice) : List (List (ℚ × ℤ)) :=
  [v.mdPitch.mChanges, v.mdPitchBend.mChanges, v.mdGate.mChanges, v.mdAmp.mChanges,
   v.mdVel.mChanges, v.mdNotePressure.mChanges, v.mdChannelPressure.mChanges,
   v.mdMod.mChanges, v.mdMod2.mChanges, v.mdMod3.mChanges, v.mdDrift.mChanges]

/-- The offsets of the changes are within `[0, B)`. -/
def OffsetsWithin (B : ℕ) (l : List (ℚ × ℤ)) : Prop :=
  ∀ p ∈ l, 0 ≤ p.2 ∧ p.2 < (B : ℤ)

/-- The offsets of the changes in insertion order: each offset is at least every earlier
offset minus `slack` (non-decreasing for `slack = 0`). -/
def OffsetsOrdered (slack : ℤ) (l : List (ℚ × ℤ)) : Prop :=
  l.Pairwise (fun a b => a.2 ≤ b.2 + slack)

instance offsetsWithinDecidable (B : ℕ) (l : List (ℚ × ℤ)) : Decidable (OffsetsWithin B l) := by
  unfold OffsetsWithin
  exact inferInstance

instance offsetsOrderedDecidable (slack : ℤ) (l : List (ℚ × ℤ)) :
    Decidable (OffsetsOrdered slack l) := by
  unfold OffsetsOrdered
  exact inferInstance

/-- Every change list of the voice satisfies `Q`, and the current note event of the voice
satisfies `Ev`. -/
def MLVoice.All (Q : List (ℚ × ℤ) → Prop) (Ev : MLControlEvent → Prop) (v : MLVoice) : Prop :=
  (∀ l ∈ v.changeLists, Q l) ∧ Ev v.mCurrentNoteEvent

/-- The time at which `stealNoteEvent` schedules the changes of the event: "in case where
time = 0, make room for retrigger". -/
def stealTime (e : MLControlEvent) : ℤ :=
  if uint64ToInt e.mTime = 0 then uint64ToInt e.mTime + 1 else uint64ToInt e.mTime

namespace MLProcInputToSignals

/-- The voices of the object: the voices of `mVoices` and the main voice of the per-channel
protocol. -/
def allVoices (s : MLProcInputToSignals) : List MLVoice := s.mVoices ++ [s.mMPEMainVoice]

/-- The object after the events of a block, given with their offsets in the block and
dispatched one after the other by the `switch` of `processEvent`. -/
def dispatchEvents (s : MLProcInputToSignals) (events : List MLControlEvent) (scale : ℚ → ℚ)
    (outs : ℕ) : MLProcInputToSignals :=
  events.foldl (fun t e => t.dispatchEvent e scale outs) s

/-- The conditions under which `doNoteOn` takes a voice with `stealNoteEvent`: the event is
stored in the pool, unison is off, and either the plain protocol finds no free voice or the
voice of the channel, in the per-channel protocol, is not off. -/
def noteOnSteals (s : MLProcInputToSignals) (event : MLControlEvent) : Prop :=
  let freeEventIdx := s.mNoteEventsPlaying.findFreeEvent
  let s1 := s.withPlaying (s.mNoteEventsPlaying.set freeEventIdx.toNat event)
  ¬ (freeEventIdx < 0) ∧ s1.mUnisonMode = false ∧
  ((s1.mProtocol = InputProtocol.kInputProtocolMIDI ∧ ¬ (s1.findFreeVoice.1 ≥ 0)) ∨
   (s1.mProtocol = InputProtocol.kInputProtocolMIDI_MPE ∧ event.mChannel > 1 ∧
      ¬ ((s1.voiceAt (s1.MPEChannelToVoiceIDX event.mChannel)).mState = VoiceState.kOff)))

instance noteOnStealsDecidable (s : MLProcInputToSignals) (event : MLControlEvent) :
    Decidable (s.noteOnSteals event) := by
  unfold noteOnSteals
  exact inferInstance

/-- No note-on of the events steals a voice when the events are dispatched in turn. -/
def NoSteals (scale : ℚ → ℚ) (outs : ℕ) : MLProcInputToSignals → List MLControlEvent → Prop
  | _, [] => True
  | s, e :: es =>
    (e.mType = EventType.kNoteOn → ¬ s.noteOnSteals e) ∧
    NoSteals scale outs (s.dispatchEvent e scale outs) es

instance noStealsDecidable (scale : ℚ → ℚ) (outs : ℕ) :
    ∀ (s : MLProcInputToSignals) (events : List MLControlEvent),
      Decidable (NoSteals scale outs s events)
  | _, [] => isTrue trivial
  | s, e :: es =>
    @instDecidableAnd _ _ inferInstance
      (noStealsDecidable scale outs (s.dispatchEvent e scale outs) es)

/-- The invariant carried through the handlers: every change list of every voice satisfies
`Q`, the current note event of every voice of `mVoices` satisfies `Ev`, and every event of the
vector of the pending stack satisfies `E`. -/
structure HandlerInv (Q : List (ℚ × ℤ) → Prop) (Ev E : MLControlEvent → Prop)
    (s : MLProcInputToSignals) : Prop where
  voices : ∀ v ∈ s.mVoices, v.All Q Ev
  main : s.mMPEMainVoice.All Q (fun _ => True)
  pending : ∀ ev ∈ s.mNoteEventsPending.data, E ev

end MLProcInputToSignals

/-- The offsets of the changes are ordered up to `slack` and at most `M`. -/
def OffsetsUpTo (slack M : ℤ) (l : List (ℚ × ℤ)) : Prop :=
  OffsetsOrdered slack l ∧ ∀ p ∈ l, p.2 ≤ M

/-! ## A cleared state reached through "all sound off" -/

/-- Three voices in unison mode after the note-ons 1 and 2 and the controller 120 with value
0 ("all sound off"), which runs `clear()`. -/
def unisonAfterAllSoundOff : MLProcInputToSignals :=
  threeVoicesUnison.dispatchEvents [noteOn 1 60 0 1, noteOn 2 62 1 1, controller 1 120 0 2]
    (fun n => n / 12) 8

/-! ## Auxiliary lemmas: the members after an assignment -/

namespace MLProcInputToSignals

@[simp] theorem withPlaying_mProtocol (s : MLProcInputToSignals) (p : MLControlEventVector) :
    (s.withPlaying p).mProtocol = s.mProtocol := rfl

@[simp] theorem withPlaying_mNoteEventsPlaying (s : MLProcInputToSignals) (p : MLControlEventVector) :
    (s.withPlaying p).mNoteEventsPlaying = p := rfl

@[simp] theorem withPlaying_mNoteEventsPending (s : MLProcInputToSignals) (p : MLControlEventVector) :
    (s.withPlaying p).mNoteEventsPending = s.mNoteEventsPending := rfl

@[simp] theorem withPlaying_mVoices (s : MLProcInputToSignals) (p : MLControlEventVector) :
    (s.withPlaying p).mVoices = s.mVoices := rfl

@[simp] theorem withPlaying_mMPEMainVoice (s : MLProcInputToSignals) (p : MLControlEventVector) :
    (s.withPlaying p).mMPEMainVoice = s.mMPEMainVoice := rfl

@[simp] theorem withPlaying_mVoiceRotateOffset (s : MLProcInputToSignals) (p : MLControlEventVector) :
    (s.withPlaying p).mVoiceRotateOffset = s.mVoiceRotateOffset := rfl

@[simp] theorem withPlaying_mControllerNumber (s : MLProcInputToSignals) (p : MLControlEventVector) :
    (s.withPlaying p).mControllerNumber = s.mControllerNumber := rfl

@[simp] theorem withPlaying_mCurrentVoices (s : MLProcInputToSignals) (p : MLControlEventVector) :
    (s.withPlaying p).mCurrentVoices = s.mCurrentVoices := rfl

@[simp] theorem withPlaying_mUnisonMode (s : MLProcInputToSignals) (p : MLControlEventVector) :
    (s.withPlaying p).mUnisonMode = s.mUnisonMode := rfl

@[simp] theorem withPlaying_mSustainPedal (s : MLProcInputToSignals) (p : MLControlEventVector) :
    (s.withPlaying p).mSustainPedal = s.mSustainPedal := rfl

@[simp] theorem withPlaying_mPitchWheelSemitones (s : MLProcInputToSignals) (p : MLControlEventVector) :
    (s.withPlaying p).mPitchWheelSemitones = s.mPitchWheelSemitones := rfl

@[simp] theorem withPlaying_mVectorStartTime (s : MLProcInputToSignals) (p : MLControlEventVector) :
    (s.withPlaying p).mVectorStartTime = s.mVectorStartTime := rfl

@[simp] theorem withPending_mProtocol (s : MLProcInputToSignals) (p : MLControlEventStack) :
    (s.withPending p).mProtocol = s.mProtocol := rfl

@[simp] theorem withPending_mNoteEventsPlaying (s : MLProcInputToSignals) (p : MLControlEventStack) :
    (s.withPending p).mNoteEventsPlaying = s.mNoteEventsPlaying := rfl

@[simp] theorem withPending_mNoteEventsPending (s : MLProcInputToSignals) (p : MLControlEventStack) :
    (s.withPending p).mNoteEventsPending = p := rfl

@[simp] theorem withPending_mVoices (s : MLProcInputToSignals) (p : MLControlEventStack) :
    (s.withPending p).mVoices = s.mVoices := rfl

@[simp] theorem withPending_mMPEMainVoice (s : MLProcInputToSignals) (p : MLControlEventStack) :
    (s.withPending p).mMPEMainVoice = s.mMPEMainVoice := rfl

@[simp] theorem withPending_mVoiceRotateOffset (s : MLProcInputToSignals) (p : MLControlEventStack) :
    (s.withPending p).mVoiceRotateOffset = s.mVoiceRotateOffset := rfl

@[simp] theorem withPending_mControllerNumber (s : MLProcInputToSignals) (p : MLControlEventStack) :
    (s.withPending p).mControllerNumber = s.mControllerNumber := rfl

@[simp] theorem withPending_mCurrentVoices (s : MLProcInputToSignals) (p : MLControlEventStack) :
    (s.withPending p).mCurrentVoices = s.mCurrentVoices := rfl

@[simp] theorem withPending_mUnisonMode (s : MLProcInputToSignals) (p : MLControlEventStack) :
    (s.withPending p).mUnisonMode = s.mUnisonMode := rfl

@[simp] theorem withPending_mSustainPedal (s : MLProcInputToSignals) (p : MLControlEventStack) :
    (s.withPending p).mSustainPedal = s.mSustainPedal := rfl

@[simp] theorem withPending_mPitchWheelSemitones (s : MLProcInputToSignals) (p : MLControlEventStack) :
    (s.withPending p).mPitchWheelSemitones = s.mPitchWheelSemitones := rfl

@[simp] theorem withPending_mVectorStartTime (s : MLProcInputToSignals) (p : MLControlEventStack) :
    (s.withPending p).mVectorStartTime = s.mVectorStartTime := rfl

@[simp] theorem withVoices_mProtocol (s : MLProcInputToSignals) (p : List MLVoice) :
    (s.withVoices p).mProtocol = s.mProtocol := rfl

@[simp] theorem withVoices_mNoteEventsPlaying (s : MLProcInputToSignals) (p : List MLVoice) :
    (s.withVoices p).mNoteEventsPlaying = s.mNoteEventsPlaying := rfl

@[simp] theorem withVoices_mNoteEventsPending (s : MLProcInputToSignals) (p : List MLVoice) :
    (s.withVoices p).mNoteEventsPending = s.mNoteEventsPending := rfl

@[simp] theorem withVoices_mVoices (s : MLProcInputToSignals) (p : List MLVoice) :
    (s.withVoices p).mVoices = p := rfl

@[simp] theorem withVoices_mMPEMainVoice (s : MLProcInputToSignals) (p : List MLVoice) :
    (s.withVoices p).mMPEMainVoice = s.mMPEMainVoice := rfl

@[simp] theorem withVoices_mVoiceRotateOffset (s : MLProcInputToSignals) (p : List MLVoice) :
    (s.withVoices p).mVoiceRotateOffset = s.mVoiceRotateOffset := rfl

@[simp] theorem withVoices_mControllerNumber (s : MLProcInputToSignals) (p : List MLVoice) :
    (s.withVoices p).mControllerNumber = s.mControllerNumber := rfl

@[simp] theorem withVoices_mCurrentVoices (s : MLProcInputToSignals) (p : List MLVoice) :
    (s.withVoices p).mCurrentVoices = s.mCurrentVoices := rfl

@[simp] theorem withVoices_mUnisonMode (s : MLProcInputToSignals) (p : List MLVoice) :
    (s.withVoices p).mUnisonMode = s.mUnisonMode := rfl

@[simp] theorem withVoices_mSustainPedal (s : MLProcInputToSignals) (p : List MLVoice) :
    (s.withVoices p).mSustainPedal = s.mSustainPedal := rfl

@[simp] theorem withVoices_mPitchWheelSemitones (s : MLProcInputToSignals) (p : List MLVoice) :
    (s.withVoices p).mPitchWheelSemitones = s.mPitchWheelSemitones := rfl

@[simp] theorem withVoices_mVectorStartTime (s : MLProcInputToSignals) (p : List MLVoice) :
    (s.withVoices p).mVectorStartTime = s.mVectorStartTime := rfl

@[simp] theorem withRotateOffset_mProtocol (s : MLProcInputToSignals) (p : ℕ) :
    (s.withRotateOffset p).mProtocol = s.mProtocol := rfl

@[simp] theorem withRotateOffset_mNoteEventsPlaying (s : MLProcInputToSignals) (p : ℕ) :
    (s.withRotateOffset p).mNoteEventsPlaying = s.mNoteEventsPlaying := rfl

@[simp] theorem withRotateOffset_mNoteEventsPending (s : MLProcInputToSignals) (p : ℕ) :
    (s.withRotateOffset p).mNoteEventsPending = s.mNoteEventsPending := rfl

@[simp] theorem withRotateOffset_mVoices (s : MLProcInputToSignals) (p : ℕ) :
    (s.withRotateOffset p).mVoices = s.mVoices := rfl

@[simp] theorem withRotateOffset_mMPEMainVoice (s : MLProcInputToSignals) (p : ℕ) :
    (s.withRotateOffset p).mMPEMainVoice = s.mMPEMainVoice := rfl

@[simp] theorem withRotateOffset_mVoiceRotateOffset (s : MLProcInputToSignals) (p : ℕ) :
    (s.withRotateOffset p).mVoiceRotateOffset = p := rfl

@[simp] theorem withRotateOffset_mControllerNumber (s : MLProcInputToSignals) (p : ℕ) :
    (s.withRotateOffset p).mControllerNumber = s.mControllerNumber := rfl

@[simp] theorem withRotateOffset_mCurrentVoices (s : MLProcInputToSignals) (p : ℕ) :
    (s.withRotateOffset p).mCurrentVoices = s.mCurrentVoices := rfl

@[simp] theorem withRotateOffset_mUnisonMode (s : MLProcInputToSignals) (p : ℕ) :
    (s.withRotateOffset p).mUnisonMode = s.mUnisonMode := rfl

@[simp] theorem withRotateOffset_mSustainPedal (s : MLProcInputToSignals) (p : ℕ) :
    (s.withRotateOffset p).mSustainPedal = s.mSustainPedal := rfl

@[simp] theorem withRotateOffset_mPitchWheelSemitones (s : MLProcInputToSignals) (p : ℕ) :
    (s.withRotateOffset p).mPitchWheelSemitones = s.mPitchWheelSemitones := rfl

@[simp] theorem withRotateOffset_mVectorStartTime (s : MLProcInputToSignals) (p : ℕ) :
    (s.withRotateOffset p).mVectorStartTime = s.mVectorStartTime := rfl

@[simp] theorem withSustainPedal_mProtocol (s : MLProcInputToSignals) (p : Bool) :
    (s.withSustainPedal p).mProtocol = s.mProtocol := rfl

@[simp] theorem withSustainPedal_mNoteEventsPlaying (s : MLProcInputToSignals) (p : Bool) :
    (s.withSustainPedal p).mNoteEventsPlaying = s.mNoteEventsPlaying := rfl

@[simp] theorem withSustainPedal_mNoteEventsPending (s : MLProcInputToSignals) (p : Bool) :
    (s.withSustainPedal p).mNoteEventsPending = s.mNoteEventsPending := rfl

@[simp] theorem withSustainPedal_mVoices (s : MLProcInputToSignals) (p : Bool) :
    (s.withSustainPedal p).mVoices = s.mVoices := rfl

@[simp] theorem withSustainPedal_mMPEMainVoice (s : MLProcInputToSignals) (p : Bool) :
    (s.withSustainPedal p).mMPEMainVoice = s.mMPEMainVoice := rfl

@[simp] theorem withSustainPedal_mVoiceRotateOffset (s : MLProcInputToSignals) (p : Bool) :
    (s.withSustainPedal p).mVoiceRotateOffset = s.mVoiceRotateOffset := rfl

@[simp] theorem withSustainPedal_mControllerNumber (s : MLProcInputToSignals) (p : Bool) :
    (s.withSustainPedal p).mControllerNumber = s.mControllerNumber := rfl

@[simp] theorem withSustainPedal_mCurrentVoices (s : MLProcInputToSignals) (p : Bool) :
    (s.withSustainPedal p).mCurrentVoices = s.mCurrentVoices := rfl

@[simp] theorem withSustainPedal_mUnisonMode (s : MLProcInputToSignals) (p : Bool) :
    (s.withSustainPedal p).mUnisonMode = s.mUnisonMode := rfl

@[simp] theorem withSustainPedal_mSustainPedal (s : MLProcInputToSignals) (p : Bool) :
    (s.withSustainPedal p).mSustainPedal = p := rfl

@[simp] theorem withSustainPedal_mPitchWheelSemitones (s : MLProcInputToSignals) (p : Bool) :
    (s.withSustainPedal p).mPitchWheelSemitones = s.mPitchWheelSemitones := rfl

@[simp] theorem withSustainPedal_mVectorStartTime (s : MLProcInputToSignals) (p : Bool) :
    (s.withSustainPedal p).mVectorStartTime = s.mVectorStartTime := rfl

end MLProcInputToSignals

/-! ## Auxiliary lemmas: conversions, lists and loops -/

theorem floatToInt_intCast (n : ℤ) : floatToInt (n : ℚ) = n := by
  simp [floatToInt]

theorem uint64ToInt_of_lt (t : ℕ) (h : t < 2 ^ 31) : uint64ToInt t = (t : ℤ) := by
  have h1 : t % 2 ^ 32 = t := Nat.mod_eq_of_lt (by omega)
  unfold uint64ToInt
  rw [h1, if_pos h]

theorem mapFirst_length {α : Type} (f : α → α) (n : ℕ) (l : List α) :
    (mapFirst f n l).length = l.length := by
  induction n generalizing l with
  | zero => rfl
  | succ n ih =>
    cases l with
    | nil => rfl
    | cons x xs => simp [mapFirst, ih]

theorem mapFirst_getElem? {α : Type} (f : α → α) (n : ℕ) (l : List α) (i : ℕ) :
    (mapFirst f n l)[i]? = if i < n then (l[i]?).map f else l[i]? := by
  induction n generalizing l i with
  | zero => simp [mapFirst]
  | succ n ih =>
    cases l with
    | nil => simp [mapFirst]
    | cons x xs =>
      cases i with
      | zero => simp [mapFirst]
      | succ i => simp [mapFirst, ih]

theorem mapFirst_take {α : Type} (f : α → α) (n : ℕ) (l : List α) :
    (mapFirst f n l).take n = (l.take n).map f := by
  induction n generalizing l with
  | zero => simp
  | succ n ih =>
    cases l with
    | nil => simp [mapFirst]
    | cons x xs => simp [mapFirst, ih]

theorem mapFirst_set {α : Type} (f : α → α) (d : α) (n : ℕ) (l : List α) :
    (if n < (mapFirst f n l).length
      then (mapFirst f n l).set n (f ((mapFirst f n l).getD n d))
      else mapFirst f n l) = mapFirst f (n + 1) l := by
  induction n generalizing l with
  | zero =>
    cases l with
    | nil => simp [mapFirst]
    | cons x xs => simp [mapFirst]
  | succ n ih =>
    cases l with
    | nil => simp [mapFirst]
    | cons x xs =>
      have h := ih xs
      simp only [mapFirst, List.length_cons, Nat.add_lt_add_iff_right, List.set_cons_succ,
        List.getD_cons_succ] at h ⊢
      split
      · rename_i hlt
        rw [if_pos hlt] at h
        rw [h]
      · rename_i hlt
        rw [if_neg hlt] at h
        rw [h]

namespace MLProcInputToSignals

theorem voiceAt_natCast (s : MLProcInputToSignals) (k : ℕ) :
    s.voiceAt (k : ℤ) = s.mVoices.getD k MLVoice.init := by
  simp [voiceAt]

theorem modifyVoice_natCast (s : MLProcInputToSignals) (k : ℕ) (f : MLVoice → MLVoice) :
    s.modifyVoice (k : ℤ) f =
      if k < s.mVoices.length then
        s.withVoices (s.mVoices.set k (f (s.mVoices.getD k MLVoice.init)))
      else s := by
  simp [modifyVoice, voiceAt]

/-- The loop over the active voices, written with indices: voice after voice is replaced
by `f` of it. -/
theorem foldl_modifyVoice (s : MLProcInputToSignals) (f : MLVoice → MLVoice) (n : ℕ) :
    (List.range n).foldl (fun t (v : ℕ) => t.modifyVoice (v : ℤ) f) s =
      s.withVoices (mapFirst f n s.mVoices) := by
  induction n with
  | zero => rfl
  | succ n ih =>
    rw [List.range_succ, List.foldl_append, ih]
    simp only [List.foldl_cons, List.foldl_nil, modifyVoice_natCast, withVoices_mVoices]
    have h := mapFirst_set f MLVoice.init n s.mVoices
    split
    · rename_i hlt
      rw [if_pos hlt] at h
      rw [h]
      rfl
    · rename_i hlt
      rw [if_neg hlt] at h
      rw [← h]

theorem forActiveVoices_eq (s : MLProcInputToSignals) (f : MLVoice → MLVoice) :
    s.forActiveVoices f = s.withVoices (mapFirst f s.mCurrentVoices s.mVoices) := rfl

/-- The voice at index `i` after a loop over the active voices. -/
theorem voiceAt_forActiveVoices (s : MLProcInputToSignals) (f : MLVoice → MLVoice) (i : ℕ)
    (hlen : i < s.mVoices.length) :
    (s.forActiveVoices f).voiceAt (i : ℤ) =
      if i < s.mCurrentVoices then f (s.voiceAt (i : ℤ)) else s.voiceAt (i : ℤ) := by
  rw [forActiveVoices_eq, voiceAt_natCast, voiceAt_natCast, withVoices_mVoices]
  simp only [List.getD_eq_getElem?_getD, mapFirst_getElem?]
  have h : s.mVoices[i]? = some (s.mVoices[i]) := List.getElem?_eq_getElem hlen
  split <;> simp [h]

end MLProcInputToSignals

namespace MLProcInputToSignals

/-! ## Free-voice search -/

/-- The loop of `findFreeVoice`, started at counter `v` with `k` iterations left: either no
scanned voice is off, `-1` is returned and the object is unchanged, or the first scanned
voice that is off is returned and `mVoiceRotateOffset` is incremented. -/
theorem findFreeVoiceFrom_spec (s : MLProcInputToSignals) (k v : ℕ) :
    ((s.findFreeVoiceFrom k v).1 = -1 ∧ (s.findFreeVoiceFrom k v).2 = s ∧
      ∀ j, v ≤ j → j < v + k →
        (s.voiceAt (((j + s.mVoiceRotateOffset) % s.mCurrentVoices : ℕ) : ℤ)).mState
          ≠ VoiceState.kOff) ∨
    (∃ j, v ≤ j ∧ j < v + k ∧
      (s.findFreeVoiceFrom k v).1 = (((j + s.mVoiceRotateOffset) % s.mCurrentVoices : ℕ) : ℤ) ∧
      (s.findFreeVoiceFrom k v).2 = s.withRotateOffset (s.mVoiceRotateOffset + 1) ∧
      (s.voiceAt (((j + s.mVoiceRotateOffset) % s.mCurrentVoices : ℕ) : ℤ)).mState
        = VoiceState.kOff ∧
      ∀ i, v ≤ i → i < j →
        (s.voiceAt (((i + s.mVoiceRotateOffset) % s.mCurrentVoices : ℕ) : ℤ)).mState
          ≠ VoiceState.kOff) := by
  induction k generalizing v with
  | zero =>
    left
    refine ⟨rfl, rfl, ?_⟩
    intro j h1 h2
    omega
  | succ k ih =>
    have hdef : s.findFreeVoiceFrom (k + 1) v =
        if (s.voiceAt (((v + s.mVoiceRotateOffset) % s.mCurrentVoices : ℕ) : ℤ)).mState
            = VoiceState.kOff then
          ((((v + s.mVoiceRotateOffset) % s.mCurrentVoices : ℕ) : ℤ),
            s.withRotateOffset (s.mVoiceRotateOffset + 1))
        else s.findFreeVoiceFrom k (v + 1) := rfl
    by_cases hoff :
        (s.voiceAt (((v + s.mVoiceRotateOffset) % s.mCurrentVoices : ℕ) : ℤ)).mState
          = VoiceState.kOff
    · right
      rw [hdef, if_pos hoff]
      refine ⟨v, le_refl v, by omega, rfl, rfl, hoff, ?_⟩
      intro i h1 h2
      omega
    · have hstep : s.findFreeVoiceFrom (k + 1) v = s.findFreeVoiceFrom k (v + 1) := by
        rw [hdef, if_neg hoff]
      rw [hstep]
      rcases ih (v + 1) with ⟨h1, h2, h3⟩ | ⟨j, hj1, hj2, h1, h2, h3, h4⟩
      · left
        refine ⟨h1, h2, ?_⟩
        intro j hj1 hj2
        by_cases hjv : j = v
        · subst hjv
          exact hoff
        · exact h3 j (by omega) (by omega)
      · right
        refine ⟨j, by omega, by omega, h1, h2, h3, ?_⟩
        intro i hi1 hi2
        by_cases hiv : i = v
        · subst hiv
          exact hoff
        · exact h4 i (by omega) hi2

/-- Every index below `n` is met by the cyclic scan `(j + off) % n`, `j < n`. -/
theorem rotate_surj (n off i : ℕ) (hi : i < n) :
    ∃ j, j < n ∧ (j + off) % n = i := by
  have hn : 0 < n := by omega
  have hm : off % n < n := Nat.mod_lt _ hn
  refine ⟨(i + (n - off % n)) % n, Nat.mod_lt _ hn, ?_⟩
  rw [Nat.mod_add_mod]
  have h1 : i + (n - off % n) + off = i + n * (off / n + 1) := by
    have h2 := Nat.div_add_mod off n
    have h3 : n * (off / n + 1) = n * (off / n) + n := by ring
    omega
  rw [h1, Nat.add_mul_mod_self_left]
  exact Nat.mod_eq_of_lt hi

/-- C3. `findFreeVoice` returns `-1` if and only if no active voice (index below
`mCurrentVoices`) is in state `kOff`; otherwise it returns the first voice in state `kOff` met
when the active voices are scanned cyclically from index
`mVoiceRotateOffset % mCurrentVoices`: the index returned is the `k`-th of that scan, it is
off, and the `k` voices scanned before it are not. -/
theorem findFreeVoice_spec (s : MLProcInputToSignals) :
    ((s.findFreeVoice).1 = -1 ↔
      ∀ i : ℕ, i < s.mCurrentVoices → (s.voiceAt (i : ℤ)).mState ≠ VoiceState.kOff) ∧
    ((s.findFreeVoice).1 ≠ -1 →
      ∃ k : ℕ, k < s.mCurrentVoices ∧
        (s.findFreeVoice).1 =
          (((s.mVoiceRotateOffset % s.mCurrentVoices + k) % s.mCurrentVoices : ℕ) : ℤ) ∧
        (s.voiceAt (s.findFreeVoice).1).mState = VoiceState.kOff ∧
        ∀ j : ℕ, j < k →
          (s.voiceAt (((s.mVoiceRotateOffset % s.mCurrentVoices + j) % s.mCurrentVoices : ℕ)
            : ℤ)).mState ≠ VoiceState.kOff) := by
  have hidx : ∀ j : ℕ, (s.mVoiceRotateOffset % s.mCurrentVoices + j) % s.mCurrentVoices
      = (j + s.mVoiceRotateOffset) % s.mCurrentVoices := by
    intro j
    rw [Nat.mod_add_mod, Nat.add_comm]
  unfold findFreeVoice
  rcases findFreeVoiceFrom_spec s s.mCurrentVoices 0 with ⟨h1, _, h3⟩ | ⟨j, _, hj2, h1, _, h3, h4⟩
  · refine ⟨⟨fun _ i hi => ?_, fun _ => h1⟩, fun hne => absurd h1 hne⟩
    obtain ⟨j, hj, hji⟩ := rotate_surj s.mCurrentVoices s.mVoiceRotateOffset i hi
    have := h3 j (Nat.zero_le j) (by omega)
    rwa [hji] at this
  · have hn : 0 < s.mCurrentVoices := by omega
    have hlt : (j + s.mVoiceRotateOffset) % s.mCurrentVoices < s.mCurrentVoices :=
      Nat.mod_lt _ hn
    have hne : (s.findFreeVoiceFrom s.mCurrentVoices 0).1 ≠ -1 := by
      rw [h1]
      omega
    refine ⟨⟨fun h => absurd h hne, fun hall => absurd h3 (hall _ hlt)⟩, fun _ => ?_⟩
    refine ⟨j, by omega, ?_, ?_, ?_⟩
    · rw [h1, hidx]
    · rw [h1]
      exact h3
    · intro i hi
      rw [hidx]
      exact h4 i (Nat.zero_le i) hi

/-! ## Channel mapping of the per-channel protocol -/

/-- C2. For every channel `c > 1` and every voice count `n ≥ 1`, `MPEChannelToVoiceIDX c` is
`(c - 2) mod n`, lies in `[0, n)`, and is the same in any two objects with the same voice
count: it depends on `c` and `n` only. -/
theorem MPEChannelToVoiceIDX_spec (s : MLProcInputToSignals) (c : ℤ) (hc : 1 < c)
    (hn : 1 ≤ s.mCurrentVoices) :
    s.MPEChannelToVoiceIDX c = (c - 2) % (s.mCurrentVoices : ℤ) ∧
    0 ≤ s.MPEChannelToVoiceIDX c ∧
    s.MPEChannelToVoiceIDX c < (s.mCurrentVoices : ℤ) ∧
    ∀ t : MLProcInputToSignals, t.mCurrentVoices = s.mCurrentVoices →
      t.MPEChannelToVoiceIDX c = s.MPEChannelToVoiceIDX c := by
  have h0 : (0 : ℤ) ≤ c - 2 := by omega
  have hpos : (0 : ℤ) < (s.mCurrentVoices : ℤ) := by omega
  refine ⟨?_, ?_, ?_, ?_⟩
  · exact Int.tmod_eq_emod h0 (le_of_lt hpos)
  · exact Int.tmod_nonneg _ h0
  · exact Int.tmod_lt_of_pos _ hpos
  · intro t ht
    simp [MPEChannelToVoiceIDX, ht]

/-- C2, witness: with fourteen voices, channel 5 is mapped to voice 3. -/
theorem MPEChannelToVoiceIDX_spec_witness :
    (cleared 14 14 InputProtocol.kInputProtocolMIDI_MPE false).MPEChannelToVoiceIDX 5 = 3 ∧
    (cleared 14 14 InputProtocol.kInputProtocolMIDI_MPE false).MPEChannelToVoiceIDX 5
      = (5 - 2) % (((cleared 14 14 InputProtocol.kInputProtocolMIDI_MPE false).mCurrentVoices
          : ℕ) : ℤ) :=
  ⟨by decide,
   (MPEChannelToVoiceIDX_spec (cleared 14 14 InputProtocol.kInputProtocolMIDI_MPE false) 5
      (by decide) (by decide)).1⟩

end MLProcInputToSignals

namespace MLProcInputToSignals

/-- C3, witness: four voices, voice 1 sounding, voices 0, 2 and 3 off and the rotation at 2:
the scan starts at voice 2 and returns it. -/
theorem findFreeVoice_spec_witness :
    ((cleared 4 4 InputProtocol.kInputProtocolMIDI false).processNoteEvents
        [noteOn 1 60 0 1, noteOn 2 64 0 1, noteOff 1 60 10] (fun x => x)).findFreeVoice.1 = 2 ∧
    ∃ k : ℕ, k < 4 ∧
      ((cleared 4 4 InputProtocol.kInputProtocolMIDI false).processNoteEvents
        [noteOn 1 60 0 1, noteOn 2 64 0 1, noteOff 1 60 10] (fun x => x)).findFreeVoice.1
        = (((2 % 4 + k) % 4 : ℕ) : ℤ) :=
  ⟨by decide,
   by
    obtain ⟨k, hk, h1, _, _⟩ :=
      (findFreeVoice_spec ((cleared 4 4 InputProtocol.kInputProtocolMIDI false).processNoteEvents
        [noteOn 1 60 0 1, noteOn 2 64 0 1, noteOff 1 60 10] (fun x => x))).2 (by decide)
    exact ⟨k, hk, h1⟩⟩

/-! ## Nearest-voice search -/

/-- The distance `abs(note - vNote)` computed by `findNearestVoice`, as an absolute value. -/
theorem natAbs_cast_eq_abs (a : ℤ) : ((a.natAbs : ℕ) : ℤ) = |a| := Int.natCast_natAbs a

/-- The state of the loop of `findNearestVoice` after `n` iterations: the pair
`(r, minDist)` is still `(0, 128)` and no voice met is nearer than 128, or `r` is the first
voice met at the least distance, which is below 128. -/
theorem findNearestVoice_loop (s : MLProcInputToSignals) (note : ℤ) (n : ℕ) :
    (((List.range n).foldl
        (fun (acc : ℤ × ℤ) (v : ℕ) =>
          if (((note - (s.voiceAt (v : ℤ)).mNote).natAbs : ℕ) : ℤ) < acc.2
          then ((v : ℤ), (((note - (s.voiceAt (v : ℤ)).mNote).natAbs : ℕ) : ℤ)) else acc)
        ((0 : ℤ), (128 : ℤ)) = ((0 : ℤ), (128 : ℤ))) ∧
      ∀ u : ℕ, u < n → 128 ≤ |note - (s.voiceAt (u : ℤ)).mNote|) ∨
    (∃ v : ℕ, v < n ∧
      (List.range n).foldl
        (fun (acc : ℤ × ℤ) (v : ℕ) =>
          if (((note - (s.voiceAt (v : ℤ)).mNote).natAbs : ℕ) : ℤ) < acc.2
          then ((v : ℤ), (((note - (s.voiceAt (v : ℤ)).mNote).natAbs : ℕ) : ℤ)) else acc)
        ((0 : ℤ), (128 : ℤ)) = ((v : ℤ), |note - (s.voiceAt (v : ℤ)).mNote|) ∧
      |note - (s.voiceAt (v : ℤ)).mNote| < 128 ∧
      (∀ u : ℕ, u < n → |note - (s.voiceAt (v : ℤ)).mNote| ≤ |note - (s.voiceAt (u : ℤ)).mNote|) ∧
      (∀ u : ℕ, u < v → |note - (s.voiceAt (v : ℤ)).mNote| < |note - (s.voiceAt (u : ℤ)).mNote|)) := by
  induction n with
  | zero =>
    left
    refine ⟨rfl, ?_⟩
    intro u hu
    omega
  | succ n ih =>
    rw [List.range_succ, List.foldl_append]
    simp only [List.foldl_cons, List.foldl_nil, natAbs_cast_eq_abs]
    simp only [natAbs_cast_eq_abs] at ih
    rcases ih with ⟨h1, h2⟩ | ⟨v, hv, h1, h2, h3, h4⟩
    · rw [h1]
      by_cases hlt : |note - (s.voiceAt (n : ℤ)).mNote| < 128
      · right
        refine ⟨n, by omega, ?_, hlt, ?_, ?_⟩
        · simp [hlt]
        · intro u hu
          by_cases hun : u = n
          · subst hun
            exact le_refl _
          · have := h2 u (by omega)
            omega
        · intro u hu
          have := h2 u hu
          omega
      · left
        refine ⟨?_, ?_⟩
        · simp [hlt]
        · intro u hu
          by_cases hun : u = n
          · subst hun
            omega
          · exact h2 u (by omega)
    · rw [h1]
      by_cases hlt : |note - (s.voiceAt (n : ℤ)).mNote| < |note - (s.voiceAt (v : ℤ)).mNote|
      · right
        refine ⟨n, by omega, ?_, by omega, ?_, ?_⟩
        · simp [hlt]
        · intro u hu
          by_cases hun : u = n
          · subst hun
            exact le_refl _
          · have := h3 u (by omega)
            omega
        · intro u hu
          have := h3 u hu
          omega
      · right
        refine ⟨v, by omega, ?_, h2, ?_, h4⟩
        · simp [hlt]
        · intro u hu
          by_cases hun : u = n
          · subst hun
            omega
          · exact h3 u (by omega)

/-- The index returned by `findNearestVoice` for a non-empty voice pool is that of an active
voice. -/
theorem findNearestVoice_range (s : MLProcInputToSignals) (note : ℤ)
    (hn : 1 ≤ s.mCurrentVoices) :
    ∃ v : ℕ, v < s.mCurrentVoices ∧ s.findNearestVoice note = (v : ℤ) := by
  unfold findNearestVoice
  rcases findNearestVoice_loop s note s.mCurrentVoices with ⟨h1, _⟩ | ⟨v, hv, h1, _⟩
  · rw [h1]
    exact ⟨0, by omega, rfl⟩
  · rw [h1]
    exact ⟨v, hv, rfl⟩

/-- C4. For every non-empty voice pool (`mCurrentVoices ≥ 1`), every assignment of notes to
the voices and every incoming note, `findNearestVoice` returns an index `v` with
`0 ≤ v < mCurrentVoices`, never `-1`. -/
theorem findNearestVoice_valid (s : MLProcInputToSignals) (note : ℤ)
    (hn : 1 ≤ s.mCurrentVoices) :
    0 ≤ s.findNearestVoice note ∧ s.findNearestVoice note < (s.mCurrentVoices : ℤ) ∧
    s.findNearestVoice note ≠ -1 := by
  obtain ⟨v, hv, h⟩ := findNearestVoice_range s note hn
  rw [h]
  refine ⟨?_, ?_, ?_⟩ <;> omega

/-- C4, witness: four sounding voices, incoming note 65. -/
theorem findNearestVoice_valid_witness :
    0 ≤ ((cleared 4 4 InputProtocol.kInputProtocolMIDI false).processNoteEvents
        [noteOn 1 60 0 1, noteOn 2 64 0 1, noteOn 3 67 0 1, noteOn 4 72 0 1]
        (fun x => x)).findNearestVoice 65 ∧
    ((cleared 4 4 InputProtocol.kInputProtocolMIDI false).processNoteEvents
        [noteOn 1 60 0 1, noteOn 2 64 0 1, noteOn 3 67 0 1, noteOn 4 72 0 1]
        (fun x => x)).findNearestVoice 65 < 4 :=
  ⟨(findNearestVoice_valid ((cleared 4 4 InputProtocol.kInputProtocolMIDI false).processNoteEvents
        [noteOn 1 60 0 1, noteOn 2 64 0 1, noteOn 3 67 0 1, noteOn 4 72 0 1]
        (fun x => x)) 65 (by decide)).1,
   (findNearestVoice_valid ((cleared 4 4 InputProtocol.kInputProtocolMIDI false).processNoteEvents
        [noteOn 1 60 0 1, noteOn 2 64 0 1, noteOn 3 67 0 1, noteOn 4 72 0 1]
        (fun x => x)) 65 (by decide)).2.1⟩

/-- C5, as amended.  When some active voice holds a note at a distance below 128 from the
incoming note `n` (as is the case for any two MIDI note numbers), the voice `v` returned by
`findNearestVoice n` is active and pitch-nearest, `|n - note v| ≤ |n - note u|` for every
active voice `u`, and it is the lowest index attaining that minimum; when every active voice
is at a distance of 128 or more, voice 0 is returned. -/
theorem findNearestVoice_nearest (s : MLProcInputToSignals) (note : ℤ) :
    ((∃ u : ℕ, u < s.mCurrentVoices ∧ |note - (s.voiceAt (u : ℤ)).mNote| < 128) →
      ∃ v : ℕ, v < s.mCurrentVoices ∧ s.findNearestVoice note = (v : ℤ) ∧
        (∀ u : ℕ, u < s.mCurrentVoices →
          |note - (s.voiceAt (v : ℤ)).mNote| ≤ |note - (s.voiceAt (u : ℤ)).mNote|) ∧
        (∀ u : ℕ, u < v →
          |note - (s.voiceAt (v : ℤ)).mNote| < |note - (s.voiceAt (u : ℤ)).mNote|)) ∧
    ((∀ u : ℕ, u < s.mCurrentVoices → 128 ≤ |note - (s.voiceAt (u : ℤ)).mNote|) →
      s.findNearestVoice note = 0) := by
  unfold findNearestVoice
  rcases findNearestVoice_loop s note s.mCurrentVoices with ⟨h1, h2⟩ | ⟨v, hv, h1, h2, h3, h4⟩
  · refine ⟨?_, ?_⟩
    · rintro ⟨u, hu, hlt⟩
      have := h2 u hu
      omega
    · intro _
      rw [h1]
  · refine ⟨?_, ?_⟩
    · intro _
      exact ⟨v, hv, by rw [h1], h3, h4⟩
    · intro hall
      have := hall v hv
      omega

/-- C5, witness: four voices holding the notes 60, 64, 67 and 72; for the incoming note 65
the nearest voice is voice 1. -/
theorem findNearestVoice_nearest_witness :
    ∃ v : ℕ, v < 4 ∧
      ((cleared 4 4 InputProtocol.kInputProtocolMIDI false).processNoteEvents
        [noteOn 1 60 0 1, noteOn 2 64 0 1, noteOn 3 67 0 1, noteOn 4 72 0 1]
        (fun x => x)).findNearestVoice 65 = (v : ℤ) :=
  by
    obtain ⟨v, hv, h1, _, _⟩ :=
      (findNearestVoice_nearest
        ((cleared 4 4 InputProtocol.kInputProtocolMIDI false).processNoteEvents
          [noteOn 1 60 0 1, noteOn 2 64 0 1, noteOn 3 67 0 1, noteOn 4 72 0 1]
          (fun x => x)) 65).1 ⟨1, by decide, by decide⟩
    exact ⟨v, hv, h1⟩

/-- C5, counterexample: two voices holding the notes 0 and 150 and the incoming note 300.
Both voices are 128 or more away, `findNearestVoice` returns voice 0, at distance 300, and
voice 1, at distance 150, is nearer. -/
theorem findNearestVoice_not_nearest :
    ((cleared 2 2 InputProtocol.kInputProtocolMIDI false).processNoteEvents
        [noteOn 1 0 0 1, noteOn 2 150 0 1] (fun x => x)).findNearestVoice 300 = 0 ∧
    ¬ (|300 - (((cleared 2 2 InputProtocol.kInputProtocolMIDI false).processNoteEvents
          [noteOn 1 0 0 1, noteOn 2 150 0 1] (fun x => x)).voiceAt 0).mNote|
        ≤ |300 - (((cleared 2 2 InputProtocol.kInputProtocolMIDI false).processNoteEvents
          [noteOn 1 0 0 1, noteOn 2 150 0 1] (fun x => x)).voiceAt 1).mNote|) := by
  decide

end MLProcInputToSignals

namespace MLProcInputToSignals

/-! ## The sustain pedal -/

/-- The voice at index `i` of an object whose voices are those of `s` after a loop over the
first `n` voices. -/
theorem voiceAt_of_mapFirst (s t : MLProcInputToSignals) (f : MLVoice → MLVoice) (n i : ℕ)
    (ht : t.mVoices = mapFirst f n s.mVoices) :
    t.voiceAt (i : ℤ) =
      if i < n ∧ i < s.mVoices.length then f (s.voiceAt (i : ℤ)) else s.voiceAt (i : ℤ) := by
  rw [voiceAt_natCast, voiceAt_natCast, ht]
  simp only [List.getD_eq_getElem?_getD, mapFirst_getElem?]
  by_cases hlen : i < s.mVoices.length
  · have h : s.mVoices[i]? = some (s.mVoices[i]) := List.getElem?_eq_getElem hlen
    by_cases hn : i < n
    · simp [h, hn, hlen]
    · simp [hn]
  · have h : s.mVoices[i]? = none := List.getElem?_eq_none (by omega)
    simp [h, hlen]

/-- The voices after `doSustain` with a pedal value whose integer part is zero. -/
theorem doSustain_release_voices (s : MLProcInputToSignals) (e : MLControlEvent)
    (scale : ℚ → ℚ) (hv : floatToInt e.mValue1 = 0) :
    (s.doSustain e scale).mVoices =
      mapFirst
        (fun v =>
          if v.mState = VoiceState.kSustain then
            v.addNoteEvent { kMLNullControlEvent with mType := EventType.kNoteOff } scale
          else v)
        s.mCurrentVoices s.mVoices := by
  simp [doSustain, hv, forActiveVoices_eq]

/-- C9. A sustain-pedal event with value 0 (more generally, with a value whose integer part
is 0: the pedal is released) drives every active voice that is in state `kSustain` to `kOff`,
appending exactly one change, to 0, to its gate list, and leaves every other voice, `kOn` or
`kOff`, as it is (state, instigator, note, age and change lists), as well as the voices that
are not active. -/
theorem doSustain_release (s : MLProcInputToSignals) (e : MLControlEvent) (scale : ℚ → ℚ)
    (hv : floatToInt e.mValue1 = 0) (i : ℕ) :
    (i < s.mCurrentVoices → (s.voiceAt (i : ℤ)).mState = VoiceState.kSustain →
      ((s.doSustain e scale).voiceAt (i : ℤ)).mState = VoiceState.kOff ∧
      ((s.doSustain e scale).voiceAt (i : ℤ)).mdGate.mChanges
        = (s.voiceAt (i : ℤ)).mdGate.mChanges ++ [((0 : ℚ), (0 : ℤ))]) ∧
    ((s.voiceAt (i : ℤ)).mState ≠ VoiceState.kSustain →
      (s.doSustain e scale).voiceAt (i : ℤ) = s.voiceAt (i : ℤ)) ∧
    (s.mCurrentVoices ≤ i → (s.doSustain e scale).voiceAt (i : ℤ) = s.voiceAt (i : ℤ)) := by
  have h := voiceAt_of_mapFirst s (s.doSustain e scale) _ s.mCurrentVoices i
    (doSustain_release_voices s e scale hv)
  refine ⟨?_, ?_, ?_⟩
  · intro hi hs
    have hlen : i < s.mVoices.length := by
      by_contra hcon
      have hnone : s.mVoices[i]? = none := List.getElem?_eq_none (by omega)
      rw [voiceAt_natCast] at hs
      simp [List.getD_eq_getElem?_getD, hnone, MLVoice.init] at hs
    rw [h, if_pos ⟨hi, hlen⟩, if_pos hs]
    refine ⟨?_, ?_⟩
    · simp [MLVoice.addNoteEvent, kMLNullControlEvent]
    · simp [MLVoice.addNoteEvent, kMLNullControlEvent, MLChangeList.addChange, uint64ToInt]
  · intro hs
    rw [h, if_neg hs]
    simp
  · intro hi
    rw [h, if_neg (by omega)]

/-- C9, witness: two voices, the first one sustained by the pedal and the second one held;
releasing the pedal turns the first one off and leaves the second one sounding. -/
theorem doSustain_release_witness :
    (((cleared 2 2 InputProtocol.kInputProtocolMIDI false).processNoteEvents
        [noteOn 1 60 0 1, noteOn 2 64 0 1, sustainPedal 127 3, noteOff 1 60 10,
         sustainPedal 0 20] (fun x => x)).mVoices.map (fun v => v.mState))
      = [VoiceState.kOff, VoiceState.kOn] ∧
    ((((cleared 2 2 InputProtocol.kInputProtocolMIDI false).processNoteEvents
        [noteOn 1 60 0 1, noteOn 2 64 0 1, sustainPedal 127 3, noteOff 1 60 10]
        (fun x => x)).doSustain (sustainPedal 0 20) (fun x => x)).voiceAt ((0 : ℕ) : ℤ)).mState
      = VoiceState.kOff :=
  ⟨by decide,
   ((doSustain_release
      ((cleared 2 2 InputProtocol.kInputProtocolMIDI false).processNoteEvents
        [noteOn 1 60 0 1, noteOn 2 64 0 1, sustainPedal 127 3, noteOff 1 60 10] (fun x => x))
      (sustainPedal 0 20) (fun x => x) (by decide) 0).1 (by decide) (by decide)).1⟩

/-- The voices after `doNoteOff` in the plain protocol with unison off and the pedal held:
every active voice whose instigator is the id of the event receives a `kNoteSustain`
event. -/
theorem doNoteOff_pedal_voices (s : MLProcInputToSignals) (e : MLControlEvent)
    (scale : ℚ → ℚ) (hp : s.mProtocol = InputProtocol.kInputProtocolMIDI)
    (hu : s.mUnisonMode = false) (hs : s.mSustainPedal = true) :
    (s.doNoteOff e scale).mVoices =
      mapFirst
        (fun voice =>
          if voice.mInstigatorID = e.mID then
            voice.addNoteEvent { e with mType := EventType.kNoteSustain } scale
          else voice)
        s.mCurrentVoices s.mVoices := by
  simp [doNoteOff, doNoteOffMIDI, newEventType, eventToSend, hp, hu, hs, forActiveVoices_eq]

/-- C8. In the plain protocol with unison off, while the sustain pedal is held, a note-off
event never puts a voice into state `kOff`: every active voice that is `kOn` with the id of
the event as instigator ends in state `kSustain`, and no voice that was `kOn` or `kSustain`
before the event is `kOff` after it. -/
theorem doNoteOff_pedal_held (s : MLProcInputToSignals) (e : MLControlEvent) (scale : ℚ → ℚ)
    (hp : s.mProtocol = InputProtocol.kInputProtocolMIDI) (hu : s.mUnisonMode = false)
    (hs : s.mSustainPedal = true) (i : ℕ) :
    (i < s.mCurrentVoices → (s.voiceAt (i : ℤ)).mState = VoiceState.kOn →
      (s.voiceAt (i : ℤ)).mInstigatorID = e.mID →
      ((s.doNoteOff e scale).voiceAt (i : ℤ)).mState = VoiceState.kSustain) ∧
    ((s.voiceAt (i : ℤ)).mState ≠ VoiceState.kOff →
      ((s.doNoteOff e scale).voiceAt (i : ℤ)).mState ≠ VoiceState.kOff) := by
  have h := voiceAt_of_mapFirst s (s.doNoteOff e scale) _ s.mCurrentVoices i
    (doNoteOff_pedal_voices s e scale hp hu hs)
  refine ⟨?_, ?_⟩
  · intro hi hon hid
    have hlen : i < s.mVoices.length := by
      by_contra hcon
      have hnone : s.mVoices[i]? = none := List.getElem?_eq_none (by omega)
      rw [voiceAt_natCast] at hon
      simp [List.getD_eq_getElem?_getD, hnone, MLVoice.init] at hon
    rw [h, if_pos ⟨hi, hlen⟩, if_pos hid]
    simp [MLVoice.addNoteEvent]
  · intro hne
    rw [h]
    split
    · split
      · simp [MLVoice.addNoteEvent]
      · exact hne
    · exact hne

/-- C8, witness: two held notes and the pedal down; the note-off of the first note leaves
its voice sustained and the other one sounding. -/
theorem doNoteOff_pedal_held_witness :
    ((((cleared 2 2 InputProtocol.kInputProtocolMIDI false).processNoteEvents
        [noteOn 1 60 0 1, noteOn 2 64 0 1, sustainPedal 127 3] (fun x => x)).doNoteOff
        (noteOff 1 60 10) (fun x => x)).mVoices.map (fun v => v.mState))
      = [VoiceState.kSustain, VoiceState.kOn] ∧
    ((((cleared 2 2 InputProtocol.kInputProtocolMIDI false).processNoteEvents
        [noteOn 1 60 0 1, noteOn 2 64 0 1, sustainPedal 127 3] (fun x => x)).doNoteOff
        (noteOff 1 60 10) (fun x => x)).voiceAt ((0 : ℕ) : ℤ)).mState = VoiceState.kSustain :=
  ⟨by decide,
   (doNoteOff_pedal_held
      ((cleared 2 2 InputProtocol.kInputProtocolMIDI false).processNoteEvents
        [noteOn 1 60 0 1, noteOn 2 64 0 1, sustainPedal 127 3] (fun x => x))
      (noteOff 1 60 10) (fun x => x) (by decide) (by decide) (by decide) 0).1
      (by decide) (by decide) (by decide)⟩

end MLProcInputToSignals

namespace MLProcInputToSignals

/-! ## Voice stealing -/

/-- The loop of `findFreeEvent` from index `i` on: `-1` when no event of the list is free,
otherwise the index of the first free event. -/
theorem findFreeEventFrom_spec (p : List MLControlEvent) (i : ℕ) :
    (MLControlEventVector.findFreeEventFrom p i = -1 ∧ ∀ ev ∈ p, ev.mType ≠ EventType.kNull) ∨
    (∃ k : ℕ, k < p.length ∧ MLControlEventVector.findFreeEventFrom p i = ((i + k : ℕ) : ℤ) ∧
      (p.getD k kMLNullControlEvent).mType = EventType.kNull ∧
      ∀ j : ℕ, j < k → (p.getD j kMLNullControlEvent).mType ≠ EventType.kNull) := by
  induction p generalizing i with
  | nil =>
    left
    exact ⟨rfl, by simp⟩
  | cons e es ih =>
    by_cases hfree : e.mType = EventType.kNull
    · right
      refine ⟨0, by simp, ?_, by simpa using hfree, ?_⟩
      · simp [MLControlEventVector.findFreeEventFrom, MLControlEvent.isFree, hfree]
      · intro j hj
        omega
    · have hstep : MLControlEventVector.findFreeEventFrom (e :: es) i
          = MLControlEventVector.findFreeEventFrom es (i + 1) := by
        simp [MLControlEventVector.findFreeEventFrom, MLControlEvent.isFree, hfree]
      rw [hstep]
      rcases ih (i + 1) with ⟨h1, h2⟩ | ⟨k, hk, h1, h2, h3⟩
      · left
        refine ⟨h1, ?_⟩
        intro ev hev
        rcases List.mem_cons.mp hev with h | h
        · rw [h]
          exact hfree
        · exact h2 ev h
      · right
        refine ⟨k + 1, by simp [hk], ?_, by simpa using h2, ?_⟩
        · rw [h1]
          congr 1
          omega
        · intro j hj
          cases j with
          | zero => simpa using hfree
          | succ j =>
            have := h3 j (by omega)
            simpa using this

/-- When some event of the pool is free, `findFreeEvent` returns the index of a free event of
the pool. -/
theorem findFreeEvent_of_free (p : MLControlEventVector)
    (hfree : ∃ ev ∈ p, ev.mType = EventType.kNull) :
    ∃ k : ℕ, k < p.length ∧ p.findFreeEvent = (k : ℤ) ∧
      (p.getD k kMLNullControlEvent).mType = EventType.kNull := by
  unfold MLControlEventVector.findFreeEvent
  rcases findFreeEventFrom_spec p 0 with ⟨_, h2⟩ | ⟨k, hk, h1, h2, _⟩
  · obtain ⟨ev, hev, hnull⟩ := hfree
    exact absurd hnull (h2 ev hev)
  · refine ⟨k, hk, ?_, h2⟩
    rw [h1]
    congr 1
    omega

/-- When no event of the pool is free, `findFreeEvent` returns `-1`. -/
theorem findFreeEvent_of_full (p : MLControlEventVector)
    (hfull : ∀ ev ∈ p, ev.mType ≠ EventType.kNull) : p.findFreeEvent = -1 := by
  unfold MLControlEventVector.findFreeEvent
  rcases findFreeEventFrom_spec p 0 with ⟨h1, _⟩ | ⟨k, hk, _, h2, _⟩
  · exact h1
  · have hmem : p.getD k kMLNullControlEvent ∈ p := by
      rw [List.getD_eq_getElem _ _ hk]
      exact List.getElem_mem hk
    exact absurd h2 (hfull _ hmem)

/-- The result of `findFreeVoice` when no active voice is off. -/
theorem findFreeVoice_none (s : MLProcInputToSignals)
    (h : ∀ i : ℕ, i < s.mCurrentVoices → (s.voiceAt (i : ℤ)).mState ≠ VoiceState.kOff) :
    s.findFreeVoice = (-1, s) := by
  unfold findFreeVoice
  rcases findFreeVoiceFrom_spec s s.mCurrentVoices 0 with ⟨h1, h2, _⟩ | ⟨j, _, hj2, _, _, h3, _⟩
  · exact Prod.ext h1 h2
  · have hn : 0 < s.mCurrentVoices := by omega
    exact absurd h3 (h _ (Nat.mod_lt _ hn))

/-- The state of the second loop of `findOldestSustainedVoice` after the sustained voices of
index below `n` have been visited: the pair `(r, maxAge)` is still `(-1, -1)` and no voice
below `n` is sustained, or `r` is the first sustained voice of greatest age. -/
theorem findOldestSustainedVoice_loop (s : MLProcInputToSignals) (n : ℕ) :
    ((((List.range n).filter
          (fun (i : ℕ) => decide ((s.voiceAt (i : ℤ)).mState = VoiceState.kSustain))).foldl
        (fun (acc : ℤ × ℤ) (voiceIdx : ℕ) =>
          if ((s.voiceAt (voiceIdx : ℤ)).mAge : ℤ) > acc.2
          then ((voiceIdx : ℤ), ((s.voiceAt (voiceIdx : ℤ)).mAge : ℤ)) else acc)
        ((-1 : ℤ), (-1 : ℤ)) = ((-1 : ℤ), (-1 : ℤ))) ∧
      ∀ u : ℕ, u < n → (s.voiceAt (u : ℤ)).mState ≠ VoiceState.kSustain) ∨
    (∃ v : ℕ, v < n ∧ (s.voiceAt (v : ℤ)).mState = VoiceState.kSustain ∧
      ((List.range n).filter
          (fun (i : ℕ) => decide ((s.voiceAt (i : ℤ)).mState = VoiceState.kSustain))).foldl
        (fun (acc : ℤ × ℤ) (voiceIdx : ℕ) =>
          if ((s.voiceAt (voiceIdx : ℤ)).mAge : ℤ) > acc.2
          then ((voiceIdx : ℤ), ((s.voiceAt (voiceIdx : ℤ)).mAge : ℤ)) else acc)
        ((-1 : ℤ), (-1 : ℤ)) = ((v : ℤ), ((s.voiceAt (v : ℤ)).mAge : ℤ)) ∧
      (∀ u : ℕ, u < n → (s.voiceAt (u : ℤ)).mState = VoiceState.kSustain →
        (s.voiceAt (u : ℤ)).mAge ≤ (s.voiceAt (v : ℤ)).mAge) ∧
      (∀ u : ℕ, u < v → (s.voiceAt (u : ℤ)).mState = VoiceState.kSustain →
        (s.voiceAt (u : ℤ)).mAge < (s.voiceAt (v : ℤ)).mAge)) := by
  induction n with
  | zero =>
    left
    refine ⟨rfl, ?_⟩
    intro u hu
    omega
  | succ n ih =>
    rw [List.range_succ, List.filter_append, List.foldl_append]
    by_cases hsus : (s.voiceAt (n : ℤ)).mState = VoiceState.kSustain
    · have hf : List.filter
          (fun (i : ℕ) => decide ((s.voiceAt (i : ℤ)).mState = VoiceState.kSustain)) [n] = [n] := by
        simp [hsus]
      rw [hf]
      simp only [List.foldl_cons, List.foldl_nil]
      rcases ih with ⟨h1, h2⟩ | ⟨v, hv, hvs, h1, h3, h4⟩
      · rw [h1]
        right
        refine ⟨n, by omega, hsus, ?_, ?_, ?_⟩
        · have hpos : ((s.voiceAt (n : ℤ)).mAge : ℤ) > -1 := by omega
          simp [hpos]
        · intro u hu hus
          by_cases hun : u = n
          · subst hun
            exact le_refl _
          · exact absurd hus (h2 u (by omega))
        · intro u hu hus
          exact absurd hus (h2 u hu)
      · rw [h1]
        by_cases hgt : ((s.voiceAt (n : ℤ)).mAge : ℤ) > ((s.voiceAt (v : ℤ)).mAge : ℤ)
        · right
          refine ⟨n, by omega, hsus, ?_, ?_, ?_⟩
          · simp [hgt]
          · intro u hu hus
            by_cases hun : u = n
            · subst hun
              exact le_refl _
            · have := h3 u (by omega) hus
              omega
          · intro u hu hus
            have := h3 u hu hus
            omega
        · right
          refine ⟨v, by omega, hvs, ?_, ?_, h4⟩
          · simp [hgt]
          · intro u hu hus
            by_cases hun : u = n
            · subst hun
              omega
            · exact h3 u (by omega) hus
    · have hf : List.filter
          (fun (i : ℕ) => decide ((s.voiceAt (i : ℤ)).mState = VoiceState.kSustain)) [n] = [] := by
        simp [hsus]
      rw [hf]
      simp only [List.foldl_nil]
      rcases ih with ⟨h1, h2⟩ | ⟨v, hv, hvs, h1, h3, h4⟩
      · left
        refine ⟨h1, ?_⟩
        intro u hu
        by_cases hun : u = n
        · subst hun
          exact hsus
        · exact h2 u (by omega)
      · right
        refine ⟨v, by omega, hvs, h1, ?_, h4⟩
        intro u hu hus
        by_cases hun : u = n
        · subst hun
          exact absurd hus hsus
        · exact h3 u (by omega) hus

/-- The voice at index `i` after voice `v` has been replaced by `f` of it. -/
theorem voiceAt_modifyVoice (s : MLProcInputToSignals) (v i : ℕ) (f : MLVoice → MLVoice)
    (hv : v < s.mVoices.length) :
    (s.modifyVoice (v : ℤ) f).voiceAt (i : ℤ) =
      if i = v then f (s.voiceAt (v : ℤ)) else s.voiceAt (i : ℤ) := by
  rw [modifyVoice_natCast, if_pos hv, voiceAt_natCast, voiceAt_natCast, voiceAt_natCast,
    withVoices_mVoices]
  simp only [List.getD_eq_getElem?_getD, List.getElem?_set]
  by_cases hiv : i = v
  · subst hiv
    simp [hv]
  · have hvi : ¬ v = i := fun h => hiv h.symm
    simp [hiv, hvi]

/-- The method `doNoteOn` in the plain protocol with unison off when the pool of playing events has a
free slot `k`: the event is stored there and the plain branch is run. -/
theorem doNoteOn_plain (s : MLProcInputToSignals) (e : MLControlEvent) (scale : ℚ → ℚ)
    (hp : s.mProtocol = InputProtocol.kInputProtocolMIDI) (hu : s.mUnisonMode = false)
    (k : ℕ) (hk : s.mNoteEventsPlaying.findFreeEvent = (k : ℤ)) :
    s.doNoteOn e scale = (s.withPlaying (s.mNoteEventsPlaying.set k e)).doNoteOnMIDI e scale := by
  have hnot : ¬ ((k : ℤ) < 0) := by omega
  simp only [doNoteOn, hk, withPlaying_mUnisonMode, withPlaying_mProtocol, hu, hp, if_neg hnot,
    Int.toNat_ofNat]
  rfl

/-- The method `doNoteOn` when the pool of playing events has no free slot: the event is
dropped. -/
theorem doNoteOn_full (s : MLProcInputToSignals) (e : MLControlEvent) (scale : ℚ → ℚ)
    (hfull : ∀ ev ∈ s.mNoteEventsPlaying, ev.mType ≠ EventType.kNull) :
    s.doNoteOn e scale = s := by
  simp [doNoteOn, findFreeEvent_of_full s.mNoteEventsPlaying hfull]

end MLProcInputToSignals

namespace MLProcInputToSignals

/-- The plain branch of `doNoteOn` when no active voice is off: the voice chosen by
`findOldestSustainedVoice`, or failing that by `findNearestVoice`, steals the event with
retrigger. -/
theorem doNoteOnMIDI_steal (s : MLProcInputToSignals) (e : MLControlEvent) (scale : ℚ → ℚ)
    (h : ∀ i : ℕ, i < s.mCurrentVoices → (s.voiceAt (i : ℤ)).mState ≠ VoiceState.kOff) :
    s.doNoteOnMIDI e scale =
      s.modifyVoice
        (if s.findOldestSustainedVoice < 0 then s.findNearestVoice (floatToInt e.mValue1)
         else s.findOldestSustainedVoice)
        (fun voice => voice.stealNoteEvent e scale true) := by
  unfold doNoteOnMIDI
  rw [findFreeVoice_none s h]
  simp

/-- The method `findOldestSustainedVoice` returns `-1` exactly when no active voice is
sustained. -/
theorem findOldestSustainedVoice_eq_neg_one_iff (s : MLProcInputToSignals) :
    s.findOldestSustainedVoice = -1 ↔
      ∀ i : ℕ, i < s.mCurrentVoices → (s.voiceAt (i : ℤ)).mState ≠ VoiceState.kSustain := by
  unfold findOldestSustainedVoice
  rcases findOldestSustainedVoice_loop s s.mCurrentVoices with ⟨h1, h2⟩ | ⟨v, hv, hvs, h1, _, _⟩
  · simp only [h1]
    exact ⟨fun _ => h2, fun _ => trivial⟩
  · simp only [h1]
    refine ⟨fun h => ?_, fun h => absurd hvs (h v hv)⟩
    omega

/-- The result of `findOldestSustainedVoice` when some active voice is sustained: the first sustained voice
of greatest age. -/
theorem findOldestSustainedVoice_some (s : MLProcInputToSignals)
    (h : ∃ i : ℕ, i < s.mCurrentVoices ∧ (s.voiceAt (i : ℤ)).mState = VoiceState.kSustain) :
    ∃ v : ℕ, v < s.mCurrentVoices ∧ s.findOldestSustainedVoice = (v : ℤ) ∧
      (s.voiceAt (v : ℤ)).mState = VoiceState.kSustain ∧
      (∀ u : ℕ, u < s.mCurrentVoices → (s.voiceAt (u : ℤ)).mState = VoiceState.kSustain →
        (s.voiceAt (u : ℤ)).mAge ≤ (s.voiceAt (v : ℤ)).mAge) ∧
      (∀ u : ℕ, u < v → (s.voiceAt (u : ℤ)).mState = VoiceState.kSustain →
        (s.voiceAt (u : ℤ)).mAge < (s.voiceAt (v : ℤ)).mAge) := by
  unfold findOldestSustainedVoice
  rcases findOldestSustainedVoice_loop s s.mCurrentVoices with ⟨_, h2⟩ | ⟨v, hv, hvs, h1, h3, h4⟩
  · obtain ⟨i, hi, his⟩ := h
    exact absurd his (h2 i hi)
  · exact ⟨v, hv, by simp only [h1], hvs, h3, h4⟩

/-- C6, as amended.  `findOldestSustainedVoice` returns `-1` exactly when no active voice is
in state `kSustain`.  In the plain protocol with unison off, when the pool of playing events
has a free slot, no active voice is off and at least one active voice is sustained, a note-on
is assigned to the sustained voice of greatest age, the lowest index among those of equal
greatest age: that voice steals the event with retrigger (it ends `kOn` with the id of the
event) and every other voice, in particular every voice in state `kOn`, is unaltered. -/
theorem doNoteOn_steal_sustained (s : MLProcInputToSignals) (e : MLControlEvent)
    (scale : ℚ → ℚ) :
    (s.findOldestSustainedVoice = -1 ↔
      ∀ i : ℕ, i < s.mCurrentVoices → (s.voiceAt (i : ℤ)).mState ≠ VoiceState.kSustain) ∧
    (s.mProtocol = InputProtocol.kInputProtocolMIDI → s.mUnisonMode = false →
      (∃ ev ∈ s.mNoteEventsPlaying, ev.mType = EventType.kNull) →
      s.mCurrentVoices ≤ s.mVoices.length →
      (∀ i : ℕ, i < s.mCurrentVoices → (s.voiceAt (i : ℤ)).mState ≠ VoiceState.kOff) →
      (∃ i : ℕ, i < s.mCurrentVoices ∧ (s.voiceAt (i : ℤ)).mState = VoiceState.kSustain) →
      ∃ v : ℕ, v < s.mCurrentVoices ∧ s.findOldestSustainedVoice = (v : ℤ) ∧
        (s.voiceAt (v : ℤ)).mState = VoiceState.kSustain ∧
        (∀ u : ℕ, u < s.mCurrentVoices → (s.voiceAt (u : ℤ)).mState = VoiceState.kSustain →
          (s.voiceAt (u : ℤ)).mAge ≤ (s.voiceAt (v : ℤ)).mAge) ∧
        (∀ u : ℕ, u < v → (s.voiceAt (u : ℤ)).mState = VoiceState.kSustain →
          (s.voiceAt (u : ℤ)).mAge < (s.voiceAt (v : ℤ)).mAge) ∧
        (s.doNoteOn e scale).voiceAt (v : ℤ) = (s.voiceAt (v : ℤ)).stealNoteEvent e scale true ∧
        ((s.doNoteOn e scale).voiceAt (v : ℤ)).mState = VoiceState.kOn ∧
        ((s.doNoteOn e scale).voiceAt (v : ℤ)).mInstigatorID = e.mID ∧
        ∀ i : ℕ, i ≠ v → (s.doNoteOn e scale).voiceAt (i : ℤ) = s.voiceAt (i : ℤ)) := by
  refine ⟨findOldestSustainedVoice_eq_neg_one_iff s, ?_⟩
  intro hp hu hfree hlen hnooff hsus
  obtain ⟨k, _, hk, _⟩ := findFreeEvent_of_free s.mNoteEventsPlaying hfree
  obtain ⟨v, hv, hr, hvs, hmax, hfirst⟩ := findOldestSustainedVoice_some s hsus
  have hv' : v < (s.withPlaying (s.mNoteEventsPlaying.set k e)).mVoices.length := by
    rw [withPlaying_mVoices]
    omega
  have hdo : s.doNoteOn e scale =
      (s.withPlaying (s.mNoteEventsPlaying.set k e)).modifyVoice (v : ℤ)
        (fun voice => voice.stealNoteEvent e scale true) := by
    rw [doNoteOn_plain s e scale hp hu k hk,
      doNoteOnMIDI_steal (s.withPlaying (s.mNoteEventsPlaying.set k e)) e scale hnooff]
    have hr' : (s.withPlaying (s.mNoteEventsPlaying.set k e)).findOldestSustainedVoice
        = (v : ℤ) := hr
    have hnot : ¬ ((v : ℤ) < 0) := by omega
    rw [hr', if_neg hnot]
  have hat : ∀ i : ℕ, (s.doNoteOn e scale).voiceAt (i : ℤ) =
      if i = v then (s.voiceAt (v : ℤ)).stealNoteEvent e scale true else s.voiceAt (i : ℤ) := by
    intro i
    rw [hdo, voiceAt_modifyVoice _ v i _ hv']
    rfl
  refine ⟨v, hv, hr, hvs, hmax, hfirst, ?_, ?_, ?_, ?_⟩
  · rw [hat v, if_pos rfl]
  · rw [hat v, if_pos rfl]
    rfl
  · rw [hat v, if_pos rfl]
    rfl
  · intro i hi
    rw [hat i, if_neg hi]

/-- C6, witness: two voices, the first one sustained by the pedal and the second one held;
the next note-on goes to the sustained voice and the held voice is left alone. -/
theorem doNoteOn_steal_sustained_witness :
    ((((cleared 2 2 InputProtocol.kInputProtocolMIDI false).processNoteEvents
        [noteOn 1 60 0 1, noteOn 2 64 0 1, sustainPedal 127 3, noteOff 1 60 10]
        (fun x => x)).doNoteOn (noteOn 3 72 12 1) (fun x => x)).mVoices.map
        (fun v => (v.mState, v.mInstigatorID)))
      = [(VoiceState.kOn, 3), (VoiceState.kOn, 2)] ∧
    ∃ v : ℕ, v < 2 ∧
      ((cleared 2 2 InputProtocol.kInputProtocolMIDI false).processNoteEvents
        [noteOn 1 60 0 1, noteOn 2 64 0 1, sustainPedal 127 3, noteOff 1 60 10]
        (fun x => x)).findOldestSustainedVoice = (v : ℤ) :=
  ⟨by decide,
   by
    obtain ⟨v, hv, hr, _⟩ :=
      (doNoteOn_steal_sustained
        ((cleared 2 2 InputProtocol.kInputProtocolMIDI false).processNoteEvents
          [noteOn 1 60 0 1, noteOn 2 64 0 1, sustainPedal 127 3, noteOff 1 60 10]
          (fun x => x)) (noteOn 3 72 12 1) (fun x => x)).2
        (by decide) (by decide) (by decide) (by decide) (by decide) (by decide)
    exact ⟨v, hv, hr⟩⟩

/-- C6, counterexample: in the plain protocol with unison off, no active voice is off and
voice 0 is sustained, but the pool of playing events is full; the note-on is dropped, and
voice 0 stays sustained with its old instigator. -/
theorem doNoteOn_sustained_pool_full :
    sustainedPoolFull.mProtocol = InputProtocol.kInputProtocolMIDI ∧
    sustainedPoolFull.mUnisonMode = false ∧
    (∀ i : ℕ, i < sustainedPoolFull.mCurrentVoices →
      (sustainedPoolFull.voiceAt (i : ℤ)).mState ≠ VoiceState.kOff) ∧
    (sustainedPoolFull.voiceAt 0).mState = VoiceState.kSustain ∧
    sustainedPoolFull.doNoteOn (noteOn 99 65 5 1) (fun x => x) = sustainedPoolFull ∧
    ¬ (∃ i : ℕ, i < sustainedPoolFull.mCurrentVoices ∧
      ((sustainedPoolFull.doNoteOn (noteOn 99 65 5 1) (fun x => x)).voiceAt (i : ℤ)).mInstigatorID
        = 99) := by
  decide

/-- C7, as amended.  In the plain protocol with unison off, when the pool of playing events
has a free slot and every active voice is `kOn` (none off, none sustained), a note-on with
note `n` and offset `t` steals exactly the voice `findNearestVoice n` with retrigger: that
voice ends in state `kOn` with the new id and note and age 0, its gate list receives a change
to 0 at offset `t' - 1` followed by a change to 1 at offset `t'`, where `t' = t` for `t ≠ 0`
and `t' = 1` for `t = 0`, and every other voice is unchanged. -/
theorem doNoteOn_steal_nearest (s : MLProcInputToSignals) (e : MLControlEvent) (scale : ℚ → ℚ)
    (hp : s.mProtocol = InputProtocol.kInputProtocolMIDI) (hu : s.mUnisonMode = false)
    (hfree : ∃ ev ∈ s.mNoteEventsPlaying, ev.mType = EventType.kNull)
    (hn : 1 ≤ s.mCurrentVoices) (hlen : s.mCurrentVoices ≤ s.mVoices.length)
    (hon : ∀ i : ℕ, i < s.mCurrentVoices → (s.voiceAt (i : ℤ)).mState = VoiceState.kOn) :
    ((s.doNoteOn e scale).voiceAt (s.findNearestVoice (floatToInt e.mValue1))).mState
      = VoiceState.kOn ∧
    ((s.doNoteOn e scale).voiceAt (s.findNearestVoice (floatToInt e.mValue1))).mInstigatorID
      = e.mID ∧
    ((s.doNoteOn e scale).voiceAt (s.findNearestVoice (floatToInt e.mValue1))).mNote
      = floatToInt e.mValue1 ∧
    ((s.doNoteOn e scale).voiceAt (s.findNearestVoice (floatToInt e.mValue1))).mAge = 0 ∧
    ((s.doNoteOn e scale).voiceAt (s.findNearestVoice (floatToInt e.mValue1))).mdGate.mChanges
      = (s.voiceAt (s.findNearestVoice (floatToInt e.mValue1))).mdGate.mChanges ++
        [((0 : ℚ), (if uint64ToInt e.mTime = 0 then 1 else uint64ToInt e.mTime) - 1),
         ((1 : ℚ), (if uint64ToInt e.mTime = 0 then 1 else uint64ToInt e.mTime))] ∧
    ∀ i : ℕ, (i : ℤ) ≠ s.findNearestVoice (floatToInt e.mValue1) →
      (s.doNoteOn e scale).voiceAt (i : ℤ) = s.voiceAt (i : ℤ) := by
  obtain ⟨k, _, hk, _⟩ := findFreeEvent_of_free s.mNoteEventsPlaying hfree
  obtain ⟨v, hvn, hv⟩ := findNearestVoice_range s (floatToInt e.mValue1) hn
  rw [hv]
  have hnooff : ∀ i : ℕ, i < s.mCurrentVoices →
      (s.voiceAt (i : ℤ)).mState ≠ VoiceState.kOff := by
    intro i hi
    rw [hon i hi]
    decide
  have hnosus : ∀ i : ℕ, i < s.mCurrentVoices →
      (s.voiceAt (i : ℤ)).mState ≠ VoiceState.kSustain := by
    intro i hi
    rw [hon i hi]
    decide
  have hv' : v < (s.withPlaying (s.mNoteEventsPlaying.set k e)).mVoices.length := by
    rw [withPlaying_mVoices]
    omega
  have hdo : s.doNoteOn e scale =
      (s.withPlaying (s.mNoteEventsPlaying.set k e)).modifyVoice (v : ℤ)
        (fun voice => voice.stealNoteEvent e scale true) := by
    rw [doNoteOn_plain s e scale hp hu k hk,
      doNoteOnMIDI_steal (s.withPlaying (s.mNoteEventsPlaying.set k e)) e scale hnooff]
    have hr' : (s.withPlaying (s.mNoteEventsPlaying.set k e)).findOldestSustainedVoice = -1 :=
      (findOldestSustainedVoice_eq_neg_one_iff s).2 hnosus
    have hnear : (s.withPlaying (s.mNoteEventsPlaying.set k e)).findNearestVoice
        (floatToInt e.mValue1) = (v : ℤ) := hv
    rw [hr', if_pos (by decide), hnear]
  have hat : ∀ i : ℕ, (s.doNoteOn e scale).voiceAt (i : ℤ) =
      if i = v then (s.voiceAt (v : ℤ)).stealNoteEvent e scale true else s.voiceAt (i : ℤ) := by
    intro i
    rw [hdo, voiceAt_modifyVoice _ v i _ hv']
    rfl
  refine ⟨?_, ?_, ?_, ?_, ?_, ?_⟩
  · rw [hat v, if_pos rfl]
    rfl
  · rw [hat v, if_pos rfl]
    rfl
  · rw [hat v, if_pos rfl]
    rfl
  · rw [hat v, if_pos rfl]
    rfl
  · rw [hat v, if_pos rfl]
    simp [MLVoice.stealNoteEvent, MLChangeList.addChange]
    split <;> simp_all
  · intro i hi
    have hiv : i ≠ v := by
      intro h
      apply hi
      rw [h]
    rw [hat i, if_neg hiv]

/-- C7, witness: four voices holding the notes 60, 64, 67 and 72 (ids 1 to 4);
`NoteOn(id=5, note=65, t=5)` steals voice 1, the one holding 64, with gate changes at the
offsets 4 and 5. -/
theorem doNoteOn_steal_nearest_witness :
    fourVoicesHeld.findNearestVoice (floatToInt (noteOn 5 65 5 1).mValue1) = 1 ∧
    (fourVoicesHeld.voiceAt 1).mNote = 64 ∧
    ((fourVoicesHeld.doNoteOn (noteOn 5 65 5 1) (fun x => x)).voiceAt 1).mdGate.mChanges
      = [((1 : ℚ), (0 : ℤ)), ((0 : ℚ), (4 : ℤ)), ((1 : ℚ), (5 : ℤ))] ∧
    ((fourVoicesHeld.doNoteOn (noteOn 5 65 5 1) (fun x => x)).voiceAt
      (fourVoicesHeld.findNearestVoice (floatToInt (noteOn 5 65 5 1).mValue1))).mInstigatorID
      = (noteOn 5 65 5 1).mID :=
  ⟨by decide, by decide, by decide,
   (doNoteOn_steal_nearest fourVoicesHeld (noteOn 5 65 5 1) (fun x => x)
      (by decide) (by decide) (by decide) (by decide) (by decide) (by decide)).2.1⟩

/-- C7, counterexample.  A note-on at offset 0 on the four held voices: the gate changes
appended to the stolen voice are at the offsets 0 and 1, not at -1 and 0.  And with sixteen
keys held on four voices the pool of playing events is full: every voice is `kOn`, and the
seventeenth note-on is dropped, no voice is stolen. -/
theorem doNoteOn_steal_offsets_and_full_pool :
    (((fourVoicesHeld.doNoteOn (noteOn 5 65 0 1) (fun x => x)).voiceAt 1).mdGate.mChanges
        = (fourVoicesHeld.voiceAt 1).mdGate.mChanges ++ [((0 : ℚ), (0 : ℤ)), ((1 : ℚ), (1 : ℤ))] ∧
      ((fourVoicesHeld.doNoteOn (noteOn 5 65 0 1) (fun x => x)).voiceAt 1).mdGate.mChanges
        ≠ (fourVoicesHeld.voiceAt 1).mdGate.mChanges ++
            [((0 : ℚ), (0 : ℤ) - 1), ((1 : ℚ), (0 : ℤ))]) ∧
    ((∀ i : ℕ, i < sixteenKeysHeld.mCurrentVoices →
        (sixteenKeysHeld.voiceAt (i : ℤ)).mState = VoiceState.kOn) ∧
      sixteenKeysHeld.doNoteOn (noteOn 17 65 5 1) (fun x => x) = sixteenKeysHeld ∧
      ((sixteenKeysHeld.doNoteOn (noteOn 17 65 5 1) (fun x => x)).voiceAt
        (sixteenKeysHeld.findNearestVoice (floatToInt (noteOn 17 65 5 1).mValue1))).mInstigatorID
        ≠ (noteOn 17 65 5 1).mID) := by
  decide

end MLProcInputToSignals

namespace MLProcInputToSignals

/-! ## Unison mode -/

/-- The state of a voice after `addNoteEvent`. -/
theorem addNoteEvent_mState (v : MLVoice) (e : MLControlEvent) (scale : ℚ → ℚ) :
    (v.addNoteEvent e scale).mState =
      match e.mType with
      | EventType.kNoteOn => VoiceState.kOn
      | EventType.kNoteSustain => VoiceState.kSustain
      | _ => VoiceState.kOff := by
  unfold MLVoice.addNoteEvent
  cases e.mType <;> rfl

/-- The instigator of a voice after `addNoteEvent`. -/
theorem addNoteEvent_mInstigatorID (v : MLVoice) (e : MLControlEvent) (scale : ℚ → ℚ) :
    (v.addNoteEvent e scale).mInstigatorID = e.mID := by
  unfold MLVoice.addNoteEvent
  cases e.mType <;> rfl

/-- The note of a voice after `addNoteEvent`. -/
theorem addNoteEvent_mNote (v : MLVoice) (e : MLControlEvent) (scale : ℚ → ℚ) :
    (v.addNoteEvent e scale).mNote =
      floatToInt (match e.mType with
        | EventType.kNoteOn => e.mValue1
        | EventType.kNoteSustain => e.mValue1
        | _ => (v.mNote : ℚ)) := by
  unfold MLVoice.addNoteEvent
  cases e.mType <;> rfl

/-- Two voices that agree on state, instigator and note still do after the same event has
been added to both. -/
theorem addNoteEvent_mirror (v w : MLVoice) (e : MLControlEvent) (scale : ℚ → ℚ)
    (h : v.mState = w.mState ∧ v.mInstigatorID = w.mInstigatorID ∧ v.mNote = w.mNote) :
    (v.addNoteEvent e scale).mState = (w.addNoteEvent e scale).mState ∧
    (v.addNoteEvent e scale).mInstigatorID = (w.addNoteEvent e scale).mInstigatorID ∧
    (v.addNoteEvent e scale).mNote = (w.addNoteEvent e scale).mNote := by
  rw [addNoteEvent_mState, addNoteEvent_mState, addNoteEvent_mInstigatorID,
    addNoteEvent_mInstigatorID, addNoteEvent_mNote, addNoteEvent_mNote, h.2.2]
  exact ⟨rfl, rfl, rfl⟩

/-- Two voices that have stolen the same event agree on state, instigator and note. -/
theorem stealNoteEvent_mirror (v w : MLVoice) (e : MLControlEvent) (scale : ℚ → ℚ)
    (retrig : Bool) :
    (v.stealNoteEvent e scale retrig).mState = (w.stealNoteEvent e scale retrig).mState ∧
    (v.stealNoteEvent e scale retrig).mInstigatorID
      = (w.stealNoteEvent e scale retrig).mInstigatorID ∧
    (v.stealNoteEvent e scale retrig).mNote = (w.stealNoteEvent e scale retrig).mNote := by
  cases retrig <;> exact ⟨rfl, rfl, rfl⟩

/-- The property `Unison` is kept by a loop over the active voices whose body keeps the agreement of two
voices. -/
theorem unison_of_mapFirst (s t : MLProcInputToSignals) (f : MLVoice → MLVoice)
    (ht : t.mVoices = mapFirst f s.mCurrentVoices s.mVoices)
    (hn : t.mCurrentVoices = s.mCurrentVoices)
    (hf : ∀ v w : MLVoice,
      (v.mState = w.mState ∧ v.mInstigatorID = w.mInstigatorID ∧ v.mNote = w.mNote) →
      ((f v).mState = (f w).mState ∧ (f v).mInstigatorID = (f w).mInstigatorID ∧
        (f v).mNote = (f w).mNote))
    (hlen : s.mCurrentVoices ≤ s.mVoices.length) (h : s.Unison) : t.Unison := by
  intro i j hi hj
  rw [hn] at hi hj
  rw [voiceAt_of_mapFirst s t f s.mCurrentVoices i ht,
    voiceAt_of_mapFirst s t f s.mCurrentVoices j ht,
    if_pos ⟨hi, by omega⟩, if_pos ⟨hj, by omega⟩]
  exact hf _ _ (h i j hi hj)

/-- The property `Unison` only reads the voices and the voice count. -/
theorem unison_congr (s t : MLProcInputToSignals) (hv : t.mVoices = s.mVoices)
    (hn : t.mCurrentVoices = s.mCurrentVoices) (h : s.Unison) : t.Unison := by
  intro i j hi hj
  rw [hn] at hi hj
  have hi' : t.voiceAt (i : ℤ) = s.voiceAt (i : ℤ) := by
    rw [voiceAt_natCast, voiceAt_natCast, hv]
  have hj' : t.voiceAt (j : ℤ) = s.voiceAt (j : ℤ) := by
    rw [voiceAt_natCast, voiceAt_natCast, hv]
  rw [hi', hj']
  exact h i j hi hj

/-- In unison mode, a note or pedal event leaves the voices as they are or runs one loop over
the active voices whose body keeps the agreement of two voices; the voice count and the
unison switch are unchanged. -/
theorem unison_step_shape (s : MLProcInputToSignals) (e : MLControlEvent) (scale : ℚ → ℚ)
    (hu : s.mUnisonMode = true) :
    (s.processNoteEvent e scale).mCurrentVoices = s.mCurrentVoices ∧
    (s.processNoteEvent e scale).mUnisonMode = true ∧
    ((s.processNoteEvent e scale).mVoices = s.mVoices ∨
      ∃ f : MLVoice → MLVoice,
        (s.processNoteEvent e scale).mVoices = mapFirst f s.mCurrentVoices s.mVoices ∧
        ∀ v w : MLVoice,
          (v.mState = w.mState ∧ v.mInstigatorID = w.mInstigatorID ∧ v.mNote = w.mNote) →
          ((f v).mState = (f w).mState ∧ (f v).mInstigatorID = (f w).mInstigatorID ∧
            (f v).mNote = (f w).mNote)) := by
  unfold processNoteEvent
  split
  · -- note-on
    unfold doNoteOn
    simp only [withPlaying_mUnisonMode, hu, if_true]
    split
    · exact ⟨rfl, hu, Or.inl rfl⟩
    · unfold doNoteOnUnison
      simp only []
      split
      · refine ⟨rfl, hu, Or.inr ⟨fun voice => voice.addNoteEvent e scale, rfl, ?_⟩⟩
        intro v w h
        exact addNoteEvent_mirror v w e scale h
      · refine ⟨rfl, hu, Or.inr ⟨fun voice => voice.addNoteEvent e scale, rfl, ?_⟩⟩
        intro v w h
        exact addNoteEvent_mirror v w e scale h
  · -- note-off
    unfold doNoteOff
    simp only [withPlaying_mUnisonMode, hu, if_true]
    unfold doNoteOffUnison
    simp only []
    split
    · split
      · refine ⟨rfl, hu, Or.inr ⟨_, rfl, ?_⟩⟩
        intro v w _
        exact stealNoteEvent_mirror v w _ scale mGlissando
      · refine ⟨rfl, hu, Or.inr ⟨_, rfl, ?_⟩⟩
        intro v w h
        exact addNoteEvent_mirror v w _ scale h
    · exact ⟨rfl, hu, Or.inl rfl⟩
  · -- sustain pedal
    unfold doSustain
    simp only []
    split
    · refine ⟨rfl, hu, Or.inr ⟨_, rfl, ?_⟩⟩
      intro v w h
      by_cases hs : v.mState = VoiceState.kSustain
      · have hs' : w.mState = VoiceState.kSustain := by rw [← h.1]; exact hs
        simp only [if_pos hs, if_pos hs']
        exact addNoteEvent_mirror v w _ scale h
      · have hs' : ¬ w.mState = VoiceState.kSustain := by rw [← h.1]; exact hs
        simp only [if_neg hs, if_neg hs']
        exact h
    · exact ⟨rfl, hu, Or.inl rfl⟩
  · exact ⟨rfl, hu, Or.inl rfl⟩

/-- The invariant of unison mode is kept by every sequence of note and pedal events. -/
theorem unison_processNoteEvents (events : List MLControlEvent) (scale : ℚ → ℚ) :
    ∀ s : MLProcInputToSignals, s.mUnisonMode = true →
      s.mCurrentVoices ≤ s.mVoices.length → s.Unison →
      (s.processNoteEvents events scale).Unison := by
  induction events with
  | nil =>
    intro s _ _ h
    exact h
  | cons e es ih =>
    intro s hu hlen h
    obtain ⟨hn, hu', hshape⟩ := unison_step_shape s e scale hu
    have hstep : (s.processNoteEvent e scale).Unison ∧
        (s.processNoteEvent e scale).mVoices.length = s.mVoices.length := by
      rcases hshape with hv | ⟨f, hv, hf⟩
      · exact ⟨unison_congr s _ hv hn h, by rw [hv]⟩
      · exact ⟨unison_of_mapFirst s _ f hv hn hf hlen h, by rw [hv, mapFirst_length]⟩
    show ((s.processNoteEvent e scale).processNoteEvents es scale).Unison
    exact ih _ hu' (by rw [hn, hstep.2]; exact hlen) hstep.1

/-- A cleared object is in unison: every voice is off with instigator 0 and note 0. -/
theorem unison_of_isCleared (s : MLProcInputToSignals) (hc : s.IsCleared) : s.Unison := by
  have hall : ∀ i : ℕ, (s.voiceAt (i : ℤ)).mState = VoiceState.kOff ∧
      (s.voiceAt (i : ℤ)).mInstigatorID = 0 ∧ (s.voiceAt (i : ℤ)).mNote = 0 := by
    intro i
    rw [voiceAt_natCast]
    by_cases hi : i < s.mVoices.length
    · rw [List.getD_eq_getElem _ _ hi]
      obtain ⟨h1, h2, h3, _⟩ := hc.1 _ (List.getElem_mem hi)
      exact ⟨h1, h2, h3⟩
    · have hnone : s.mVoices[i]? = none := List.getElem?_eq_none (by omega)
      simp [List.getD_eq_getElem?_getD, hnone, MLVoice.init]
  intro i j _ _
  obtain ⟨a1, a2, a3⟩ := hall i
  obtain ⟨b1, b2, b3⟩ := hall j
  exact ⟨by rw [a1, b1], by rw [a2, b2], by rw [a3, b3]⟩

/-- C10. In unison mode, starting from a cleared object whose active voices are allocated,
after every sequence of note-on, note-off and sustain-pedal events all active voices (index
below `mCurrentVoices`) have the same state, the same instigator and the same note: they
mirror one logical sounding note. -/
theorem unison_mirror (s : MLProcInputToSignals) (events : List MLControlEvent)
    (scale : ℚ → ℚ) (hu : s.mUnisonMode = true) (hc : s.IsCleared)
    (hlen : s.mCurrentVoices ≤ s.mVoices.length)
    (_hty : ∀ e ∈ events, e.mType = EventType.kNoteOn ∨ e.mType = EventType.kNoteOff ∨
      e.mType = EventType.kSustainPedal) :
    ∀ i j : ℕ, i < s.mCurrentVoices → j < s.mCurrentVoices →
      ((s.processNoteEvents events scale).voiceAt (i : ℤ)).mState
        = ((s.processNoteEvents events scale).voiceAt (j : ℤ)).mState ∧
      ((s.processNoteEvents events scale).voiceAt (i : ℤ)).mInstigatorID
        = ((s.processNoteEvents events scale).voiceAt (j : ℤ)).mInstigatorID ∧
      ((s.processNoteEvents events scale).voiceAt (i : ℤ)).mNote
        = ((s.processNoteEvents events scale).voiceAt (j : ℤ)).mNote := by
  have hcount : ∀ (es : List MLControlEvent) (t : MLProcInputToSignals),
      t.mUnisonMode = true →
      (t.processNoteEvents es scale).mCurrentVoices = t.mCurrentVoices := by
    intro es
    induction es with
    | nil =>
      intro t _
      rfl
    | cons e es ih =>
      intro t ht
      obtain ⟨hn, hu', _⟩ := unison_step_shape t e scale ht
      show ((t.processNoteEvent e scale).processNoteEvents es scale).mCurrentVoices = _
      rw [ih _ hu', hn]
  have h := unison_processNoteEvents events scale s hu hlen (unison_of_isCleared s hc)
  intro i j hi hj
  exact h i j (by rw [hcount events s hu]; exact hi) (by rw [hcount events s hu]; exact hj)

/-- C10, witness: three voices in unison mode; two note-ons, the pedal, the two note-offs in
reverse order and the release of the pedal leave the three voices in the same state, with
the same instigator and note. -/
theorem unison_mirror_witness :
    (((cleared 3 3 InputProtocol.kInputProtocolMIDI true).processNoteEvents
        [noteOn 1 60 0 1, noteOn 2 64 3 1, sustainPedal 127 5, noteOff 2 64 8,
         noteOff 1 60 9, sustainPedal 0 12] (fun x => x)).mVoices.map
        (fun v => (v.mState, v.mInstigatorID, v.mNote)))
      = [(VoiceState.kOff, 0, 60), (VoiceState.kOff, 0, 60), (VoiceState.kOff, 0, 60)] ∧
    (((cleared 3 3 InputProtocol.kInputProtocolMIDI true).processNoteEvents
        [noteOn 1 60 0 1, noteOn 2 64 3 1, sustainPedal 127 5, noteOff 2 64 8,
         noteOff 1 60 9, sustainPedal 0 12] (fun x => x)).voiceAt ((0 : ℕ) : ℤ)).mState
      = (((cleared 3 3 InputProtocol.kInputProtocolMIDI true).processNoteEvents
        [noteOn 1 60 0 1, noteOn 2 64 3 1, sustainPedal 127 5, noteOff 2 64 8,
         noteOff 1 60 9, sustainPedal 0 12] (fun x => x)).voiceAt ((2 : ℕ) : ℤ)).mState :=
  ⟨by decide,
   (unison_mirror (cleared 3 3 InputProtocol.kInputProtocolMIDI true)
      [noteOn 1 60 0 1, noteOn 2 64 3 1, sustainPedal 127 5, noteOff 2 64 8,
       noteOff 1 60 9, sustainPedal 0 12] (fun x => x)
      (by decide) (by decide) (by decide) (by decide) 0 2 (by decide) (by decide)).1⟩

end MLProcInputToSignals

/-! ## Auxiliary lemmas for the allocation invariant -/

/-- Replacing an element that fails `p` by one that satisfies it adds the image of the new
element to the images of the elements satisfying `p`. -/
theorem filter_map_set_perm {α β : Type} (p : α → Bool) (f : α → β) (x : α) (hx : p x = true) :
    ∀ (l : List α) (i : ℕ) (y : α), l[i]? = some y → p y = false →
      List.Perm (((l.set i x).filter p).map f) (f x :: (l.filter p).map f) := by
  intro l
  induction l with
  | nil =>
    intro i y h _
    simp at h
  | cons a as ih =>
    intro i y h hy
    cases i with
    | zero =>
      simp only [List.getElem?_cons_zero, Option.some.injEq] at h
      subst h
      simp [List.filter_cons, hx, hy]
    | succ j =>
      simp only [List.getElem?_cons_succ] at h
      have ih' := ih j y h hy
      simp only [List.set_cons_succ, List.filter_cons]
      by_cases ha : p a = true
      · simp only [ha, if_true, List.map_cons]
        exact (List.Perm.cons (f a) ih').trans (List.Perm.swap (f x) (f a) _)
      · simp only [ha, if_false, Bool.false_eq_true]
        exact ih'

/-- The images of the elements satisfying `p` after a map `g` that makes the elements of
image `x` fail `p` and leaves the others alone. -/
theorem filter_map_clear {α : Type} (p : α → Bool) (f : α → ℤ) (g : α → α) (x : ℤ)
    (hgx : ∀ a, f a = x → p (g a) = false) (hg : ∀ a, f a ≠ x → g a = a) (l : List α) :
    ((l.map g).filter p).map f = ((l.filter p).map f).filter (fun i => decide (i ≠ x)) := by
  induction l with
  | nil => rfl
  | cons a as ih =>
    simp only [List.map_cons, List.filter_cons]
    by_cases hax : f a = x
    · rw [hgx a hax]
      simp only [Bool.false_eq_true, if_false]
      by_cases ha : p a = true
      · simp only [ha, if_true, List.map_cons, List.filter_cons, hax, ne_eq, not_true_eq_false,
          decide_False, Bool.false_eq_true, if_false]
        exact ih
      · simp only [ha, if_false]
        exact ih
    · rw [hg a hax]
      by_cases ha : p a = true
      · simp only [ha, if_true, List.map_cons, List.filter_cons, ne_eq, hax, not_false_eq_true,
          decide_True]
        rw [ih]
      · simp only [ha, if_false]
        exact ih

/-- A loop over the first `n` elements of a list of length at most `n` is a map. -/
theorem mapFirst_eq_map {α : Type} (f : α → α) :
    ∀ (n : ℕ) (l : List α), l.length ≤ n → mapFirst f n l = l.map f := by
  intro n
  induction n with
  | zero =>
    intro l h
    have : l = [] := List.length_eq_zero.mp (by omega)
    subst this
    rfl
  | succ n ih =>
    intro l h
    cases l with
    | nil => rfl
    | cons x xs =>
      simp only [mapFirst, List.map_cons]
      rw [ih xs (by simpa using h)]

/-- An element read with a default is the default or an element of the list. -/
theorem getD_eq_or_mem {α : Type} (l : List α) (k : ℕ) (d : α) :
    l.getD k d = d ∨ l.getD k d ∈ l := by
  by_cases hk : k < l.length
  · right
    rw [List.getD_eq_getElem _ _ hk]
    exact List.getElem_mem hk
  · left
    have hnone : l[k]? = none := List.getElem?_eq_none (by omega)
    simp [List.getD_eq_getElem?_getD, hnone]

/-- A property of `kMLNullControlEvent` and of every event of a stack is a property of every
event left by the compaction loop. -/
theorem compact_forall (P : MLControlEvent → Prop) (h0 : P kMLNullControlEvent)
    (i currentSize : ℕ) (d : List MLControlEvent) (hd : ∀ ev ∈ d, P ev) :
    ∀ ev ∈ MLControlEventStack.compact d i currentSize, P ev := by
  unfold MLControlEventStack.compact
  generalize List.range (currentSize - 1 - i) = ks
  induction ks generalizing d with
  | nil => exact hd
  | cons k ks ih =>
    simp only [List.foldl_cons]
    apply ih
    intro ev hev
    rcases List.mem_or_eq_of_mem_set hev with h | h
    · exact hd ev h
    · rw [h]
      rcases getD_eq_or_mem d (i + k + 1) kMLNullControlEvent with h1 | h1
      · rw [h1]
        exact h0
      · exact hd _ h1

/-- A property of `kMLNullControlEvent` and of every event of a stack is a property of every
event left by the outer loop of `clearEventsMatchingID`. -/
theorem clearLoop_forall (P : MLControlEvent → Prop) (h0 : P kMLNullControlEvent)
    (id : ℤ) (currentSize : ℕ) :
    ∀ (k i : ℕ) (st : MLControlEventStack), (∀ ev ∈ st.data, P ev) →
      ∀ ev ∈ (MLControlEventStack.clearLoop id currentSize k i st).data, P ev := by
  intro k
  induction k with
  | zero =>
    intro i st hst
    exact hst
  | succ k ih =>
    intro i st hst
    unfold MLControlEventStack.clearLoop
    have hd3 : ∀ ev ∈ (MLControlEventStack.compact (st.data.set i kMLNullControlEvent) i
        currentSize).set (currentSize - 1) kMLNullControlEvent, P ev := by
      intro ev hev
      rcases List.mem_or_eq_of_mem_set hev with h | h
      · refine compact_forall P h0 i currentSize _ ?_ ev h
        intro ev' hev'
        rcases List.mem_or_eq_of_mem_set hev' with h' | h'
        · exact hst ev' h'
        · rw [h']
          exact h0
      · rw [h]
        exact h0
    split
    · simp only []
      split
      · exact hd3
      · exact ih _ _ hd3
    · exact ih _ _ hst

/-- A property of `kMLNullControlEvent` and of every event of a stack is a property of every
event of the stack after `clearEventsMatchingID`. -/
theorem clearEventsMatchingID_forall (P : MLControlEvent → Prop) (h0 : P kMLNullControlEvent)
    (st : MLControlEventStack) (id : ℤ) (hst : ∀ ev ∈ st.data, P ev) :
    ∀ ev ∈ (st.clearEventsMatchingID id).data, P ev :=
  clearLoop_forall P h0 id st.mSize st.mSize 0 st hst

/-- The event popped from a stack is `kMLNullControlEvent` or an event of the stack, and the
events of the stack are left in place. -/
theorem pop_spec (st : MLControlEventStack) :
    (st.pop.1 = kMLNullControlEvent ∨ st.pop.1 ∈ st.data) ∧ st.pop.2.data = st.data := by
  unfold MLControlEventStack.pop
  split
  · exact ⟨getD_eq_or_mem _ _ _, rfl⟩
  · exact ⟨Or.inl rfl, rfl⟩

/-- A prefix of a sequence of events within the bound is within the bound. -/
theorem heldWithin_take (n : ℕ) :
    ∀ (events : List MLControlEvent) (held : List ℤ) (k : ℕ),
      HeldWithin n held events → HeldWithin n held (events.take k) := by
  intro events
  induction events with
  | nil =>
    intro held k h
    simpa using h
  | cons e es ih =>
    intro held k h
    cases k with
    | zero => exact trivial
    | succ k =>
      obtain ⟨h1, h2, h3⟩ := h
      exact ⟨h1, h2, ih _ k h3⟩

namespace MLProcInputToSignals

/-! ## The allocation invariant of the plain protocol -/

/-- The result of `findFreeVoice` when some active voice is off: an active voice that is off is returned
and `mVoiceRotateOffset` is incremented. -/
theorem findFreeVoice_some (s : MLProcInputToSignals)
    (h : ∃ i : ℕ, i < s.mCurrentVoices ∧ (s.voiceAt (i : ℤ)).mState = VoiceState.kOff) :
    ∃ v : ℕ, v < s.mCurrentVoices ∧
      s.findFreeVoice = ((v : ℤ), s.withRotateOffset (s.mVoiceRotateOffset + 1)) ∧
      (s.voiceAt (v : ℤ)).mState = VoiceState.kOff := by
  unfold findFreeVoice
  rcases findFreeVoiceFrom_spec s s.mCurrentVoices 0 with ⟨_, _, h3⟩ | ⟨j, _, hj2, h1, h2, h3, _⟩
  · obtain ⟨i, hi, hoff⟩ := h
    obtain ⟨j, hj, hji⟩ := rotate_surj s.mCurrentVoices s.mVoiceRotateOffset i hi
    have := h3 j (Nat.zero_le j) (by omega)
    rw [hji] at this
    exact absurd hoff this
  · have hn : 0 < s.mCurrentVoices := by omega
    exact ⟨_, Nat.mod_lt _ hn, Prod.ext h1 h2, h3⟩

/-- The active voices are the voices of index below `mCurrentVoices`. -/
theorem mem_activeVoices (s : MLProcInputToSignals) (v : MLVoice) (hv : v ∈ s.activeVoices) :
    ∃ i : ℕ, i < s.mCurrentVoices ∧ i < s.mVoices.length ∧ s.mVoices[i]? = some v ∧
      s.voiceAt (i : ℤ) = v := by
  unfold activeVoices at hv
  obtain ⟨i, hi, hiv⟩ := List.mem_take_iff_getElem.mp hv
  have hi1 : i < s.mCurrentVoices := by omega
  have hi2 : i < s.mVoices.length := by omega
  refine ⟨i, hi1, hi2, ?_, ?_⟩
  · rw [List.getElem?_eq_getElem hi2, hiv]
  · rw [voiceAt_natCast, List.getD_eq_getElem _ _ hi2, hiv]

/-- The step "activate pending notes" when no pending event has a positive `mValue1`: no
voice steals, only the pending stack changes, and its events stay in place. -/
theorem activatePending_shape (s : MLProcInputToSignals) (voiceReleased : ℤ) (scale : ℚ → ℚ)
    (hpend : ∀ ev ∈ s.mNoteEventsPending.data, ¬ (ev.mValue1 > 0)) :
    ∃ st : MLControlEventStack, s.activatePending voiceReleased scale = s.withPending st ∧
      st.data = s.mNoteEventsPending.data := by
  unfold activatePending
  split
  · obtain ⟨hpop, hdata⟩ := pop_spec s.mNoteEventsPending
    have hnot : ¬ (s.mNoteEventsPending.pop.1.mValue1 > 0) := by
      rcases hpop with h | h
      · rw [h]
        decide
      · exact hpend _ h
    simp only [if_neg hnot]
    exact ⟨_, rfl, hdata⟩
  · exact ⟨s.mNoteEventsPending, rfl, rfl⟩

/-- The plain branch of `doNoteOff` with the pedal up when no pending event has a positive
`mValue1`: the active voices whose instigator is the id of the event receive a note-off, and
the pending stack still holds no event of positive `mValue1`. -/
theorem doNoteOffMIDI_shape (s : MLProcInputToSignals) (e : MLControlEvent) (scale : ℚ → ℚ)
    (hs : s.mSustainPedal = false)
    (hpend : ∀ ev ∈ s.mNoteEventsPending.data, ¬ (ev.mValue1 > 0)) :
    ∃ st : MLControlEventStack,
      s.doNoteOffMIDI e scale =
        (s.forActiveVoices
          (fun voice =>
            if voice.mInstigatorID = e.mID then
              voice.addNoteEvent { e with mType := EventType.kNoteOff } scale
            else voice)).withPending st ∧
      ∀ ev ∈ st.data, ¬ (ev.mValue1 > 0) := by
  have hnull : ¬ (kMLNullControlEvent.mValue1 > 0) := by decide
  have hsend : s.eventToSend e = { e with mType := EventType.kNoteOff } := by
    simp [eventToSend, newEventType, hs]
  have htype : s.newEventType = EventType.kNoteOff := by
    simp [newEventType, hs]
  unfold doNoteOffMIDI
  simp only [hsend, htype, if_true]
  obtain ⟨st, hact, hdata⟩ := activatePending_shape
    (s.forActiveVoices
      (fun voice =>
        if voice.mInstigatorID = e.mID then
          voice.addNoteEvent { e with mType := EventType.kNoteOff } scale
        else voice))
    (s.lastVoiceMatching e.mID) scale hpend
  split
  · rw [hact]
    refine ⟨_, rfl, ?_⟩
    refine clearEventsMatchingID_forall (fun ev => ¬ (ev.mValue1 > 0)) hnull _ _ ?_
    intro ev hev
    have hev' : ev ∈ st.data := hev
    rw [hdata] at hev'
    exact hpend ev hev'
  · refine ⟨_, rfl, ?_⟩
    exact clearEventsMatchingID_forall (fun ev => ¬ (ev.mValue1 > 0)) hnull _ _ hpend

/-- The invariant is kept by a note-on whose id is not held, as long as fewer notes are held
than there are active voices and events in the pool. -/
theorem plainInv_doNoteOn (s : MLProcInputToSignals) (held : List ℤ) (e : MLControlEvent)
    (scale : ℚ → ℚ) (hinv : s.PlainInv held) (hty : e.mType = EventType.kNoteOn)
    (hnew : e.mID ∉ held) (hroom : held.length < s.mCurrentVoices)
    (hmax : s.mCurrentVoices ≤ kMaxEvents) :
    (s.doNoteOn e scale).PlainInv (e.mID :: held) ∧
    (s.doNoteOn e scale).mCurrentVoices = s.mCurrentVoices := by
  -- a free slot of the pool
  have hpl : (s.mNoteEventsPlaying.filter
      (fun ev => decide (ev.mType ≠ EventType.kNull))).length = held.length := by
    have := hinv.poolIds.length_eq
    simpa [playingIds] using this
  have hfree : ∃ ev ∈ s.mNoteEventsPlaying, ev.mType = EventType.kNull := by
    have hlt : (s.mNoteEventsPlaying.filter
        (fun ev => decide (ev.mType ≠ EventType.kNull))).length
        < s.mNoteEventsPlaying.length := by
      rw [hpl, hinv.poolSize]
      omega
    obtain ⟨ev, hev, hnot⟩ := List.length_filter_lt_length_iff_exists.mp hlt
    exact ⟨ev, hev, by simpa using hnot⟩
  obtain ⟨k, hk, hkfree, hknull⟩ := findFreeEvent_of_free s.mNoteEventsPlaying hfree
  -- an active voice that is off
  have hon : (s.activeVoices.filter (fun v => decide (v.mState = VoiceState.kOn))).length
      = held.length := by
    have := hinv.onIds.length_eq
    simpa [onVoiceIds] using this
  have hact : s.activeVoices.length = s.mCurrentVoices := by
    unfold activeVoices
    rw [List.length_take]
    exact Nat.min_eq_left hinv.allocated
  have hoff : ∃ i : ℕ, i < s.mCurrentVoices ∧
      (s.voiceAt (i : ℤ)).mState = VoiceState.kOff := by
    have hlt : (s.activeVoices.filter (fun v => decide (v.mState = VoiceState.kOn))).length
        < s.activeVoices.length := by
      rw [hon, hact]
      exact hroom
    obtain ⟨v, hv, hnot⟩ := List.length_filter_lt_length_iff_exists.mp hlt
    obtain ⟨i, hi, _, _, hiv⟩ := mem_activeVoices s v hv
    refine ⟨i, hi, ?_⟩
    rw [hiv]
    have h1 : v.mState ≠ VoiceState.kOn := by simpa using hnot
    have h2 := hinv.noSustain v hv
    cases hstate : v.mState with
    | kOff => rfl
    | kOn => exact absurd hstate h1
    | kSustain => exact absurd hstate h2
  obtain ⟨v, hv, hfind, hvoff⟩ :=
    findFreeVoice_some (s.withPlaying (s.mNoteEventsPlaying.set k e)) hoff
  have hvlen : v < s.mVoices.length := by
    have := hinv.allocated
    have hv' : v < s.mCurrentVoices := hv
    omega
  -- the object after the note-on
  have hdo : s.doNoteOn e scale =
      ((s.withPlaying (s.mNoteEventsPlaying.set k e)).withRotateOffset
        (s.mVoiceRotateOffset + 1)).withVoices
        (s.mVoices.set v ((s.mVoices.getD v MLVoice.init).addNoteEvent e scale)) := by
    rw [doNoteOn_plain s e scale hinv.protocol hinv.unison k hkfree]
    unfold doNoteOnMIDI
    rw [hfind]
    have hge : ((v : ℤ) ≥ 0) := by omega
    simp only [if_pos hge, modifyVoice_natCast, withRotateOffset_mVoices, withPlaying_mVoices,
      if_pos hvlen]
    rfl
  have hvget : s.mVoices[v]? = some (s.mVoices.getD v MLVoice.init) := by
    rw [List.getD_eq_getElem _ _ hvlen, List.getElem?_eq_getElem hvlen]
  have hvoff' : (s.mVoices.getD v MLVoice.init).mState = VoiceState.kOff := by
    have := hvoff
    rwa [voiceAt_natCast] at this
  have hnewon : ((s.mVoices.getD v MLVoice.init).addNoteEvent e scale).mState
      = VoiceState.kOn := by
    rw [addNoteEvent_mState, hty]
  have hactive : (s.doNoteOn e scale).activeVoices
      = s.activeVoices.set v ((s.mVoices.getD v MLVoice.init).addNoteEvent e scale) := by
    rw [hdo]
    unfold activeVoices
    simp only [withVoices_mVoices, withVoices_mCurrentVoices, withRotateOffset_mCurrentVoices,
      withPlaying_mCurrentVoices]
    exact List.set_take
  have hvtake : s.activeVoices[v]? = some (s.mVoices.getD v MLVoice.init) := by
    unfold activeVoices
    have hv' : v < s.mCurrentVoices := hv
    rw [List.getElem?_take, if_pos hv', hvget]
  refine ⟨?_, ?_⟩
  · refine
      { protocol := ?_, unison := ?_, pedal := ?_, allocated := ?_, noSustain := ?_,
        onIds := ?_, poolSize := ?_, poolIds := ?_, pending := ?_, distinct := ?_ }
    · rw [hdo]
      exact hinv.protocol
    · rw [hdo]
      exact hinv.unison
    · rw [hdo]
      exact hinv.pedal
    · rw [hdo]
      simp only [withVoices_mVoices, withVoices_mCurrentVoices, withRotateOffset_mCurrentVoices,
        withPlaying_mCurrentVoices, List.length_set]
      exact hinv.allocated
    · intro w hw
      rw [hactive] at hw
      rcases List.mem_or_eq_of_mem_set hw with h | h
      · exact hinv.noSustain w h
      · rw [h, hnewon]
        decide
    · unfold onVoiceIds
      rw [hactive]
      have hperm := filter_map_set_perm (fun v => decide (v.mState = VoiceState.kOn))
        (fun v => v.mInstigatorID)
        ((s.mVoices.getD v MLVoice.init).addNoteEvent e scale)
        (by show decide (_ = VoiceState.kOn) = true; rw [hnewon]; rfl)
        s.activeVoices v _ hvtake
        (by show decide (_ = VoiceState.kOn) = false; rw [hvoff']; rfl)
      simp only [addNoteEvent_mInstigatorID] at hperm
      exact hperm.trans (List.Perm.cons _ hinv.onIds)
    · rw [hdo]
      simp only [withVoices_mNoteEventsPlaying, withRotateOffset_mNoteEventsPlaying,
        withPlaying_mNoteEventsPlaying, List.length_set]
      exact hinv.poolSize
    · unfold playingIds
      rw [hdo]
      simp only [withVoices_mNoteEventsPlaying, withRotateOffset_mNoteEventsPlaying,
        withPlaying_mNoteEventsPlaying]
      have hkget : s.mNoteEventsPlaying[k]?
          = some (s.mNoteEventsPlaying.getD k kMLNullControlEvent) := by
        rw [List.getD_eq_getElem _ _ hk, List.getElem?_eq_getElem hk]
      have hperm := filter_map_set_perm (fun ev => decide (ev.mType ≠ EventType.kNull))
        (fun ev => ev.mID) e
        (by show decide (_ ≠ EventType.kNull) = true; rw [hty]; rfl)
        s.mNoteEventsPlaying k _ hkget
        (by show decide (_ ≠ EventType.kNull) = false; rw [hknull]; rfl)
      exact hperm.trans (List.Perm.cons _ hinv.poolIds)
    · rw [hdo]
      exact hinv.pending
    · exact List.nodup_cons.mpr ⟨hnew, hinv.distinct⟩
  · rw [hdo]
    rfl

/-- The invariant is kept by a note-off, of a held note or not. -/
theorem plainInv_doNoteOff (s : MLProcInputToSignals) (held : List ℤ) (e : MLControlEvent)
    (scale : ℚ → ℚ) (hinv : s.PlainInv held) :
    (s.doNoteOff e scale).PlainInv (held.filter (fun i => decide (i ≠ e.mID))) ∧
    (s.doNoteOff e scale).mCurrentVoices = s.mCurrentVoices := by
  obtain ⟨st, hshape, hst⟩ := doNoteOffMIDI_shape
    (s.withPlaying (clearPlaying s.mNoteEventsPlaying e.mID)) e scale hinv.pedal hinv.pending
  have hdo : s.doNoteOff e scale =
      ((s.withPlaying (clearPlaying s.mNoteEventsPlaying e.mID)).forActiveVoices
        (fun voice =>
          if voice.mInstigatorID = e.mID then
            voice.addNoteEvent { e with mType := EventType.kNoteOff } scale
          else voice)).withPending st := by
    rw [← hshape]
    simp only [doNoteOff, withPlaying_mUnisonMode, withPlaying_mProtocol, hinv.unison,
      hinv.protocol]
    rfl
  have hoffstate : ∀ a : MLVoice,
      (a.addNoteEvent { e with mType := EventType.kNoteOff } scale).mState
        = VoiceState.kOff := by
    intro a
    rw [addNoteEvent_mState]
  have hactive : (s.doNoteOff e scale).activeVoices =
      s.activeVoices.map
        (fun voice =>
          if voice.mInstigatorID = e.mID then
            voice.addNoteEvent { e with mType := EventType.kNoteOff } scale
          else voice) := by
    rw [hdo]
    unfold activeVoices
    simp only [withPending_mVoices, withPending_mCurrentVoices, forActiveVoices_eq,
      withVoices_mVoices, withVoices_mCurrentVoices, withPlaying_mVoices,
      withPlaying_mCurrentVoices]
    exact mapFirst_take _ _ _
  have hpool : (s.doNoteOff e scale).mNoteEventsPlaying =
      s.mNoteEventsPlaying.map
        (fun event => if event.mID = e.mID then event.clear else event) := by
    rw [hdo]
    simp only [withPending_mNoteEventsPlaying, forActiveVoices_eq,
      withVoices_mNoteEventsPlaying, withPlaying_mNoteEventsPlaying]
    unfold clearPlaying
    exact mapFirst_eq_map _ _ _ (le_of_eq hinv.poolSize)
  refine ⟨?_, ?_⟩
  · refine
      { protocol := ?_, unison := ?_, pedal := ?_, allocated := ?_, noSustain := ?_,
        onIds := ?_, poolSize := ?_, poolIds := ?_, pending := ?_, distinct := ?_ }
    · rw [hdo]
      exact hinv.protocol
    · rw [hdo]
      exact hinv.unison
    · rw [hdo]
      exact hinv.pedal
    · rw [hdo]
      simp only [withPending_mVoices, withPending_mCurrentVoices, forActiveVoices_eq,
        withVoices_mVoices, withVoices_mCurrentVoices, withPlaying_mVoices,
        withPlaying_mCurrentVoices, mapFirst_length]
      exact hinv.allocated
    · intro w hw
      rw [hactive] at hw
      obtain ⟨a, ha, haw⟩ := List.mem_map.mp hw
      rw [← haw]
      by_cases hid : a.mInstigatorID = e.mID
      · simp only [if_pos hid]
        rw [hoffstate a]
        decide
      · simp only [if_neg hid]
        exact hinv.noSustain a ha
    · unfold onVoiceIds
      rw [hactive]
      rw [filter_map_clear (fun v => decide (v.mState = VoiceState.kOn))
        (fun v => v.mInstigatorID) _ e.mID ?_ ?_ s.activeVoices]
      · exact hinv.onIds.filter _
      · intro a ha
        simp only [if_pos ha]
        rw [hoffstate a]
        decide
      · intro a ha
        simp only [if_neg ha]
    · rw [hpool, List.length_map]
      exact hinv.poolSize
    · unfold playingIds
      rw [hpool]
      rw [filter_map_clear (fun ev => decide (ev.mType ≠ EventType.kNull))
        (fun ev => ev.mID) _ e.mID ?_ ?_ s.mNoteEventsPlaying]
      · exact hinv.poolIds.filter _
      · intro a ha
        simp only [if_pos ha]
        rfl
      · intro a ha
        simp only [if_neg ha]
    · rw [hdo]
      exact hst
    · exact hinv.distinct.filter _
  · rw [hdo]
    rfl

end MLProcInputToSignals

namespace MLProcInputToSignals

/-- A cleared object of the plain protocol with unison off, the pedal up and its active
voices allocated satisfies the invariant with no note held. -/
theorem plainInv_of_isCleared (s : MLProcInputToSignals)
    (hp : s.mProtocol = InputProtocol.kInputProtocolMIDI) (hu : s.mUnisonMode = false)
    (hs : s.mSustainPedal = false) (hc : s.IsCleared)
    (hlen : s.mCurrentVoices ≤ s.mVoices.length) : s.PlainInv [] := by
  obtain ⟨hvoices, hpool, hpend⟩ := hc
  have hoff : ∀ v ∈ s.activeVoices, v.mState = VoiceState.kOff := by
    intro v hv
    exact (hvoices v (List.mem_of_mem_take hv)).1
  refine
    { protocol := hp, unison := hu, pedal := hs, allocated := hlen, noSustain := ?_,
      onIds := ?_, poolSize := ?_, poolIds := ?_, pending := ?_, distinct := List.nodup_nil }
  · intro v hv
    rw [hoff v hv]
    decide
  · have hnil : s.onVoiceIds = [] := by
      unfold onVoiceIds
      rw [List.map_eq_nil_iff, List.filter_eq_nil_iff]
      intro v hv
      rw [hoff v hv]
      decide
    rw [hnil]
  · rw [hpool, List.length_replicate]
  · have hnil : s.playingIds = [] := by
      unfold playingIds
      rw [List.map_eq_nil_iff, List.filter_eq_nil_iff, hpool]
      intro ev hev
      rw [List.eq_of_mem_replicate hev]
      decide
    rw [hnil]
  · intro ev hev
    rw [hpend] at hev
    rw [List.eq_of_mem_replicate hev]
    decide

/-- The invariant is kept along every sequence of note-on and note-off events within the
bound, and the voice count does not change. -/
theorem plainInv_processNoteEvents (scale : ℚ → ℚ) :
    ∀ (events : List MLControlEvent) (s : MLProcInputToSignals) (held : List ℤ),
      s.PlainInv held → s.mCurrentVoices ≤ kMaxEvents →
      HeldWithin s.mCurrentVoices held events →
      (s.processNoteEvents events scale).PlainInv (heldAfter held events) ∧
      (s.processNoteEvents events scale).mCurrentVoices = s.mCurrentVoices := by
  intro events
  induction events with
  | nil =>
    intro s held hinv _ _
    exact ⟨hinv, rfl⟩
  | cons e es ih =>
    intro s held hinv hmax hev
    obtain ⟨hty, hon, hrest⟩ := hev
    have hstep : (s.processNoteEvent e scale).PlainInv (heldStep held e) ∧
        (s.processNoteEvent e scale).mCurrentVoices = s.mCurrentVoices := by
      rcases hty with hty | hty
      · obtain ⟨hnew, hroom⟩ := hon hty
        have h1 : s.processNoteEvent e scale = s.doNoteOn e scale := by
          simp only [processNoteEvent, hty]
        have h2 : heldStep held e = e.mID :: held := by
          simp only [heldStep, hty]
        rw [h1, h2]
        exact plainInv_doNoteOn s held e scale hinv hty hnew hroom hmax
      · have h1 : s.processNoteEvent e scale = s.doNoteOff e scale := by
          simp only [processNoteEvent, hty]
        have h2 : heldStep held e = held.filter (fun i => decide (i ≠ e.mID)) := by
          simp only [heldStep, hty]
        rw [h1, h2]
        exact plainInv_doNoteOff s held e scale hinv
    obtain ⟨hinv', hn'⟩ := hstep
    have := ih (s.processNoteEvent e scale) (heldStep held e) hinv'
      (by rw [hn']; exact hmax) (by rw [hn']; exact hrest)
    obtain ⟨h3, h4⟩ := this
    exact ⟨h3, by rw [← hn']; exact h4⟩

/-- C1. In the plain protocol with unison off and the pedal up, starting from a cleared
object with `n = mCurrentVoices` active voices, all allocated (`n` is at most `kMaxEvents`;
`doParams` clamps it to 15): for every sequence of note-on and note-off events in which the
ids of concurrently held notes are pairwise distinct and at most `n` notes are held at once,
after every event (after every prefix of the sequence) each held id is the instigator of
exactly one active voice in state `kOn`, and no two voices in state `kOn` share an
instigator. -/
theorem plain_allocation (s : MLProcInputToSignals) (events : List MLControlEvent)
    (scale : ℚ → ℚ) (hp : s.mProtocol = InputProtocol.kInputProtocolMIDI)
    (hu : s.mUnisonMode = false) (hs : s.mSustainPedal = false) (hc : s.IsCleared)
    (hlen : s.mCurrentVoices ≤ s.mVoices.length) (hmax : s.mCurrentVoices ≤ kMaxEvents)
    (hev : HeldWithin s.mCurrentVoices [] events) :
    ∀ k : ℕ, k ≤ events.length →
      (∀ id ∈ heldAfter [] (events.take k),
        (s.processNoteEvents (events.take k) scale).onVoiceIds.count id = 1) ∧
      (s.processNoteEvents (events.take k) scale).onVoiceIds.Nodup := by
  intro k _
  obtain ⟨hinv, _⟩ := plainInv_processNoteEvents scale (events.take k) s []
    (plainInv_of_isCleared s hp hu hs hc hlen) hmax
    (heldWithin_take s.mCurrentVoices events [] k hev)
  have hnodup : (s.processNoteEvents (events.take k) scale).onVoiceIds.Nodup :=
    hinv.onIds.nodup_iff.mpr hinv.distinct
  refine ⟨?_, hnodup⟩
  intro id hid
  exact List.count_eq_one_of_mem hnodup (hinv.onIds.mem_iff.mpr hid)

/-- C1, witness: four voices, `NoteOn(id=1, note=60, t=0)` goes to voice 0,
`NoteOn(id=2, note=64, t=0)` to voice 1, and `NoteOff(id=1, t=10)` turns voice 0 off; after
the three events the only voice that is on is the one of the held id 2. -/
theorem plain_allocation_witness :
    (((cleared 4 4 InputProtocol.kInputProtocolMIDI false).processNoteEvents
        [noteOn 1 60 0 1, noteOn 2 64 0 1] (fun x => x)).mVoices.map
        (fun v => (v.mState, v.mInstigatorID)))
      = [(VoiceState.kOn, 1), (VoiceState.kOn, 2), (VoiceState.kOff, 0), (VoiceState.kOff, 0)] ∧
    heldAfter [] [noteOn 1 60 0 1, noteOn 2 64 0 1, noteOff 1 60 10] = [2] ∧
    ((cleared 4 4 InputProtocol.kInputProtocolMIDI false).processNoteEvents
        ([noteOn 1 60 0 1, noteOn 2 64 0 1, noteOff 1 60 10].take 3)
        (fun x => x)).onVoiceIds.count 2 = 1 :=
  ⟨by decide, by decide,
   (plain_allocation (cleared 4 4 InputProtocol.kInputProtocolMIDI false)
      [noteOn 1 60 0 1, noteOn 2 64 0 1, noteOff 1 60 10] (fun x => x)
      (by decide) (by decide) (by decide) (by decide) (by decide) (by decide)
      (by decide) 3 (by decide)).1 2 (by decide)⟩

end MLProcInputToSignals

/-! ## The voice: note events -/

/-- C13. For every note-on event `e` with offset `t`, `addNoteEvent` sets the state of the
voice to `kOn`, its instigator to `e.mID`, its note to `e.mValue1` (converted to `int`, so to
`k` when `e.mValue1` is the integer `k`) and its age to 0, and appends a change to 1 at
offset `t` to the gate list, a change to `scale e.mValue1` at offset `t` to the pitch list
and a change to `e.mValue2` at offset `t` to the velocity list, leaving the pitch-bend, the
two pressure and the three modulation lists unchanged. -/
theorem addNoteEvent_noteOn (v : MLVoice) (e : MLControlEvent) (scale : ℚ → ℚ)
    (hty : e.mType = EventType.kNoteOn) :
    (v.addNoteEvent e scale).mState = VoiceState.kOn ∧
    (v.addNoteEvent e scale).mInstigatorID = e.mID ∧
    (v.addNoteEvent e scale).mNote = floatToInt e.mValue1 ∧
    (∀ k : ℤ, e.mValue1 = (k : ℚ) → (v.addNoteEvent e scale).mNote = k) ∧
    (v.addNoteEvent e scale).mAge = 0 ∧
    (v.addNoteEvent e scale).mdGate.mChanges
      = v.mdGate.mChanges ++ [((1 : ℚ), uint64ToInt e.mTime)] ∧
    (v.addNoteEvent e scale).mdPitch.mChanges
      = v.mdPitch.mChanges ++ [(scale e.mValue1, uint64ToInt e.mTime)] ∧
    (v.addNoteEvent e scale).mdVel.mChanges
      = v.mdVel.mChanges ++ [(e.mValue2, uint64ToInt e.mTime)] ∧
    (v.addNoteEvent e scale).mdPitchBend = v.mdPitchBend ∧
    (v.addNoteEvent e scale).mdNotePressure = v.mdNotePressure ∧
    (v.addNoteEvent e scale).mdChannelPressure = v.mdChannelPressure ∧
    (v.addNoteEvent e scale).mdMod = v.mdMod ∧
    (v.addNoteEvent e scale).mdMod2 = v.mdMod2 ∧
    (v.addNoteEvent e scale).mdMod3 = v.mdMod3 := by
  have hnote : (v.addNoteEvent e scale).mNote = floatToInt e.mValue1 := by
    simp [MLVoice.addNoteEvent, hty]
  refine ⟨?_, ?_, hnote, ?_, ?_, ?_, ?_, ?_, ?_, ?_, ?_, ?_, ?_, ?_⟩
  · simp [MLVoice.addNoteEvent, hty]
  · simp [MLVoice.addNoteEvent, hty]
  · intro k hk
    rw [hnote, hk, floatToInt_intCast]
  · simp [MLVoice.addNoteEvent, hty]
  · simp [MLVoice.addNoteEvent, hty, MLChangeList.addChange]
  · simp [MLVoice.addNoteEvent, hty, MLChangeList.addChange]
  · simp [MLVoice.addNoteEvent, hty, MLChangeList.addChange]
  · simp [MLVoice.addNoteEvent, hty]
  · simp [MLVoice.addNoteEvent, hty]
  · simp [MLVoice.addNoteEvent, hty]
  · simp [MLVoice.addNoteEvent, hty]
  · simp [MLVoice.addNoteEvent, hty]
  · simp [MLVoice.addNoteEvent, hty]

/-- C13, witness: `NoteOn(id=1, note=60, t=0)` with velocity 1 on a fresh voice. -/
theorem addNoteEvent_noteOn_witness :
    (MLVoice.init.addNoteEvent (noteOn 1 60 0 1) (fun x => x)).mState = VoiceState.kOn ∧
    (MLVoice.init.addNoteEvent (noteOn 1 60 0 1) (fun x => x)).mNote = 60 ∧
    (MLVoice.init.addNoteEvent (noteOn 1 60 0 1) (fun x => x)).mdGate.mChanges
      = [((1 : ℚ), (0 : ℤ))] :=
  ⟨(addNoteEvent_noteOn MLVoice.init (noteOn 1 60 0 1) (fun x => x) (by decide)).1,
   by decide, by decide⟩

/-- C14. For every note-off event `e` with offset `t`, `addNoteEvent` sets the state of the
voice to `kOff` and its age to 0, keeps its note, appends a change to 0 at offset `t` to the
gate, the note-pressure and the channel-pressure list, and appends nothing to the pitch and
the velocity list. -/
theorem addNoteEvent_noteOff (v : MLVoice) (e : MLControlEvent) (scale : ℚ → ℚ)
    (hty : e.mType = EventType.kNoteOff) :
    (v.addNoteEvent e scale).mState = VoiceState.kOff ∧
    (v.addNoteEvent e scale).mAge = 0 ∧
    (v.addNoteEvent e scale).mNote = v.mNote ∧
    (v.addNoteEvent e scale).mdGate.mChanges
      = v.mdGate.mChanges ++ [((0 : ℚ), uint64ToInt e.mTime)] ∧
    (v.addNoteEvent e scale).mdNotePressure.mChanges
      = v.mdNotePressure.mChanges ++ [((0 : ℚ), uint64ToInt e.mTime)] ∧
    (v.addNoteEvent e scale).mdChannelPressure.mChanges
      = v.mdChannelPressure.mChanges ++ [((0 : ℚ), uint64ToInt e.mTime)] ∧
    (v.addNoteEvent e scale).mdPitch = v.mdPitch ∧
    (v.addNoteEvent e scale).mdVel = v.mdVel := by
  refine ⟨?_, ?_, ?_, ?_, ?_, ?_, ?_, ?_⟩
  · simp [MLVoice.addNoteEvent, hty]
  · simp [MLVoice.addNoteEvent, hty]
  · simp [MLVoice.addNoteEvent, hty, floatToInt_intCast]
  · simp [MLVoice.addNoteEvent, hty, MLChangeList.addChange]
  · simp [MLVoice.addNoteEvent, hty, MLChangeList.addChange]
  · simp [MLVoice.addNoteEvent, hty, MLChangeList.addChange]
  · simp [MLVoice.addNoteEvent, hty]
  · simp [MLVoice.addNoteEvent, hty]

/-- C14, witness: four voices, two notes held; `NoteOff(id=1, t=10)` on voice 0, which holds
id 1, gives state `kOff` with a gate change to 0 at offset 10. -/
theorem addNoteEvent_noteOff_witness :
    (((MLProcInputToSignals.cleared 4 4 InputProtocol.kInputProtocolMIDI false).processNoteEvents
        [noteOn 1 60 0 1, noteOn 2 64 0 1, noteOff 1 60 10] (fun x => x)).voiceAt 0).mdGate.mChanges
      = [((1 : ℚ), (0 : ℤ)), ((0 : ℚ), (10 : ℤ))] ∧
    ((((MLProcInputToSignals.cleared 4 4 InputProtocol.kInputProtocolMIDI false).processNoteEvents
        [noteOn 1 60 0 1, noteOn 2 64 0 1] (fun x => x)).voiceAt 0).addNoteEvent
        (noteOff 1 60 10) (fun x => x)).mState = VoiceState.kOff :=
  ⟨by decide,
   (addNoteEvent_noteOff
      (((MLProcInputToSignals.cleared 4 4 InputProtocol.kInputProtocolMIDI false).processNoteEvents
        [noteOn 1 60 0 1, noteOn 2 64 0 1] (fun x => x)).voiceAt 0)
      (noteOff 1 60 10) (fun x => x) (by decide)).1⟩

/-- C15. For every event `e` with offset `t`, `stealNoteEvent e scale true` uses the offset
`t' = 1` if `t = 0` and `t' = t` otherwise, appends to the gate list a change to 0 at offset
`t' - 1` followed by a change to 1 at offset `t'`, appends a change to 0 at offset `t' - 1`
to the note-pressure list, schedules the new pitch and velocity at offset `t'`, and leaves
the voice in state `kOn` with instigator `e.mID` and age 0; with `retrig = false` the only
change appended to the gate list is the change to 1 at offset `t'`. -/
theorem stealNoteEvent_spec (v : MLVoice) (e : MLControlEvent) (scale : ℚ → ℚ) :
    ((v.stealNoteEvent e scale true).mdGate.mChanges
      = v.mdGate.mChanges ++
        [((0 : ℚ), (if uint64ToInt e.mTime = 0 then 1 else uint64ToInt e.mTime) - 1),
         ((1 : ℚ), (if uint64ToInt e.mTime = 0 then 1 else uint64ToInt e.mTime))]) ∧
    ((v.stealNoteEvent e scale true).mdNotePressure.mChanges
      = v.mdNotePressure.mChanges ++
        [((0 : ℚ), (if uint64ToInt e.mTime = 0 then 1 else uint64ToInt e.mTime) - 1)]) ∧
    ((v.stealNoteEvent e scale true).mdPitch.mChanges
      = v.mdPitch.mChanges ++
        [(scale e.mValue1, (if uint64ToInt e.mTime = 0 then 1 else uint64ToInt e.mTime))]) ∧
    ((v.stealNoteEvent e scale true).mdVel.mChanges
      = v.mdVel.mChanges ++
        [(e.mValue2, (if uint64ToInt e.mTime = 0 then 1 else uint64ToInt e.mTime))]) ∧
    (v.stealNoteEvent e scale true).mState = VoiceState.kOn ∧
    (v.stealNoteEvent e scale true).mInstigatorID = e.mID ∧
    (v.stealNoteEvent e scale true).mAge = 0 ∧
    ((v.stealNoteEvent e scale false).mdGate.mChanges
      = v.mdGate.mChanges ++
        [((1 : ℚ), (if uint64ToInt e.mTime = 0 then 1 else uint64ToInt e.mTime))]) := by
  refine ⟨?_, ?_, ?_, ?_, rfl, rfl, rfl, ?_⟩
  · simp only [MLVoice.stealNoteEvent, MLChangeList.addChange, if_true, List.append_assoc,
      List.singleton_append]
    split <;> simp_all
  · simp only [MLVoice.stealNoteEvent, MLChangeList.addChange, if_true]
    split <;> simp_all
  · simp only [MLVoice.stealNoteEvent, MLChangeList.addChange, if_true]
    split <;> simp_all
  · simp only [MLVoice.stealNoteEvent, MLChangeList.addChange, if_true]
    split <;> simp_all
  · simp only [MLVoice.stealNoteEvent, MLChangeList.addChange, Bool.false_eq_true, if_false]
    split <;> simp_all

/-! ## The pending stack -/

/-- Writing at index `m` does not change the first `m` elements. -/
theorem take_set_self {α : Type} (l : List α) (m : ℕ) (a : α) :
    (l.set m a).take m = l.take m :=
  List.ext_getElem? fun i => by
    rw [List.getElem?_take, List.getElem?_take]
    split
    · rw [List.getElem?_set_ne (by omega)]
    · rfl

/-- After a `push` on a stack that is not full, the new event is on top of the entries. -/
theorem push_entries (st : MLControlEventStack) (e : MLControlEvent)
    (h : st.mSize < st.data.length) :
    (st.push e).entries = st.entries ++ [e] ∧ (st.push e).mSize = st.mSize + 1 ∧
    (st.push e).data.length = st.data.length := by
  unfold MLControlEventStack.push MLControlEventStack.entries
  rw [if_pos h]
  refine ⟨?_, rfl, by simp⟩
  show (st.data.set st.mSize e).take (st.mSize + 1) = st.data.take st.mSize ++ [e]
  rw [List.take_succ, take_set_self]
  simp [h]

/-- A `pop` on a stack that is not empty returns the top entry and removes it from the
entries; the vector is left as it is. -/
theorem pop_entries (st : MLControlEventStack) (h0 : 0 < st.mSize)
    (h : st.mSize ≤ st.data.length) :
    st.entries = st.pop.2.entries ++ [st.pop.1] ∧ st.pop.2.mSize = st.mSize - 1 ∧
    st.pop.2.data = st.data := by
  unfold MLControlEventStack.pop MLControlEventStack.entries
  rw [if_pos h0]
  refine ⟨?_, rfl, rfl⟩
  show st.data.take st.mSize
    = st.data.take (st.mSize - 1) ++ [st.data.getD (st.mSize - 1) kMLNullControlEvent]
  have hlt : st.mSize - 1 < st.data.length := by omega
  have hs : st.mSize = (st.mSize - 1) + 1 := by omega
  rw [List.getD_eq_getElem _ _ hlt]
  conv_lhs => rw [hs]
  rw [List.take_succ, List.getElem?_eq_getElem hlt]
  rfl

/-- The entries after a sequence of `push` calls that fit into the stack. -/
theorem pushAll_entries (es : List MLControlEvent) :
    ∀ st : MLControlEventStack, st.mSize + es.length ≤ st.data.length →
      (st.pushAll es).entries = st.entries ++ es ∧
      (st.pushAll es).mSize = st.mSize + es.length ∧
      (st.pushAll es).data.length = st.data.length := by
  induction es with
  | nil =>
    intro st _
    simp [MLControlEventStack.pushAll]
  | cons e es ih =>
    intro st h
    obtain ⟨h1, h2, h3⟩ := push_entries st e (by simp at h; omega)
    have := ih (st.push e) (by rw [h2, h3]; simp at h; omega)
    obtain ⟨h4, h5, h6⟩ := this
    show ((st.push e).pushAll es).entries = _ ∧ ((st.push e).pushAll es).mSize = _ ∧
      ((st.push e).pushAll es).data.length = _
    rw [h4, h5, h6, h1, h2, h3]
    refine ⟨by simp, by simp; omega, rfl⟩

/-- The events returned by `k` calls of `pop` are the `k` top entries, top first. -/
theorem popN_entries (k : ℕ) :
    ∀ st : MLControlEventStack, k ≤ st.mSize → st.mSize ≤ st.data.length →
      (st.popN k).1 = st.entries.reverse.take k ∧ (st.popN k).2.mSize = st.mSize - k ∧
      (st.popN k).2.data = st.data := by
  induction k with
  | zero =>
    intro st _ _
    simp [MLControlEventStack.popN]
  | succ k ih =>
    intro st hk hlen
    obtain ⟨h1, h2, h3⟩ := pop_entries st (by omega) hlen
    obtain ⟨h4, h5, h6⟩ := ih st.pop.2 (by rw [h2]; omega) (by rw [h2, h3]; omega)
    show st.pop.1 :: (st.pop.2.popN k).1 = _ ∧ (st.pop.2.popN k).2.mSize = _ ∧
      (st.pop.2.popN k).2.data = _
    rw [h4, h5, h6, h2, h3, h1]
    refine ⟨by simp, by omega, rfl⟩

/-- C16. For every pending stack that is not full and every event `e`, `push e` followed by
`pop` returns `e` and restores the size and the entries of the stack to what they were before
the push; consequently events pushed in the order `e1, ..., ek` on an initially empty stack
(`k` at most the capacity) are popped in the order `ek, ..., e1`. -/
theorem push_pop (st : MLControlEventStack) (e : MLControlEvent)
    (h : st.mSize < st.data.length) :
    (st.push e).pop.1 = e ∧ (st.push e).pop.2.mSize = st.mSize ∧
    (st.push e).pop.2.entries = st.entries ∧
    ∀ es : List MLControlEvent, st.mSize = 0 → es.length ≤ st.data.length →
      ((st.pushAll es).popN es.length).1 = es.reverse := by
  obtain ⟨h1, h2, h3⟩ := push_entries st e h
  obtain ⟨h4, h5, _⟩ := pop_entries (st.push e) (by rw [h2]; omega) (by rw [h2, h3]; omega)
  have hlen : st.entries.length = (st.push e).pop.2.entries.length := by
    have e1 : st.entries.length = st.mSize := by
      unfold MLControlEventStack.entries
      rw [List.length_take]
      omega
    have e2 : (st.push e).pop.2.entries.length = st.mSize := by
      unfold MLControlEventStack.entries
      rw [List.length_take, h5, h2]
      have : (st.push e).pop.2.data.length = st.data.length := by
        rw [(pop_entries (st.push e) (by rw [h2]; omega) (by rw [h2, h3]; omega)).2.2, h3]
      omega
    rw [e1, e2]
  rw [h1] at h4
  have hboth := List.append_inj h4 hlen
  refine ⟨?_, ?_, ?_, ?_⟩
  · have := hboth.2
    simp only [List.cons.injEq, and_true] at this
    exact this.symm
  · rw [h5, h2]
    omega
  · exact hboth.1.symm
  · intro es h0 hes
    obtain ⟨g1, g2, g3⟩ := pushAll_entries es st (by omega)
    obtain ⟨g4, _, _⟩ := popN_entries es.length (st.pushAll es) (by rw [g2]; omega)
      (by rw [g2, g3]; omega)
    rw [g4, g1]
    have hnil : st.entries = [] := by
      unfold MLControlEventStack.entries
      rw [h0]
      rfl
    rw [hnil]
    simp

/-- C16, witness: three events pushed on an empty stack of capacity sixteen are popped in the
reverse order. -/
theorem push_pop_witness :
    (((MLControlEventStack.mk (List.replicate 16 kMLNullControlEvent) 0).pushAll
        [noteOn 1 60 0 1, noteOn 2 64 0 1, noteOn 3 67 0 1]).popN 3).1
      = [noteOn 3 67 0 1, noteOn 2 64 0 1, noteOn 1 60 0 1] ∧
    ((MLControlEventStack.mk (List.replicate 16 kMLNullControlEvent) 0).push
        (noteOn 1 60 0 1)).pop.1 = noteOn 1 60 0 1 :=
  ⟨by decide,
   (push_pop (MLControlEventStack.mk (List.replicate 16 kMLNullControlEvent) 0)
      (noteOn 1 60 0 1) (by decide)).1⟩

/-- C17. A `push` on a pending stack whose size equals its capacity fails silently: the
stack returned is the stack given, so the size and every stored entry are unchanged, and
nothing else is returned or raised. -/
theorem push_full (st : MLControlEventStack) (e : MLControlEvent)
    (h : st.mSize = st.data.length) :
    st.push e = st ∧ (st.push e).mSize = st.mSize ∧ (st.push e).data = st.data := by
  have hnot : ¬ st.mSize < st.data.length := by omega
  have heq : st.push e = st := by
    unfold MLControlEventStack.push
    rw [if_neg hnot]
  rw [heq]
  exact ⟨rfl, rfl, rfl⟩

/-- C17, witness: a push on a full stack of capacity two. -/
theorem push_full_witness :
    (MLControlEventStack.mk [noteOn 1 60 0 1, noteOn 2 64 0 1] 2).push (noteOn 3 67 0 1)
      = MLControlEventStack.mk [noteOn 1 60 0 1, noteOn 2 64 0 1] 2 :=
  (push_full (MLControlEventStack.mk [noteOn 1 60 0 1, noteOn 2 64 0 1] 2)
    (noteOn 3 67 0 1) (by decide)).1

/-- C18, the code at the failing inputs.  A stack of capacity four holding two entries of
id 5: `clearEventsMatchingID 5` removes the first one only (after the compaction the second
one sits at the index just visited, and the loop goes on with the next index), so that one
entry of id 5 remains and the size is 1, not 0.  In unison mode the stack is reached by the
note-ons 5, 5, 7; after the note-offs 5 and 7 the voices sound the leftover entry 5.  A stack
holding the ids 0 and 7: `clearEventsMatchingID 0` removes the entry of id 0 and then takes
the cleared slot above the entries, whose id is 0, for a match; the size drops to 0 and the
entry of id 7 is lost.  In unison mode (note-ons 0, 7, 9, note-offs 0 and 9) the voices go
off although the key 7 is held. -/
theorem clearEventsMatchingID_skips :
    (MLControlEventStack.mk
        [noteOn 5 60 0 1, noteOn 5 64 3 1, kMLNullControlEvent, kMLNullControlEvent]
        2).clearEventsMatchingID 5
      = MLControlEventStack.mk
        [noteOn 5 64 3 1, kMLNullControlEvent, kMLNullControlEvent, kMLNullControlEvent] 1 ∧
    ((threeVoicesUnison.processNoteEvents
        [noteOn 5 60 0 1, noteOn 5 60 1 1, noteOn 7 64 2 1, noteOff 5 60 3, noteOff 7 64 4]
        (fun x => x)).mVoices.map (fun v => (v.mState, v.mInstigatorID)))
      = [(VoiceState.kOn, 5), (VoiceState.kOn, 5), (VoiceState.kOn, 5)] ∧
    ((MLControlEventStack.mk
        [noteOn 0 60 0 1, noteOn 7 64 3 1, kMLNullControlEvent, kMLNullControlEvent]
        2).clearEventsMatchingID 0).entries = [] ∧
    ((threeVoicesUnison.processNoteEvents
        [noteOn 0 60 0 1, noteOn 7 64 1 1, noteOn 9 67 2 1, noteOff 0 60 3, noteOff 9 67 4]
        (fun x => x)).mVoices.map (fun v => (v.mState, v.mInstigatorID)))
      = [(VoiceState.kOff, 9), (VoiceState.kOff, 9), (VoiceState.kOff, 9)] := by
  decide

namespace MLProcInputToSignals

/-! ## A full pool of playing events, and channels out of range -/

/-- C19, as amended.  When the pool of playing events has no free slot, a note-on is dropped
as a whole: `doNoteOn` returns the object as it is, so the pool, every voice and every change
list are unchanged, and the note is assigned to no voice. -/
theorem doNoteOn_pool_full (s : MLProcInputToSignals) (e : MLControlEvent) (scale : ℚ → ℚ)
    (hfull : ∀ ev ∈ s.mNoteEventsPlaying, ev.mType ≠ EventType.kNull) :
    s.doNoteOn e scale = s ∧
    (s.doNoteOn e scale).mNoteEventsPlaying = s.mNoteEventsPlaying ∧
    (s.doNoteOn e scale).mVoices = s.mVoices := by
  rw [doNoteOn_full s e scale hfull]
  exact ⟨rfl, rfl, rfl⟩

/-- C19, witness: sixteen keys held on four voices, and a seventeenth note-on. -/
theorem doNoteOn_pool_full_witness :
    sixteenKeysHeld.doNoteOn (noteOn 17 65 5 1) (fun x => x) = sixteenKeysHeld :=
  (doNoteOn_pool_full sixteenKeysHeld (noteOn 17 65 5 1) (fun x => x) (by decide)).1

/-- C19, counterexample: sixteen keys held on four voices, the pool is full.  The seventeenth
note-on leaves the voices as they are, whereas with one slot of the pool free the same
note-on steals voice 2, the one nearest to the note 65: the note is not assigned as it would
be if a slot had been free. -/
theorem doNoteOn_pool_full_not_assigned :
    (∀ ev ∈ sixteenKeysHeld.mNoteEventsPlaying, ev.mType ≠ EventType.kNull) ∧
    (sixteenKeysHeld.doNoteOn (noteOn 17 65 5 1) (fun x => x)).mVoices
      = sixteenKeysHeld.mVoices ∧
    (((sixteenKeysHeld.withPlaying
        (sixteenKeysHeld.mNoteEventsPlaying.set 0 kMLNullControlEvent)).doNoteOn
        (noteOn 17 65 5 1) (fun x => x)).mVoices.map (fun v => v.mInstigatorID))
      = [1, 2, 17, 16] ∧
    ((sixteenKeysHeld.doNoteOn (noteOn 17 65 5 1) (fun x => x)).mVoices.map
        (fun v => v.mInstigatorID)) = [1, 2, 3, 16] := by
  decide

/-- C20, the code at the failing input: two voices in the per-channel protocol and events on
channel 0.  `MPEChannelToVoiceIDX 0` is `(0 - 2) % 2 = 0`, and the pitch-wheel, the
channel-pressure and the controller handler, which only test `chan == 1`, write to the change
lists of voice 0; `doNoteOn` and `doNoteOff`, which test `chan > 1`, leave the voices alone.
With four voices the index is `(0 - 2) % 4 = -2`, outside the vector. -/
theorem mpe_channel_zero_not_ignored :
    twoVoicesMPE.MPEChannelToVoiceIDX 0 = 0 ∧
    ((twoVoicesMPE.doPitchWheel (pitchWheel 0 16383 3)).voiceAt 0).mdPitchBend.mChanges.length
      = 1 ∧
    (twoVoicesMPE.voiceAt 0).mdPitchBend.mChanges.length = 0 ∧
    ((twoVoicesMPE.doChannelPressure (channelPressure 0 1 3)).voiceAt 0).mdChannelPressure.mChanges
      = [((1 : ℚ), (3 : ℤ))] ∧
    ((twoVoicesMPE.doController (controller 0 74 1 3) (fun x => x) 16).voiceAt 0).mdMod3.mChanges
      = [((1 : ℚ), (3 : ℤ))] ∧
    (twoVoicesMPE.doNoteOn (MLControlEvent.mk8 EventType.kNoteOn 0 1 3 60 1 0 0)
      (fun x => x)).mVoices = twoVoicesMPE.mVoices ∧
    (twoVoicesMPE.doNoteOff (MLControlEvent.mk8 EventType.kNoteOff 0 1 3 60 0 0 0)
      (fun x => x)).mVoices = twoVoicesMPE.mVoices ∧
    (cleared 4 4 InputProtocol.kInputProtocolMIDI_MPE false).MPEChannelToVoiceIDX 0 = -2 := by
  decide

end MLProcInputToSignals

namespace MLProcInputToSignals

/-! ## Auxiliary lemmas: the start time of the block is not assigned by the handlers -/

@[simp] theorem withMainVoice_mProtocol (s : MLProcInputToSignals) (p : MLVoice) :
    (s.withMainVoice p).mProtocol = s.mProtocol := rfl

@[simp] theorem withMainVoice_mNoteEventsPlaying (s : MLProcInputToSignals) (p : MLVoice) :
    (s.withMainVoice p).mNoteEventsPlaying = s.mNoteEventsPlaying := rfl

@[simp] theorem withMainVoice_mNoteEventsPending (s : MLProcInputToSignals) (p : MLVoice) :
    (s.withMainVoice p).mNoteEventsPending = s.mNoteEventsPending := rfl

@[simp] theorem withMainVoice_mVoices (s : MLProcInputToSignals) (p : MLVoice) :
    (s.withMainVoice p).mVoices = s.mVoices := rfl

@[simp] theorem withMainVoice_mMPEMainVoice (s : MLProcInputToSignals) (p : MLVoice) :
    (s.withMainVoice p).mMPEMainVoice = p := rfl

@[simp] theorem withMainVoice_mVoiceRotateOffset (s : MLProcInputToSignals) (p : MLVoice) :
    (s.withMainVoice p).mVoiceRotateOffset = s.mVoiceRotateOffset := rfl

@[simp] theorem withMainVoice_mControllerNumber (s : MLProcInputToSignals) (p : MLVoice) :
    (s.withMainVoice p).mControllerNumber = s.mControllerNumber := rfl

@[simp] theorem withMainVoice_mCurrentVoices (s : MLProcInputToSignals) (p : MLVoice) :
    (s.withMainVoice p).mCurrentVoices = s.mCurrentVoices := rfl

@[simp] theorem withMainVoice_mUnisonMode (s : MLProcInputToSignals) (p : MLVoice) :
    (s.withMainVoice p).mUnisonMode = s.mUnisonMode := rfl

@[simp] theorem withMainVoice_mSustainPedal (s : MLProcInputToSignals) (p : MLVoice) :
    (s.withMainVoice p).mSustainPedal = s.mSustainPedal := rfl

@[simp] theorem withMainVoice_mPitchWheelSemitones (s : MLProcInputToSignals) (p : MLVoice) :
    (s.withMainVoice p).mPitchWheelSemitones = s.mPitchWheelSemitones := rfl

@[simp] theorem withMainVoice_mVectorStartTime (s : MLProcInputToSignals) (p : MLVoice) :
    (s.withMainVoice p).mVectorStartTime = s.mVectorStartTime := rfl

theorem modifyVoice_mVectorStartTime (s : MLProcInputToSignals) (i : ℤ) (f : MLVoice → MLVoice) :
    (s.modifyVoice i f).mVectorStartTime = s.mVectorStartTime := by
  unfold modifyVoice
  split <;> rfl

theorem forActiveVoices_mVectorStartTime (s : MLProcInputToSignals) (f : MLVoice → MLVoice) :
    (s.forActiveVoices f).mVectorStartTime = s.mVectorStartTime := rfl

theorem findFreeVoiceFrom_mVectorStartTime (s : MLProcInputToSignals) (k v : ℕ) :
    (s.findFreeVoiceFrom k v).2.mVectorStartTime = s.mVectorStartTime := by
  induction k generalizing v with
  | zero => rfl
  | succ k ih =>
    simp only [findFreeVoiceFrom, mRotateMode, if_true]
    split
    · rfl
    · exact ih (v + 1)

theorem activatePending_mVectorStartTime (s : MLProcInputToSignals) (i : ℤ) (scale : ℚ → ℚ) :
    (s.activatePending i scale).mVectorStartTime = s.mVectorStartTime := by
  unfold activatePending
  split
  · simp only []
    split
    · rw [modifyVoice_mVectorStartTime]; rfl
    · rfl
  · rfl

theorem clear_mVectorStartTime (s : MLProcInputToSignals) (outs : ℕ) :
    (s.clear outs).mVectorStartTime = s.mVectorStartTime := by
  unfold clear
  simp only []
  split <;> rfl

theorem doNoteOn_mVectorStartTime (s : MLProcInputToSignals) (e : MLControlEvent)
    (scale : ℚ → ℚ) : (s.doNoteOn e scale).mVectorStartTime = s.mVectorStartTime := by
  unfold doNoteOn
  simp only []
  split
  · rfl
  · split
    · unfold doNoteOnUnison
      simp only [forActiveVoices_mVectorStartTime]
      split <;> rfl
    · split
      · unfold doNoteOnMIDI
        simp only []
        split
        · rw [modifyVoice_mVectorStartTime]
          exact findFreeVoiceFrom_mVectorStartTime _ _ _
        · rw [modifyVoice_mVectorStartTime]
          exact findFreeVoiceFrom_mVectorStartTime _ _ _
      · unfold doNoteOnMPE
        simp only []
        split
        · split <;> rw [modifyVoice_mVectorStartTime] <;> rfl
        · rfl
      · rfl

theorem doNoteOff_mVectorStartTime (s : MLProcInputToSignals) (e : MLControlEvent)
    (scale : ℚ → ℚ) : (s.doNoteOff e scale).mVectorStartTime = s.mVectorStartTime := by
  unfold doNoteOff
  simp only []
  split
  · unfold doNoteOffUnison
    simp only []
    split
    · split <;> rfl
    · rfl
  · split
    · unfold doNoteOffMIDI
      simp only [withPending_mVectorStartTime]
      split
      · split
        · rw [activatePending_mVectorStartTime]; rfl
        · rfl
      · rfl
    · unfold doNoteOffMPE
      simp only []
      split
      · split
        · rw [activatePending_mVectorStartTime, modifyVoice_mVectorStartTime]; rfl
        · rw [modifyVoice_mVectorStartTime]; rfl
      · rfl
    · rfl

theorem doSustain_mVectorStartTime (s : MLProcInputToSignals) (e : MLControlEvent)
    (scale : ℚ → ℚ) : (s.doSustain e scale).mVectorStartTime = s.mVectorStartTime := by
  unfold doSustain
  simp only []
  split <;> rfl

theorem doController_mVectorStartTime (s : MLProcInputToSignals) (e : MLControlEvent)
    (scale : ℚ → ℚ) (outs : ℕ) :
    (s.doController e scale outs).mVectorStartTime = s.mVectorStartTime := by
  unfold doController
  simp only []
  split
  · split
    · split
      · exact clear_mVectorStartTime _ _
      · rfl
    · split
      · split <;> rfl
      · rfl
  · split
    · split
      · split
        · exact clear_mVectorStartTime _ _
        · rfl
      · split
        · split <;> rfl
        · rfl
    · exact modifyVoice_mVectorStartTime _ _ _
  · rfl

theorem doPitchWheel_mVectorStartTime (s : MLProcInputToSignals) (e : MLControlEvent) :
    (s.doPitchWheel e).mVectorStartTime = s.mVectorStartTime := by
  unfold doPitchWheel
  simp only []
  split
  · rfl
  · split
    · rfl
    · exact modifyVoice_mVectorStartTime _ _ _
  · rfl

theorem doNotePressure_mVectorStartTime (s : MLProcInputToSignals) (e : MLControlEvent) :
    (s.doNotePressure e).mVectorStartTime = s.mVectorStartTime := by
  unfold doNotePressure
  split <;> rfl

theorem doChannelPressure_mVectorStartTime (s : MLProcInputToSignals) (e : MLControlEvent) :
    (s.doChannelPressure e).mVectorStartTime = s.mVectorStartTime := by
  unfold doChannelPressure
  simp only []
  split
  · rfl
  · split
    · rfl
    · exact modifyVoice_mVectorStartTime _ _ _
  · rfl

theorem dispatchEvent_mVectorStartTime (s : MLProcInputToSignals) (e : MLControlEvent)
    (scale : ℚ → ℚ) (outs : ℕ) :
    (s.dispatchEvent e scale outs).mVectorStartTime = s.mVectorStartTime := by
  unfold dispatchEvent
  split
  · exact doNoteOn_mVectorStartTime _ _ _
  · exact doNoteOff_mVectorStartTime _ _ _
  · exact doController_mVectorStartTime _ _ _ _
  · exact doPitchWheel_mVectorStartTime _ _
  · exact doNotePressure_mVectorStartTime _ _
  · exact doChannelPressure_mVectorStartTime _ _
  · exact doSustain_mVectorStartTime _ _ _
  · rfl

theorem uint64Sub_eq (a b : ℕ) : ((uint64Sub a b : ℕ) : ℤ) = ((a : ℤ) - (b : ℤ)) % 2 ^ 64 := by
  unfold uint64Sub
  omega

theorem uint64Sub_lt (a b : ℕ) : uint64Sub a b < 2 ^ 64 := by
  unfold uint64Sub
  omega

end MLProcInputToSignals

namespace MLProcInputToSignals

/-! ## The event router -/

theorem processEvent_mVectorStartTime (s : MLProcInputToSignals) (e : MLControlEvent)
    (scale : ℚ → ℚ) (outs : ℕ) :
    (s.processEvent e scale outs).mVectorStartTime = s.mVectorStartTime :=
  dispatchEvent_mVectorStartTime _ _ _ _

theorem processEventsLoop_spec (B : ℕ) (scale : ℚ → ℚ) (outs : ℕ) :
    ∀ (k : ℕ) (q : List MLControlEvent) (s : MLProcInputToSignals), q.length ≤ k →
      processEventsLoop B scale outs k q s
        = (q.dropWhile (fun e => decide (uint64Sub e.mTime s.mVectorStartTime < B)),
           (q.takeWhile (fun e => decide (uint64Sub e.mTime s.mVectorStartTime < B))).foldl
             (fun t e =>
               t.dispatchEvent { e with mTime := uint64Sub e.mTime s.mVectorStartTime } scale outs)
             s) := by
  intro k
  induction k with
  | zero =>
    intro q s hq
    have : q = [] := List.length_eq_zero.mp (Nat.le_zero.mp hq)
    subst this
    rfl
  | succ k ih =>
    intro q s hq
    cases q with
    | nil => rfl
    | cons e q =>
      have hq1 : q.length ≤ k := by simpa using hq
      by_cases h : uint64Sub e.mTime s.mVectorStartTime < B
      · have hstart := processEvent_mVectorStartTime s e scale outs
        simp only [processEventsLoop, if_pos h, List.dropWhile_cons, List.takeWhile_cons,
          decide_eq_true h, if_true, List.foldl_cons]
        rw [ih q (s.processEvent e scale outs) hq1, hstart]
        rfl
      · simp only [processEventsLoop, if_neg h, List.dropWhile_cons, List.takeWhile_cons,
          decide_eq_false h, List.foldl_nil]
        simp

theorem prefix_takeWhile_of_forall {α : Type} (p : α → Bool) :
    ∀ (l l1 : List α), l1 <+: l → (∀ x ∈ l1, p x = true) → l1 <+: l.takeWhile p := by
  intro l
  induction l with
  | nil =>
    intro l1 h _
    have : l1 = [] := List.prefix_nil.mp h
    subst this
    exact List.nil_prefix
  | cons a l ih =>
    intro l1 h hall
    cases l1 with
    | nil => exact List.nil_prefix
    | cons b l1 =>
      obtain ⟨hab, hl⟩ := List.cons_prefix_cons.mp h
      subst hab
      have hb : p b = true := hall b (List.mem_cons_self _ _)
      rw [List.takeWhile_cons, hb]
      simp only [if_true]
      exact List.cons_prefix_cons.mpr
        ⟨rfl, ih l1 hl (fun x hx => hall x (List.mem_cons_of_mem _ hx))⟩

/-- C12: `processEvents` on a queue `q`, at the block start time `mVectorStartTime` and with
the block size `B`.  The events dispatched are those of `q.takeWhile inBlock`, where
`inBlock e` is `(e.mTime - mVectorStartTime) mod 2^64 < B`: this is a prefix of `q`, every
event of it is in the block, and every prefix of `q` whose events are all in the block is a
prefix of it.  The queue left is the rest of `q`, in its order, and it is empty or starts
with an event that is not in the block.  The object returned is the one obtained by handing
the events of the prefix, in their order, each to the handler of its type (`doNoteOn`,
`doNoteOff`, `doController`, `doPitchWheel`, `doNotePressure`, `doChannelPressure`,
`doSustain`; an event of another type changes nothing), each with its time replaced by the
offset `(e.mTime - mVectorStartTime) mod 2^64`, which is below `B`, and with its other
fields as they are. -/
theorem processEvents_spec (s : MLProcInputToSignals) (q : List MLControlEvent) (B : ℕ)
    (scale : ℚ → ℚ) (outs : ℕ) :
    let inBlock : MLControlEvent → Bool :=
      fun e => decide ((((e.mTime : ℤ) - (s.mVectorStartTime : ℤ)) % 2 ^ 64) < (B : ℤ))
    let offset : MLControlEvent → ℕ :=
      fun e => ((((e.mTime : ℤ) - (s.mVectorStartTime : ℤ)) % 2 ^ 64)).toNat
    let handler : MLProcInputToSignals → MLControlEvent → MLProcInputToSignals :=
      fun t e =>
        if e.mType = EventType.kNoteOn then t.doNoteOn e scale
        else if e.mType = EventType.kNoteOff then t.doNoteOff e scale
        else if e.mType = EventType.kController then t.doController e scale outs
        else if e.mType = EventType.kPitchWheel then t.doPitchWheel e
        else if e.mType = EventType.kNotePressure then t.doNotePressure e
        else if e.mType = EventType.kChannelPressure then t.doChannelPressure e
        else if e.mType = EventType.kSustainPedal then t.doSustain e scale
        else t
    (s.processEvents q B scale outs).2
      = (q.takeWhile inBlock).foldl
          (fun t e => t.dispatchEvent { e with mTime := offset e } scale outs) s ∧
    (s.processEvents q B scale outs).2
      = (q.takeWhile inBlock).foldl
          (fun t e =>
            handler t
              { mTime := offset e, mType := e.mType, mChannel := e.mChannel, mNote := e.mNote,
                mID := e.mID, mValue1 := e.mValue1, mValue2 := e.mValue2,
                mValue3 := e.mValue3, mValue4 := e.mValue4 }) s ∧
    (s.processEvents q B scale outs).1 = q.dropWhile inBlock ∧
    q = q.takeWhile inBlock ++ (s.processEvents q B scale outs).1 ∧
    (∀ e ∈ q.takeWhile inBlock, inBlock e = true ∧ offset e < B) ∧
    (∀ l1, l1 <+: q → (∀ e ∈ l1, inBlock e = true) → l1 <+: q.takeWhile inBlock) ∧
    (∀ e, (s.processEvents q B scale outs).1.head? = some e → inBlock e = false) := by
  intro inBlock offset handler
  have hoff : ∀ e : MLControlEvent, uint64Sub e.mTime s.mVectorStartTime = offset e := by
    intro e
    have h := uint64Sub_eq e.mTime s.mVectorStartTime
    show uint64Sub e.mTime s.mVectorStartTime
      = ((((e.mTime : ℤ) - (s.mVectorStartTime : ℤ)) % 2 ^ 64)).toNat
    rw [← h]
    rfl
  have hin : (fun e : MLControlEvent => decide (uint64Sub e.mTime s.mVectorStartTime < B))
      = inBlock := by
    funext e
    have h := uint64Sub_eq e.mTime s.mVectorStartTime
    show decide (uint64Sub e.mTime s.mVectorStartTime < B)
      = decide ((((e.mTime : ℤ) - (s.mVectorStartTime : ℤ)) % 2 ^ 64) < (B : ℤ))
    rw [← h]
    simp
  have hloop := processEventsLoop_spec B scale outs q.length q s (le_refl _)
  have hfun : (fun (t : MLProcInputToSignals) (e : MLControlEvent) =>
        t.dispatchEvent { e with mTime := uint64Sub e.mTime s.mVectorStartTime } scale outs)
      = (fun t e => t.dispatchEvent { e with mTime := offset e } scale outs) := by
    funext t e
    rw [hoff e]
  have hhandler : ∀ (t : MLProcInputToSignals) (e : MLControlEvent),
      t.dispatchEvent e scale outs = handler t e := by
    intro t e
    show t.dispatchEvent e scale outs
      = (if e.mType = EventType.kNoteOn then t.doNoteOn e scale
        else if e.mType = EventType.kNoteOff then t.doNoteOff e scale
        else if e.mType = EventType.kController then t.doController e scale outs
        else if e.mType = EventType.kPitchWheel then t.doPitchWheel e
        else if e.mType = EventType.kNotePressure then t.doNotePressure e
        else if e.mType = EventType.kChannelPressure then t.doChannelPressure e
        else if e.mType = EventType.kSustainPedal then t.doSustain e scale
        else t)
    unfold dispatchEvent
    cases hty : e.mType <;> simp
  rw [hin, hfun] at hloop
  have h1 : (s.processEvents q B scale outs).1 = q.dropWhile inBlock := by
    unfold processEvents
    rw [hloop]
  have h2 : (s.processEvents q B scale outs).2
      = (q.takeWhile inBlock).foldl
          (fun t e => t.dispatchEvent { e with mTime := offset e } scale outs) s := by
    unfold processEvents
    rw [hloop]
  have h3 : (s.processEvents q B scale outs).2
      = (q.takeWhile inBlock).foldl
          (fun t e =>
            handler t
              { mTime := offset e, mType := e.mType, mChannel := e.mChannel, mNote := e.mNote,
                mID := e.mID, mValue1 := e.mValue1, mValue2 := e.mValue2,
                mValue3 := e.mValue3, mValue4 := e.mValue4 }) s := by
    rw [h2]
    congr 1
    funext t e
    exact hhandler t _
  refine ⟨h2, h3, h1, ?_, ?_, ?_, ?_⟩
  · rw [h1]
    exact (List.takeWhile_append_dropWhile inBlock q).symm
  · intro e he
    have hb : inBlock e = true := List.mem_takeWhile_imp he
    refine ⟨hb, ?_⟩
    have hb1 : (((e.mTime : ℤ) - (s.mVectorStartTime : ℤ)) % 2 ^ 64) < (B : ℤ) :=
      of_decide_eq_true hb
    show ((((e.mTime : ℤ) - (s.mVectorStartTime : ℤ)) % 2 ^ 64)).toNat < B
    omega
  · exact prefix_takeWhile_of_forall inBlock q
  · intro e he
    rw [h1] at he
    have := List.head?_dropWhile_not inBlock q
    rw [he] at this
    simpa using this

/-- C12, at a concrete input: block start 128, block size 64, one voice of the plain
protocol, and a queue with a note-on at time 130, a pitch-wheel event at time 140 and a
note-on at time 200.  The first two events are dispatched with the offsets 2 and 12: the
voice is on with a gate change at offset 2 and a bend at offset 12.  The third event stays
in the queue. -/
theorem processEvents_spec_witness :
    (((cleared 1 1 InputProtocol.kInputProtocolMIDI false).setVectorStartTime 128).processEvents
        [noteOn 1 60 130 1, pitchWheel 1 16383 140, noteOn 2 62 200 1] 64
        (fun n => n / 12) 8).1 = [noteOn 2 62 200 1] ∧
    ((((cleared 1 1 InputProtocol.kInputProtocolMIDI false).setVectorStartTime 128).processEvents
        [noteOn 1 60 130 1, pitchWheel 1 16383 140, noteOn 2 62 200 1] 64
        (fun n => n / 12) 8).2.voiceAt 0).mState = VoiceState.kOn ∧
    ((((cleared 1 1 InputProtocol.kInputProtocolMIDI false).setVectorStartTime 128).processEvents
        [noteOn 1 60 130 1, pitchWheel 1 16383 140, noteOn 2 62 200 1] 64
        (fun n => n / 12) 8).2.voiceAt 0).mdGate.mChanges = [(1, 2)] ∧
    ((((cleared 1 1 InputProtocol.kInputProtocolMIDI false).setVectorStartTime 128).processEvents
        [noteOn 1 60 130 1, pitchWheel 1 16383 140, noteOn 2 62 200 1] 64
        (fun n => n / 12) 8).2.voiceAt 0).mdPitchBend.mChanges = [(7 / 12, 12)] :=
  ⟨((processEvents_spec
      ((cleared 1 1 InputProtocol.kInputProtocolMIDI false).setVectorStartTime 128)
      [noteOn 1 60 130 1, pitchWheel 1 16383 140, noteOn 2 62 200 1] 64
      (fun n => n / 12) 8).2.2.1).trans (by decide!),
   by decide!, by decide!, by decide!⟩

end MLProcInputToSignals

namespace MLProcInputToSignals

/-! ## Unison mode: pending notes are resumed last in, first out -/

theorem unison_count_processNoteEvents (events : List MLControlEvent) (scale : ℚ → ℚ) :
    ∀ s : MLProcInputToSignals, s.mUnisonMode = true →
      (s.processNoteEvents events scale).mCurrentVoices = s.mCurrentVoices := by
  induction events with
  | nil =>
    intro s _
    rfl
  | cons e es ih =>
    intro s hu
    obtain ⟨hn, hu1, _⟩ := unison_step_shape s e scale hu
    show ((s.processNoteEvent e scale).processNoteEvents es scale).mCurrentVoices = _
    rw [ih _ hu1, hn]

theorem processNoteEvents_append (s : MLProcInputToSignals) (l1 l2 : List MLControlEvent)
    (scale : ℚ → ℚ) :
    s.processNoteEvents (l1 ++ l2) scale
      = (s.processNoteEvents l1 scale).processNoteEvents l2 scale := by
  unfold processNoteEvents
  rw [List.foldl_append]

theorem stealNoteEvent_fields (v : MLVoice) (e : MLControlEvent) (scale : ℚ → ℚ)
    (retrig : Bool) :
    (v.stealNoteEvent e scale retrig).mState = VoiceState.kOn ∧
    (v.stealNoteEvent e scale retrig).mInstigatorID = e.mID ∧
    (v.stealNoteEvent e scale retrig).mCurrentNoteEvent = e := by
  cases retrig <;> exact ⟨rfl, rfl, rfl⟩

theorem addNoteEvent_mCurrentNoteEvent (v : MLVoice) (e : MLControlEvent) (scale : ℚ → ℚ) :
    (v.addNoteEvent e scale).mCurrentNoteEvent = e := rfl

/-- A pool of sixteen events of which at most one is not free has a free slot. -/
theorem exists_free_of_single (p : List MLControlEvent) (hlen : p.length = kMaxEvents) (k : ℕ)
    (h : ∀ (j : ℕ) (ev : MLControlEvent), p[j]? = some ev → ev.mType ≠ EventType.kNull → j = k) :
    ∃ ev ∈ p, ev.mType = EventType.kNull := by
  have h16 : p.length = 16 := hlen
  by_cases hk : k = 0
  · have h1 : 1 < p.length := by omega
    refine ⟨p[1], List.getElem_mem h1, ?_⟩
    by_contra hne
    have := h 1 p[1] (List.getElem?_eq_getElem h1) hne
    omega
  · have h0 : 0 < p.length := by omega
    refine ⟨p[0], List.getElem_mem h0, ?_⟩
    by_contra hne
    have := h 0 p[0] (List.getElem?_eq_getElem h0) hne
    omega

theorem doNoteOn_unison (s : MLProcInputToSignals) (e : MLControlEvent) (scale : ℚ → ℚ)
    (hu : s.mUnisonMode = true) (k : ℕ) (hk : s.mNoteEventsPlaying.findFreeEvent = (k : ℤ)) :
    s.doNoteOn e scale
      = (s.withPlaying (s.mNoteEventsPlaying.set k e)).doNoteOnUnison e scale := by
  have hnot : ¬ ((k : ℤ) < 0) := by omega
  simp only [doNoteOn, hk, withPlaying_mUnisonMode, hu, if_neg hnot, Int.toNat_ofNat, if_true]

theorem doNoteOn_unison_on (s : MLProcInputToSignals) (e c : MLControlEvent) (scale : ℚ → ℚ)
    (hu : s.mUnisonMode = true) (k : ℕ) (hk : s.mNoteEventsPlaying.findFreeEvent = (k : ℤ))
    (hon : (s.voiceAt 0).mState = VoiceState.kOn)
    (hc : (s.voiceAt 0).mCurrentNoteEvent = c) :
    s.doNoteOn e scale
      = ((s.withPending (s.mNoteEventsPending.push c)).withPlaying
          (MLControlEventVector.clearEventsMatchingID (s.mNoteEventsPlaying.set k e) c.mID)).forActiveVoices
          (fun voice => voice.addNoteEvent e scale) := by
  rw [doNoteOn_unison s e scale hu k hk]
  unfold doNoteOnUnison
  have h0 : (s.withPlaying (s.mNoteEventsPlaying.set k e)).voiceAt 0 = s.voiceAt 0 := rfl
  simp only [h0, hon, hc, if_true]
  rfl

theorem doNoteOn_unison_off (s : MLProcInputToSignals) (e : MLControlEvent) (scale : ℚ → ℚ)
    (hu : s.mUnisonMode = true) (k : ℕ) (hk : s.mNoteEventsPlaying.findFreeEvent = (k : ℤ))
    (hoff : (s.voiceAt 0).mState ≠ VoiceState.kOn) :
    s.doNoteOn e scale
      = (s.withPlaying (s.mNoteEventsPlaying.set k e)).forActiveVoices
          (fun voice => voice.addNoteEvent e scale) := by
  rw [doNoteOn_unison s e scale hu k hk]
  unfold doNoteOnUnison
  have h0 : (s.withPlaying (s.mNoteEventsPlaying.set k e)).voiceAt 0 = s.voiceAt 0 := rfl
  simp only [h0, hoff, if_false]

theorem doNoteOff_unison (s : MLProcInputToSignals) (e : MLControlEvent) (scale : ℚ → ℚ)
    (hu : s.mUnisonMode = true) :
    s.doNoteOff e scale
      = (s.withPlaying (clearPlaying s.mNoteEventsPlaying e.mID)).doNoteOffUnison e scale := by
  simp only [doNoteOff, withPlaying_mUnisonMode, hu, if_true]

/-- The voices after a loop in which every active voice receives the note-on `e`. -/
theorem voiceAt_addNoteOn (s : MLProcInputToSignals) (e : MLControlEvent) (scale : ℚ → ℚ)
    (hty : e.mType = EventType.kNoteOn) (i : ℕ) (hi : i < s.mCurrentVoices)
    (hlen : s.mCurrentVoices ≤ s.mVoices.length) :
    ((s.forActiveVoices (fun voice => voice.addNoteEvent e scale)).voiceAt (i : ℤ)).mState
      = VoiceState.kOn ∧
    ((s.forActiveVoices (fun voice => voice.addNoteEvent e scale)).voiceAt (i : ℤ)).mInstigatorID
      = e.mID ∧
    ((s.forActiveVoices (fun voice => voice.addNoteEvent e scale)).voiceAt
      (i : ℤ)).mCurrentNoteEvent = e := by
  rw [voiceAt_of_mapFirst s _ (fun voice => voice.addNoteEvent e scale) s.mCurrentVoices i rfl,
    if_pos ⟨hi, by omega⟩]
  refine ⟨?_, addNoteEvent_mInstigatorID _ _ _, rfl⟩
  rw [addNoteEvent_mState, hty]

end MLProcInputToSignals

namespace MLProcInputToSignals

/-- The pending stack of an object that satisfies the invariant is within its vector. -/
theorem UnisonInv.fits {n : ℕ} {s : MLProcInputToSignals} {c : MLControlEvent}
    {rest : List MLControlEvent} (inv : UnisonInv n s c rest) :
    s.mNoteEventsPending.mSize ≤ s.mNoteEventsPending.data.length := by
  have h := congrArg List.length inv.pendEntries
  unfold MLControlEventStack.entries at h
  rw [List.length_take, List.length_reverse, ← inv.pendSize] at h
  omega

/-- The first note-on in unison mode: from an object whose voice 0 is not on, whose pending
stack is empty and whose pool is free, the invariant holds for the event and no waiting
event. -/
theorem unisonInv_first (n : ℕ) (s : MLProcInputToSignals) (e : MLControlEvent)
    (scale : ℚ → ℚ) (hn : s.mCurrentVoices = n) (hpos : 0 < n)
    (hu : s.mUnisonMode = true) (hp : s.mSustainPedal = false)
    (halloc : n ≤ s.mVoices.length)
    (hoff : (s.voiceAt 0).mState ≠ VoiceState.kOn)
    (hsize : s.mNoteEventsPending.mSize = 0)
    (hcap : s.mNoteEventsPending.data.length = kMaxEvents)
    (hlen : s.mNoteEventsPlaying.length = kMaxEvents)
    (hpool : ∀ ev ∈ s.mNoteEventsPlaying, ev.mType = EventType.kNull)
    (hty : e.mType = EventType.kNoteOn) :
    UnisonInv n (s.doNoteOn e scale) e [] := by
  have h16 : 0 < s.mNoteEventsPlaying.length := by rw [hlen]; decide
  obtain ⟨f, hf, hfree, _⟩ := findFreeEvent_of_free s.mNoteEventsPlaying
    ⟨s.mNoteEventsPlaying[0], List.getElem_mem h16, hpool _ (List.getElem_mem h16)⟩
  rw [doNoteOn_unison_off s e scale hu f hfree hoff]
  refine
    { count := hn
      pos := hpos
      unison := hu
      pedal := hp
      allocated := ?_
      voices := ?_
      pendSize := hsize
      pendEntries := ?_
      pendCap := hcap
      poolLen := ?_
      pool := ?_ }
  · show n ≤ (mapFirst _ _ _).length
    rw [mapFirst_length]
    exact halloc
  · intro i hi
    exact voiceAt_addNoteOn (s.withPlaying (s.mNoteEventsPlaying.set f e)) e scale hty i
      (by rw [← hn] at hi; exact hi) (by rw [← hn] at halloc; exact halloc)
  · show s.mNoteEventsPending.entries = []
    unfold MLControlEventStack.entries
    rw [hsize]
    rfl
  · show (s.mNoteEventsPlaying.set f e).length = kMaxEvents
    rw [List.length_set]
    exact hlen
  · refine ⟨f, ?_⟩
    intro j ev hj hnn
    have hj1 : (s.mNoteEventsPlaying.set f e)[j]? = some ev := hj
    by_cases hjf : f = j
    · subst hjf
      rw [List.getElem?_set_self hf] at hj1
      exact ⟨rfl, by rw [← Option.some.inj hj1]⟩
    · rw [List.getElem?_set_ne hjf] at hj1
      exact absurd (hpool ev (List.getElem?_mem hj1)) hnn

/-- A further note-on in unison mode: the sounding event is pushed on the pending stack and
the new event sounds. -/
theorem unisonInv_doNoteOn (n : ℕ) (s : MLProcInputToSignals) (c : MLControlEvent)
    (rest : List MLControlEvent) (e : MLControlEvent) (scale : ℚ → ℚ)
    (inv : UnisonInv n s c rest) (hty : e.mType = EventType.kNoteOn)
    (hroom : rest.length < kMaxEvents) :
    UnisonInv n (s.doNoteOn e scale) e (c :: rest) := by
  obtain ⟨k0, hpool⟩ := inv.pool
  obtain ⟨f, hf, hfree, _⟩ := findFreeEvent_of_free s.mNoteEventsPlaying
    (exists_free_of_single _ inv.poolLen k0 (fun j ev h1 h2 => (hpool j ev h1 h2).1))
  have h0 := inv.voices 0 inv.pos
  have h0a : (s.voiceAt 0).mState = VoiceState.kOn := h0.1
  have h0c : (s.voiceAt 0).mCurrentNoteEvent = c := h0.2.2
  rw [doNoteOn_unison_on s e c scale inv.unison f hfree h0a h0c]
  have hlt : s.mNoteEventsPending.mSize < s.mNoteEventsPending.data.length := by
    rw [inv.pendSize, inv.pendCap]
    exact hroom
  obtain ⟨hp1, hp2, hp3⟩ := push_entries s.mNoteEventsPending c hlt
  refine
    { count := inv.count
      pos := inv.pos
      unison := inv.unison
      pedal := inv.pedal
      allocated := ?_
      voices := ?_
      pendSize := ?_
      pendEntries := ?_
      pendCap := ?_
      poolLen := ?_
      pool := ?_ }
  · show n ≤ (mapFirst _ _ _).length
    rw [mapFirst_length]
    exact inv.allocated
  · intro i hi
    exact voiceAt_addNoteOn _ e scale hty i
      (by rw [← inv.count] at hi; exact hi)
      (by have := inv.allocated; rw [← inv.count] at this; exact this)
  · show (s.mNoteEventsPending.push c).mSize = (c :: rest).length
    rw [hp2, inv.pendSize]
    rfl
  · show (s.mNoteEventsPending.push c).entries = (c :: rest).reverse
    rw [hp1, inv.pendEntries, List.reverse_cons]
  · show (s.mNoteEventsPending.push c).data.length = kMaxEvents
    rw [hp3]
    exact inv.pendCap
  · show (MLControlEventVector.clearEventsMatchingID (s.mNoteEventsPlaying.set f e) c.mID).length
      = kMaxEvents
    unfold MLControlEventVector.clearEventsMatchingID
    rw [List.length_map, List.length_set]
    exact inv.poolLen
  · refine ⟨f, ?_⟩
    intro j ev hj hnn
    have hj1 : (MLControlEventVector.clearEventsMatchingID (s.mNoteEventsPlaying.set f e)
        c.mID)[j]? = some ev := hj
    unfold MLControlEventVector.clearEventsMatchingID at hj1
    rw [List.getElem?_map] at hj1
    by_cases hjf : f = j
    · subst hjf
      rw [List.getElem?_set_self hf] at hj1
      simp only [Option.map_some', Option.some.injEq] at hj1
      by_cases hid : e.mID = c.mID
      · rw [if_pos hid] at hj1
        exact absurd (by rw [← hj1]; rfl) hnn
      · rw [if_neg hid] at hj1
        exact ⟨rfl, by rw [← hj1]⟩
    · rw [List.getElem?_set_ne hjf] at hj1
      cases hx : s.mNoteEventsPlaying[j]? with
      | none =>
        rw [hx] at hj1
        exact absurd hj1 (by simp)
      | some x =>
        rw [hx] at hj1
        simp only [Option.map_some', Option.some.injEq] at hj1
        by_cases hid : x.mID = c.mID
        · rw [if_pos hid] at hj1
          exact absurd (by rw [← hj1]; rfl) hnn
        · rw [if_neg hid] at hj1
          subst hj1
          exact absurd (hpool j x hx hnn).2 hid

/-- The pool of playing events after the first loop of `doNoteOff` for the id of the sounding
event: every event is free. -/
theorem unisonInv_clearPlaying (n : ℕ) (s : MLProcInputToSignals) (c : MLControlEvent)
    (rest : List MLControlEvent) (inv : UnisonInv n s c rest) (j : ℕ) (ev : MLControlEvent)
    (hj : (clearPlaying s.mNoteEventsPlaying c.mID)[j]? = some ev) :
    ev.mType = EventType.kNull := by
  obtain ⟨k0, hpool⟩ := inv.pool
  unfold clearPlaying at hj
  rw [mapFirst_eq_map _ _ _ (le_of_eq inv.poolLen), List.getElem?_map] at hj
  cases hx : s.mNoteEventsPlaying[j]? with
  | none =>
    rw [hx] at hj
    exact absurd hj (by simp)
  | some x =>
    rw [hx] at hj
    simp only [Option.map_some', Option.some.injEq] at hj
    by_cases hid : x.mID = c.mID
    · rw [if_pos hid] at hj
      rw [← hj]
      rfl
    · rw [if_neg hid] at hj
      subst hj
      by_contra hnn
      exact absurd (hpool j x hx hnn).2 hid

/-- A note-off for the sounding event while events wait: the top of the pending stack is
popped and sounds. -/
theorem unisonInv_doNoteOff (n : ℕ) (s : MLProcInputToSignals) (c r : MLControlEvent)
    (rest : List MLControlEvent) (e : MLControlEvent) (scale : ℚ → ℚ)
    (inv : UnisonInv n s c (r :: rest)) (hid : e.mID = c.mID) :
    UnisonInv n (s.doNoteOff e scale) r rest := by
  have h0 := inv.voices 0 inv.pos
  have h0b : (s.voiceAt 0).mInstigatorID = e.mID := by rw [hid]; exact h0.2.1
  have hsz : s.mNoteEventsPending.mSize = rest.length + 1 := inv.pendSize
  have hne : ¬ (s.mNoteEventsPending.isEmpty = true) := by
    unfold MLControlEventStack.isEmpty
    simp [hsz]
  obtain ⟨hp1, hp2, hp3⟩ := pop_entries s.mNoteEventsPending (by omega) inv.fits
  have hent : s.mNoteEventsPending.pop.2.entries ++ [s.mNoteEventsPending.pop.1]
      = rest.reverse ++ [r] := by
    rw [← hp1, inv.pendEntries, List.reverse_cons]
  have hboth := List.append_inj' hent rfl
  have hpop1 : s.mNoteEventsPending.pop.1 = r := by
    have := hboth.2
    simpa using this
  have hres : s.doNoteOff e scale
      = ((s.withPlaying (clearPlaying s.mNoteEventsPlaying e.mID)).withPending
          s.mNoteEventsPending.pop.2).forActiveVoices
          (fun voice => voice.stealNoteEvent s.mNoteEventsPending.pop.1 scale mGlissando) := by
    rw [doNoteOff_unison s e scale inv.unison]
    unfold doNoteOffUnison
    have hv : (s.withPlaying (clearPlaying s.mNoteEventsPlaying e.mID)).voiceAt 0
        = s.voiceAt 0 := rfl
    simp only [hv, h0b, withPlaying_mNoteEventsPending, hne, if_true, not_false_eq_true,
      Bool.false_eq_true]
  rw [hres]
  refine
    { count := inv.count
      pos := inv.pos
      unison := inv.unison
      pedal := inv.pedal
      allocated := ?_
      voices := ?_
      pendSize := ?_
      pendEntries := ?_
      pendCap := ?_
      poolLen := ?_
      pool := ?_ }
  · show n ≤ (mapFirst _ _ _).length
    rw [mapFirst_length]
    exact inv.allocated
  · intro i hi
    have hi1 : i < s.mCurrentVoices := by rw [inv.count]; exact hi
    have hi2 : i < s.mVoices.length := lt_of_lt_of_le hi inv.allocated
    rw [voiceAt_of_mapFirst
      ((s.withPlaying (clearPlaying s.mNoteEventsPlaying e.mID)).withPending
        s.mNoteEventsPending.pop.2) _
      (fun voice => voice.stealNoteEvent s.mNoteEventsPending.pop.1 scale mGlissando)
      s.mCurrentVoices i rfl, if_pos ⟨hi1, hi2⟩]
    have := stealNoteEvent_fields (s.voiceAt (i : ℤ)) s.mNoteEventsPending.pop.1 scale mGlissando
    rw [hpop1] at this ⊢
    exact this
  · show s.mNoteEventsPending.pop.2.mSize = rest.length
    rw [hp2, hsz]
    rfl
  · show s.mNoteEventsPending.pop.2.entries = rest.reverse
    exact hboth.1
  · show s.mNoteEventsPending.pop.2.data.length = kMaxEvents
    rw [hp3]
    exact inv.pendCap
  · show (clearPlaying s.mNoteEventsPlaying e.mID).length = kMaxEvents
    unfold clearPlaying
    rw [mapFirst_length]
    exact inv.poolLen
  · refine ⟨0, ?_⟩
    intro j ev hj hnn
    have hj1 : (clearPlaying s.mNoteEventsPlaying e.mID)[j]? = some ev := hj
    rw [hid] at hj1
    exact absurd (unisonInv_clearPlaying n s c (r :: rest) inv j ev hj1) hnn

/-- A note-off for the sounding event while no event waits: every active voice goes off. -/
theorem unisonInv_lastNoteOff (n : ℕ) (s : MLProcInputToSignals) (c : MLControlEvent)
    (e : MLControlEvent) (scale : ℚ → ℚ) (inv : UnisonInv n s c []) (hid : e.mID = c.mID) :
    (s.doNoteOff e scale).mCurrentVoices = n ∧
    ∀ i : ℕ, i < n → ((s.doNoteOff e scale).voiceAt (i : ℤ)).mState = VoiceState.kOff := by
  have h0 := inv.voices 0 inv.pos
  have h0b : (s.voiceAt 0).mInstigatorID = e.mID := by rw [hid]; exact h0.2.1
  have hsz : s.mNoteEventsPending.mSize = 0 := inv.pendSize
  have hemp : s.mNoteEventsPending.isEmpty = true := by
    unfold MLControlEventStack.isEmpty
    simp [hsz]
  have hres : s.doNoteOff e scale
      = (s.withPlaying (clearPlaying s.mNoteEventsPlaying e.mID)).forActiveVoices
          (fun voice => voice.addNoteEvent
            ((s.withPlaying (clearPlaying s.mNoteEventsPlaying e.mID)).eventToSend e) scale) := by
    rw [doNoteOff_unison s e scale inv.unison]
    unfold doNoteOffUnison
    have hv : (s.withPlaying (clearPlaying s.mNoteEventsPlaying e.mID)).voiceAt 0
        = s.voiceAt 0 := rfl
    simp only [hv, h0b, withPlaying_mNoteEventsPending, hemp, if_true, not_true_eq_false,
      if_false]
  rw [hres]
  refine ⟨inv.count, ?_⟩
  intro i hi
  have hi1 : i < s.mCurrentVoices := by rw [inv.count]; exact hi
  have hi2 : i < s.mVoices.length := lt_of_lt_of_le hi inv.allocated
  rw [voiceAt_of_mapFirst (s.withPlaying (clearPlaying s.mNoteEventsPlaying e.mID)) _
    (fun voice => voice.addNoteEvent
      ((s.withPlaying (clearPlaying s.mNoteEventsPlaying e.mID)).eventToSend e) scale)
    s.mCurrentVoices i rfl, if_pos ⟨hi1, hi2⟩, addNoteEvent_mState]
  have hty : ((s.withPlaying (clearPlaying s.mNoteEventsPlaying e.mID)).eventToSend e).mType
      = EventType.kNoteOff := by
    show (if s.mSustainPedal then EventType.kNoteSustain else EventType.kNoteOff)
      = EventType.kNoteOff
    rw [inv.pedal]
    rfl
  rw [hty]

end MLProcInputToSignals

namespace MLProcInputToSignals

theorem processNoteEvent_noteOn (s : MLProcInputToSignals) (e : MLControlEvent) (scale : ℚ → ℚ)
    (hty : e.mType = EventType.kNoteOn) : s.processNoteEvent e scale = s.doNoteOn e scale := by
  unfold processNoteEvent
  rw [hty]

theorem processNoteEvent_noteOff (s : MLProcInputToSignals) (e : MLControlEvent)
    (scale : ℚ → ℚ) (hty : e.mType = EventType.kNoteOff) :
    s.processNoteEvent e scale = s.doNoteOff e scale := by
  unfold processNoteEvent
  rw [hty]

/-- The invariant after the note-ons `ak, ..., a1` (written last first) on a cleared object
whose pending stack is empty. -/
theorem unisonInv_noteOns (n : ℕ) (s : MLProcInputToSignals) (scale : ℚ → ℚ)
    (hn : s.mCurrentVoices = n) (hpos : 0 < n) (hc : s.IsCleared)
    (hsize : s.mNoteEventsPending.mSize = 0) (hu : s.mUnisonMode = true)
    (hp : s.mSustainPedal = false) (halloc : n ≤ s.mVoices.length) :
    ∀ (rest : List MLControlEvent) (c : MLControlEvent),
      (∀ e ∈ c :: rest, e.mType = EventType.kNoteOn) → rest.length ≤ kMaxEvents →
      UnisonInv n (s.processNoteEvents (c :: rest).reverse scale) c rest := by
  intro rest
  induction rest with
  | nil =>
    intro c hty _
    have hcty : c.mType = EventType.kNoteOn := hty c (List.mem_cons_self _ _)
    show UnisonInv n (s.processNoteEvent c scale) c []
    rw [processNoteEvent_noteOn s c scale hcty]
    obtain ⟨hv, hpool, hpend⟩ := hc
    have h0len : 0 < s.mVoices.length := lt_of_lt_of_le hpos halloc
    have hoff : (s.voiceAt 0).mState ≠ VoiceState.kOn := by
      have h0 : s.voiceAt 0 = s.mVoices[0] := by
        have := voiceAt_natCast s 0
        rw [List.getD_eq_getElem _ _ h0len] at this
        exact this
      rw [h0, (hv _ (List.getElem_mem h0len)).1]
      decide
    refine unisonInv_first n s c scale hn hpos hu hp halloc hoff hsize ?_ ?_ ?_ hcty
    · rw [hpend, List.length_replicate]
    · rw [hpool, List.length_replicate]
    · intro ev hev
      rw [hpool] at hev
      rw [List.eq_of_mem_replicate hev]
      rfl
  | cons c1 rest ih =>
    intro c hty hlen
    have hcty : c.mType = EventType.kNoteOn := hty c (List.mem_cons_self _ _)
    have hinv := ih c1 (fun e he => hty e (List.mem_cons_of_mem _ he))
      (by simp only [List.length_cons] at hlen; omega)
    rw [List.reverse_cons, processNoteEvents_append]
    show UnisonInv n ((s.processNoteEvents (c1 :: rest).reverse scale).processNoteEvent c scale)
      c (c1 :: rest)
    rw [processNoteEvent_noteOn _ c scale hcty]
    exact unisonInv_doNoteOn n _ c1 rest c scale hinv hcty
      (by simp only [List.length_cons] at hlen; omega)

/-- The note-offs for the sounding event and then for the waiting events, top of the stack
first: after `j` of them the event `j` of the list sounds, after all of them every active
voice is off. -/
theorem unisonInv_noteOffs (n : ℕ) (scale : ℚ → ℚ) :
    ∀ (rest : List MLControlEvent) (c : MLControlEvent) (t : MLProcInputToSignals)
      (offs : List MLControlEvent),
      UnisonInv n t c rest →
      offs.map (fun e => e.mID) = (c :: rest).map (fun e => e.mID) →
      (∀ e ∈ offs, e.mType = EventType.kNoteOff) →
      (∀ j : ℕ, j < (c :: rest).length → ∀ i : ℕ, i < n →
        ((t.processNoteEvents (offs.take j) scale).voiceAt (i : ℤ)).mState = VoiceState.kOn ∧
        ((t.processNoteEvents (offs.take j) scale).voiceAt (i : ℤ)).mInstigatorID
          = ((c :: rest).map (fun e => e.mID)).getD j 0) ∧
      (t.processNoteEvents offs scale).mCurrentVoices = n ∧
      (∀ i : ℕ, i < n →
        ((t.processNoteEvents offs scale).voiceAt (i : ℤ)).mState = VoiceState.kOff) := by
  intro rest
  induction rest with
  | nil =>
    intro c t offs inv hids hty
    cases offs with
    | nil => simp at hids
    | cons o offs =>
      simp only [List.map_cons, List.map_nil, List.cons.injEq, List.map_eq_nil_iff] at hids
      obtain ⟨hid, hnil⟩ := hids
      subst hnil
      have hoty : o.mType = EventType.kNoteOff := hty o (List.mem_cons_self _ _)
      refine ⟨?_, ?_⟩
      · intro j hj i hi
        have hj0 : j = 0 := by simp only [List.length_cons, List.length_nil] at hj; omega
        subst hj0
        exact ⟨(inv.voices i hi).1, (inv.voices i hi).2.1⟩
      · show (t.processNoteEvent o scale).mCurrentVoices = n ∧ ∀ i : ℕ, i < n →
          ((t.processNoteEvent o scale).voiceAt (i : ℤ)).mState = VoiceState.kOff
        rw [processNoteEvent_noteOff t o scale hoty]
        exact unisonInv_lastNoteOff n t c o scale inv hid
  | cons r rest ih =>
    intro c t offs inv hids hty
    cases offs with
    | nil => simp at hids
    | cons o offs =>
      simp only [List.map_cons, List.cons.injEq] at hids
      obtain ⟨hid, hrest⟩ := hids
      have hoty : o.mType = EventType.kNoteOff := hty o (List.mem_cons_self _ _)
      have inv1 := unisonInv_doNoteOff n t c r rest o scale inv hid
      have hrec := ih r (t.doNoteOff o scale) offs inv1
        (by simp only [List.map_cons, List.cons.injEq]; exact hrest)
        (fun e he => hty e (List.mem_cons_of_mem _ he))
      have hstep : ∀ l : List MLControlEvent,
          t.processNoteEvents (o :: l) scale = (t.doNoteOff o scale).processNoteEvents l scale := by
        intro l
        show (t.processNoteEvent o scale).processNoteEvents l scale = _
        rw [processNoteEvent_noteOff t o scale hoty]
      refine ⟨?_, ?_⟩
      · intro j hj i hi
        cases j with
        | zero => exact ⟨(inv.voices i hi).1, (inv.voices i hi).2.1⟩
        | succ j =>
          rw [List.take_succ_cons, hstep]
          exact hrec.1 j (by simp only [List.length_cons] at hj ⊢; omega) i hi
      · rw [hstep]
        exact hrec.2

/-- Unison mode with the pedal up, starting from a cleared state whose pending stack is
empty (`mSize = 0`, as after construction) and with allocated active voices: after the
note-ons `a1, ..., ak` (`k` at most the capacity of the pending stack plus one; the ids may
be pairwise distinct or not) followed by `j < k` of the note-offs for `ak, a(k-1), ..., a1`,
every active voice is on and its instigator is `a(k-j)`, the entry `j` of the reversed list
of ids; after all `k` note-offs every active voice is off. -/
theorem unison_lifo (s : MLProcInputToSignals) (ons offs : List MLControlEvent)
    (scale : ℚ → ℚ) (hc : s.IsCleared) (hsize : s.mNoteEventsPending.mSize = 0)
    (hu : s.mUnisonMode = true) (hp : s.mSustainPedal = false)
    (halloc : s.mCurrentVoices ≤ s.mVoices.length)
    (hon : ∀ e ∈ ons, e.mType = EventType.kNoteOn)
    (hoff : ∀ e ∈ offs, e.mType = EventType.kNoteOff)
    (hk : ons.length ≤ kMaxEvents + 1)
    (hids : offs.map (fun e => e.mID) = (ons.map (fun e => e.mID)).reverse) :
    (∀ j : ℕ, j < ons.length → ∀ i : ℕ, i < s.mCurrentVoices →
      ((s.processNoteEvents (ons ++ offs.take j) scale).voiceAt (i : ℤ)).mState
        = VoiceState.kOn ∧
      ((s.processNoteEvents (ons ++ offs.take j) scale).voiceAt (i : ℤ)).mInstigatorID
        = ((ons.map (fun e => e.mID)).reverse).getD j 0) ∧
    (∀ v ∈ (s.processNoteEvents (ons ++ offs) scale).activeVoices,
      v.mState = VoiceState.kOff) := by
  have hcount : ∀ l : List MLControlEvent,
      (s.processNoteEvents l scale).mCurrentVoices = s.mCurrentVoices :=
    fun l => unison_count_processNoteEvents l scale s hu
  by_cases hpos : 0 < s.mCurrentVoices
  · cases hrev : ons.reverse with
    | nil =>
      have hons : ons = [] := List.reverse_eq_nil_iff.mp hrev
      subst hons
      have hoffs : offs = [] := by simpa using hids
      subst hoffs
      refine ⟨fun j hj => absurd hj (by simp), ?_⟩
      intro v hv
      exact (hc.1 v (List.mem_of_mem_take hv)).1
    | cons c rest =>
      have hons : ons = (c :: rest).reverse := by rw [← hrev, List.reverse_reverse]
      have hlen : rest.length ≤ kMaxEvents := by
        have := congrArg List.length hrev
        simp only [List.length_reverse, List.length_cons] at this
        omega
      have inv := unisonInv_noteOns s.mCurrentVoices s scale rfl hpos hc hsize hu hp halloc
        rest c (fun e he => hon e (by rw [hons]; exact List.mem_reverse.mpr he)) hlen
      have hids1 : offs.map (fun e => e.mID) = (c :: rest).map (fun e => e.mID) := by
        rw [hids, ← List.map_reverse, hrev]
      have hmain := unisonInv_noteOffs s.mCurrentVoices scale rest c _ offs inv hids1 hoff
      rw [← hons] at hmain
      refine ⟨?_, ?_⟩
      · intro j hj i hi
        rw [processNoteEvents_append, ← List.map_reverse, hrev]
        have hj1 : j < (c :: rest).length := by
          have := congrArg List.length hrev
          rw [List.length_reverse] at this
          omega
        exact hmain.1 j hj1 i hi
      · intro v hv
        obtain ⟨i, hi1, _, _, hi4⟩ := mem_activeVoices _ v hv
        rw [processNoteEvents_append] at hi1 hi4
        rw [← hi4]
        exact hmain.2.2 i (by rw [hmain.2.1] at hi1; exact hi1)
  · have h0 : s.mCurrentVoices = 0 := by omega
    refine ⟨fun j _ i hi => absurd hi (by omega), ?_⟩
    intro v hv
    unfold activeVoices at hv
    rw [hcount, h0] at hv
    simp at hv

/-- The resumption in LIFO order at a concrete input: three voices in unison mode, an empty
pending stack and the note-ons 1, 2, 3.  After the note-off for 3 the voices sound 2, and
after the note-offs for 3, 2 and 1 they are off. -/
theorem unison_lifo_witness :
    ((threeVoicesUnison.processNoteEvents
        ([noteOn 1 60 0 1, noteOn 2 64 1 1, noteOn 3 67 2 1]
          ++ [noteOff 3 67 3, noteOff 2 64 4, noteOff 1 60 5].take 1)
        (fun x => x)).voiceAt ((0 : ℕ) : ℤ)).mInstigatorID = 2 ∧
    (∀ v ∈ (threeVoicesUnison.processNoteEvents
        ([noteOn 1 60 0 1, noteOn 2 64 1 1, noteOn 3 67 2 1]
          ++ [noteOff 3 67 3, noteOff 2 64 4, noteOff 1 60 5])
        (fun x => x)).activeVoices, v.mState = VoiceState.kOff) :=
  ⟨((unison_lifo threeVoicesUnison [noteOn 1 60 0 1, noteOn 2 64 1 1, noteOn 3 67 2 1]
      [noteOff 3 67 3, noteOff 2 64 4, noteOff 1 60 5] (fun x => x)
      (by decide) (by decide) (by decide) (by decide) (by decide) (by decide) (by decide)
      (by decide) (by decide)).1 1 (by decide) 0 (by decide)).2,
   (unison_lifo threeVoicesUnison [noteOn 1 60 0 1, noteOn 2 64 1 1, noteOn 3 67 2 1]
      [noteOff 3 67 3, noteOff 2 64 4, noteOff 1 60 5] (fun x => x)
      (by decide) (by decide) (by decide) (by decide) (by decide) (by decide) (by decide)
      (by decide) (by decide)).2⟩

end MLProcInputToSignals

/-! ## The rendering of a change list -/

theorem overwriteSamples_length (old new : List ℚ) :
    (overwriteSamples old new).length = old.length := by
  induction old generalizing new with
  | nil => rfl
  | cons x xs ih =>
    cases new with
    | nil => rfl
    | cons y ys => simp [overwriteSamples, ih]

theorem overwriteSamples_getElem? (old new : List ℚ) (i : ℕ) (h1 : i < new.length)
    (h2 : i < old.length) : (overwriteSamples old new)[i]? = new[i]? := by
  induction old generalizing new i with
  | nil => simp at h2
  | cons x xs ih =>
    cases new with
    | nil => simp at h1
    | cons y ys =>
      cases i with
      | zero => simp [overwriteSamples]
      | succ i =>
        simp only [overwriteSamples, List.getElem?_cons_succ]
        exact ih ys i (by simpa using h1) (by simpa using h2)

theorem renderFrom_length (c : MLChangeList) (n i : ℕ) (r : MLChangeList.Ramp) :
    (c.renderFrom n i r).1.length = n := by
  induction n generalizing i r with
  | zero => rfl
  | succ n ih => simp [MLChangeList.renderFrom, ih]

theorem advance_of_settled (r : MLChangeList.Ramp) (h : r.value = r.goal) : r.advance = r := by
  unfold MLChangeList.Ramp.advance
  rw [h]
  simp

/-- With zero glide time and the single change `(x, k)`, the step of a sample other than `k`
leaves a settled state as it is. -/
theorem sampleStep_other (c : MLChangeList) (x : ℚ) (k i : ℕ) (r : MLChangeList.Ramp)
    (hch : c.mChanges = [(x, (k : ℤ))]) (hr : r.value = r.goal) (hik : i ≠ k) :
    c.sampleStep r i = r := by
  have hne : ¬ ((k : ℤ) = (i : ℤ)) := by omega
  unfold MLChangeList.sampleStep
  rw [hch]
  simp only [List.filter_cons, List.filter_nil, hne, decide_False, Bool.false_eq_true, if_false,
    List.foldl_nil]
  exact advance_of_settled r hr

/-- With zero glide time and the single change `(x, k)`, the step of sample `k` settles on
`x`. -/
theorem sampleStep_at (c : MLChangeList) (x : ℚ) (k : ℕ) (r : MLChangeList.Ramp)
    (hg : c.mGlideTime = 0) (hch : c.mChanges = [(x, (k : ℤ))]) :
    c.sampleStep r k = { value := x, goal := x, inc := 0 } := by
  unfold MLChangeList.sampleStep
  rw [hch]
  simp only [List.filter_cons, List.filter_nil, decide_True, if_true, List.foldl_cons,
    List.foldl_nil, MLChangeList.setGoal, hg]
  exact advance_of_settled _ rfl

theorem renderFrom_after (c : MLChangeList) (x : ℚ) (k : ℕ)
    (hch : c.mChanges = [(x, (k : ℤ))]) :
    ∀ (n i : ℕ) (r : MLChangeList.Ramp), r.value = r.goal → k < i →
      c.renderFrom n i r = (List.replicate n r.value, r) := by
  intro n
  induction n with
  | zero =>
    intro i r _ _
    rfl
  | succ n ih =>
    intro i r hr hi
    have hstep := sampleStep_other c x k i r hch hr (by omega)
    simp only [MLChangeList.renderFrom, hstep, ih (i + 1) r hr (by omega), List.replicate_succ]

theorem renderFrom_single (c : MLChangeList) (x : ℚ) (k : ℕ) (hg : c.mGlideTime = 0)
    (hch : c.mChanges = [(x, (k : ℤ))]) :
    ∀ (n i : ℕ) (r : MLChangeList.Ramp), r.value = r.goal → i ≤ k → k < i + n →
      c.renderFrom n i r
        = (List.replicate (k - i) r.value ++ List.replicate (i + n - k) x,
           { value := x, goal := x, inc := 0 }) := by
  intro n
  induction n with
  | zero =>
    intro i r _ h1 h2
    omega
  | succ n ih =>
    intro i r hr h1 h2
    by_cases hik : i = k
    · subst hik
      have hstep := sampleStep_at c x i r hg hch
      have hrest := renderFrom_after c x i hch n (i + 1) { value := x, goal := x, inc := 0 } rfl
        (by omega)
      simp only [MLChangeList.renderFrom, hstep, hrest]
      have e1 : i - i = 0 := by omega
      have e2 : i + (n + 1) - i = n + 1 := by omega
      rw [e1, e2, List.replicate_zero, List.nil_append, List.replicate_succ]
    · have hstep := sampleStep_other c x k i r hch hr hik
      have hrest := ih (i + 1) r hr (by omega) (by omega)
      simp only [MLChangeList.renderFrom, hstep, hrest]
      have e1 : k - i = (k - (i + 1)) + 1 := by omega
      have e2 : i + 1 + n - k = i + (n + 1) - k := by omega
      rw [e1, e2, List.replicate_succ, List.cons_append]

/-- C28. For a change list whose held value is `p = c.mValue`, with zero glide time and
exactly one scheduled change `(x, k)` with `0 ≤ k < length`, `writeToSignal` on a buffer
that holds at least `length` samples writes `p` at every index `i < k` and `x` at every
index `i` with `k ≤ i < length`, and the held value afterwards is `x`. -/
theorem writeToSignal_single_change (c : MLChangeList) (sig : MLSignal) (x : ℚ) (k length : ℕ)
    (hg : c.mGlideTime = 0) (hch : c.mChanges = [(x, (k : ℤ))]) (hk : k < length)
    (hlen : length ≤ sig.samples.length) :
    (∀ i : ℕ, i < length →
      (c.writeToSignal sig length).1.samples[i]? = some (if i < k then c.mValue else x)) ∧
    (c.writeToSignal sig length).2.mValue = x := by
  have hr := renderFrom_single c x k hg hch length 0 c.start rfl (Nat.zero_le _) (by omega)
  refine ⟨?_, ?_⟩
  · intro i hi
    have hlen1 : (c.render length).length = length := renderFrom_length c length 0 c.start
    show (overwriteSamples sig.samples (c.render length))[i]? = _
    rw [overwriteSamples_getElem? _ _ i (by omega) (by omega)]
    unfold MLChangeList.render
    rw [hr]
    simp only [Nat.sub_zero, Nat.zero_add]
    by_cases hik : i < k
    · rw [if_pos hik, List.getElem?_append_left (by simpa using hik)]
      rw [List.getElem?_replicate, if_pos hik]
      rfl
    · rw [if_neg hik, List.getElem?_append_right (by simpa using hik)]
      simp only [List.length_replicate]
      rw [List.getElem?_replicate, if_pos (by omega)]
  · show (c.renderFrom length 0 c.start).2.value = x
    rw [hr]

/-- C28, witness: held value 2, the change `(5, 3)` and six samples. -/
theorem writeToSignal_single_change_witness :
    ((({ mChanges := [(5, 3)], mValue := 2, mGlideTime := 0, mSampleRate := 0 } :
      MLChangeList).writeToSignal { samples := List.replicate 6 0 } 6).1.samples[3]? = some 5) ∧
    (({ mChanges := [(5, 3)], mValue := 2, mGlideTime := 0, mSampleRate := 0 } :
      MLChangeList).writeToSignal { samples := List.replicate 6 0 } 6).1.samples
      = [2, 2, 2, 5, 5, 5] :=
  ⟨(writeToSignal_single_change
      { mChanges := [(5, 3)], mValue := 2, mGlideTime := 0, mSampleRate := 0 }
      { samples := List.replicate 6 0 } 5 3 6 rfl rfl (by decide) (by decide)).1 3 (by decide),
   by decide⟩

/-! ## The output composer -/

theorem addSamples_length (a b : List ℚ) : (addSamples a b).length = a.length := by
  induction a generalizing b with
  | nil => rfl
  | cons x xs ih =>
    cases b with
    | nil => rfl
    | cons y ys => simp [addSamples, ih]

theorem addSamples_getElem? (a b : List ℚ) (i : ℕ) (h1 : i < a.length) (h2 : i < b.length) :
    (addSamples a b)[i]? = some (a.getD i 0 + b.getD i 0) := by
  induction a generalizing b i with
  | nil => simp at h1
  | cons x xs ih =>
    cases b with
    | nil => simp at h2
    | cons y ys =>
      cases i with
      | zero => simp [addSamples]
      | succ i =>
        simp only [addSamples, List.getElem?_cons_succ, List.getD_cons_succ]
        exact ih ys i (by simpa using h1) (by simpa using h2)

theorem render_length (c : MLChangeList) (frames : ℕ) : (c.render frames).length = frames :=
  renderFrom_length c frames 0 c.start

/-- The samples written by `writeToSignal` are the rendered ones. -/
theorem writeToSignal_getD (c : MLChangeList) (sig : MLSignal) (frames i : ℕ) (hi : i < frames)
    (hlen : frames ≤ sig.samples.length) :
    (c.writeToSignal sig frames).1.samples.getD i 0 = (c.render frames).getD i 0 := by
  show (overwriteSamples sig.samples (c.render frames)).getD i 0 = _
  rw [List.getD_eq_getElem?_getD, List.getD_eq_getElem?_getD,
    overwriteSamples_getElem? _ _ i (by rw [render_length]; exact hi) (by omega)]

theorem writeToSignal_length (c : MLChangeList) (sig : MLSignal) (frames : ℕ) :
    (c.writeToSignal sig frames).1.samples.length = sig.samples.length :=
  overwriteSamples_length _ _

namespace MLProcInputToSignals

theorem writePitch_temp_length (protocol : InputProtocol) (inputDrift : Bool) (offset : ℚ)
    (frames : ℕ) (m : MainSignals) (voice : MLVoice) (pitch : MLSignal) :
    (writePitch protocol inputDrift offset frames m voice pitch).2.1.samples.length
      = m.mTempSignal.samples.length := by
  unfold writePitch
  cases inputDrift
  · simp [MLSignal.fill, writeToSignal_length]
  · simp [MLSignal.fill, writeToSignal_length]

theorem writeAfter_temp_length (protocol : InputProtocol) (frames : ℕ) (m : MainSignals)
    (temp : MLSignal) (voice : MLVoice) (after : MLSignal) :
    (writeAfter protocol frames m temp voice after).2.1.samples.length
      = temp.samples.length := by
  cases protocol
  · rfl
  · exact writeToSignal_length _ _ _
  · rfl
  · rfl

theorem writeActiveVoice_temp_length (protocol : InputProtocol) (inputDrift : Bool)
    (offset : ℚ) (frames : ℕ) (m : MainSignals) (v : ℕ) (voice : MLVoice)
    (out : VoiceSignals) :
    (writeActiveVoice protocol inputDrift offset frames m v voice out).2.2.mTempSignal.samples.length
      = m.mTempSignal.samples.length := by
  show (writeAfter protocol frames m
      (writePitch protocol inputDrift offset frames m voice out.pitch).2.1 voice
      out.after).2.1.samples.length = _
  rw [writeAfter_temp_length, writePitch_temp_length]

/-- The aftertouch signal written for an active voice. -/
theorem writeAfter_getElem? (protocol : InputProtocol) (frames : ℕ) (m : MainSignals)
    (temp : MLSignal) (voice : MLVoice) (after : MLSignal) (i : ℕ) (hi : i < frames)
    (h1 : frames ≤ after.samples.length) (h2 : frames ≤ temp.samples.length)
    (h3 : frames ≤ m.mMainChannelPressureSignal.samples.length) :
    (protocol = InputProtocol.kInputProtocolMIDI →
      (writeAfter protocol frames m temp voice after).1.samples[i]?
        = some ((voice.mdNotePressure.render frames).getD i 0
            + (voice.mdChannelPressure.render frames).getD i 0)) ∧
    (protocol = InputProtocol.kInputProtocolMIDI_MPE →
      (writeAfter protocol frames m temp voice after).1.samples[i]?
        = some ((voice.mdChannelPressure.render frames).getD i 0
            + m.mMainChannelPressureSignal.samples.getD i 0)) ∧
    (protocol = InputProtocol.kInputProtocolOSC →
      (writeAfter protocol frames m temp voice after).1.samples[i]?
        = some ((voice.mdAmp.render frames).getD i 0)) := by
  refine ⟨?_, ?_, ?_⟩
  · intro hp
    subst hp
    show (addSamples (voice.mdNotePressure.writeToSignal after frames).1.samples
      (voice.mdChannelPressure.writeToSignal temp frames).1.samples)[i]? = _
    rw [addSamples_getElem? _ _ i (by rw [writeToSignal_length]; omega)
      (by rw [writeToSignal_length]; omega),
      writeToSignal_getD _ _ _ _ hi h1, writeToSignal_getD _ _ _ _ hi h2]
  · intro hp
    subst hp
    show (addSamples (voice.mdChannelPressure.writeToSignal after frames).1.samples
      m.mMainChannelPressureSignal.samples)[i]? = _
    rw [addSamples_getElem? _ _ i (by rw [writeToSignal_length]; omega) (by omega),
      writeToSignal_getD _ _ _ _ hi h1]
  · intro hp
    subst hp
    show (voice.mdAmp.writeToSignal after frames).1.samples[i]? = _
    have hlt : i < (voice.mdAmp.writeToSignal after frames).1.samples.length := by
      rw [writeToSignal_length]; omega
    rw [List.getElem?_eq_getElem hlt, ← List.getD_eq_getElem _ 0 hlt,
      writeToSignal_getD _ _ _ _ hi h1]

/-- The outputs written by the loop of `writeOutputSignals` for a voice that is not
active. -/
theorem writeVoicesLoop_idle (protocol : InputProtocol) (inputDrift : Bool) (offset : ℚ)
    (frames n : ℕ) :
    ∀ (k v0 : ℕ) (voices : List MLVoice) (outs : List VoiceSignals) (m : MainSignals)
      (j : ℕ) (out : VoiceSignals),
      j < k → j < voices.length → outs[j]? = some out → n ≤ v0 + j →
      (writeVoicesLoop protocol inputDrift offset frames n k v0 voices outs m).2.1[j]?
        = some (writeIdleVoice out) := by
  intro k
  induction k with
  | zero =>
    intro v0 voices outs m j out hj
    omega
  | succ k ih =>
    intro v0 voices outs m j out hj hvoices hout hn
    cases voices with
    | nil => simp at hvoices
    | cons voice voices =>
      cases outs with
      | nil => simp at hout
      | cons o outs =>
        cases j with
        | zero =>
          have hnot : ¬ v0 < n := by omega
          simp only [List.getElem?_cons_zero, Option.some.injEq] at hout
          subst hout
          simp only [writeVoicesLoop, if_neg hnot, List.getElem?_cons_zero]
        | succ j =>
          simp only [List.getElem?_cons_succ] at hout
          have hvoices1 : j < voices.length := by simpa using hvoices
          by_cases hv : v0 < n
          · simp only [writeVoicesLoop, if_pos hv, List.getElem?_cons_succ]
            exact ih (v0 + 1) voices outs _ j out (by omega) hvoices1 hout (by omega)
          · simp only [writeVoicesLoop, if_neg hv, List.getElem?_cons_succ]
            exact ih (v0 + 1) voices outs _ j out (by omega) hvoices1 hout (by omega)

/-- The outputs written by the loop of `writeOutputSignals` for an active voice: those of
`writeActiveVoice`, for signal members that differ from the initial ones in the contents of
the temp signal only. -/
theorem writeVoicesLoop_active (protocol : InputProtocol) (inputDrift : Bool) (offset : ℚ)
    (frames n : ℕ) :
    ∀ (k v0 : ℕ) (voices : List MLVoice) (outs : List VoiceSignals) (m : MainSignals)
      (j : ℕ) (voice : MLVoice) (out : VoiceSignals),
      j < k → voices[j]? = some voice → outs[j]? = some out → v0 + j < n →
      ∃ m1 : MainSignals,
        m1.mTempSignal.samples.length = m.mTempSignal.samples.length ∧
        m1.mMainChannelPressureSignal = m.mMainChannelPressureSignal ∧
        (writeVoicesLoop protocol inputDrift offset frames n k v0 voices outs m).2.1[j]?
          = some (writeActiveVoice protocol inputDrift offset frames m1 (v0 + j) voice
              out).2.1 := by
  intro k
  induction k with
  | zero =>
    intro v0 voices outs m j voice out hj
    omega
  | succ k ih =>
    intro v0 voices outs m j voice out hj hvoice hout hn
    cases voices with
    | nil => simp at hvoice
    | cons w voices =>
      cases outs with
      | nil => simp at hout
      | cons o outs =>
        cases j with
        | zero =>
          have hv : v0 < n := by omega
          simp only [List.getElem?_cons_zero, Option.some.injEq] at hout hvoice
          subst hout
          subst hvoice
          refine ⟨m, rfl, rfl, ?_⟩
          simp only [writeVoicesLoop, if_pos hv, List.getElem?_cons_zero, Nat.add_zero]
        | succ j =>
          simp only [List.getElem?_cons_succ] at hout hvoice
          have e : v0 + (j + 1) = v0 + 1 + j := by omega
          by_cases hv : v0 < n
          · obtain ⟨m1, h1, h2, h3⟩ := ih (v0 + 1) voices outs
              (writeActiveVoice protocol inputDrift offset frames m v0 w o).2.2 j voice out
              (by omega) hvoice hout (by omega)
            refine ⟨m1, ?_, ?_, ?_⟩
            · rw [h1, writeActiveVoice_temp_length]
            · rw [h2]
              rfl
            · simp only [writeVoicesLoop, if_pos hv, List.getElem?_cons_succ]
              rw [e]
              exact h3
          · omega

theorem writeMainSignals_fields (s : MLProcInputToSignals) (m : MainSignals) (frames : ℕ) :
    (s.writeMainSignals m frames).1.mProtocol = s.mProtocol ∧
    (s.writeMainSignals m frames).1.mCurrentVoices = s.mCurrentVoices ∧
    (s.writeMainSignals m frames).1.mVoices = s.mVoices ∧
    (s.writeMainSignals m frames).2.mTempSignal = m.mTempSignal := by
  unfold writeMainSignals
  split
  · exact ⟨rfl, rfl, rfl, rfl⟩
  · exact ⟨rfl, rfl, rfl, rfl⟩

/-- C26. `writeOutputSignals` sets all eight output signals (pitch, gate, velocity,
voice index, aftertouch and the three modulation signals) of every allocated voice index
`v` with `mCurrentVoices ≤ v < maxVoices` to the constant 0: every sample of each of them is
0, whatever the protocol and the contents of the change lists of that voice. -/
theorem writeOutputSignals_idle (s : MLProcInputToSignals) (m : MainSignals)
    (outs : List VoiceSignals) (frames maxVoices : ℕ) (inputDrift : Bool) (offset : ℚ)
    (v : ℕ) (out : VoiceSignals) (hv : s.mCurrentVoices ≤ v) (hmax : v < maxVoices)
    (hlen : v < s.mVoices.length) (hout : outs[v]? = some out) :
    ∃ out1 : VoiceSignals,
      (s.writeOutputSignals m outs frames maxVoices inputDrift offset).2.2[v]? = some out1 ∧
      out1.pitch.samples = List.replicate out.pitch.samples.length 0 ∧
      out1.gate.samples = List.replicate out.gate.samples.length 0 ∧
      out1.velSig.samples = List.replicate out.velSig.samples.length 0 ∧
      out1.voiceSig.samples = List.replicate out.voiceSig.samples.length 0 ∧
      out1.after.samples = List.replicate out.after.samples.length 0 ∧
      out1.mod.samples = List.replicate out.mod.samples.length 0 ∧
      out1.mod2.samples = List.replicate out.mod2.samples.length 0 ∧
      out1.mod3.samples = List.replicate out.mod3.samples.length 0 := by
  obtain ⟨hp, hn, hvs, _⟩ := writeMainSignals_fields s m frames
  refine ⟨writeIdleVoice out, ?_, ?_⟩
  · show (writeVoicesLoop _ inputDrift offset frames _ maxVoices 0 _ outs _).2.1[v]? = _
    rw [hn, hvs]
    exact writeVoicesLoop_idle _ inputDrift offset frames s.mCurrentVoices maxVoices 0
      s.mVoices outs _ v out hmax hlen hout (by omega)
  · simp [writeIdleVoice, MLSignal.setToConstant, List.map_const']

end MLProcInputToSignals

namespace MLProcInputToSignals

theorem writeMainSignals_pressure (s : MLProcInputToSignals) (m : MainSignals) (frames : ℕ) :
    (s.writeMainSignals m frames).2.mMainChannelPressureSignal.samples.length
      = m.mMainChannelPressureSignal.samples.length ∧
    (s.mProtocol = InputProtocol.kInputProtocolMIDI_MPE →
      (s.writeMainSignals m frames).2.mMainChannelPressureSignal
        = (s.mMPEMainVoice.mdChannelPressure.writeToSignal m.mMainChannelPressureSignal
            frames).1) := by
  unfold writeMainSignals
  split
  · exact ⟨writeToSignal_length _ _ _, fun _ => rfl⟩
  · rename_i h
    exact ⟨rfl, fun hp => absurd hp h⟩

/-- C27. For every active voice `v` and every sample `i` of the block (the output and the
signal members hold at least `frames` samples), the aftertouch output written by
`writeOutputSignals` is: in the plain protocol, the rendered note pressure plus the rendered
channel pressure of that voice; in the per-channel protocol, the rendered channel pressure
of that voice plus the rendered channel pressure of the main-channel voice (the note
pressure of the voice does not occur); in the continuous-touch protocol, the rendered
amplitude list of that voice. -/
theorem writeOutputSignals_after (s : MLProcInputToSignals) (m : MainSignals)
    (outs : List VoiceSignals) (frames maxVoices : ℕ) (inputDrift : Bool) (offset : ℚ)
    (v i : ℕ) (voice : MLVoice) (out : VoiceSignals)
    (hv : v < s.mCurrentVoices) (hmax : v < maxVoices)
    (hvoice : s.mVoices[v]? = some voice) (hout : outs[v]? = some out) (hi : i < frames)
    (h1 : frames ≤ out.after.samples.length) (h2 : frames ≤ m.mTempSignal.samples.length)
    (h3 : frames ≤ m.mMainChannelPressureSignal.samples.length) :
    ∃ out1 : VoiceSignals,
      (s.writeOutputSignals m outs frames maxVoices inputDrift offset).2.2[v]? = some out1 ∧
      (s.mProtocol = InputProtocol.kInputProtocolMIDI →
        out1.after.samples[i]?
          = some ((voice.mdNotePressure.render frames).getD i 0
              + (voice.mdChannelPressure.render frames).getD i 0)) ∧
      (s.mProtocol = InputProtocol.kInputProtocolMIDI_MPE →
        out1.after.samples[i]?
          = some ((voice.mdChannelPressure.render frames).getD i 0
              + (s.mMPEMainVoice.mdChannelPressure.render frames).getD i 0)) ∧
      (s.mProtocol = InputProtocol.kInputProtocolOSC →
        out1.after.samples[i]? = some ((voice.mdAmp.render frames).getD i 0)) := by
  obtain ⟨hp, hn, hvs, htemp⟩ := writeMainSignals_fields s m frames
  obtain ⟨hplen, hpmpe⟩ := writeMainSignals_pressure s m frames
  obtain ⟨m1, hm1, hm2, hrow⟩ := writeVoicesLoop_active (s.writeMainSignals m frames).1.mProtocol
    inputDrift offset frames (s.writeMainSignals m frames).1.mCurrentVoices maxVoices 0
    (s.writeMainSignals m frames).1.mVoices outs (s.writeMainSignals m frames).2 v voice out
    hmax (by rw [hvs]; exact hvoice) hout (by rw [hn]; omega)
  rw [htemp] at hm1
  have hafter := writeAfter_getElem? s.mProtocol frames m1
    (writePitch s.mProtocol inputDrift offset frames m1 voice out.pitch).2.1 voice out.after i hi
    h1 (by rw [writePitch_temp_length, hm1]; exact h2) (by rw [hm2, hplen]; exact h3)
  refine ⟨_, hrow, ?_⟩
  rw [hp, Nat.zero_add]
  refine ⟨?_, ?_, ?_⟩
  · intro hpr
    exact hafter.1 hpr
  · intro hpr
    have := hafter.2.1 hpr
    rw [hm2, hpmpe hpr, writeToSignal_getD _ _ _ _ hi h3] at this
    exact this
  · intro hpr
    exact hafter.2.2 hpr

/-- C27, witness: one voice of the plain protocol with a note-pressure change to 1/2 and a
channel-pressure change to 1/4 at offset 1, and a block of four samples. -/
theorem writeOutputSignals_after_witness :
    ∃ out1 : VoiceSignals,
      (((cleared 1 1 InputProtocol.kInputProtocolMIDI false).withVoices
          [{ MLVoice.init with
              mdNotePressure := MLVoice.init.mdNotePressure.addChange (1 / 2) 1,
              mdChannelPressure := MLVoice.init.mdChannelPressure.addChange (1 / 4) 1 }]
        ).writeOutputSignals (MainSignals.zeros 4) [VoiceSignals.zeros 4] 4 1 false 0).2.2[0]?
        = some out1 ∧
      out1.after.samples[2]?
        = some ((({ MLVoice.init with
              mdNotePressure := MLVoice.init.mdNotePressure.addChange (1 / 2) 1,
              mdChannelPressure := MLVoice.init.mdChannelPressure.addChange (1 / 4) 1 } :
              MLVoice).mdNotePressure.render 4).getD 2 0
          + (({ MLVoice.init with
              mdNotePressure := MLVoice.init.mdNotePressure.addChange (1 / 2) 1,
              mdChannelPressure := MLVoice.init.mdChannelPressure.addChange (1 / 4) 1 } :
              MLVoice).mdChannelPressure.render 4).getD 2 0) := by
  obtain ⟨out1, h1, h2, _⟩ := writeOutputSignals_after
    ((cleared 1 1 InputProtocol.kInputProtocolMIDI false).withVoices
      [{ MLVoice.init with
          mdNotePressure := MLVoice.init.mdNotePressure.addChange (1 / 2) 1,
          mdChannelPressure := MLVoice.init.mdChannelPressure.addChange (1 / 4) 1 }])
    (MainSignals.zeros 4) [VoiceSignals.zeros 4] 4 1 false 0 0 2 _ (VoiceSignals.zeros 4)
    (by decide) (by decide) rfl rfl (by decide) (by decide) (by decide) (by decide)
  exact ⟨out1, h1, h2 rfl⟩

/-- C26, witness: two allocated voices of which one is active; the outputs of voice 1 are
constant 0 although its gate list holds a change. -/
theorem writeOutputSignals_idle_witness :
    ∃ out1 : VoiceSignals,
      (((cleared 2 1 InputProtocol.kInputProtocolMIDI false).withVoices
          [MLVoice.init, { MLVoice.init with mdGate := MLVoice.init.mdGate.addChange 1 0 }]
        ).writeOutputSignals (MainSignals.zeros 4)
          [VoiceSignals.zeros 4, { VoiceSignals.zeros 4 with gate := { samples := [1, 1, 1, 1] } }]
          4 2 false 0).2.2[1]? = some out1 ∧
      out1.gate.samples = [0, 0, 0, 0] := by
  obtain ⟨out1, h1, _, h3, _⟩ := writeOutputSignals_idle
    ((cleared 2 1 InputProtocol.kInputProtocolMIDI false).withVoices
      [MLVoice.init, { MLVoice.init with mdGate := MLVoice.init.mdGate.addChange 1 0 }])
    (MainSignals.zeros 4)
    [VoiceSignals.zeros 4, { VoiceSignals.zeros 4 with gate := { samples := [1, 1, 1, 1] } }]
    4 2 false 0 1 { VoiceSignals.zeros 4 with gate := { samples := [1, 1, 1, 1] } }
    (by decide) (by decide) (by decide) rfl
  exact ⟨out1, h1, h3⟩

end MLProcInputToSignals

namespace MLProcInputToSignals

/-! ## Events that match nothing -/

theorem mapFirst_eq_self {α : Type} (f : α → α) :
    ∀ (n : ℕ) (l : List α), (∀ x ∈ l.take n, f x = x) → mapFirst f n l = l := by
  intro n
  induction n with
  | zero =>
    intro l _
    rfl
  | succ n ih =>
    intro l h
    cases l with
    | nil => rfl
    | cons x xs =>
      simp only [mapFirst]
      rw [h x (by simp), ih xs (fun y hy => h y (by simp [hy]))]

theorem withVoices_self (s : MLProcInputToSignals) : s.withVoices s.mVoices = s := by
  cases s
  rfl

theorem withPlaying_self (s : MLProcInputToSignals) :
    s.withPlaying s.mNoteEventsPlaying = s := by
  cases s
  rfl

theorem withPending_self (s : MLProcInputToSignals) :
    s.withPending s.mNoteEventsPending = s := by
  cases s
  rfl

/-- A loop over the active voices whose body changes none of them leaves the object as it
is. -/
theorem forActiveVoices_eq_self (s : MLProcInputToSignals) (f : MLVoice → MLVoice)
    (h : ∀ v ∈ s.activeVoices, f v = v) : s.forActiveVoices f = s := by
  unfold forActiveVoices
  rw [mapFirst_eq_self f s.mCurrentVoices s.mVoices h]
  exact withVoices_self s

theorem foldl_last_none {α : Type} (p : α → Prop) [DecidablePred p] (g : α → ℤ) (init : ℤ) :
    ∀ l : List α, (∀ x ∈ l, ¬ p x) →
      l.foldl (fun (r : ℤ) (x : α) => if p x then g x else r) init = init := by
  intro l
  induction l with
  | nil =>
    intro _
    rfl
  | cons x xs ih =>
    intro h
    simp only [List.foldl_cons, if_neg (h x (List.mem_cons_self _ _))]
    exact ih (fun y hy => h y (List.mem_cons_of_mem _ hy))

theorem lastVoiceMatching_none (s : MLProcInputToSignals) (id : ℤ)
    (h : ∀ i : ℕ, i < s.mCurrentVoices → (s.voiceAt (i : ℤ)).mInstigatorID ≠ id) :
    s.lastVoiceMatching id = -1 := by
  unfold lastVoiceMatching
  exact foldl_last_none (fun (v : ℕ) => (s.voiceAt (v : ℤ)).mInstigatorID = id)
    (fun (v : ℕ) => (v : ℤ)) (-1) (List.range s.mCurrentVoices)
    (fun v hv => h v (List.mem_range.mp hv))

theorem clearLoop_no_match (id : ℤ) (cs : ℕ) :
    ∀ (k i : ℕ) (st : MLControlEventStack),
      (∀ j : ℕ, i ≤ j → j < i + k → (st.data.getD j kMLNullControlEvent).mID ≠ id) →
      MLControlEventStack.clearLoop id cs k i st = st := by
  intro k
  induction k with
  | zero =>
    intro i st _
    rfl
  | succ k ih =>
    intro i st h
    unfold MLControlEventStack.clearLoop
    rw [if_neg (h i (le_refl _) (by omega))]
    exact ih (i + 1) st (fun j h1 h2 => h j (by omega) (by omega))

/-- The method `MLControlEventStack::clearEventsMatchingID` on a stack none of whose entries
has the id: the stack is left as it is. -/
theorem clearEventsMatchingID_no_match (st : MLControlEventStack) (id : ℤ)
    (hsize : st.mSize ≤ st.data.length) (h : ∀ ev ∈ st.entries, ev.mID ≠ id) :
    st.clearEventsMatchingID id = st := by
  unfold MLControlEventStack.clearEventsMatchingID
  refine clearLoop_no_match id st.mSize st.mSize 0 st ?_
  intro j _ hj
  have hj1 : j < st.data.length := by omega
  rw [List.getD_eq_getElem _ _ hj1]
  refine h _ ?_
  unfold MLControlEventStack.entries
  exact List.mem_take_iff_getElem.mpr ⟨j, by simp; omega, rfl⟩

/-- C21. In the plain protocol with unison off, a note-off or a note-pressure event whose id
is the instigator of no voice, the id of no entry of the pool of playing events and the id
of no entry of the pending stack is a no-op: `doNoteOff`, `doNotePressure` and the router
return the object as it is, so that every voice, every change list, the pool and the pending
stack are unchanged. -/
theorem unmatched_id_noop (s : MLProcInputToSignals) (e : MLControlEvent) (scale : ℚ → ℚ)
    (outs : ℕ) (hp : s.mProtocol = InputProtocol.kInputProtocolMIDI)
    (hu : s.mUnisonMode = false) (halloc : s.mCurrentVoices ≤ s.mVoices.length)
    (hsize : s.mNoteEventsPending.mSize ≤ s.mNoteEventsPending.data.length)
    (hvoices : ∀ v ∈ s.mVoices, v.mInstigatorID ≠ e.mID)
    (hpool : ∀ ev ∈ s.mNoteEventsPlaying, ev.mID ≠ e.mID)
    (hpend : ∀ ev ∈ s.mNoteEventsPending.entries, ev.mID ≠ e.mID) :
    s.doNoteOff e scale = s ∧ s.doNotePressure e = s ∧
    (e.mType = EventType.kNoteOff ∨ e.mType = EventType.kNotePressure →
      s.dispatchEvent e scale outs = s) := by
  have hactive : ∀ v ∈ s.activeVoices, v.mInstigatorID ≠ e.mID :=
    fun v hv => hvoices v (List.mem_of_mem_take hv)
  have hat : ∀ i : ℕ, i < s.mCurrentVoices → (s.voiceAt (i : ℤ)).mInstigatorID ≠ e.mID := by
    intro i hi
    have hi1 : i < s.mVoices.length := by omega
    rw [voiceAt_natCast, List.getD_eq_getElem _ _ hi1]
    exact hvoices _ (List.getElem_mem hi1)
  have hoff : s.doNoteOff e scale = s := by
    have hclear : clearPlaying s.mNoteEventsPlaying e.mID = s.mNoteEventsPlaying := by
      unfold clearPlaying
      refine mapFirst_eq_self _ _ _ ?_
      intro ev hev
      rw [if_neg (hpool ev (List.mem_of_mem_take hev))]
    unfold doNoteOff
    simp only [hclear, withPlaying_self, hu, hp, Bool.false_eq_true, if_false]
    unfold doNoteOffMIDI
    have hloop : s.forActiveVoices
        (fun voice =>
          if voice.mInstigatorID = e.mID then voice.addNoteEvent (s.eventToSend e) scale
          else voice) = s :=
      forActiveVoices_eq_self s _ (fun v hv => by rw [if_neg (hactive v hv)])
    have hneg : ¬ ((-1 : ℤ) ≥ 0) := by decide
    simp only [hloop, lastVoiceMatching_none s e.mID hat, if_neg hneg]
    rw [clearEventsMatchingID_no_match _ _ hsize hpend]
    exact withPending_self s
  have hpress : s.doNotePressure e = s := by
    unfold doNotePressure
    rw [hp]
    exact forActiveVoices_eq_self s _
      (fun v hv => by rw [if_neg (fun h => hactive v hv h.symm)])
  refine ⟨hoff, hpress, ?_⟩
  intro hty
  unfold dispatchEvent
  rcases hty with h | h
  · rw [h]
    exact hoff
  · rw [h]
    exact hpress

/-- C21, witness: four voices with the keys 1 and 2 held, and a note-off for the id 9. -/
theorem unmatched_id_noop_witness :
    ((cleared 4 4 InputProtocol.kInputProtocolMIDI false).processNoteEvents
        [noteOn 1 60 0 1, noteOn 2 64 0 1] (fun x => x)).doNoteOff (noteOff 9 72 5) (fun x => x)
      = (cleared 4 4 InputProtocol.kInputProtocolMIDI false).processNoteEvents
        [noteOn 1 60 0 1, noteOn 2 64 0 1] (fun x => x) :=
  (unmatched_id_noop
    ((cleared 4 4 InputProtocol.kInputProtocolMIDI false).processNoteEvents
        [noteOn 1 60 0 1, noteOn 2 64 0 1] (fun x => x))
    (noteOff 9 72 5) (fun x => x) 16 (by decide) (by decide) (by decide) (by decide)
    (by decide) (by decide) (by decide)).1

end MLProcInputToSignals

namespace MLProcInputToSignals

/-! ## The reserved controllers -/

theorem addNoteEvent_off_gate (v : MLVoice) (e : MLControlEvent) (scale : ℚ → ℚ)
    (hty : e.mType = EventType.kNoteOff) :
    (v.addNoteEvent e scale).mState = VoiceState.kOff ∧
    (v.addNoteEvent e scale).mdGate.mChanges
      = v.mdGate.mChanges ++ [((0 : ℚ), uint64ToInt e.mTime)] := by
  refine ⟨?_, ?_⟩
  · simp [MLVoice.addNoteEvent, hty]
  · simp [MLVoice.addNoteEvent, hty, MLChangeList.addChange]

/-- The method `doController` for controller 123 with value 0 in the plain protocol: the loop
"all notes off". -/
theorem doController_123 (s : MLProcInputToSignals) (e : MLControlEvent) (scale : ℚ → ℚ)
    (outs : ℕ) (hp : s.mProtocol = InputProtocol.kInputProtocolMIDI)
    (hctrl : floatToInt e.mValue1 = 123) (hval : e.mValue2 = 0) :
    s.doController e scale outs = s.allNotesOff e scale := by
  have h120 : ¬ ((123 : ℤ) = 120) := by decide
  unfold doController
  simp only [hp, hctrl, hval, if_neg h120, if_true]

/-- The method `doController` for controller 123 with a value that is not 0 in the plain
protocol: nothing is changed. -/
theorem doController_123_nonzero (s : MLProcInputToSignals) (e : MLControlEvent)
    (scale : ℚ → ℚ) (outs : ℕ) (hp : s.mProtocol = InputProtocol.kInputProtocolMIDI)
    (hctrl : floatToInt e.mValue1 = 123) (hval : e.mValue2 ≠ 0) :
    s.doController e scale outs = s := by
  have h120 : ¬ ((123 : ℤ) = 120) := by decide
  unfold doController
  simp only [hp, hctrl, hval, if_neg h120, if_true, if_false]

/-- C22, as amended.  In the plain protocol, a controller event with controller number 123
("all notes off") and value 0 releases every voice that is not off: afterwards every active
voice is in state `kOff`, each active voice that was on or sustained has received a gate
change to 0 at the offset of the event, and the active voices that were off are unchanged.
A controller event with controller number 123 and a value that is not 0 changes nothing:
the object after it is the object before it. -/
theorem allNotesOff_release (s : MLProcInputToSignals) (e : MLControlEvent) (scale : ℚ → ℚ)
    (outs : ℕ) (hp : s.mProtocol = InputProtocol.kInputProtocolMIDI)
    (hctrl : floatToInt e.mValue1 = 123) :
    (e.mValue2 = 0 → s.mCurrentVoices ≤ s.mVoices.length →
      (∀ i : ℕ, i < s.mCurrentVoices →
        ((s.doController e scale outs).voiceAt (i : ℤ)).mState = VoiceState.kOff) ∧
      (∀ i : ℕ, i < s.mCurrentVoices → (s.voiceAt (i : ℤ)).mState ≠ VoiceState.kOff →
        ((s.doController e scale outs).voiceAt (i : ℤ)).mdGate.mChanges
          = (s.voiceAt (i : ℤ)).mdGate.mChanges ++ [((0 : ℚ), uint64ToInt e.mTime)]) ∧
      (∀ i : ℕ, i < s.mCurrentVoices → (s.voiceAt (i : ℤ)).mState = VoiceState.kOff →
        (s.doController e scale outs).voiceAt (i : ℤ) = s.voiceAt (i : ℤ))) ∧
    (e.mValue2 ≠ 0 → s.doController e scale outs = s) := by
  refine ⟨?_, fun hval => doController_123_nonzero s e scale outs hp hctrl hval⟩
  intro hval halloc
  rw [doController_123 s e scale outs hp hctrl hval]
  have hat : ∀ i : ℕ, i < s.mCurrentVoices →
      (s.allNotesOff e scale).voiceAt (i : ℤ)
        = if (s.voiceAt (i : ℤ)).mState ≠ VoiceState.kOff then
            (s.voiceAt (i : ℤ)).addNoteEvent { e with mType := EventType.kNoteOff } scale
          else s.voiceAt (i : ℤ) := by
    intro i hi
    unfold allNotesOff
    rw [voiceAt_of_mapFirst s _ _ s.mCurrentVoices i rfl, if_pos ⟨hi, by omega⟩]
  refine ⟨?_, ?_, ?_⟩
  · intro i hi
    rw [hat i hi]
    by_cases h : (s.voiceAt (i : ℤ)).mState = VoiceState.kOff
    · rw [if_neg (by simpa using h)]
      exact h
    · rw [if_pos h]
      exact (addNoteEvent_off_gate _ _ scale rfl).1
  · intro i hi h
    rw [hat i hi, if_pos h]
    exact (addNoteEvent_off_gate _ _ scale rfl).2
  · intro i hi h
    rw [hat i hi, if_neg (by simpa using h)]

/-- C22, witness: four voices with the keys 1 and 2 held; controller 123 with value 0 at
offset 7 turns voice 0 off with a gate change to 0 at offset 7, and controller 123 with
value 64 leaves the object as it is. -/
theorem allNotesOff_release_witness :
    ((((cleared 4 4 InputProtocol.kInputProtocolMIDI false).processNoteEvents
        [noteOn 1 60 0 1, noteOn 2 64 0 1] (fun x => x)).doController
        (controller 1 123 0 7) (fun x => x) 32).voiceAt ((0 : ℕ) : ℤ)).mState
      = VoiceState.kOff ∧
    ((((cleared 4 4 InputProtocol.kInputProtocolMIDI false).processNoteEvents
        [noteOn 1 60 0 1, noteOn 2 64 0 1] (fun x => x)).doController
        (controller 1 123 0 7) (fun x => x) 32).voiceAt 0).mdGate.mChanges
      = [((1 : ℚ), (0 : ℤ)), ((0 : ℚ), (7 : ℤ))] ∧
    ((cleared 4 4 InputProtocol.kInputProtocolMIDI false).processNoteEvents
        [noteOn 1 60 0 1, noteOn 2 64 0 1] (fun x => x)).doController
        (controller 1 123 64 7) (fun x => x) 32
      = (cleared 4 4 InputProtocol.kInputProtocolMIDI false).processNoteEvents
        [noteOn 1 60 0 1, noteOn 2 64 0 1] (fun x => x) :=
  ⟨((allNotesOff_release
      ((cleared 4 4 InputProtocol.kInputProtocolMIDI false).processNoteEvents
        [noteOn 1 60 0 1, noteOn 2 64 0 1] (fun x => x))
      (controller 1 123 0 7) (fun x => x) 32 (by decide) (by decide)).1 (by decide)
      (by decide)).1 0 (by decide),
   by decide,
   (allNotesOff_release
      ((cleared 4 4 InputProtocol.kInputProtocolMIDI false).processNoteEvents
        [noteOn 1 60 0 1, noteOn 2 64 0 1] (fun x => x))
      (controller 1 123 64 7) (fun x => x) 32 (by decide) (by decide)).2 (by decide)⟩

/-- C22, counterexample: one voice of the plain protocol holds the key 1.  Controller 123
with the value 1 leaves the object as it is, and the voice on: the loop "all notes off" is
guarded by `if (val == 0)`. -/
theorem allNotesOff_nonzero_value :
    ((cleared 1 1 InputProtocol.kInputProtocolMIDI false).processNoteEvents
        [noteOn 1 60 0 1] (fun x => x)).doController (controller 1 123 1 7) (fun x => x) 8
      = (cleared 1 1 InputProtocol.kInputProtocolMIDI false).processNoteEvents
        [noteOn 1 60 0 1] (fun x => x) ∧
    ((((cleared 1 1 InputProtocol.kInputProtocolMIDI false).processNoteEvents
        [noteOn 1 60 0 1] (fun x => x)).doController (controller 1 123 1 7) (fun x => x)
        8).voiceAt 0).mState = VoiceState.kOn := by
  decide

end MLProcInputToSignals

namespace MLProcInputToSignals

end MLProcInputToSignals

/-! ## The host phasor -/

/-- C24. The method `setTimeAndRate` rejects the whole update when any of `secs`, `ppqPos`
or `bpm` is a NaN or an infinity: it returns the object as it is, so that time, rate, phase,
phase increment, previous phase, sample counter, active flag and params-changed flag are
exactly what they were before the call, for every value of `isPlaying`. -/
theorem setTimeAndRate_rejects (clampAtZero : ℚ → ℚ) (p : MLProcHostPhasor)
    (secs ppqPos bpm : HostDouble) (isPlaying : Bool)
    (h : (secs.isNaN = true ∨ secs.isInfinite = true) ∨
      (ppqPos.isNaN = true ∨ ppqPos.isInfinite = true) ∨
      (bpm.isNaN = true ∨ bpm.isInfinite = true)) :
    p.setTimeAndRate clampAtZero secs ppqPos bpm isPlaying = p ∧
    (p.setTimeAndRate clampAtZero secs ppqPos bpm isPlaying).mTime = p.mTime ∧
    (p.setTimeAndRate clampAtZero secs ppqPos bpm isPlaying).mRate = p.mRate ∧
    (p.setTimeAndRate clampAtZero secs ppqPos bpm isPlaying).mOmega = p.mOmega ∧
    (p.setTimeAndRate clampAtZero secs ppqPos bpm isPlaying).mDpDt = p.mDpDt ∧
    (p.setTimeAndRate clampAtZero secs ppqPos bpm isPlaying).mPhase1 = p.mPhase1 ∧
    (p.setTimeAndRate clampAtZero secs ppqPos bpm isPlaying).mDt = p.mDt ∧
    (p.setTimeAndRate clampAtZero secs ppqPos bpm isPlaying).mActive = p.mActive ∧
    (p.setTimeAndRate clampAtZero secs ppqPos bpm isPlaying).mParamsChanged
      = p.mParamsChanged := by
  have hbad : ((ppqPos.isNaN || ppqPos.isInfinite) || (bpm.isNaN || bpm.isInfinite)
      || (secs.isNaN || secs.isInfinite)) = true := by
    rcases h with (h | h) | (h | h) | (h | h) <;> simp [h]
  have heq : p.setTimeAndRate clampAtZero secs ppqPos bpm isPlaying = p := by
    unfold MLProcHostPhasor.setTimeAndRate
    rw [if_pos hbad]
  rw [heq]
  exact ⟨rfl, rfl, rfl, rfl, rfl, rfl, rfl, rfl, rfl⟩

/-- C24, witness: a running phasor and an update whose tempo is a NaN. -/
theorem setTimeAndRate_rejects_witness :
    ({ mTime := 5 / 2, mRate := 120, mOmega := 1 / 2, mDpDt := 1 / 128, mPhase1 := 1 / 2,
       mDt := 64, mActive := true, mPlaying := true, mParamsChanged := false } :
      MLProcHostPhasor).setTimeAndRate (fun _ => 1) (HostDouble.finite 2) (HostDouble.finite 3)
      HostDouble.nan true
      = { mTime := 5 / 2, mRate := 120, mOmega := 1 / 2, mDpDt := 1 / 128, mPhase1 := 1 / 2,
          mDt := 64, mActive := true, mPlaying := true, mParamsChanged := false } :=
  (setTimeAndRate_rejects (fun _ => 1)
    { mTime := 5 / 2, mRate := 120, mOmega := 1 / 2, mDpDt := 1 / 128, mPhase1 := 1 / 2,
      mDt := 64, mActive := true, mPlaying := true, mParamsChanged := false }
    (HostDouble.finite 2) (HostDouble.finite 3) HostDouble.nan true
    (Or.inr (Or.inr (Or.inl rfl)))).1

/-! ## The index of an output -/

theorem matchSignalNameFrom_nonneg (name0 : String) :
    ∀ (l : List String) (n : ℕ), 0 ≤ matchSignalNameFrom name0 l n := by
  intro l
  induction l with
  | nil =>
    intro n
    exact le_refl _
  | cons x xs ih =>
    intro n
    unfold matchSignalNameFrom
    split
    · exact Int.natCast_nonneg _
    · exact ih (n + 1)

theorem matchSignalNameFrom_of_not_mem (name0 : String) :
    ∀ (l : List String) (n : ℕ), name0 ∉ l → matchSignalNameFrom name0 l n = 0 := by
  intro l
  induction l with
  | nil =>
    intro n _
    rfl
  | cons x xs ih =>
    intro n h
    unfold matchSignalNameFrom
    rw [if_neg (fun hx => h (by rw [hx]; exact List.mem_cons_self _ _))]
    exact ih (n + 1) (fun hx => h (List.mem_cons_of_mem _ hx))

/-- The index found for the name number `n` of the table `voiceSignalNames`. -/
theorem matchSignalName_table (n : ℕ) (hn : n < 8) :
    matchSignalNameFrom (voiceSignalNames.getD n "") voiceSignalNames 0 = ((n + 1 : ℕ) : ℤ) := by
  interval_cases n <;> decide

/-- C25. The method `getOutputIndex` addresses outputs by (parameter name, voice number).
For a symbol `name` whose text without the final number is the name number `n` (counted
from 0) of `pitch, gate, vel, voice, after, moda, modb, modc` and whose final number is `k`
with `1 ≤ k ≤ mCurrentVoices`, it returns `(k - 1) * 8 + (n + 1)`, which lies in
`1 .. 8 * mCurrentVoices`, and two such symbols with the same index have the same name and
the same voice number.  For an unknown name, for a missing number (final number 0), and for
a number above `mCurrentVoices` it returns 0.  For `name = addFinalNumber(signal, k)` the
two hypotheses on `name` are the round trip `stripFinalNumber(addFinalNumber(signal, k)) =
signal` and `getFinalNumber(addFinalNumber(signal, k)) = k`. -/
theorem getOutputIndex_spec (s : MLProcInputToSignals) (strip : String → String)
    (getNum : String → ℕ) :
    (∀ (name : String) (n k : ℕ), n < 8 → strip name = voiceSignalNames.getD n "" →
      getNum name = k → 1 ≤ k → k ≤ s.mCurrentVoices →
      s.getOutputIndex strip getNum name = ((k : ℤ) - 1) * 8 + ((n : ℤ) + 1) ∧
      1 ≤ s.getOutputIndex strip getNum name ∧
      s.getOutputIndex strip getNum name ≤ 8 * (s.mCurrentVoices : ℤ)) ∧
    (∀ (name1 name2 : String) (n1 k1 n2 k2 : ℕ), n1 < 8 → n2 < 8 →
      strip name1 = voiceSignalNames.getD n1 "" → strip name2 = voiceSignalNames.getD n2 "" →
      getNum name1 = k1 → getNum name2 = k2 → 1 ≤ k1 → k1 ≤ s.mCurrentVoices →
      1 ≤ k2 → k2 ≤ s.mCurrentVoices →
      s.getOutputIndex strip getNum name1 = s.getOutputIndex strip getNum name2 →
      n1 = n2 ∧ k1 = k2) ∧
    (∀ name : String, strip name ∉ voiceSignalNames →
      s.getOutputIndex strip getNum name = 0) ∧
    (∀ name : String, getNum name = 0 ∨ s.mCurrentVoices < getNum name →
      s.getOutputIndex strip getNum name = 0) := by
  have hmain : ∀ (name : String) (n k : ℕ), n < 8 → strip name = voiceSignalNames.getD n "" →
      getNum name = k → 1 ≤ k → k ≤ s.mCurrentVoices →
      s.getOutputIndex strip getNum name = ((k : ℤ) - 1) * 8 + ((n : ℤ) + 1) := by
    intro name n k hn hstrip hnum hk1 hk2
    have hsig := matchSignalName_table n hn
    have hne : ¬ (((n + 1 : ℕ) : ℤ) = 0) := by omega
    have hvoice : ((k : ℤ) ≠ 0 ∧ (k : ℤ) ≤ (s.mCurrentVoices : ℤ)) := ⟨by omega, by omega⟩
    unfold MLProcInputToSignals.getOutputIndex
    simp only [hstrip, hsig, hnum, ne_eq, hne, not_false_eq_true, if_true, hvoice, and_self,
      kNumVoiceSignals]
    push_cast
    ring
  refine ⟨?_, ?_, ?_, ?_⟩
  · intro name n k hn hstrip hnum hk1 hk2
    rw [hmain name n k hn hstrip hnum hk1 hk2]
    refine ⟨rfl, by omega, by omega⟩
  · intro name1 name2 n1 k1 n2 k2 hn1 hn2 hs1 hs2 hg1 hg2 h11 h12 h21 h22 heq
    rw [hmain name1 n1 k1 hn1 hs1 hg1 h11 h12, hmain name2 n2 k2 hn2 hs2 hg2 h21 h22] at heq
    omega
  · intro name hname
    unfold MLProcInputToSignals.getOutputIndex
    simp [matchSignalNameFrom_of_not_mem _ _ 0 hname]
  · intro name hnum
    unfold MLProcInputToSignals.getOutputIndex
    have hnot : ¬ (((getNum name : ℕ) : ℤ) ≠ 0 ∧ ((getNum name : ℕ) : ℤ) ≤ (s.mCurrentVoices : ℤ)) := by
      rintro ⟨h1, h2⟩
      rcases hnum with h | h
      · exact h1 (by rw [h]; rfl)
      · omega
    simp only [if_neg hnot]
    split <;> rfl

/-- C25, witness: with four voices, the symbol `gate3` has the index `(3 - 1) * 8 + 2`. -/
theorem getOutputIndex_spec_witness :
    (MLProcInputToSignals.cleared 4 4 InputProtocol.kInputProtocolMIDI false).getOutputIndex
      stripFinalNumber getFinalNumber "gate3" = 18 :=
  ((getOutputIndex_spec (MLProcInputToSignals.cleared 4 4 InputProtocol.kInputProtocolMIDI false)
    stripFinalNumber getFinalNumber).1 "gate3" 1 3 (by decide) (by decide) (by decide)
    (by decide) (by decide)).1

/-! ## Allocation failures and the sustain state -/

/-- C29, the code at the failing input.  The method `MLProcInputToSignals::resize` returns
`OK` whatever the allocations do (the local `re` is set to `OK` and never assigned again):
so it does for the object after construction with two voices, when every allocation fails.
The sibling `MLProcDelay::resize` returns `memErr` for the same failure and `OK` when the
allocation succeeds. -/
theorem resize_ignores_allocation_failure :
    (∀ (s : MLProcInputToSignals) (m : MainSignals) (outs : List VoiceSignals) (sr : ℚ)
      (bufSize vecSize maxVoices numOutputs : ℕ) (nullOutput : MLSignal)
      (alloc : ℕ → Bool),
      (s.resize m outs sr bufSize vecSize maxVoices numOutputs nullOutput alloc).1
        = MLProcErr.OK) ∧
    ((MLProcInputToSignals.cleared 0 2 InputProtocol.kInputProtocolMIDI false).resize
      (MainSignals.zeros 0) [] 44100 128 64 2 16 (MLSignal.zeros 0) (fun _ => false)).1
      = MLProcErr.OK ∧
    (((MLProcInputToSignals.cleared 0 2 InputProtocol.kInputProtocolMIDI false).resize
      (MainSignals.zeros 0) [] 44100 128 64 2 16 (MLSignal.zeros 0)
      (fun _ => false)).2.2.1.mTempSignal.samples = []) ∧
    (({ mBuffer := MLSignal.zeros 0, mWriteIndex := 0, mLengthMask := 0 } :
      MLProcDelay).resize 1 44100 (fun _ => 16) (fun _ => false)).1 = MLProcErr.memErr ∧
    (({ mBuffer := MLSignal.zeros 0, mWriteIndex := 0, mLengthMask := 0 } :
      MLProcDelay).resize 1 44100 (fun _ => 16) (fun _ => true)).1 = MLProcErr.OK := by
  refine ⟨fun _ _ _ _ _ _ _ _ _ _ => rfl, rfl, rfl, rfl, rfl⟩

namespace MLProcInputToSignals

/-- C30, the code at the failing input.  One voice of the plain protocol: after the note-on
and the note-off of key 1 the voice is off and keeps the instigator 1; the pedal goes down;
a second note-off for key 1, dispatched by the router, matches the instigator and sends
`kNoteSustain` to the voice, which goes from `kOff` to `kSustain`.  The same happens in
unison mode, and for a note-off with id 0 on a cleared object whose pedal is down. -/
theorem off_to_sustain :
    ((((cleared 1 1 InputProtocol.kInputProtocolMIDI false).processNoteEvents
        [noteOn 1 60 0 1, noteOff 1 60 1, sustainPedal 127 2] (fun x => x)).voiceAt 0).mState
      = VoiceState.kOff) ∧
    (((((cleared 1 1 InputProtocol.kInputProtocolMIDI false).processNoteEvents
        [noteOn 1 60 0 1, noteOff 1 60 1, sustainPedal 127 2] (fun x => x)).processEvent
        (noteOff 1 60 3) (fun x => x) 8).voiceAt 0).mState = VoiceState.kSustain) ∧
    ((((threeVoicesUnison.processNoteEvents
        [noteOn 1 60 0 1, noteOff 1 60 1, sustainPedal 127 2] (fun x => x)).processEvent
        (noteOff 1 60 3) (fun x => x) 24).mVoices.map (fun v => v.mState))
      = [VoiceState.kSustain, VoiceState.kSustain, VoiceState.kSustain]) ∧
    (((threeVoicesUnison.processNoteEvents
        [noteOn 1 60 0 1, noteOff 1 60 1, sustainPedal 127 2] (fun x => x)).mVoices.map
        (fun v => v.mState))
      = [VoiceState.kOff, VoiceState.kOff, VoiceState.kOff]) ∧
    (((((cleared 1 1 InputProtocol.kInputProtocolMIDI false).processNoteEvents
        [sustainPedal 127 0] (fun x => x)).processEvent
        (noteOff 0 12 3) (fun x => x) 8).voiceAt 0).mState = VoiceState.kSustain) := by
  decide

end MLProcInputToSignals

/-! ## Sustain events, the age of a voice, and the reset of the pending stack -/

/-- C32: a sustain event (`kNoteSustain`) given to `addNoteEvent` updates state only: the
state of the voice becomes `kSustain` and each of the eleven change lists of the voice is the
same before and after. -/
theorem addNoteEvent_sustain_state_only (v : MLVoice) (e : MLControlEvent) (scale : ℚ → ℚ)
    (h : e.mType = EventType.kNoteSustain) :
    (v.addNoteEvent e scale).mState = VoiceState.kSustain ∧
    (v.addNoteEvent e scale).mdPitch = v.mdPitch ∧
    (v.addNoteEvent e scale).mdPitchBend = v.mdPitchBend ∧
    (v.addNoteEvent e scale).mdGate = v.mdGate ∧
    (v.addNoteEvent e scale).mdAmp = v.mdAmp ∧
    (v.addNoteEvent e scale).mdVel = v.mdVel ∧
    (v.addNoteEvent e scale).mdNotePressure = v.mdNotePressure ∧
    (v.addNoteEvent e scale).mdChannelPressure = v.mdChannelPressure ∧
    (v.addNoteEvent e scale).mdMod = v.mdMod ∧
    (v.addNoteEvent e scale).mdMod2 = v.mdMod2 ∧
    (v.addNoteEvent e scale).mdMod3 = v.mdMod3 ∧
    (v.addNoteEvent e scale).mdDrift = v.mdDrift := by
  simp [MLVoice.addNoteEvent, h]

/-- C32, at a concrete input: a voice that plays note 60 with one scheduled gate change
receives a sustain event. -/
theorem addNoteEvent_sustain_state_only_witness :
    (MLControlEvent.mk8 EventType.kNoteSustain 1 1 5 60 1 0 0).mType = EventType.kNoteSustain ∧
    ((MLVoice.init.addNoteEvent (noteOn 1 60 3 1) (fun n => n / 12)).addNoteEvent
        (MLControlEvent.mk8 EventType.kNoteSustain 1 1 5 60 1 0 0) (fun n => n / 12)).mState
      = VoiceState.kSustain ∧
    ((MLVoice.init.addNoteEvent (noteOn 1 60 3 1) (fun n => n / 12)).addNoteEvent
        (MLControlEvent.mk8 EventType.kNoteSustain 1 1 5 60 1 0 0) (fun n => n / 12)).mdGate
      = (MLVoice.init.addNoteEvent (noteOn 1 60 3 1) (fun n => n / 12)).mdGate :=
  ⟨rfl,
   (addNoteEvent_sustain_state_only (MLVoice.init.addNoteEvent (noteOn 1 60 3 1) (fun n => n / 12))
      (MLControlEvent.mk8 EventType.kNoteSustain 1 1 5 60 1 0 0) (fun n => n / 12) rfl).1,
   (addNoteEvent_sustain_state_only (MLVoice.init.addNoteEvent (noteOn 1 60 3 1) (fun n => n / 12))
      (MLControlEvent.mk8 EventType.kNoteSustain 1 1 5 60 1 0 0) (fun n => n / 12) rfl).2.2.2.1⟩

namespace MLProcInputToSignals

/-- C33, as the code has it: every note event given to a voice (`addNoteEvent` or
`stealNoteEvent`) sets its age to 0, and the per-block age update of `process()` adds the
block size to the age of every active voice (index below `mCurrentVoices`), whatever its
state, and changes nothing else of it; the other voices keep their age. -/
theorem age_update (s : MLProcInputToSignals) (B : ℕ) (v : MLVoice) (e : MLControlEvent)
    (scale : ℚ → ℚ) (retrig : Bool) (i : ℕ) (hlen : i < s.mVoices.length) :
    (v.addNoteEvent e scale).mAge = 0 ∧ (v.stealNoteEvent e scale retrig).mAge = 0 ∧
    (s.updateAges B).voiceAt (i : ℤ) =
      (if i < s.mCurrentVoices then
        { s.voiceAt (i : ℤ) with mAge := (s.voiceAt (i : ℤ)).mAge + B }
       else s.voiceAt (i : ℤ)) := by
  refine ⟨?_, ?_, ?_⟩
  · simp only [MLVoice.addNoteEvent]
    split_ifs <;> rfl
  · simp only [MLVoice.stealNoteEvent]
    split_ifs <;> rfl
  · have h := voiceAt_of_mapFirst s (s.updateAges B)
      (fun v => if (v.mAge : ℤ) ≥ 0 then { v with mAge := v.mAge + B } else v)
      s.mCurrentVoices i rfl
    rw [h]
    by_cases hi : i < s.mCurrentVoices
    · rw [if_pos ⟨hi, hlen⟩, if_pos hi]
      have h0 : ((s.voiceAt (i : ℤ)).mAge : ℤ) ≥ 0 := Int.natCast_nonneg _
      simp only [h0, if_true]
    · rw [if_neg (fun hh => hi hh.1), if_neg hi]

/-- C33, at a concrete input: one voice that has just received a note-on, block size 64. -/
theorem age_update_witness :
    (0 : ℕ) < ((cleared 1 1 InputProtocol.kInputProtocolMIDI false).doNoteOn (noteOn 1 60 3 1)
        (fun n => n / 12)).mVoices.length ∧
    ((((cleared 1 1 InputProtocol.kInputProtocolMIDI false).doNoteOn (noteOn 1 60 3 1)
        (fun n => n / 12)).updateAges 64).voiceAt 0).mAge = 64 ∧
    ((((cleared 1 1 InputProtocol.kInputProtocolMIDI false).doNoteOn (noteOn 1 60 3 1)
        (fun n => n / 12)).updateAges 64).voiceAt 0).mState = VoiceState.kOn :=
  ⟨by decide,
   by
    have h := (age_update ((cleared 1 1 InputProtocol.kInputProtocolMIDI false).doNoteOn
      (noteOn 1 60 3 1) (fun n => n / 12)) 64 MLVoice.init (noteOn 1 60 3 1) (fun n => n / 12)
      true 0 (by decide)).2.2
    rw [Nat.cast_zero] at h
    rw [h]
    decide,
   by decide⟩

/-- C33 fails as stated: the voice of a cleared object is in state `kOff`, and the per-block
age update with block size 64 takes its age from 0 to 64. -/
theorem age_update_off_voice :
    ((cleared 1 1 InputProtocol.kInputProtocolMIDI false).voiceAt 0).mState = VoiceState.kOff ∧
    ((cleared 1 1 InputProtocol.kInputProtocolMIDI false).voiceAt 0).mAge = 0 ∧
    (((cleared 1 1 InputProtocol.kInputProtocolMIDI false).updateAges 64).voiceAt 0).mState
      = VoiceState.kOff ∧
    (((cleared 1 1 InputProtocol.kInputProtocolMIDI false).updateAges 64).voiceAt 0).mAge = 64 := by
  decide

end MLProcInputToSignals

/-! ## The reset of the pending stack, the voice count and late events -/

namespace MLProcInputToSignals

/-- The method `clear` leaves the size of the pending stack as it is. -/
theorem clear_pending_mSize (s : MLProcInputToSignals) (outs : ℕ) :
    (s.clear outs).mNoteEventsPending.mSize = s.mNoteEventsPending.mSize := by
  unfold clear
  simp only []
  split <;> rfl

theorem clear_mCurrentVoices (s : MLProcInputToSignals) (outs : ℕ) :
    (s.clear outs).mCurrentVoices = s.mCurrentVoices := by
  unfold clear
  simp only []
  split <;> rfl

theorem clearResizing_mCurrentVoices (s : MLProcInputToSignals) (m : MainSignals)
    (outs : List VoiceSignals) (sr : ℚ) (bufSize vecSize maxVoices numOutputs : ℕ)
    (nullOutput : MLSignal) (alloc : ℕ → Bool) :
    (s.clearResizing m outs sr bufSize vecSize maxVoices numOutputs nullOutput
      alloc).1.mCurrentVoices = s.mCurrentVoices := by
  unfold clearResizing
  split
  · simp only [clear_mCurrentVoices]
    rfl
  · exact clear_mCurrentVoices s numOutputs

/-- The voice count after `doParams` is the parameter `voices` clamped to `[0, 15]`, when
that differs from the current count: `maxVoices` has no part in it. -/
theorem doParams_mCurrentVoices (s : MLProcInputToSignals) (p : Params) (m : MainSignals)
    (outs : List VoiceSignals) (sr : ℚ) (bufSize vecSize maxVoices numOutputs : ℕ)
    (nullOutput : MLSignal) (alloc : ℕ → Bool) :
    ((s.doParams p m outs sr bufSize vecSize maxVoices numOutputs nullOutput
      alloc).1.mCurrentVoices : ℤ) = max 0 (min (floatToInt p.voices) 15) := by
  unfold doParams
  simp only []
  split_ifs <;>
    simp only [clearResizing_mCurrentVoices, withVoices_mCurrentVoices,
      withMainVoice_mCurrentVoices, ne_eq, not_not] at * <;>
    omega

/-- C35: `clear()` does not empty the pending stack.  Three voices in unison: note 1, then
note 2 (which pushes note 1 on the stack), then "all sound off" (controller 120, value 0),
which runs `clear()`: the stack still has size 1, over a cleared entry.  A note-on 3 followed
by the note-off 3 then pops that entry, and every voice ends in state `kOn`, with
instigator 0. -/
theorem clear_keeps_pending_size :
    ((((threeVoicesUnison.dispatchEvent (noteOn 1 60 0 1) (fun n => n / 12) 8).dispatchEvent
        (noteOn 2 62 1 1) (fun n => n / 12) 8).dispatchEvent
        (controller 1 120 0 2) (fun n => n / 12) 8).mNoteEventsPending.isEmpty = false) ∧
    ((((threeVoicesUnison.dispatchEvent (noteOn 1 60 0 1) (fun n => n / 12) 8).dispatchEvent
        (noteOn 2 62 1 1) (fun n => n / 12) 8).dispatchEvent
        (controller 1 120 0 2) (fun n => n / 12) 8).mNoteEventsPending.getSize = 1) ∧
    ((((((threeVoicesUnison.dispatchEvent (noteOn 1 60 0 1) (fun n => n / 12) 8).dispatchEvent
        (noteOn 2 62 1 1) (fun n => n / 12) 8).dispatchEvent
        (controller 1 120 0 2) (fun n => n / 12) 8).dispatchEvent
        (noteOn 3 64 3 1) (fun n => n / 12) 8).dispatchEvent
        (noteOff 3 64 4) (fun n => n / 12) 8).activeVoices.map
          (fun v => (v.mState, v.mInstigatorID)))
      = [(VoiceState.kOn, 0), (VoiceState.kOn, 0), (VoiceState.kOn, 0)] := by
  decide!

/-- C36: `doParams` clamps the voice count to `[0, 15]` and not to the number of allocated
voices.  With four allocated voices (`maxVoices = 4`) and the parameter `voices` set to 8,
`mCurrentVoices` becomes 8 while `mVoices` keeps its four voices. -/
theorem doParams_voices_beyond_allocated :
    (((cleared 4 4 InputProtocol.kInputProtocolMIDI false).doParams
        { voices := 8, data_rate := 100, protocol := InputProtocol.kInputProtocolMIDI,
          glide := 0, bend := 7, mod := 1, unison := 0 }
        (MainSignals.zeros 64) (List.replicate 4 (VoiceSignals.zeros 64)) 44100 64 64 4 32
        (MLSignal.zeros 64) (fun _ => true)).1.mCurrentVoices = 8) ∧
    (((cleared 4 4 InputProtocol.kInputProtocolMIDI false).doParams
        { voices := 8, data_rate := 100, protocol := InputProtocol.kInputProtocolMIDI,
          glide := 0, bend := 7, mod := 1, unison := 0 }
        (MainSignals.zeros 64) (List.replicate 4 (VoiceSignals.zeros 64)) 44100 64 64 4 32
        (MLSignal.zeros 64) (fun _ => true)).1.mVoices.length = 4) := by
  decide!

/-- C37: an event earlier than the start of the block is not dispatched, and it keeps the
events behind it in the queue.  Block start 128, block size 64, and a time-ordered queue with
an event at time 100 and an event at time 130: the difference `100 - 128` wraps to
`2^64 - 28`, the loop stops at once, and both events are still queued after the call,
although 130 lies in the current block. -/
theorem processEvents_late_event_blocks :
    uint64Sub 100 128 = 2 ^ 64 - 28 ∧
    (((cleared 1 1 InputProtocol.kInputProtocolMIDI false).setVectorStartTime 128).processEvents
        [noteOn 1 60 100 1, noteOn 2 62 130 1] 64 (fun n => n / 12) 8)
      = ([noteOn 1 60 100 1, noteOn 2 62 130 1],
         (cleared 1 1 InputProtocol.kInputProtocolMIDI false).setVectorStartTime 128) := by
  decide!

end MLProcInputToSignals

/-! ## The scaling of the pitch wheel -/

namespace MLProcInputToSignals

theorem wheel_bound (w : ℕ) (r : ℚ) (hw : w ≤ 16383) (hr : 0 ≤ r) :
    |((w : ℚ) - 8192) / 8191 * r / 12| ≤ 8192 / 8191 * (r / 12) ∧
    (1 ≤ w → |((w : ℚ) - 8192) / 8191 * r / 12| ≤ r / 12) := by
  have hwq : (w : ℚ) ≤ 16383 := by exact_mod_cast hw
  have hw0 : (0 : ℚ) ≤ (w : ℚ) := Nat.cast_nonneg w
  have hr12 : 0 ≤ r / 12 := by positivity
  have e : ((w : ℚ) - 8192) / 8191 * r / 12 = ((w : ℚ) - 8192) / 8191 * (r / 12) := by ring
  rw [e, abs_mul, abs_of_nonneg hr12]
  constructor
  · apply mul_le_mul_of_nonneg_right _ hr12
    rw [abs_le]
    constructor
    · rw [le_div_iff₀ (by norm_num)]
      linarith
    · rw [div_le_div_iff₀ (by norm_num) (by norm_num)]
      linarith
  · intro h1
    have h1q : (1 : ℚ) ≤ (w : ℚ) := by exact_mod_cast h1
    have hb : |((w : ℚ) - 8192) / 8191| ≤ 1 := by
      rw [abs_le]
      constructor
      · rw [le_div_iff₀ (by norm_num)]
        linarith
      · rw [div_le_one (by norm_num)]
        linarith
    calc |((w : ℚ) - 8192) / 8191| * (r / 12) ≤ 1 * (r / 12) :=
          mul_le_mul_of_nonneg_right hb hr12
      _ = r / 12 := one_mul _

/-- C38, as the code has it: for a wheel value `w` in `[0, 16383]` and a bend range `r ≥ 0`,
`doPitchWheel` schedules the bend `(w - 8192)/8191 * r/12` at the time of the event: on the
pitch-bend list of every active voice under the plain protocol, on that of the main voice for
channel 1 of the per-channel protocol, and on that of the voice of the channel otherwise.  The
bend is 0 at the centre `w = 8192`, its magnitude never exceeds `8192/8191 * r/12`, and it
never exceeds `r/12` when `w ≥ 1`. -/
theorem doPitchWheel_bend (s : MLProcInputToSignals) (e : MLControlEvent) (w : ℕ)
    (hw : w ≤ 16383) (he : e.mValue1 = (w : ℚ)) (hr : 0 ≤ s.mPitchWheelSemitones) :
    (s.mProtocol = InputProtocol.kInputProtocolMIDI →
      ∀ i : ℕ, i < s.mCurrentVoices → i < s.mVoices.length →
        ((s.doPitchWheel e).voiceAt (i : ℤ)).mdPitchBend.mChanges =
          (s.voiceAt (i : ℤ)).mdPitchBend.mChanges ++
            [(((w : ℚ) - 8192) / 8191 * s.mPitchWheelSemitones / 12, uint64ToInt e.mTime)]) ∧
    (s.mProtocol = InputProtocol.kInputProtocolMIDI_MPE → e.mChannel = 1 →
      (s.doPitchWheel e).mMPEMainVoice.mdPitchBend.mChanges =
        s.mMPEMainVoice.mdPitchBend.mChanges ++
          [(((w : ℚ) - 8192) / 8191 * s.mPitchWheelSemitones / 12, uint64ToInt e.mTime)]) ∧
    (s.mProtocol = InputProtocol.kInputProtocolMIDI_MPE → e.mChannel ≠ 1 →
      ∀ i : ℕ, s.MPEChannelToVoiceIDX e.mChannel = (i : ℤ) → i < s.mVoices.length →
        ((s.doPitchWheel e).voiceAt (i : ℤ)).mdPitchBend.mChanges =
          (s.voiceAt (i : ℤ)).mdPitchBend.mChanges ++
            [(((w : ℚ) - 8192) / 8191 * s.mPitchWheelSemitones / 12, uint64ToInt e.mTime)]) ∧
    (w = 8192 → ((w : ℚ) - 8192) / 8191 * s.mPitchWheelSemitones / 12 = 0) ∧
    |((w : ℚ) - 8192) / 8191 * s.mPitchWheelSemitones / 12|
      ≤ 8192 / 8191 * (s.mPitchWheelSemitones / 12) ∧
    (1 ≤ w → |((w : ℚ) - 8192) / 8191 * s.mPitchWheelSemitones / 12|
      ≤ s.mPitchWheelSemitones / 12) := by
  refine ⟨?_, ?_, ?_, ?_, (wheel_bound w _ hw hr).1, (wheel_bound w _ hw hr).2⟩
  · intro hp i hi hlen
    have h : (s.doPitchWheel e).mVoices =
        mapFirst
          (fun v =>
            { v with
              mdPitchBend :=
                v.mdPitchBend.addChange ((e.mValue1 - 8192) / 8191 * s.mPitchWheelSemitones / 12)
                  (uint64ToInt e.mTime) })
          s.mCurrentVoices s.mVoices := by
      simp only [doPitchWheel, hp, forActiveVoices, withVoices_mVoices]
    rw [voiceAt_of_mapFirst s (s.doPitchWheel e) _ s.mCurrentVoices i h, if_pos ⟨hi, hlen⟩, he]
    rfl
  · intro hp hc
    simp only [doPitchWheel, hp, hc, if_true, withMainVoice_mMPEMainVoice, he]
    rfl
  · intro hp hc i hidx hlen
    have h : s.doPitchWheel e =
        s.modifyVoice (i : ℤ)
          (fun v =>
            { v with
              mdPitchBend :=
                v.mdPitchBend.addChange ((e.mValue1 - 8192) / 8191 * s.mPitchWheelSemitones / 12)
                  (uint64ToInt e.mTime) }) := by
      simp only [doPitchWheel, hp, hc, if_false, hidx]
    rw [h, voiceAt_modifyVoice s i i _ hlen, if_pos rfl, he]
    rfl
  · intro h
    subst h
    norm_num

/-- C38, at a concrete input: one voice, bend range 7 semitones, wheel value 16383. -/
theorem doPitchWheel_bend_witness :
    (((cleared 1 1 InputProtocol.kInputProtocolMIDI false).doPitchWheel
        (pitchWheel 1 16383 3)).voiceAt 0).mdPitchBend.mChanges = [(7 / 12, 3)] := by
  have h := (doPitchWheel_bend (cleared 1 1 InputProtocol.kInputProtocolMIDI false)
    (pitchWheel 1 16383 3) 16383 (by decide) (by decide!) (by decide)).1 rfl 0 (by decide)
    (by decide)
  rw [Nat.cast_zero] at h
  rw [h]
  decide!

/-- C38 fails as stated: with bend range 7 semitones and the wheel value 0, the bend
scheduled is `-8192/8191 * 7/12`, whose magnitude exceeds `7/12`. -/
theorem doPitchWheel_bend_exceeds_range :
    (cleared 1 1 InputProtocol.kInputProtocolMIDI false).mPitchWheelSemitones = 7 ∧
    (((cleared 1 1 InputProtocol.kInputProtocolMIDI false).doPitchWheel
        (pitchWheel 1 0 3)).voiceAt 0).mdPitchBend.mChanges
      = [(-(8192 / 8191) * (7 / 12), 3)] ∧
    (7 : ℚ) / 12 < |(-(8192 / 8191) * (7 / 12) : ℚ)| := by
  refine ⟨rfl, by decide!, ?_⟩
  rw [abs_of_neg (by norm_num)]
  norm_num

end MLProcInputToSignals

/-! ## The ramp of `MLProcGlide` -/

theorem isSign_same (sign : ℚ → ℚ) (hs : IsSign sign) (a b : ℚ) (h : 0 < a * b) :
    sign a = sign b := by
  rcases lt_trichotomy a 0 with ha | ha | ha
  · have hb : b < 0 := by
      by_contra hb
      have hb0 : 0 ≤ b := not_lt.mp hb
      have : a * b ≤ 0 := mul_nonpos_of_nonpos_of_nonneg ha.le hb0
      linarith
    exact hs.2.1 a b ha hb
  · rw [ha, zero_mul] at h
    exact absurd h (lt_irrefl 0)
  · have hb : 0 < b := by
      by_contra hb
      have hb0 : b ≤ 0 := not_lt.mp hb
      have : a * b ≤ 0 := mul_nonpos_of_nonneg_of_nonpos ha.le hb0
      linarith
    exact hs.1 a b ha hb

theorem isSign_opposite (sign : ℚ → ℚ) (hs : IsSign sign) (a b : ℚ) (h : a * b < 0) :
    sign a ≠ sign b := by
  rcases lt_trichotomy a 0 with ha | ha | ha
  · have hb : 0 < b := by
      by_contra hb
      have hb0 : b ≤ 0 := not_lt.mp hb
      have : 0 ≤ a * b := mul_nonneg_of_nonpos_of_nonpos ha.le hb0
      linarith
    exact hs.2.2 a b ha hb
  · rw [ha, zero_mul] at h
    exact absurd h (lt_irrefl 0)
  · have hb : b < 0 := by
      by_contra hb
      have hb0 : 0 ≤ b := not_lt.mp hb
      have : 0 ≤ a * b := mul_nonneg ha.le hb0
      linarith
    exact fun e => hs.2.2 b a hb ha e.symm

theorem isSign_sign3 : IsSign sign3 := by
  refine ⟨?_, ?_, ?_⟩
  · intro a b ha hb
    simp [sign3, ha.ne', hb.ne', ha, hb]
  · intro a b ha hb
    simp [sign3, ha.ne, hb.ne, not_lt.mpr ha.le, not_lt.mpr hb.le]
  · intro a b ha hb
    simp [sign3, ha.ne, hb.ne', not_lt.mpr ha.le, hb]
    norm_num

theorem MLProcGlide.retarget_same (g : MLProcGlide) : g.retarget g.mEndValue = g := by
  simp [MLProcGlide.retarget]

/-- One sample of the ramp: `j` samples after the switch the object is on the line from `y0`
to `c` (or has arrived), and so it is after `j + 1` samples. -/
theorem MLProcGlide.step_ramp (sign : ℚ → ℚ) (hs : IsSign sign) (y0 c : ℚ) (N : ℕ)
    (hN : 1 ≤ N) (hyc : c ≠ y0) (g : MLProcGlide) (j : ℕ)
    (h1 : g.mEndValue = c) (h2 : g.mStep = (c - y0) * (1 / (N : ℚ)))
    (h3 : j < N → g.mActive = true ∧ g.mY1 = y0 + (j : ℚ) * ((c - y0) * (1 / (N : ℚ))))
    (h4 : N ≤ j → g.mY1 = c ∧ (g.mActive = true → sign 0 = sign (y0 - c))) :
    (g.step sign c).1.mEndValue = c ∧
    (g.step sign c).1.mStep = (c - y0) * (1 / (N : ℚ)) ∧
    (j + 1 < N → (g.step sign c).1.mActive = true ∧
      (g.step sign c).1.mY1 = y0 + ((j + 1 : ℕ) : ℚ) * ((c - y0) * (1 / (N : ℚ)))) ∧
    (N ≤ j + 1 → (g.step sign c).1.mY1 = c ∧
      ((g.step sign c).1.mActive = true → sign 0 = sign (y0 - c))) ∧
    (g.step sign c).2 = (g.step sign c).1.mY1 := by
  have hNq : (0 : ℚ) < (N : ℚ) := by exact_mod_cast hN
  have ht : y0 - c ≠ 0 := fun h => hyc (by linarith)
  have ht2 : 0 < (y0 - c) * (y0 - c) := mul_self_pos.mpr ht
  have hr : g.retarget c = g := by
    rw [← h1]
    exact g.retarget_same
  have hstep : g.step sign c = (MLProcGlide.advance sign g, (MLProcGlide.advance sign g).mY1) := by
    simp only [MLProcGlide.step, hr]
  rw [hstep]
  by_cases hj : j < N
  · obtain ⟨ha, hy⟩ := h3 hj
    have hjq : (j : ℚ) < (N : ℚ) := by exact_mod_cast hj
    have hbefore : 0 < (g.mY1 - g.mEndValue) * (y0 - c) := by
      have e : (g.mY1 - g.mEndValue) * (y0 - c)
          = ((y0 - c) * (y0 - c)) * (((N : ℚ) - (j : ℚ)) / (N : ℚ)) := by
        rw [hy, h1]
        field_simp
        ring
      rw [e]
      exact mul_pos ht2 (div_pos (by linarith) hNq)
    by_cases hj1 : j + 1 < N
    · have hj1q : ((j : ℚ) + 1) < (N : ℚ) := by exact_mod_cast hj1
      have hafter : 0 < (g.mY1 + g.mStep - g.mEndValue) * (y0 - c) := by
        have e : (g.mY1 + g.mStep - g.mEndValue) * (y0 - c)
            = ((y0 - c) * (y0 - c)) * (((N : ℚ) - ((j : ℚ) + 1)) / (N : ℚ)) := by
          rw [hy, h1, h2]
          field_simp
          ring
        rw [e]
        exact mul_pos ht2 (div_pos (by linarith) hNq)
      have hsame : sign (g.mY1 + g.mStep - g.mEndValue) = sign (g.mY1 - g.mEndValue) := by
        rw [isSign_same sign hs _ _ hafter, isSign_same sign hs _ _ hbefore]
      have hadv : MLProcGlide.advance sign g = { g with mY1 := g.mY1 + g.mStep } := by
        simp only [MLProcGlide.advance, ha, if_true, hsame, ne_eq, not_true_eq_false, if_false]
      rw [hadv]
      refine ⟨h1, h2, fun _ => ⟨ha, ?_⟩, fun h => absurd hj1 (by omega), rfl⟩
      show g.mY1 + g.mStep = _
      rw [hy, h2]
      push_cast
      ring
    · have hjN : (j : ℚ) + 1 = (N : ℚ) := by
        have : j + 1 = N := by omega
        exact_mod_cast this
      have hnew : g.mY1 + g.mStep = c := by
        rw [hy, h2]
        have : (j : ℚ) = (N : ℚ) - 1 := by linarith
        rw [this]
        field_simp
        ring
      by_cases hsnap : sign (g.mY1 + g.mStep - g.mEndValue) ≠ sign (g.mY1 - g.mEndValue)
      · have hadv : MLProcGlide.advance sign g =
            { g with mY1 := g.mEndValue, mActive := false } := by
          simp only [MLProcGlide.advance, ha, if_true, hsnap, ne_eq, not_false_eq_true]
        rw [hadv]
        refine ⟨h1, h2, fun h => absurd h hj1, fun _ => ⟨h1, fun h => ?_⟩, rfl⟩
        exact absurd h (by simp)
      · have hsame : sign (g.mY1 + g.mStep - g.mEndValue) = sign (g.mY1 - g.mEndValue) :=
          not_not.mp hsnap
        have hadv : MLProcGlide.advance sign g = { g with mY1 := g.mY1 + g.mStep } := by
          simp only [MLProcGlide.advance, ha, if_true, hsame, ne_eq, not_true_eq_false,
            if_false]
        rw [hadv]
        refine ⟨h1, h2, fun h => absurd h hj1, fun _ => ⟨hnew, fun _ => ?_⟩, rfl⟩
        rw [hnew, h1, sub_self] at hsame
        have hb := hbefore
        rw [h1] at hb
        rw [hsame]
        exact isSign_same sign hs _ _ hb
  · obtain ⟨hy, hact⟩ := h4 (not_lt.mp hj)
    by_cases ha : g.mActive = true
    · have h0 : sign 0 = sign (y0 - c) := hact ha
      have hopp : (g.mY1 + g.mStep - g.mEndValue) * (y0 - c) < 0 := by
        have e : (g.mY1 + g.mStep - g.mEndValue) * (y0 - c)
            = -(((y0 - c) * (y0 - c)) * (1 / (N : ℚ))) := by
          rw [hy, h1, h2]
          ring
        rw [e]
        exact neg_neg_of_pos (mul_pos ht2 (div_pos one_pos hNq))
      have hsnap : sign (g.mY1 + g.mStep - g.mEndValue) ≠ sign (g.mY1 - g.mEndValue) := by
        have e0 : g.mY1 - g.mEndValue = 0 := by rw [hy, h1, sub_self]
        rw [e0, h0]
        exact isSign_opposite sign hs _ _ hopp
      have hadv : MLProcGlide.advance sign g =
          { g with mY1 := g.mEndValue, mActive := false } := by
        simp only [MLProcGlide.advance, ha, if_true, hsnap, ne_eq, not_false_eq_true]
      rw [hadv]
      refine ⟨h1, h2, fun h => absurd h (by omega), fun _ => ⟨h1, fun h => ?_⟩, rfl⟩
      exact absurd h (by simp)
    · have hadv : MLProcGlide.advance sign g = g := by
        simp only [MLProcGlide.advance, ha, if_false, Bool.false_eq_true]
      rw [hadv]
      exact ⟨h1, h2, fun h => absurd h (by omega), fun _ => ⟨hy, fun h => absurd h ha⟩, rfl⟩

theorem MLProcGlide.processLoop_ramp (sign : ℚ → ℚ) (hs : IsSign sign) (y0 c : ℚ) (N : ℕ)
    (hN : 1 ≤ N) (hyc : c ≠ y0) :
    ∀ (n : ℕ) (g : MLProcGlide) (j : ℕ),
      g.mEndValue = c → g.mStep = (c - y0) * (1 / (N : ℚ)) →
      (j < N → g.mActive = true ∧ g.mY1 = y0 + (j : ℚ) * ((c - y0) * (1 / (N : ℚ)))) →
      (N ≤ j → g.mY1 = c ∧ (g.mActive = true → sign 0 = sign (y0 - c))) →
      (MLProcGlide.processLoop sign (List.replicate n c) g).2.length = n ∧
      ∀ i : ℕ, i < n →
        (MLProcGlide.processLoop sign (List.replicate n c) g).2.getD i 0 =
          (if j + i + 1 < N then y0 + ((j + i + 1 : ℕ) : ℚ) * ((c - y0) * (1 / (N : ℚ)))
           else c) := by
  intro n
  induction n with
  | zero =>
    intro g j _ _ _ _
    exact ⟨rfl, fun i hi => absurd hi (Nat.not_lt_zero i)⟩
  | succ n ih =>
    intro g j h1 h2 h3 h4
    obtain ⟨s1, s2, s3, s4, s5⟩ := MLProcGlide.step_ramp sign hs y0 c N hN hyc g j h1 h2 h3 h4
    obtain ⟨l, hrest⟩ := ih (g.step sign c).1 (j + 1) s1 s2 s3 s4
    have hloop : (MLProcGlide.processLoop sign (List.replicate (n + 1) c) g).2 =
        (g.step sign c).2 ::
          (MLProcGlide.processLoop sign (List.replicate n c) (g.step sign c).1).2 := rfl
    rw [hloop]
    refine ⟨by rw [List.length_cons, l], ?_⟩
    intro i hi
    cases i with
    | zero =>
      rw [List.getD_cons_zero, s5]
      by_cases hj : j + 1 < N
      · rw [if_pos (by omega)]
        exact (s3 hj).2
      · rw [if_neg (by omega)]
        exact (s4 (by omega)).1
    | succ i =>
      rw [List.getD_cons_succ, hrest i (by omega)]
      have e : j + 1 + i + 1 = j + (i + 1) + 1 := by omega
      rw [e]

theorem MLProcGlide.processLoop_first (sign : ℚ → ℚ) (g : MLProcGlide) (c : ℚ) (n : ℕ) :
    (MLProcGlide.processLoop sign (List.replicate n c) g).2 =
      (MLProcGlide.processLoop sign (List.replicate n c) (g.retarget c)).2 := by
  cases n with
  | zero => rfl
  | succ n =>
    have h : (g.retarget c).retarget c = g.retarget c := by
      by_cases hc : c ≠ g.mEndValue
      · simp [MLProcGlide.retarget, hc]
      · simp only [MLProcGlide.retarget, hc, if_false]
    have hstep : (g.retarget c).step sign c = g.step sign c := by
      simp only [MLProcGlide.step, h]
    show (_ :: _ : List ℚ) = (_ :: _ : List ℚ)
    rw [hstep]

theorem MLProcGlide.processLoop_append (sign : ℚ → ℚ) :
    ∀ (a b : List ℚ) (g : MLProcGlide),
      MLProcGlide.processLoop sign (a ++ b) g =
        ((MLProcGlide.processLoop sign b (MLProcGlide.processLoop sign a g).1).1,
         (MLProcGlide.processLoop sign a g).2 ++
           (MLProcGlide.processLoop sign b (MLProcGlide.processLoop sign a g).1).2) := by
  intro a
  induction a with
  | nil =>
    intro b g
    rfl
  | cons x xs ih =>
    intro b g
    show MLProcGlide.processLoop sign (x :: (xs ++ b)) g = _
    simp only [MLProcGlide.processLoop, ih, List.cons_append]

theorem MLProcGlide.processLoop_mParamsChanged (sign : ℚ → ℚ) :
    ∀ (a : List ℚ) (g : MLProcGlide),
      (MLProcGlide.processLoop sign a g).1.mParamsChanged = g.mParamsChanged := by
  intro a
  induction a with
  | nil =>
    intro g
    rfl
  | cons x xs ih =>
    intro g
    simp only [MLProcGlide.processLoop, ih]
    simp only [MLProcGlide.step, MLProcGlide.advance, MLProcGlide.retarget]
    split_ifs <;> rfl

theorem MLProcGlide.processBlocks_eq (sign : ℚ → ℚ) (time sr : ℚ) :
    ∀ (blocks : List (List ℚ)) (g : MLProcGlide), g.mParamsChanged = false →
      MLProcGlide.processBlocks sign time sr blocks g =
        MLProcGlide.processLoop sign blocks.flatten g := by
  intro blocks
  induction blocks with
  | nil =>
    intro g _
    rfl
  | cons x blocks ih =>
    intro g hp
    have hproc : g.process sign time sr x = MLProcGlide.processLoop sign x g := by
      simp only [MLProcGlide.process, hp, Bool.false_eq_true, if_false]
    have hp1 : (MLProcGlide.processLoop sign x g).1.mParamsChanged = false := by
      rw [MLProcGlide.processLoop_mParamsChanged, hp]
    simp only [MLProcGlide.processBlocks, hproc, List.flatten_cons,
      MLProcGlide.processLoop_append, ih _ hp1]

theorem join_replicate_blocks (c : ℚ) :
    ∀ blocks : List ℕ,
      (blocks.map (fun n => List.replicate n c)).flatten = List.replicate blocks.sum c := by
  intro blocks
  induction blocks with
  | nil => rfl
  | cons n blocks ih =>
    rw [List.map_cons, List.flatten_cons, ih, List.sum_cons, List.replicate_add]

/-- The ramp of an `MLProcGlide` whose coefficients are up to date
(`mParamsChanged = false`). -/
theorem glide_ramp_settled (sign : ℚ → ℚ) (hs : IsSign sign) (g : MLProcGlide) (time sr c : ℚ)
    (N : ℕ) (hN : 1 ≤ N) (hp : g.mParamsChanged = false)
    (hinv : g.mInvRampTimeInSamples = 1 / (N : ℚ)) (hc : c ≠ g.mY1) (he : c ≠ g.mEndValue)
    (blocks : List ℕ) :
    (g.processBlocks sign time sr (blocks.map (fun n => List.replicate n c))).2.length
      = blocks.sum ∧
    ∀ j : ℕ, 1 ≤ j → j ≤ blocks.sum →
      (g.processBlocks sign time sr (blocks.map (fun n => List.replicate n c))).2.getD (j - 1) 0
        = (if j < N then g.mY1 + (j : ℚ) * (c - g.mY1) / (N : ℚ) else c) ∧
      (g.mY1 ≤ c →
        g.mY1 ≤ (g.processBlocks sign time sr
            (blocks.map (fun n => List.replicate n c))).2.getD (j - 1) 0 ∧
        (g.processBlocks sign time sr
            (blocks.map (fun n => List.replicate n c))).2.getD (j - 1) 0 ≤ c) ∧
      (c ≤ g.mY1 →
        c ≤ (g.processBlocks sign time sr
            (blocks.map (fun n => List.replicate n c))).2.getD (j - 1) 0 ∧
        (g.processBlocks sign time sr
            (blocks.map (fun n => List.replicate n c))).2.getD (j - 1) 0 ≤ g.mY1) := by
  have hNq : (0 : ℚ) < (N : ℚ) := by exact_mod_cast hN
  rw [MLProcGlide.processBlocks_eq sign time sr _ g hp, join_replicate_blocks,
    MLProcGlide.processLoop_first]
  have hr : g.retarget c =
      { g with mEndValue := c, mStep := (c - g.mY1) * g.mInvRampTimeInSamples,
               mActive := true } := by
    simp only [MLProcGlide.retarget, he, ne_eq, not_false_eq_true, if_true]
  obtain ⟨hlen, hout⟩ := MLProcGlide.processLoop_ramp sign hs g.mY1 c N hN hc blocks.sum
    (g.retarget c) 0 (by rw [hr]) (by rw [hr, hinv])
    (fun _ => ⟨by rw [hr], by rw [hr]; simp⟩) (fun h => absurd h (by omega))
  refine ⟨hlen, ?_⟩
  intro j hj1 hj2
  have hval := hout (j - 1) (by omega)
  have e : 0 + (j - 1) + 1 = j := by omega
  rw [e] at hval
  have hform : (if j < N then g.mY1 + (j : ℚ) * ((c - g.mY1) * (1 / (N : ℚ))) else c)
      = (if j < N then g.mY1 + (j : ℚ) * (c - g.mY1) / (N : ℚ) else c) := by
    by_cases hjN : j < N
    · rw [if_pos hjN, if_pos hjN]
      ring
    · rw [if_neg hjN, if_neg hjN]
  rw [hval, hform]
  refine ⟨rfl, ?_, ?_⟩
  · intro hle
    by_cases hjN : j < N
    · rw [if_pos hjN]
      have hjq : (j : ℚ) < (N : ℚ) := by exact_mod_cast hjN
      have hj0 : (0 : ℚ) ≤ (j : ℚ) := Nat.cast_nonneg j
      have e1 : g.mY1 + (j : ℚ) * (c - g.mY1) / (N : ℚ) - g.mY1
          = ((j : ℚ) / (N : ℚ)) * (c - g.mY1) := by ring
      have e2 : c - (g.mY1 + (j : ℚ) * (c - g.mY1) / (N : ℚ))
          = (((N : ℚ) - (j : ℚ)) / (N : ℚ)) * (c - g.mY1) := by
        field_simp
        ring
      have p1 : 0 ≤ ((j : ℚ) / (N : ℚ)) * (c - g.mY1) :=
        mul_nonneg (div_nonneg hj0 hNq.le) (by linarith)
      have p2 : 0 ≤ (((N : ℚ) - (j : ℚ)) / (N : ℚ)) * (c - g.mY1) :=
        mul_nonneg (div_nonneg (by linarith) hNq.le) (by linarith)
      constructor <;> linarith
    · rw [if_neg hjN]
      exact ⟨hle, le_refl c⟩
  · intro hle
    by_cases hjN : j < N
    · rw [if_pos hjN]
      have hjq : (j : ℚ) < (N : ℚ) := by exact_mod_cast hjN
      have hj0 : (0 : ℚ) ≤ (j : ℚ) := Nat.cast_nonneg j
      have e1 : g.mY1 - (g.mY1 + (j : ℚ) * (c - g.mY1) / (N : ℚ))
          = ((j : ℚ) / (N : ℚ)) * (g.mY1 - c) := by ring
      have e2 : (g.mY1 + (j : ℚ) * (c - g.mY1) / (N : ℚ)) - c
          = (((N : ℚ) - (j : ℚ)) / (N : ℚ)) * (g.mY1 - c) := by
        field_simp
        ring
      have p1 : 0 ≤ ((j : ℚ) / (N : ℚ)) * (g.mY1 - c) :=
        mul_nonneg (div_nonneg hj0 hNq.le) (by linarith)
      have p2 : 0 ≤ (((N : ℚ) - (j : ℚ)) / (N : ℚ)) * (g.mY1 - c) :=
        mul_nonneg (div_nonneg (by linarith) hNq.le) (by linarith)
      constructor <;> linarith
    · rw [if_neg hjN]
      exact ⟨le_refl c, hle⟩

theorem MLProcGlide.processBlocks_calcCoeffs (sign : ℚ → ℚ) (g : MLProcGlide) (time sr : ℚ)
    (hp : g.mParamsChanged = true) (blocks : List (List ℚ)) :
    (g.processBlocks sign time sr blocks).2 =
      ((g.calcCoeffs time sr).processBlocks sign time sr blocks).2 := by
  cases blocks with
  | nil => rfl
  | cons x blocks =>
    have h1 : g.process sign time sr x = (g.calcCoeffs time sr).process sign time sr x := by
      have h2 : (g.calcCoeffs time sr).mParamsChanged = false := rfl
      simp only [MLProcGlide.process, hp, h2, if_true, Bool.false_eq_true, if_false]
    simp only [MLProcGlide.processBlocks, h1]

/-- C39: in exact arithmetic, with a ramp of `N ≥ 1` samples (`mInvRampTimeInSamples = 1/N`,
as left by `calcCoeffs`, which `process` runs first when the parameters have changed) and a
sign function that tells negative from positive, when the output is `y0 = mY1` and the input
switches to a constant `c ≠ y0` and stays there, over any number of calls of `process`, the
output after `j` samples is `y0 + j*(c - y0)/N` for `j < N` and exactly `c` for every
`j ≥ N`, and it never lies on the other side of `c` from `y0`. -/
theorem glide_ramp (sign : ℚ → ℚ) (hs : IsSign sign) (g : MLProcGlide) (time sr c : ℚ)
    (N : ℕ) (hN : 1 ≤ N)
    (hinv : (if g.mParamsChanged then g.calcCoeffs time sr else g).mInvRampTimeInSamples
      = 1 / (N : ℚ))
    (hc : c ≠ g.mY1) (he : c ≠ g.mEndValue) (blocks : List ℕ) :
    (g.processBlocks sign time sr (blocks.map (fun n => List.replicate n c))).2.length
      = blocks.sum ∧
    ∀ j : ℕ, 1 ≤ j → j ≤ blocks.sum →
      (g.processBlocks sign time sr (blocks.map (fun n => List.replicate n c))).2.getD (j - 1) 0
        = (if j < N then g.mY1 + (j : ℚ) * (c - g.mY1) / (N : ℚ) else c) ∧
      (g.mY1 ≤ c →
        g.mY1 ≤ (g.processBlocks sign time sr
            (blocks.map (fun n => List.replicate n c))).2.getD (j - 1) 0 ∧
        (g.processBlocks sign time sr
            (blocks.map (fun n => List.replicate n c))).2.getD (j - 1) 0 ≤ c) ∧
      (c ≤ g.mY1 →
        c ≤ (g.processBlocks sign time sr
            (blocks.map (fun n => List.replicate n c))).2.getD (j - 1) 0 ∧
        (g.processBlocks sign time sr
            (blocks.map (fun n => List.replicate n c))).2.getD (j - 1) 0 ≤ g.mY1) := by
  by_cases hp : g.mParamsChanged = true
  · rw [if_pos hp] at hinv
    rw [MLProcGlide.processBlocks_calcCoeffs sign g time sr hp]
    exact glide_ramp_settled sign hs (g.calcCoeffs time sr) time sr c N hN rfl hinv hc he blocks
  · rw [if_neg hp] at hinv
    exact glide_ramp_settled sign hs g time sr c N hN (by simpa using hp) hinv hc he blocks

/-- C39, at a concrete input: an `MLProcGlide` after `clear()` whose parameters have changed,
with a ramp of four samples (sample rate 1000, parameter `time` 3/1000), and two blocks of
three samples 1. -/
theorem glide_ramp_witness :
    (MLProcGlide.processBlocks sign3 (3 / 1000) 1000 [List.replicate 3 1, List.replicate 3 1]
        { mY1 := 0, mEndValue := 0, mRampTimeInSamples := 0, mInvRampTimeInSamples := 0,
          mStep := 0, mActive := false, mParamsChanged := true }).2
      = [1 / 4, 1 / 2, 3 / 4, 1, 1, 1] ∧
    (MLProcGlide.processBlocks sign3 (3 / 1000) 1000 ([3, 3].map (fun n => List.replicate n 1))
        { mY1 := 0, mEndValue := 0, mRampTimeInSamples := 0, mInvRampTimeInSamples := 0,
          mStep := 0, mActive := false, mParamsChanged := true }).2.length
      = [3, 3].sum :=
  ⟨by decide!,
   (glide_ramp sign3 isSign_sign3
      { mY1 := 0, mEndValue := 0, mRampTimeInSamples := 0, mInvRampTimeInSamples := 0,
        mStep := 0, mActive := false, mParamsChanged := true }
      (3 / 1000) 1000 1 4 (by decide) (by decide!) (by decide!) (by decide!) [3, 3]).1⟩

/-! ## The delay line of `MLProcDelay` -/

theorem toUintptr_mod (k : ℕ) (hk : k ≤ 64) (i : ℤ) :
    toUintptr i % 2 ^ k = (i % 2 ^ k).toNat := by
  have hdvd : ((2 : ℤ) ^ k) ∣ (2 : ℤ) ^ 64 := pow_dvd_pow 2 hk
  have h64 : (0 : ℤ) ≤ i % 2 ^ 64 := Int.emod_nonneg _ (by positivity)
  have hk0 : (0 : ℤ) ≤ i % 2 ^ k := Int.emod_nonneg _ (by positivity)
  apply Int.ofNat.inj
  show ((toUintptr i % 2 ^ k : ℕ) : ℤ) = (((i % 2 ^ k).toNat : ℕ) : ℤ)
  rw [Int.toNat_of_nonneg hk0]
  unfold toUintptr
  have hc : ((2 ^ k : ℕ) : ℤ) = (2 : ℤ) ^ k := by push_cast; rfl
  rw [Int.natCast_mod, Int.toNat_of_nonneg h64, hc, Int.emod_emod_of_dvd i hdvd]

theorem delay_index (L m : ℕ) (dn : ℤ) (h0 : 0 ≤ dn) (h1 : dn < (L : ℤ)) :
    ((((m % L : ℕ) : ℤ) - dn) % (L : ℤ)).toNat =
      if dn.toNat ≤ m then (m - dn.toNat) % L else m + L - dn.toNat := by
  obtain ⟨e, rfl⟩ := Int.eq_ofNat_of_zero_le h0
  have he : e < L := by exact_mod_cast h1
  have hmod : (((m % L : ℕ) : ℤ) - (e : ℤ)) % (L : ℤ) = ((m : ℤ) - (e : ℤ)) % (L : ℤ) := by
    rw [Int.natCast_mod, Int.sub_emod, Int.emod_emod_of_dvd _ (dvd_refl _), ← Int.sub_emod]
  rw [hmod, Int.toNat_ofNat]
  by_cases hem : e ≤ m
  · rw [if_pos hem]
    have : (m : ℤ) - (e : ℤ) = ((m - e : ℕ) : ℤ) := by omega
    rw [this, ← Int.natCast_mod, Int.toNat_ofNat]
  · rw [if_neg hem]
    have h2 : ((m : ℤ) - (e : ℤ)) % (L : ℤ) = (m : ℤ) - (e : ℤ) + (L : ℤ) := by
      rw [← Int.add_emod_self]
      exact Int.emod_eq_of_lt (by omega) (by omega)
    rw [h2]
    omega

theorem mod_ne_of_lt (L t m : ℕ) (h1 : t < m) (h2 : m < t + L) : t % L ≠ m % L := by
  intro h
  have hd : L ∣ m - t := (Nat.modEq_iff_dvd' h1.le).mp h
  have := Nat.le_of_dvd (by omega) hd
  omega

theorem MLProcDelay.writeIndex_eq (d : MLProcDelay) (k : ℕ) (hm : d.mLengthMask = 2 ^ k - 1) :
    d.writeIndex = d.mWriteIndex % 2 ^ k := by
  unfold MLProcDelay.writeIndex
  rw [hm, Nat.and_pow_two_sub_one_eq_mod]

theorem MLProcDelay.readIndex_eq (d : MLProcDelay) (k : ℕ) (hk : k ≤ 64)
    (hm : d.mLengthMask = 2 ^ k - 1) (sr delaySample : ℚ) :
    d.readIndex sr delaySample =
      ((((d.mWriteIndex % 2 ^ k : ℕ) : ℤ) - floatToInt (delaySample * sr)) % 2 ^ k).toNat := by
  unfold MLProcDelay.readIndex
  simp only []
  rw [d.writeIndex_eq k hm, hm, Nat.and_pow_two_sub_one_eq_mod, toUintptr_mod k hk]

/-- One sample of the delay line: after `m` samples the buffer holds, at index `t % L`, the
sample `x t` for the last `L` values of `t`, and zeros at the indices not yet written; so it
does after `m + 1` samples, and the output is the sample delayed. -/
theorem MLProcDelay.step_inv (x : ℕ → ℚ × ℚ) (k : ℕ) (hk : k ≤ 64) (sr : ℚ)
    (d : MLProcDelay) (m : ℕ) (hm : d.mLengthMask = 2 ^ k - 1)
    (hlen : d.mBuffer.samples.length = 2 ^ k) (hw : d.mWriteIndex % 2 ^ k = m % 2 ^ k)
    (hA : ∀ t, t < m → m ≤ t + 2 ^ k → d.mBuffer.samples.getD (t % 2 ^ k) 0 = (x t).1)
    (hB : ∀ i, m ≤ i → i < 2 ^ k → d.mBuffer.samples.getD i 0 = 0) :
    (d.step sr (x m).1 (x m).2).1.mLengthMask = 2 ^ k - 1 ∧
    (d.step sr (x m).1 (x m).2).1.mBuffer.samples.length = 2 ^ k ∧
    (d.step sr (x m).1 (x m).2).1.mWriteIndex % 2 ^ k = (m + 1) % 2 ^ k ∧
    (∀ t, t < m + 1 → m + 1 ≤ t + 2 ^ k →
      (d.step sr (x m).1 (x m).2).1.mBuffer.samples.getD (t % 2 ^ k) 0 = (x t).1) ∧
    (∀ i, m + 1 ≤ i → i < 2 ^ k →
      (d.step sr (x m).1 (x m).2).1.mBuffer.samples.getD i 0 = 0) ∧
    (0 ≤ floatToInt ((x m).2 * sr) → floatToInt ((x m).2 * sr) < 2 ^ k →
      (d.step sr (x m).1 (x m).2).2 =
        if (floatToInt ((x m).2 * sr)).toNat ≤ m then
          (x (m - (floatToInt ((x m).2 * sr)).toNat)).1
        else 0) := by
  have hL : 0 < 2 ^ k := Nat.two_pow_pos k
  have hwi : d.writeIndex = m % 2 ^ k := by rw [d.writeIndex_eq k hm, hw]
  have hmL : m % 2 ^ k < d.mBuffer.samples.length := by
    rw [hlen]
    exact Nat.mod_lt _ hL
  have hbuf : (d.step sr (x m).1 (x m).2).1.mBuffer.samples
      = d.mBuffer.samples.set (m % 2 ^ k) (x m).1 := by
    simp only [MLProcDelay.step, hwi]
  have hA1 : ∀ t, t < m + 1 → m + 1 ≤ t + 2 ^ k →
      (d.mBuffer.samples.set (m % 2 ^ k) (x m).1).getD (t % 2 ^ k) 0 = (x t).1 := by
    intro t ht1 ht2
    rw [List.getD_eq_getElem?_getD]
    by_cases htm : t = m
    · subst htm
      rw [List.getElem?_set_self hmL]
      rfl
    · have hne : m % 2 ^ k ≠ t % 2 ^ k :=
        fun h => mod_ne_of_lt (2 ^ k) t m (by omega) (by omega) h.symm
      rw [List.getElem?_set_ne hne, ← List.getD_eq_getElem?_getD]
      exact hA t (by omega) (by omega)
  have hB1 : ∀ i, m + 1 ≤ i → i < 2 ^ k →
      (d.mBuffer.samples.set (m % 2 ^ k) (x m).1).getD i 0 = 0 := by
    intro i hi1 hi2
    have hmm : m % 2 ^ k = m := Nat.mod_eq_of_lt (by omega)
    have hne : m % 2 ^ k ≠ i := by omega
    rw [List.getD_eq_getElem?_getD, List.getElem?_set_ne hne, ← List.getD_eq_getElem?_getD]
    exact hB i (by omega) hi2
  refine ⟨hm, ?_, ?_, ?_, ?_, ?_⟩
  · rw [hbuf, List.length_set, hlen]
  · have hdvd : 2 ^ k ∣ 2 ^ 64 := pow_dvd_pow 2 hk
    show ((d.writeIndex + 1) % 2 ^ 64) % 2 ^ k = (m + 1) % 2 ^ k
    rw [Nat.mod_mod_of_dvd _ hdvd, hwi, Nat.add_mod (m % 2 ^ k) 1 (2 ^ k), Nat.mod_mod,
      ← Nat.add_mod]
  · rw [hbuf]
    exact hA1
  · rw [hbuf]
    exact hB1
  · intro h0 h1
    have hc : ((2 ^ k : ℕ) : ℤ) = (2 : ℤ) ^ k := by push_cast; rfl
    have hy : (d.step sr (x m).1 (x m).2).2
        = (d.mBuffer.samples.set (m % 2 ^ k) (x m).1).getD (d.readIndex sr (x m).2) 0 := by
      simp only [MLProcDelay.step, hwi]
    have hr : d.readIndex sr (x m).2 =
        if (floatToInt ((x m).2 * sr)).toNat ≤ m then
          (m - (floatToInt ((x m).2 * sr)).toNat) % 2 ^ k
        else m + 2 ^ k - (floatToInt ((x m).2 * sr)).toNat := by
      rw [d.readIndex_eq k hk hm, hw, ← hc]
      exact delay_index (2 ^ k) m _ h0 (by rw [hc]; exact h1)
    have he : (floatToInt ((x m).2 * sr)).toNat < 2 ^ k := by
      have : ((floatToInt ((x m).2 * sr)).toNat : ℤ) < ((2 ^ k : ℕ) : ℤ) := by
        rw [Int.toNat_of_nonneg h0, hc]
        exact h1
      exact_mod_cast this
    rw [hy, hr]
    by_cases hem : (floatToInt ((x m).2 * sr)).toNat ≤ m
    · rw [if_pos hem, if_pos hem]
      exact hA1 _ (by omega) (by omega)
    · rw [if_neg hem, if_neg hem]
      exact hB1 _ (by omega) (by omega)

theorem MLProcDelay.process_inv (x : ℕ → ℚ × ℚ) (k : ℕ) (hk : k ≤ 64) (sr : ℚ) :
    ∀ (n m : ℕ) (d : MLProcDelay), d.mLengthMask = 2 ^ k - 1 →
      d.mBuffer.samples.length = 2 ^ k → d.mWriteIndex % 2 ^ k = m % 2 ^ k →
      (∀ t, t < m → m ≤ t + 2 ^ k → d.mBuffer.samples.getD (t % 2 ^ k) 0 = (x t).1) →
      (∀ i, m ≤ i → i < 2 ^ k → d.mBuffer.samples.getD i 0 = 0) →
      (MLProcDelay.process sr ((List.range' m n).map x) d).2.length = n ∧
      ∀ i, i < n → 0 ≤ floatToInt ((x (m + i)).2 * sr) →
        floatToInt ((x (m + i)).2 * sr) < 2 ^ k →
        (MLProcDelay.process sr ((List.range' m n).map x) d).2.getD i 0 =
          if (floatToInt ((x (m + i)).2 * sr)).toNat ≤ m + i then
            (x (m + i - (floatToInt ((x (m + i)).2 * sr)).toNat)).1
          else 0 := by
  intro n
  induction n with
  | zero =>
    intro m d _ _ _ _ _
    exact ⟨rfl, fun i hi => absurd hi (Nat.not_lt_zero i)⟩
  | succ n ih =>
    intro m d hm hlen hw hA hB
    obtain ⟨s1, s2, s3, s4, s5, s6⟩ := MLProcDelay.step_inv x k hk sr d m hm hlen hw hA hB
    obtain ⟨l, hrest⟩ := ih (m + 1) (d.step sr (x m).1 (x m).2).1 s1 s2 s3 s4 s5
    have hloop : (MLProcDelay.process sr ((List.range' m (n + 1)).map x) d).2 =
        (d.step sr (x m).1 (x m).2).2 ::
          (MLProcDelay.process sr ((List.range' (m + 1) n).map x)
            (d.step sr (x m).1 (x m).2).1).2 := rfl
    rw [hloop]
    refine ⟨by rw [List.length_cons, l], ?_⟩
    intro i hi h0 h1
    cases i with
    | zero =>
      rw [List.getD_cons_zero]
      exact s6 h0 h1
    | succ i =>
      have e : m + (i + 1) = m + 1 + i := by omega
      rw [e] at h0 h1 ⊢
      rw [List.getD_cons_succ]
      exact hrest i (by omega) h0 h1

theorem MLProcDelay.process_append (sr : ℚ) :
    ∀ (a b : List (ℚ × ℚ)) (d : MLProcDelay),
      MLProcDelay.process sr (a ++ b) d =
        ((MLProcDelay.process sr b (MLProcDelay.process sr a d).1).1,
         (MLProcDelay.process sr a d).2 ++
           (MLProcDelay.process sr b (MLProcDelay.process sr a d).1).2) := by
  intro a
  induction a with
  | nil =>
    intro b d
    rfl
  | cons y ys ih =>
    intro b d
    show MLProcDelay.process sr (y :: (ys ++ b)) d = _
    simp only [MLProcDelay.process, ih, List.cons_append]

theorem MLProcDelay.processBlocks_flatten (sr : ℚ) :
    ∀ (blocks : List (List (ℚ × ℚ))) (d : MLProcDelay),
      MLProcDelay.processBlocks sr blocks d = MLProcDelay.process sr blocks.flatten d := by
  intro blocks
  induction blocks with
  | nil =>
    intro d
    rfl
  | cons b blocks ih =>
    intro d
    simp only [MLProcDelay.processBlocks, List.flatten_cons, MLProcDelay.process_append, ih]

theorem map_getD_range' (xs : List (ℚ × ℚ)) :
    (List.range' 0 xs.length).map (fun t => xs.getD t (0, 0)) = xs := by
  apply List.ext_getElem
  · simp
  · intro i h1 h2
    simp [List.getD_eq_getElem?_getD, List.getElem?_eq_getElem h2]

theorem MLProcDelay.process_mLengthMask (sr : ℚ) :
    ∀ (a : List (ℚ × ℚ)) (d : MLProcDelay),
      (MLProcDelay.process sr a d).1.mLengthMask = d.mLengthMask := by
  intro a
  induction a with
  | nil =>
    intro d
    rfl
  | cons y ys ih =>
    intro d
    simp only [MLProcDelay.process, ih]
    rfl

/-- C40: `MLProcDelay` is an integer delay line.  With a buffer of length `L = 2^k`
(`k ≤ 64`, the width of `uintptr_t`) and the mask `L - 1`, after `clear()`, over any number
of calls of `process`, the output at sample `n` is `x[n - d_n]` when `n ≥ d_n` and 0
otherwise, for every sample whose integer delay `d_n = (int)(delaySig[n] * sr)` satisfies
`0 ≤ d_n < L`; the mask is kept, and for every object with this mask and every delay value
whatsoever the index of the write and the index of the read are below `L`. -/
theorem delay_line (d : MLProcDelay) (k : ℕ) (hk : k ≤ 64) (hm : d.mLengthMask = 2 ^ k - 1)
    (hlen : d.mBuffer.samples.length = 2 ^ k) (sr : ℚ) (blocks : List (List (ℚ × ℚ))) :
    (MLProcDelay.processBlocks sr blocks d.clear).2.length = blocks.flatten.length ∧
    (∀ n, n < blocks.flatten.length →
      0 ≤ floatToInt ((blocks.flatten.getD n (0, 0)).2 * sr) →
      floatToInt ((blocks.flatten.getD n (0, 0)).2 * sr) < 2 ^ k →
      (MLProcDelay.processBlocks sr blocks d.clear).2.getD n 0 =
        if (floatToInt ((blocks.flatten.getD n (0, 0)).2 * sr)).toNat ≤ n then
          (blocks.flatten.getD
            (n - (floatToInt ((blocks.flatten.getD n (0, 0)).2 * sr)).toNat) (0, 0)).1
        else 0) ∧
    (MLProcDelay.processBlocks sr blocks d.clear).1.mLengthMask = 2 ^ k - 1 ∧
    (∀ (e : MLProcDelay) (delaySample : ℚ), e.mLengthMask = 2 ^ k - 1 →
      e.writeIndex < 2 ^ k ∧ e.readIndex sr delaySample < 2 ^ k) := by
  have hL : 0 < 2 ^ k := Nat.two_pow_pos k
  have hB : ∀ i, 0 ≤ i → i < 2 ^ k → d.clear.mBuffer.samples.getD i 0 = 0 := by
    intro i _ _
    show (d.mBuffer.samples.map (fun _ => (0 : ℚ))).getD i 0 = 0
    rw [List.getD_eq_getElem?_getD, List.getElem?_map]
    cases d.mBuffer.samples[i]? <;> rfl
  have hlen1 : d.clear.mBuffer.samples.length = 2 ^ k := by
    show (d.mBuffer.samples.map (fun _ => (0 : ℚ))).length = 2 ^ k
    rw [List.length_map, hlen]
  obtain ⟨l, hout⟩ := MLProcDelay.process_inv (fun t => blocks.flatten.getD t (0, 0)) k hk sr
    blocks.flatten.length 0 d.clear hm hlen1 rfl
    (fun t ht => absurd ht (Nat.not_lt_zero t)) hB
  rw [map_getD_range'] at l hout
  rw [MLProcDelay.processBlocks_flatten]
  refine ⟨l, ?_, ?_, ?_⟩
  · intro n hn h0 h1
    have h := hout n hn
    simp only [Nat.zero_add] at h
    exact h h0 h1
  · rw [MLProcDelay.process_mLengthMask]
    exact hm
  · intro e delaySample he
    have hc : ((2 ^ k : ℕ) : ℤ) = (2 : ℤ) ^ k := by push_cast; rfl
    constructor
    · rw [e.writeIndex_eq k he]
      exact Nat.mod_lt _ hL
    · rw [e.readIndex_eq k hk he]
      have hpos : (0 : ℤ) < (2 : ℤ) ^ k := by positivity
      have h1 := Int.emod_lt_of_pos
        (((e.mWriteIndex % 2 ^ k : ℕ) : ℤ) - floatToInt (delaySample * sr)) hpos
      have h0 := Int.emod_nonneg
        (((e.mWriteIndex % 2 ^ k : ℕ) : ℤ) - floatToInt (delaySample * sr)) hpos.ne'
      have : ((((((e.mWriteIndex % 2 ^ k : ℕ) : ℤ) - floatToInt (delaySample * sr))
          % 2 ^ k).toNat : ℕ) : ℤ) < ((2 ^ k : ℕ) : ℤ) := by
        rw [Int.toNat_of_nonneg h0, hc]
        exact h1
      exact_mod_cast this

/-- C40, at a concrete input: a buffer of length 4 with old contents, sample rate 1, two
blocks of three samples with the delays 0, 1, 2, 3, 1 and 0. -/
theorem delay_line_witness :
    (MLProcDelay.processBlocks 1
        [[(10, 0), (11, 1), (12, 2)], [(13, 3), (14, 1), (15, 0)]]
        (MLProcDelay.clear
          { mBuffer := { samples := [7, 7, 7, 7] }, mWriteIndex := 9, mLengthMask := 3 })).2
      = [10, 10, 10, 10, 13, 15] ∧
    (MLProcDelay.processBlocks 1
        [[(10, 0), (11, 1), (12, 2)], [(13, 3), (14, 1), (15, 0)]]
        (MLProcDelay.clear
          { mBuffer := { samples := [7, 7, 7, 7] }, mWriteIndex := 9,
            mLengthMask := 3 })).2.length
      = [[((10 : ℚ), (0 : ℚ)), (11, 1), (12, 2)], [(13, 3), (14, 1), (15, 0)]].flatten.length :=
  ⟨by decide!,
   (delay_line { mBuffer := { samples := [7, 7, 7, 7] }, mWriteIndex := 9, mLengthMask := 3 }
      2 (by decide) rfl rfl 1
      [[(10, 0), (11, 1), (12, 2)], [(13, 3), (14, 1), (15, 0)]]).1⟩

/-! ## The touch frames of the continuous-touch protocol -/

theorem touchLoop_getD (scale : ℚ → ℚ) :
    ∀ (frame latest : List Touch) (voices : List MLVoice) (v : ℕ) (t tz1 : Touch),
      frame[v]? = some t → latest[v]? = some tz1 → v < voices.length →
      (touchLoop scale frame latest voices).getD v MLVoice.init =
        touchToVoice scale t tz1 (voices.getD v MLVoice.init) := by
  intro frame
  induction frame with
  | nil =>
    intro latest voices v t tz1 h
    simp at h
  | cons a frame ih =>
    intro latest voices v t tz1 h1 h2 h3
    cases latest with
    | nil => simp at h2
    | cons b latest =>
      cases voices with
      | nil => simp at h3
      | cons w voices =>
        cases v with
        | zero =>
          simp only [List.getElem?_cons_zero, Option.some.injEq] at h1 h2
          subst h1
          subst h2
          rfl
        | succ v =>
          simp only [List.getElem?_cons_succ] at h1 h2
          simp only [List.length_cons, Nat.add_lt_add_iff_right] at h3
          simp only [touchLoop, List.getD_cons_succ]
          exact ih latest voices v t tz1 h1 h2 h3

namespace MLProcInputToSignals

/-- The body of the loop of `OSCToEvents`: for a polled frame and a touch index `v`, the slot
used is voice `v` itself, and at offset 1 the voice receives a gate change to 1 if the touch
pressure `z` exceeds the threshold and to 0 otherwise, the touch pressure `z` on the
amplitude list, the x delta on the note-pressure list and the y delta on the first
modulation list (`mdMod`); the deltas are 0 on the touch-down frame, which records the start
position, and are taken from the start position while the touch continues.  Each further
frame of the queue is handled in the same way, from the object left by the frame before. -/
theorem osc_frame (scale : ℚ → ℚ) (s : MLProcInputToSignals)
    (frame mPrevTouchFrame mLatestTouchFrame : List Touch) (frames : List (List Touch))
    (v : ℕ) (t tz1 : Touch)
    (ht : frame[v]? = some t) (hz : mLatestTouchFrame[v]? = some tz1)
    (hv : v < s.mVoices.length) :
    (OSCToEvents scale [frame] s mPrevTouchFrame mLatestTouchFrame).1.voiceAt (v : ℤ)
      = touchToVoice scale t tz1 (s.voiceAt (v : ℤ)) ∧
    (touchToVoice scale t tz1 (s.voiceAt (v : ℤ))).mdGate.mChanges
      = (s.voiceAt (v : ℤ)).mdGate.mChanges ++ [(if t.z > kZThresh then 1 else 0, 1)] ∧
    (touchToVoice scale t tz1 (s.voiceAt (v : ℤ))).mdAmp.mChanges
      = (s.voiceAt (v : ℤ)).mdAmp.mChanges ++ [(t.z, 1)] ∧
    (touchToVoice scale t tz1 (s.voiceAt (v : ℤ))).mdNotePressure.mChanges
      = (s.voiceAt (v : ℤ)).mdNotePressure.mChanges
          ++ [(touchDx t tz1 (s.voiceAt (v : ℤ)), 1)] ∧
    (touchToVoice scale t tz1 (s.voiceAt (v : ℤ))).mdMod.mChanges
      = (s.voiceAt (v : ℤ)).mdMod.mChanges ++ [(touchDy t tz1 (s.voiceAt (v : ℤ)), 1)] ∧
    (t.z > kZThresh → tz1.z ≤ kZThresh →
      touchDx t tz1 (s.voiceAt (v : ℤ)) = 0 ∧ touchDy t tz1 (s.voiceAt (v : ℤ)) = 0 ∧
      (touchToVoice scale t tz1 (s.voiceAt (v : ℤ))).mStartX = t.x ∧
      (touchToVoice scale t tz1 (s.voiceAt (v : ℤ))).mStartY = t.y) ∧
    (t.z > kZThresh → tz1.z > kZThresh →
      touchDx t tz1 (s.voiceAt (v : ℤ)) = t.x - (s.voiceAt (v : ℤ)).mStartX ∧
      touchDy t tz1 (s.voiceAt (v : ℤ)) = t.y - (s.voiceAt (v : ℤ)).mStartY ∧
      (touchToVoice scale t tz1 (s.voiceAt (v : ℤ))).mStartX = (s.voiceAt (v : ℤ)).mStartX ∧
      (touchToVoice scale t tz1 (s.voiceAt (v : ℤ))).mStartY = (s.voiceAt (v : ℤ)).mStartY) ∧
    OSCToEvents scale (frame :: frames) s mPrevTouchFrame mLatestTouchFrame
      = OSCToEvents scale frames
          (OSCToEvents scale [frame] s mPrevTouchFrame mLatestTouchFrame).1
          (OSCToEvents scale [frame] s mPrevTouchFrame mLatestTouchFrame).2.1
          (OSCToEvents scale [frame] s mPrevTouchFrame mLatestTouchFrame).2.2 := by
  refine ⟨?_, ?_, ?_, ?_, ?_, ?_, ?_, rfl⟩
  · rw [voiceAt_natCast, voiceAt_natCast]
    exact touchLoop_getD scale frame mLatestTouchFrame s.mVoices v t tz1 ht hz hv
  · simp only [touchToVoice, MLChangeList.addChange]
    split_ifs <;> simp_all
  · simp only [touchToVoice, MLChangeList.addChange]
    split_ifs <;> rfl
  · simp only [touchToVoice, MLChangeList.addChange]
    split_ifs <;> rfl
  · simp only [touchToVoice, MLChangeList.addChange]
    split_ifs <;> rfl
  · intro h1 h2
    simp only [touchDx, touchDy, touchToVoice, h1, h2, if_true, and_self]
  · intro h1 h2
    have h3 : ¬ tz1.z ≤ kZThresh := not_le.mpr h2
    simp only [touchDx, touchDy, touchToVoice, h1, h3, if_true, if_false, and_self]

end MLProcInputToSignals

namespace MLProcInputToSignals

/-- The frame loop at a concrete input: the frame `touchMovedFrame` after the touch-down
frame; the gate of voice 0 is scheduled to 1 at offset 1 after the gate change of the frame
before. -/
theorem osc_frame_witness :
    (OSCToEvents (fun n => n / 12) [touchMovedFrame] touchedDown noTouchFrame
        touchDownFrame).1.voiceAt ((0 : ℕ) : ℤ)
      = touchToVoice (fun n => n / 12) { x := 5 / 8, y := 1, z := 1 / 2, note := 60 }
          { x := 1 / 4, y := 1 / 2, z := 1 / 2, note := 60 }
          (touchedDown.voiceAt ((0 : ℕ) : ℤ)) ∧
    ((OSCToEvents (fun n => n / 12) [touchMovedFrame] touchedDown noTouchFrame
        touchDownFrame).1.voiceAt 0).mdGate.mChanges = [(1, 1), (1, 1)] :=
  ⟨(osc_frame (fun n => n / 12) touchedDown touchMovedFrame noTouchFrame touchDownFrame [] 0
      { x := 5 / 8, y := 1, z := 1 / 2, note := 60 }
      { x := 1 / 4, y := 1 / 2, z := 1 / 2, note := 60 } rfl rfl (by decide)).1,
   by decide!⟩

/-- Under the continuous-touch protocol the outputs of an active voice do not depend on its
note-pressure list: the `switch` of `writeOutputSignals` renders the amplitude list to the
aftertouch output and nothing reads `mdNotePressure`. -/
theorem writeActiveVoice_osc_note_pressure (inputDrift : Bool) (mMasterPitchOffset : ℚ)
    (frames : ℕ) (m : MainSignals) (v : ℕ) (voice : MLVoice) (out : VoiceSignals)
    (c : MLChangeList) :
    (writeActiveVoice InputProtocol.kInputProtocolOSC inputDrift mMasterPitchOffset frames m v
        { voice with mdNotePressure := c } out).2
      = (writeActiveVoice InputProtocol.kInputProtocolOSC inputDrift mMasterPitchOffset frames
          m v voice out).2 :=
  rfl

/-- C34: the x delta is scheduled on the note-pressure list, which the continuous-touch
protocol renders to no output.  Two voices, a touch-down at `(1/4, 1/2)` and the next frame
at `(5/8, 1)`, both with pressure `1/2` on note 60: the x delta `5/8 - 1/4 = 3/8` is on
`mdNotePressure` and on none of the three modulation lists, which hold the y delta `1/2`,
`x*2 - 1 = 1/4` and `y*2 - 1 = 1`; and of the eight outputs of voice 0 that
`writeOutputSignals` renders for a block of four samples (pitch, gate, velocity, voice,
aftertouch, mod, mod2, mod3), none carries the value `3/8`. -/
theorem osc_dx_reaches_no_output :
    ((OSCToEvents (fun n => n / 12) [touchMovedFrame] touchedDown noTouchFrame
        touchDownFrame).1.voiceAt 0).mdNotePressure.mChanges = [(0, 1), (3 / 8, 1)] ∧
    ((OSCToEvents (fun n => n / 12) [touchMovedFrame] touchedDown noTouchFrame
        touchDownFrame).1.voiceAt 0).mdMod.mChanges = [(0, 1), (1 / 2, 1)] ∧
    ((OSCToEvents (fun n => n / 12) [touchMovedFrame] touchedDown noTouchFrame
        touchDownFrame).1.voiceAt 0).mdMod2.mChanges = [(-(1 / 2), 1), (1 / 4, 1)] ∧
    ((OSCToEvents (fun n => n / 12) [touchMovedFrame] touchedDown noTouchFrame
        touchDownFrame).1.voiceAt 0).mdMod3.mChanges = [(0, 1), (1, 1)] ∧
    (((OSCToEvents (fun n => n / 12) [touchMovedFrame] touchedDown noTouchFrame
        touchDownFrame).1.writeOutputSignals (MainSignals.zeros 4)
        [VoiceSignals.zeros 4, VoiceSignals.zeros 4] 4 2 false 0).2.2.map
        (fun o => [o.pitch.samples, o.gate.samples, o.velSig.samples, o.voiceSig.samples,
          o.after.samples, o.mod.samples, o.mod2.samples, o.mod3.samples])).head?
      = some [[0, 5, 5, 5], [0, 1, 1, 1], [0, 1, 1, 1], [0, 0, 0, 0],
          [0, 1 / 2, 1 / 2, 1 / 2], [0, 1 / 2, 1 / 2, 1 / 2], [0, 1 / 4, 1 / 4, 1 / 4],
          [0, 1, 1, 1]] := by
  decide!

end MLProcInputToSignals

/-! ## The offsets of the changes of a block: the voice -/

theorem MLVoice.all_iff (Q : List (ℚ × ℤ) → Prop) (Ev : MLControlEvent → Prop) (v : MLVoice) :
    v.All Q Ev ↔
      (Q v.mdPitch.mChanges ∧ Q v.mdPitchBend.mChanges ∧ Q v.mdGate.mChanges ∧
       Q v.mdAmp.mChanges ∧ Q v.mdVel.mChanges ∧ Q v.mdNotePressure.mChanges ∧
       Q v.mdChannelPressure.mChanges ∧ Q v.mdMod.mChanges ∧ Q v.mdMod2.mChanges ∧
       Q v.mdMod3.mChanges ∧ Q v.mdDrift.mChanges) ∧ Ev v.mCurrentNoteEvent := by
  simp only [MLVoice.All, MLVoice.changeLists, List.forall_mem_cons, List.not_mem_nil,
    false_implies, implies_true, and_true]

theorem MLVoice.all_init (Q : List (ℚ × ℤ) → Prop) (Ev : MLControlEvent → Prop) (hnil : Q [])
    (hnull : Ev kMLNullControlEvent) : MLVoice.init.All Q Ev := by
  rw [MLVoice.all_iff]
  exact ⟨⟨hnil, hnil, hnil, hnil, hnil, hnil, hnil, hnil, hnil, hnil, hnil⟩, hnull⟩

theorem MLVoice.all_addNoteEvent (Q : List (ℚ × ℤ) → Prop) (A : ℤ → Prop)
    (Ev : MLControlEvent → Prop)
    (happ : ∀ l x o, A o → Q l → Q (l ++ [(x, o)]))
    (v : MLVoice) (e : MLControlEvent) (scale : ℚ → ℚ)
    (hA : A (uint64ToInt e.mTime)) (hE : Ev e) (hv : v.All Q Ev) :
    (v.addNoteEvent e scale).All Q Ev := by
  rw [MLVoice.all_iff] at hv ⊢
  obtain ⟨⟨h1, h2, h3, h4, h5, h6, h7, h8, h9, h10, h11⟩, _⟩ := hv
  simp only [MLVoice.addNoteEvent, MLChangeList.addChange]
  split_ifs <;>
    refine ⟨⟨?_, ?_, ?_, ?_, ?_, ?_, ?_, ?_, ?_, ?_, ?_⟩, hE⟩ <;>
    first
    | assumption
    | (apply happ _ _ _ hA; assumption)

theorem MLVoice.all_stealNoteEvent (Q : List (ℚ × ℤ) → Prop) (A : ℤ → Prop)
    (Ev : MLControlEvent → Prop)
    (happ : ∀ l x o, A o → Q l → Q (l ++ [(x, o)]))
    (v : MLVoice) (e : MLControlEvent) (scale : ℚ → ℚ) (retrig : Bool)
    (hA : A (stealTime e)) (hA1 : A (stealTime e - 1)) (hE : Ev e) (hv : v.All Q Ev) :
    (v.stealNoteEvent e scale retrig).All Q Ev := by
  rw [MLVoice.all_iff] at hv ⊢
  obtain ⟨⟨h1, h2, h3, h4, h5, h6, h7, h8, h9, h10, h11⟩, _⟩ := hv
  unfold stealTime at hA hA1
  by_cases h0 : uint64ToInt e.mTime = 0
  · simp only [h0, if_true] at hA hA1
    simp only [MLVoice.stealNoteEvent, MLChangeList.addChange, h0, if_true]
    split_ifs <;>
      refine ⟨⟨?_, ?_, ?_, ?_, ?_, ?_, ?_, ?_, ?_, ?_, ?_⟩, hE⟩ <;>
      first
      | assumption
      | (apply happ _ _ _ hA; assumption)
      | (apply happ _ _ _ hA1; assumption)
      | (apply happ _ _ _ hA; apply happ _ _ _ hA1; assumption)
  · simp only [h0, if_false] at hA hA1
    simp only [MLVoice.stealNoteEvent, MLChangeList.addChange, h0, if_false]
    split_ifs <;>
      refine ⟨⟨?_, ?_, ?_, ?_, ?_, ?_, ?_, ?_, ?_, ?_, ?_⟩, hE⟩ <;>
      first
      | assumption
      | (apply happ _ _ _ hA; assumption)
      | (apply happ _ _ _ hA1; assumption)
      | (apply happ _ _ _ hA; apply happ _ _ _ hA1; assumption)

theorem MLVoice.all_clearChanges (Q : List (ℚ × ℤ) → Prop) (Ev : MLControlEvent → Prop)
    (hnil : Q []) (v : MLVoice) (hv : v.All Q Ev) : v.clearChanges.All Q Ev := by
  rw [MLVoice.all_iff] at hv ⊢
  exact ⟨⟨hnil, hnil, hnil, hnil, hnil, hnil, hnil, hnil, hnil, hnil, hnil⟩, hv.2⟩

theorem MLVoice.all_clear (Q : List (ℚ × ℤ) → Prop) (Ev : MLControlEvent → Prop)
    (hnil : Q []) (v : MLVoice) (hv : v.All Q Ev) :
    (((v.clearState).clearChanges).zeroPressure).All Q Ev := by
  rw [MLVoice.all_iff] at hv ⊢
  exact ⟨⟨hnil, hnil, hnil, hnil, hnil, hnil, hnil, hnil, hnil, hnil, hnil⟩, hv.2⟩

theorem MLVoice.all_mdPitchBend (Q : List (ℚ × ℤ) → Prop) (A : ℤ → Prop)
    (Ev : MLControlEvent → Prop) (happ : ∀ l x o, A o → Q l → Q (l ++ [(x, o)]))
    (v : MLVoice) (x : ℚ) (o : ℤ) (hA : A o) (hv : v.All Q Ev) :
    MLVoice.All Q Ev { v with mdPitchBend := v.mdPitchBend.addChange x o } := by
  rw [MLVoice.all_iff] at hv ⊢
  obtain ⟨⟨h1, h2, h3, h4, h5, h6, h7, h8, h9, h10, h11⟩, hE⟩ := hv
  exact ⟨⟨h1, happ _ _ _ hA h2, h3, h4, h5, h6, h7, h8, h9, h10, h11⟩, hE⟩

theorem MLVoice.all_mdNotePressure (Q : List (ℚ × ℤ) → Prop) (A : ℤ → Prop)
    (Ev : MLControlEvent → Prop) (happ : ∀ l x o, A o → Q l → Q (l ++ [(x, o)]))
    (v : MLVoice) (x : ℚ) (o : ℤ) (hA : A o) (hv : v.All Q Ev) :
    MLVoice.All Q Ev { v with mdNotePressure := v.mdNotePressure.addChange x o } := by
  rw [MLVoice.all_iff] at hv ⊢
  obtain ⟨⟨h1, h2, h3, h4, h5, h6, h7, h8, h9, h10, h11⟩, hE⟩ := hv
  exact ⟨⟨h1, h2, h3, h4, h5, happ _ _ _ hA h6, h7, h8, h9, h10, h11⟩, hE⟩

theorem MLVoice.all_mdChannelPressure (Q : List (ℚ × ℤ) → Prop) (A : ℤ → Prop)
    (Ev : MLControlEvent → Prop) (happ : ∀ l x o, A o → Q l → Q (l ++ [(x, o)]))
    (v : MLVoice) (x : ℚ) (o : ℤ) (hA : A o) (hv : v.All Q Ev) :
    MLVoice.All Q Ev { v with mdChannelPressure := v.mdChannelPressure.addChange x o } := by
  rw [MLVoice.all_iff] at hv ⊢
  obtain ⟨⟨h1, h2, h3, h4, h5, h6, h7, h8, h9, h10, h11⟩, hE⟩ := hv
  exact ⟨⟨h1, h2, h3, h4, h5, h6, happ _ _ _ hA h7, h8, h9, h10, h11⟩, hE⟩

theorem MLVoice.all_mdMod (Q : List (ℚ × ℤ) → Prop) (A : ℤ → Prop)
    (Ev : MLControlEvent → Prop) (happ : ∀ l x o, A o → Q l → Q (l ++ [(x, o)]))
    (v : MLVoice) (x : ℚ) (o : ℤ) (hA : A o) (hv : v.All Q Ev) :
    MLVoice.All Q Ev { v with mdMod := v.mdMod.addChange x o } := by
  rw [MLVoice.all_iff] at hv ⊢
  obtain ⟨⟨h1, h2, h3, h4, h5, h6, h7, h8, h9, h10, h11⟩, hE⟩ := hv
  exact ⟨⟨h1, h2, h3, h4, h5, h6, h7, happ _ _ _ hA h8, h9, h10, h11⟩, hE⟩

theorem MLVoice.all_mdMod2 (Q : List (ℚ × ℤ) → Prop) (A : ℤ → Prop)
    (Ev : MLControlEvent → Prop) (happ : ∀ l x o, A o → Q l → Q (l ++ [(x, o)]))
    (v : MLVoice) (x : ℚ) (o : ℤ) (hA : A o) (hv : v.All Q Ev) :
    MLVoice.All Q Ev { v with mdMod2 := v.mdMod2.addChange x o } := by
  rw [MLVoice.all_iff] at hv ⊢
  obtain ⟨⟨h1, h2, h3, h4, h5, h6, h7, h8, h9, h10, h11⟩, hE⟩ := hv
  exact ⟨⟨h1, h2, h3, h4, h5, h6, h7, h8, happ _ _ _ hA h9, h10, h11⟩, hE⟩

theorem MLVoice.all_mdMod3 (Q : List (ℚ × ℤ) → Prop) (A : ℤ → Prop)
    (Ev : MLControlEvent → Prop) (happ : ∀ l x o, A o → Q l → Q (l ++ [(x, o)]))
    (v : MLVoice) (x : ℚ) (o : ℤ) (hA : A o) (hv : v.All Q Ev) :
    MLVoice.All Q Ev { v with mdMod3 := v.mdMod3.addChange x o } := by
  rw [MLVoice.all_iff] at hv ⊢
  obtain ⟨⟨h1, h2, h3, h4, h5, h6, h7, h8, h9, h10, h11⟩, hE⟩ := hv
  exact ⟨⟨h1, h2, h3, h4, h5, h6, h7, h8, h9, happ _ _ _ hA h10, h11⟩, hE⟩

/-! ## The offsets of the changes of a block: the handlers -/

theorem mem_mapFirst {α : Type} (f : α → α) :
    ∀ (n : ℕ) (l : List α) (y : α), y ∈ mapFirst f n l → y ∈ l ∨ ∃ x ∈ l, y = f x := by
  intro n
  induction n with
  | zero =>
    intro l y h
    exact Or.inl h
  | succ n ih =>
    intro l y h
    cases l with
    | nil => exact Or.inl h
    | cons a l =>
      simp only [mapFirst, List.mem_cons] at h
      rcases h with h | h
      · exact Or.inr ⟨a, List.mem_cons_self a l, h⟩
      · rcases ih l y h with h1 | ⟨x, hx, hy⟩
        · exact Or.inl (List.mem_cons_of_mem a h1)
        · exact Or.inr ⟨x, List.mem_cons_of_mem a hx, hy⟩

theorem push_forall (P : MLControlEvent → Prop) (st : MLControlEventStack) (e : MLControlEvent)
    (he : P e) (hst : ∀ ev ∈ st.data, P ev) : ∀ ev ∈ (st.push e).data, P ev := by
  unfold MLControlEventStack.push
  split
  · intro ev hev
    rcases List.mem_or_eq_of_mem_set hev with h | h
    · exact hst ev h
    · rw [h]
      exact he
  · exact hst

namespace MLProcInputToSignals

theorem voiceAt_init_or_mem (s : MLProcInputToSignals) (i : ℤ) :
    s.voiceAt i = MLVoice.init ∨ s.voiceAt i ∈ s.mVoices := by
  unfold voiceAt
  split
  · exact getD_eq_or_mem _ _ _
  · exact Or.inl rfl

theorem inv_forActiveVoices (Q : List (ℚ × ℤ) → Prop) (Ev E : MLControlEvent → Prop)
    (s : MLProcInputToSignals) (f : MLVoice → MLVoice)
    (hf : ∀ v, v.All Q Ev → (f v).All Q Ev) (h : HandlerInv Q Ev E s) :
    HandlerInv Q Ev E (s.forActiveVoices f) := by
  refine { voices := ?_, main := h.main, pending := h.pending }
  intro v hv
  rcases mem_mapFirst f s.mCurrentVoices s.mVoices v hv with h1 | ⟨x, hx, hy⟩
  · exact h.voices v h1
  · rw [hy]
    exact hf x (h.voices x hx)

theorem inv_modifyVoice (Q : List (ℚ × ℤ) → Prop) (Ev E : MLControlEvent → Prop)
    (s : MLProcInputToSignals) (i : ℤ) (f : MLVoice → MLVoice)
    (hf : ∀ v, v.All Q Ev → (f v).All Q Ev) (h : HandlerInv Q Ev E s) :
    HandlerInv Q Ev E (s.modifyVoice i f) := by
  unfold modifyVoice
  split
  · rename_i hi
    refine { voices := ?_, main := h.main, pending := h.pending }
    intro v hv
    rcases List.mem_or_eq_of_mem_set hv with h1 | h1
    · exact h.voices v h1
    · rw [h1]
      apply hf
      rcases s.voiceAt_init_or_mem i with h2 | h2
      · have hmem : s.voiceAt i ∈ s.mVoices := by
          unfold voiceAt
          rw [if_pos hi.1, List.getD_eq_getElem _ _ hi.2]
          exact List.getElem_mem hi.2
        exact h.voices _ hmem
      · exact h.voices _ h2
  · exact h

theorem inv_withMainVoice (Q : List (ℚ × ℤ) → Prop) (Ev E : MLControlEvent → Prop)
    (s : MLProcInputToSignals) (v : MLVoice) (hv : v.All Q (fun _ => True))
    (h : HandlerInv Q Ev E s) :
    HandlerInv Q Ev E (s.withMainVoice v) :=
  { voices := h.voices, main := hv, pending := h.pending }

theorem inv_withPending (Q : List (ℚ × ℤ) → Prop) (Ev E : MLControlEvent → Prop)
    (s : MLProcInputToSignals) (st : MLControlEventStack) (hst : ∀ ev ∈ st.data, E ev)
    (h : HandlerInv Q Ev E s) : HandlerInv Q Ev E (s.withPending st) :=
  { voices := h.voices, main := h.main, pending := hst }

theorem inv_withPlaying (Q : List (ℚ × ℤ) → Prop) (Ev E : MLControlEvent → Prop)
    (s : MLProcInputToSignals) (p : MLControlEventVector) (h : HandlerInv Q Ev E s) :
    HandlerInv Q Ev E (s.withPlaying p) :=
  { voices := h.voices, main := h.main, pending := h.pending }

theorem inv_withSustainPedal (Q : List (ℚ × ℤ) → Prop) (Ev E : MLControlEvent → Prop)
    (s : MLProcInputToSignals) (b : Bool) (h : HandlerInv Q Ev E s) :
    HandlerInv Q Ev E (s.withSustainPedal b) :=
  { voices := h.voices, main := h.main, pending := h.pending }

theorem inv_findFreeVoice (Q : List (ℚ × ℤ) → Prop) (Ev E : MLControlEvent → Prop)
    (s : MLProcInputToSignals) (h : HandlerInv Q Ev E s) :
    HandlerInv Q Ev E s.findFreeVoice.2 := by
  unfold findFreeVoice
  rcases findFreeVoiceFrom_spec s s.mCurrentVoices 0 with ⟨_, h2, _⟩ | ⟨j, _, _, _, h2, _⟩
  · rw [h2]
    exact h
  · rw [h2]
    exact { voices := h.voices, main := h.main, pending := h.pending }

theorem inv_clear (Q : List (ℚ × ℤ) → Prop) (Ev E : MLControlEvent → Prop)
    (hnil : Q []) (hnull : E kMLNullControlEvent)
    (s : MLProcInputToSignals) (outs : ℕ) (h : HandlerInv Q Ev E s) :
    HandlerInv Q Ev E (s.clear outs) := by
  have h1 : HandlerInv Q Ev E s.clearChangeLists := by
    refine { voices := ?_, main := MLVoice.all_clearChanges Q _ hnil _ h.main,
             pending := h.pending }
    intro v hv
    obtain ⟨x, hx, rfl⟩ := List.mem_map.mp hv
    exact MLVoice.all_clearChanges Q Ev hnil x (h.voices x hx)
  have hpend : ∀ ev ∈ mapFirst MLControlEvent.clear kMaxEvents
      s.clearChangeLists.mNoteEventsPending.data, E ev := by
    intro ev hev
    rcases mem_mapFirst _ _ _ _ hev with h2 | ⟨x, _, hy⟩
    · exact h1.pending ev h2
    · rw [hy]
      exact hnull
  unfold clear
  simp only []
  split
  · refine { voices := ?_, main := MLVoice.all_clear Q _ hnil _ h1.main, pending := hpend }
    intro v hv
    obtain ⟨x, hx, rfl⟩ := List.mem_map.mp hv
    exact MLVoice.all_clear Q Ev hnil x (h1.voices x hx)
  · exact { voices := h1.voices, main := h1.main, pending := hpend }

end MLProcInputToSignals

namespace MLProcInputToSignals

theorem inv_doNoteOn (Q : List (ℚ × ℤ) → Prop) (A : ℤ → Prop) (Ev E : MLControlEvent → Prop)
    (happ : ∀ l x o, A o → Q l → Q (l ++ [(x, o)])) (hnull : E kMLNullControlEvent)
    (s : MLProcInputToSignals) (e : MLControlEvent) (scale : ℚ → ℚ)
    (hpush : s.mUnisonMode = true → ∀ ev, Ev ev → E ev)
    (hA : A (uint64ToInt e.mTime)) (hEe : Ev e)
    (hsteal : s.noteOnSteals e → A (stealTime e) ∧ A (stealTime e - 1))
    (h : HandlerInv Q Ev E s) : HandlerInv Q Ev E (s.doNoteOn e scale) := by
  have hadd : ∀ v : MLVoice, v.All Q Ev → (v.addNoteEvent e scale).All Q Ev :=
    fun v hv => MLVoice.all_addNoteEvent Q A Ev happ v e scale hA hEe hv
  unfold noteOnSteals at hsteal
  simp only [] at hsteal
  unfold doNoteOn
  simp only []
  split
  · exact h
  · rename_i hfree
    have h1 := inv_withPlaying Q Ev E s
      (s.mNoteEventsPlaying.set s.mNoteEventsPlaying.findFreeEvent.toNat e) h
    split
    · rename_i hu
      unfold doNoteOnUnison
      simp only []
      apply inv_forActiveVoices Q Ev E _ _ hadd
      split
      · apply inv_withPlaying
        apply inv_withPending Q Ev E _ _ _ h1
        apply push_forall E _ _ _ h1.pending
        rcases voiceAt_init_or_mem
          (s.withPlaying (s.mNoteEventsPlaying.set s.mNoteEventsPlaying.findFreeEvent.toNat e))
          0 with h2 | h2
        · rw [h2]
          exact hnull
        · exact hpush hu _ (h1.voices _ h2).2
      · exact h1
    · rename_i hu
      have hu' : (s.withPlaying (s.mNoteEventsPlaying.set
          s.mNoteEventsPlaying.findFreeEvent.toNat e)).mUnisonMode = false := by
        simpa using hu
      split
      · rename_i hp
        unfold doNoteOnMIDI
        simp only []
        split
        · exact inv_modifyVoice Q Ev E _ _ _ hadd (inv_findFreeVoice Q Ev E _ h1)
        · rename_i hno
          obtain ⟨hs1, hs2⟩ := hsteal ⟨hfree, hu', Or.inl ⟨hp, hno⟩⟩
          exact inv_modifyVoice Q Ev E _ _ _
            (fun v hv => MLVoice.all_stealNoteEvent Q A Ev happ v e scale true hs1 hs2 hEe hv)
            (inv_findFreeVoice Q Ev E _ h1)
      · rename_i hp
        unfold doNoteOnMPE
        simp only []
        split
        · rename_i hchan
          split
          · exact inv_modifyVoice Q Ev E _ _ _ hadd h1
          · rename_i hoff
            obtain ⟨hs1, hs2⟩ := hsteal ⟨hfree, hu', Or.inr ⟨hp, hchan, hoff⟩⟩
            exact inv_modifyVoice Q Ev E _ _ _
              (fun v hv => MLVoice.all_stealNoteEvent Q A Ev happ v e scale true hs1 hs2 hEe hv)
              h1
        · exact h1
      · exact h1

theorem inv_activatePending (Q : List (ℚ × ℤ) → Prop) (A : ℤ → Prop)
    (Ev E : MLControlEvent → Prop)
    (happ : ∀ l x o, A o → Q l → Q (l ++ [(x, o)])) (hnull : E kMLNullControlEvent)
    (s : MLProcInputToSignals) (i : ℤ) (scale : ℚ → ℚ)
    (hresume : ∀ ev, E ev → ev.mValue1 > 0 → A (stealTime ev) ∧ A (stealTime ev - 1) ∧ Ev ev)
    (h : HandlerInv Q Ev E s) : HandlerInv Q Ev E (s.activatePending i scale) := by
  obtain ⟨hpop, hdata⟩ := pop_spec s.mNoteEventsPending
  have hE : E s.mNoteEventsPending.pop.1 := by
    rcases hpop with h1 | h1
    · rw [h1]
      exact hnull
    · exact h.pending _ h1
  have h1 : HandlerInv Q Ev E (s.withPending s.mNoteEventsPending.pop.2) :=
    inv_withPending Q Ev E s _ (by rw [hdata]; exact h.pending) h
  unfold activatePending
  split
  · simp only []
    split
    · rename_i hpos
      obtain ⟨a1, a2, a3⟩ := hresume _ hE hpos
      exact inv_modifyVoice Q Ev E _ _ _
        (fun v hv => MLVoice.all_stealNoteEvent Q A Ev happ v _ scale _ a1 a2 a3 hv) h1
    · exact h1
  · exact h

theorem inv_doNoteOff (Q : List (ℚ × ℤ) → Prop) (A : ℤ → Prop) (Ev E : MLControlEvent → Prop)
    (happ : ∀ l x o, A o → Q l → Q (l ++ [(x, o)])) (hnull : E kMLNullControlEvent)
    (s : MLProcInputToSignals) (e : MLControlEvent) (scale : ℚ → ℚ)
    (hA : A (uint64ToInt e.mTime)) (hEe : ∀ ty, Ev { e with mType := ty })
    (hresume : ∀ ev, E ev → (s.mUnisonMode = true ∨ ev.mValue1 > 0) →
      A (stealTime ev) ∧ A (stealTime ev - 1) ∧ Ev ev)
    (h : HandlerInv Q Ev E s) : HandlerInv Q Ev E (s.doNoteOff e scale) := by
  have hadd : ∀ (t : MLProcInputToSignals) (v : MLVoice), v.All Q Ev →
      (v.addNoteEvent (t.eventToSend e) scale).All Q Ev :=
    fun t v hv => MLVoice.all_addNoteEvent Q A Ev happ v _ scale hA (hEe _) hv
  have h1 := inv_withPlaying Q Ev E s (clearPlaying s.mNoteEventsPlaying e.mID) h
  unfold doNoteOff
  simp only []
  split
  · rename_i hu
    have hu' : s.mUnisonMode = true := by simpa using hu
    unfold doNoteOffUnison
    simp only []
    split
    · split
      · obtain ⟨hpop, hdata⟩ := pop_spec
          (s.withPlaying (clearPlaying s.mNoteEventsPlaying e.mID)).mNoteEventsPending
        have hE : E (s.withPlaying
            (clearPlaying s.mNoteEventsPlaying e.mID)).mNoteEventsPending.pop.1 := by
          rcases hpop with h2 | h2
          · rw [h2]
            exact hnull
          · exact h1.pending _ h2
        obtain ⟨a1, a2, a3⟩ := hresume _ hE (Or.inl hu')
        apply inv_forActiveVoices Q Ev E _ _
          (fun v hv => MLVoice.all_stealNoteEvent Q A Ev happ v _ scale _ a1 a2 a3 hv)
        exact inv_withPending Q Ev E _ _ (by rw [hdata]; exact h1.pending) h1
      · exact inv_forActiveVoices Q Ev E _ _ (hadd _) h1
    · exact inv_withPending Q Ev E _ _
        (clearEventsMatchingID_forall E hnull _ _ h1.pending) h1
  · have hres : ∀ ev, E ev → ev.mValue1 > 0 →
        A (stealTime ev) ∧ A (stealTime ev - 1) ∧ Ev ev :=
      fun ev h2 h3 => hresume ev h2 (Or.inr h3)
    split
    · unfold doNoteOffMIDI
      simp only []
      have h2 : HandlerInv Q Ev E
          ((s.withPlaying (clearPlaying s.mNoteEventsPlaying e.mID)).forActiveVoices
            (fun voice =>
              if voice.mInstigatorID = e.mID then
                voice.addNoteEvent
                  ((s.withPlaying (clearPlaying s.mNoteEventsPlaying e.mID)).eventToSend e) scale
              else voice)) := by
        apply inv_forActiveVoices Q Ev E _ _ _ h1
        intro v hv
        split
        · exact hadd _ v hv
        · exact hv
      have h3 := inv_activatePending Q A Ev E happ hnull _
        ((s.withPlaying (clearPlaying s.mNoteEventsPlaying e.mID)).lastVoiceMatching e.mID)
        scale hres h2
      split
      · split
        · exact inv_withPending Q Ev E _ _
            (clearEventsMatchingID_forall E hnull _ _ h3.pending) h3
        · exact inv_withPending Q Ev E _ _
            (clearEventsMatchingID_forall E hnull _ _ h2.pending) h2
      · exact inv_withPending Q Ev E _ _
          (clearEventsMatchingID_forall E hnull _ _ h2.pending) h2
    · unfold doNoteOffMPE
      simp only []
      split
      · have h2 := inv_modifyVoice Q Ev E _
          ((s.withPlaying (clearPlaying s.mNoteEventsPlaying e.mID)).MPEChannelToVoiceIDX
            e.mChannel) _ (hadd (s.withPlaying (clearPlaying s.mNoteEventsPlaying e.mID))) h1
        split
        · exact inv_activatePending Q A Ev E happ hnull _ _ scale hres h2
        · exact h2
      · exact h1
    · exact h1

end MLProcInputToSignals

namespace MLProcInputToSignals

theorem all_mpeControllerChange (Q : List (ℚ × ℤ) → Prop) (A : ℤ → Prop)
    (Ev : MLControlEvent → Prop) (happ : ∀ l x o, A o → Q l → Q (l ++ [(x, o)]))
    (s : MLProcInputToSignals) (ctrl : ℤ) (val : ℚ) (time : ℤ) (hA : A time) (v : MLVoice)
    (hv : v.All Q Ev) : (s.mpeControllerChange ctrl val time v).All Q Ev := by
  unfold mpeControllerChange
  split_ifs
  · exact MLVoice.all_mdMod2 Q A Ev happ v val time hA hv
  · exact MLVoice.all_mdMod3 Q A Ev happ v val time hA hv
  · exact MLVoice.all_mdMod Q A Ev happ v val time hA hv
  · exact hv

theorem inv_allNotesOff (Q : List (ℚ × ℤ) → Prop) (A : ℤ → Prop)
    (Ev E : MLControlEvent → Prop) (happ : ∀ l x o, A o → Q l → Q (l ++ [(x, o)]))
    (s : MLProcInputToSignals) (e : MLControlEvent) (scale : ℚ → ℚ)
    (hA : A (uint64ToInt e.mTime)) (hEe : ∀ ty, Ev { e with mType := ty })
    (h : HandlerInv Q Ev E s) : HandlerInv Q Ev E (s.allNotesOff e scale) := by
  unfold allNotesOff
  apply inv_forActiveVoices Q Ev E _ _ _ h
  intro v hv
  split
  · exact MLVoice.all_addNoteEvent Q A Ev happ v _ scale hA (hEe _) hv
  · exact hv

theorem inv_doController (Q : List (ℚ × ℤ) → Prop) (A : ℤ → Prop)
    (Ev E : MLControlEvent → Prop) (hnil : Q [])
    (happ : ∀ l x o, A o → Q l → Q (l ++ [(x, o)])) (hnull : E kMLNullControlEvent)
    (s : MLProcInputToSignals) (e : MLControlEvent) (scale : ℚ → ℚ) (outs : ℕ)
    (hA : A (uint64ToInt e.mTime)) (hEe : ∀ ty, Ev { e with mType := ty })
    (h : HandlerInv Q Ev E s) : HandlerInv Q Ev E (s.doController e scale outs) := by
  unfold doController
  simp only []
  split
  · split
    · split
      · exact inv_clear Q Ev E hnil hnull s outs h
      · exact h
    · split
      · split
        · exact inv_allNotesOff Q A Ev E happ s e scale hA hEe h
        · exact h
      · apply inv_forActiveVoices Q Ev E _ _ _ h
        intro v hv
        split_ifs
        · exact MLVoice.all_mdMod Q A Ev happ v _ _ hA hv
        · exact MLVoice.all_mdMod2 Q A Ev happ v _ _ hA hv
        · exact MLVoice.all_mdMod3 Q A Ev happ v _ _ hA hv
        · exact hv
  · split
    · split
      · split
        · exact inv_clear Q Ev E hnil hnull s outs h
        · exact h
      · split
        · split
          · exact inv_allNotesOff Q A Ev E happ s e scale hA hEe h
          · exact h
        · exact inv_withMainVoice Q Ev E s _
            (all_mpeControllerChange Q A _ happ s _ _ _ hA _ h.main) h
    · exact inv_modifyVoice Q Ev E s _ _
        (fun v hv => all_mpeControllerChange Q A Ev happ s _ _ _ hA v hv) h
  · exact h

theorem inv_doPitchWheel (Q : List (ℚ × ℤ) → Prop) (A : ℤ → Prop)
    (Ev E : MLControlEvent → Prop) (happ : ∀ l x o, A o → Q l → Q (l ++ [(x, o)]))
    (s : MLProcInputToSignals) (e : MLControlEvent) (hA : A (uint64ToInt e.mTime))
    (h : HandlerInv Q Ev E s) : HandlerInv Q Ev E (s.doPitchWheel e) := by
  unfold doPitchWheel
  simp only []
  split
  · exact inv_forActiveVoices Q Ev E s _
      (fun v hv => MLVoice.all_mdPitchBend Q A Ev happ v _ _ hA hv) h
  · split
    · exact inv_withMainVoice Q Ev E s _
        (MLVoice.all_mdPitchBend Q A _ happ _ _ _ hA h.main) h
    · exact inv_modifyVoice Q Ev E s _ _
        (fun v hv => MLVoice.all_mdPitchBend Q A Ev happ v _ _ hA hv) h
  · exact h

theorem inv_doNotePressure (Q : List (ℚ × ℤ) → Prop) (A : ℤ → Prop)
    (Ev E : MLControlEvent → Prop) (happ : ∀ l x o, A o → Q l → Q (l ++ [(x, o)]))
    (s : MLProcInputToSignals) (e : MLControlEvent) (hA : A (uint64ToInt e.mTime))
    (h : HandlerInv Q Ev E s) : HandlerInv Q Ev E (s.doNotePressure e) := by
  unfold doNotePressure
  split
  · apply inv_forActiveVoices Q Ev E s _ _ h
    intro v hv
    split
    · exact MLVoice.all_mdNotePressure Q A Ev happ v _ _ hA hv
    · exact hv
  · exact h

theorem inv_doChannelPressure (Q : List (ℚ × ℤ) → Prop) (A : ℤ → Prop)
    (Ev E : MLControlEvent → Prop) (happ : ∀ l x o, A o → Q l → Q (l ++ [(x, o)]))
    (s : MLProcInputToSignals) (e : MLControlEvent) (hA : A (uint64ToInt e.mTime))
    (h : HandlerInv Q Ev E s) : HandlerInv Q Ev E (s.doChannelPressure e) := by
  unfold doChannelPressure
  simp only []
  split
  · exact inv_forActiveVoices Q Ev E s _
      (fun v hv => MLVoice.all_mdChannelPressure Q A Ev happ v _ _ hA hv) h
  · split
    · exact inv_withMainVoice Q Ev E s _
        (MLVoice.all_mdChannelPressure Q A _ happ _ _ _ hA h.main) h
    · exact inv_modifyVoice Q Ev E s _ _
        (fun v hv => MLVoice.all_mdChannelPressure Q A Ev happ v _ _ hA hv) h
  · exact h

theorem inv_doSustain (Q : List (ℚ × ℤ) → Prop) (A : ℤ → Prop)
    (Ev E : MLControlEvent → Prop) (happ : ∀ l x o, A o → Q l → Q (l ++ [(x, o)]))
    (s : MLProcInputToSignals) (e : MLControlEvent) (scale : ℚ → ℚ)
    (hrel : floatToInt e.mValue1 = 0 →
      A 0 ∧ Ev { kMLNullControlEvent with mType := EventType.kNoteOff })
    (h : HandlerInv Q Ev E s) : HandlerInv Q Ev E (s.doSustain e scale) := by
  have h1 := inv_withSustainPedal Q Ev E s (decide (floatToInt e.mValue1 ≠ 0)) h
  unfold doSustain
  simp only []
  split
  · rename_i hp
    have h0 : floatToInt e.mValue1 = 0 := by
      by_contra hne
      apply hp
      simp [hne]
    obtain ⟨a1, a2⟩ := hrel h0
    apply inv_forActiveVoices Q Ev E _ _ _ h1
    intro v hv
    split
    · exact MLVoice.all_addNoteEvent Q A Ev happ v _ scale a1 a2 hv
    · exact hv
  · exact h1

/-- The generic step: the handlers keep an invariant of the change lists and of the stored
events, given that the offsets they schedule at are admitted by `A`. -/
theorem inv_dispatchEvent (Q : List (ℚ × ℤ) → Prop) (A : ℤ → Prop)
    (Ev E : MLControlEvent → Prop) (hnil : Q [])
    (happ : ∀ l x o, A o → Q l → Q (l ++ [(x, o)])) (hnull : E kMLNullControlEvent)
    (s : MLProcInputToSignals) (e : MLControlEvent) (scale : ℚ → ℚ) (outs : ℕ)
    (hpush : s.mUnisonMode = true → ∀ ev, Ev ev → E ev)
    (hA : A (uint64ToInt e.mTime)) (hEe : ∀ ty, Ev { e with mType := ty })
    (hsteal : e.mType = EventType.kNoteOn → s.noteOnSteals e →
      A (stealTime e) ∧ A (stealTime e - 1))
    (hresume : ∀ ev, E ev → (s.mUnisonMode = true ∨ ev.mValue1 > 0) →
      A (stealTime ev) ∧ A (stealTime ev - 1) ∧ Ev ev)
    (hrel : e.mType = EventType.kSustainPedal → floatToInt e.mValue1 = 0 →
      A 0 ∧ Ev { kMLNullControlEvent with mType := EventType.kNoteOff })
    (h : HandlerInv Q Ev E s) : HandlerInv Q Ev E (s.dispatchEvent e scale outs) := by
  unfold dispatchEvent
  split
  · rename_i hty
    exact inv_doNoteOn Q A Ev E happ hnull s e scale hpush hA (hEe e.mType) (hsteal hty) h
  · exact inv_doNoteOff Q A Ev E happ hnull s e scale hA hEe hresume h
  · exact inv_doController Q A Ev E hnil happ hnull s e scale outs hA hEe h
  · exact inv_doPitchWheel Q A Ev E happ s e hA h
  · exact inv_doNotePressure Q A Ev E happ s e hA h
  · exact inv_doChannelPressure Q A Ev E happ s e hA h
  · rename_i hty
    exact inv_doSustain Q A Ev E happ s e scale (hrel hty) h
  · exact h

end MLProcInputToSignals

namespace MLProcInputToSignals

/-! ## Auxiliary lemmas: the unison switch is not assigned by the handlers -/

theorem modifyVoice_mUnisonMode (s : MLProcInputToSignals) (i : ℤ) (f : MLVoice → MLVoice) :
    (s.modifyVoice i f).mUnisonMode = s.mUnisonMode := by
  unfold modifyVoice
  split <;> rfl

theorem forActiveVoices_mUnisonMode (s : MLProcInputToSignals) (f : MLVoice → MLVoice) :
    (s.forActiveVoices f).mUnisonMode = s.mUnisonMode := rfl

theorem findFreeVoiceFrom_mUnisonMode (s : MLProcInputToSignals) (k v : ℕ) :
    (s.findFreeVoiceFrom k v).2.mUnisonMode = s.mUnisonMode := by
  induction k generalizing v with
  | zero => rfl
  | succ k ih =>
    simp only [findFreeVoiceFrom, mRotateMode, if_true]
    split
    · rfl
    · exact ih (v + 1)

theorem activatePending_mUnisonMode (s : MLProcInputToSignals) (i : ℤ) (scale : ℚ → ℚ) :
    (s.activatePending i scale).mUnisonMode = s.mUnisonMode := by
  unfold activatePending
  split
  · simp only []
    split
    · rw [modifyVoice_mUnisonMode]; rfl
    · rfl
  · rfl

theorem clear_mUnisonMode (s : MLProcInputToSignals) (outs : ℕ) :
    (s.clear outs).mUnisonMode = s.mUnisonMode := by
  unfold clear
  simp only []
  split <;> rfl

theorem doNoteOn_mUnisonMode (s : MLProcInputToSignals) (e : MLControlEvent)
    (scale : ℚ → ℚ) : (s.doNoteOn e scale).mUnisonMode = s.mUnisonMode := by
  unfold doNoteOn
  simp only []
  split
  · rfl
  · split
    · unfold doNoteOnUnison
      simp only [forActiveVoices_mUnisonMode]
      split <;> rfl
    · split
      · unfold doNoteOnMIDI
        simp only []
        split
        · rw [modifyVoice_mUnisonMode]
          exact findFreeVoiceFrom_mUnisonMode _ _ _
        · rw [modifyVoice_mUnisonMode]
          exact findFreeVoiceFrom_mUnisonMode _ _ _
      · unfold doNoteOnMPE
        simp only []
        split
        · split <;> rw [modifyVoice_mUnisonMode] <;> rfl
        · rfl
      · rfl

theorem doNoteOff_mUnisonMode (s : MLProcInputToSignals) (e : MLControlEvent)
    (scale : ℚ → ℚ) : (s.doNoteOff e scale).mUnisonMode = s.mUnisonMode := by
  unfold doNoteOff
  simp only []
  split
  · unfold doNoteOffUnison
    simp only []
    split
    · split <;> rfl
    · rfl
  · split
    · unfold doNoteOffMIDI
      simp only [withPending_mUnisonMode]
      split
      · split
        · rw [activatePending_mUnisonMode]; rfl
        · rfl
      · rfl
    · unfold doNoteOffMPE
      simp only []
      split
      · split
        · rw [activatePending_mUnisonMode, modifyVoice_mUnisonMode]; rfl
        · rw [modifyVoice_mUnisonMode]; rfl
      · rfl
    · rfl

theorem doSustain_mUnisonMode (s : MLProcInputToSignals) (e : MLControlEvent)
    (scale : ℚ → ℚ) : (s.doSustain e scale).mUnisonMode = s.mUnisonMode := by
  unfold doSustain
  simp only []
  split <;> rfl

theorem doController_mUnisonMode (s : MLProcInputToSignals) (e : MLControlEvent)
    (scale : ℚ → ℚ) (outs : ℕ) :
    (s.doController e scale outs).mUnisonMode = s.mUnisonMode := by
  unfold doController
  simp only []
  split
  · split
    · split
      · exact clear_mUnisonMode _ _
      · rfl
    · split
      · split <;> rfl
      · rfl
  · split
    · split
      · split
        · exact clear_mUnisonMode _ _
        · rfl
      · split
        · split <;> rfl
        · rfl
    · exact modifyVoice_mUnisonMode _ _ _
  · rfl

theorem doPitchWheel_mUnisonMode (s : MLProcInputToSignals) (e : MLControlEvent) :
    (s.doPitchWheel e).mUnisonMode = s.mUnisonMode := by
  unfold doPitchWheel
  simp only []
  split
  · rfl
  · split
    · rfl
    · exact modifyVoice_mUnisonMode _ _ _
  · rfl

theorem doNotePressure_mUnisonMode (s : MLProcInputToSignals) (e : MLControlEvent) :
    (s.doNotePressure e).mUnisonMode = s.mUnisonMode := by
  unfold doNotePressure
  split <;> rfl

theorem doChannelPressure_mUnisonMode (s : MLProcInputToSignals) (e : MLControlEvent) :
    (s.doChannelPressure e).mUnisonMode = s.mUnisonMode := by
  unfold doChannelPressure
  simp only []
  split
  · rfl
  · split
    · rfl
    · exact modifyVoice_mUnisonMode _ _ _
  · rfl

theorem dispatchEvent_mUnisonMode (s : MLProcInputToSignals) (e : MLControlEvent)
    (scale : ℚ → ℚ) (outs : ℕ) :
    (s.dispatchEvent e scale outs).mUnisonMode = s.mUnisonMode := by
  unfold dispatchEvent
  split
  · exact doNoteOn_mUnisonMode _ _ _
  · exact doNoteOff_mUnisonMode _ _ _
  · exact doController_mUnisonMode _ _ _ _
  · exact doPitchWheel_mUnisonMode _ _
  · exact doNotePressure_mUnisonMode _ _
  · exact doChannelPressure_mUnisonMode _ _
  · exact doSustain_mUnisonMode _ _ _
  · rfl

end MLProcInputToSignals

/-! ## The offsets of the changes of a block: range and order -/

theorem stealTime_of_lt (e : MLControlEvent) (B : ℕ) (hB31 : B ≤ 2 ^ 31) (he : e.mTime < B) :
    uint64ToInt e.mTime = (e.mTime : ℤ) ∧ stealTime e = max (e.mTime : ℤ) 1 := by
  have h : uint64ToInt e.mTime = (e.mTime : ℤ) := uint64ToInt_of_lt e.mTime (by omega)
  refine ⟨h, ?_⟩
  unfold stealTime
  rw [h]
  split <;> omega

theorem offsetsUpTo_append (slack M : ℤ) (l : List (ℚ × ℤ)) (x : ℚ) (o : ℤ)
    (hA : M - slack ≤ o ∧ o ≤ M) (hl : OffsetsUpTo slack M l) :
    OffsetsUpTo slack M (l ++ [(x, o)]) := by
  refine ⟨?_, ?_⟩
  · unfold OffsetsOrdered
    rw [List.pairwise_append]
    refine ⟨hl.1, List.pairwise_singleton _ _, ?_⟩
    intro a ha b hb
    rw [List.mem_singleton] at hb
    rw [hb]
    have := hl.2 a ha
    show a.2 ≤ o + slack
    omega
  · intro p hp
    rcases List.mem_append.mp hp with h | h
    · exact hl.2 p h
    · rw [List.mem_singleton] at h
      rw [h]
      exact hA.2

theorem offsetsUpTo_mono (slack M M' : ℤ) (hM : M ≤ M') (l : List (ℚ × ℤ))
    (hl : OffsetsUpTo slack M l) : OffsetsUpTo slack M' l :=
  ⟨hl.1, fun p hp => le_trans (hl.2 p hp) hM⟩

namespace MLProcInputToSignals

theorem handlerInv_mono (Q Q' : List (ℚ × ℤ) → Prop) (Ev E : MLControlEvent → Prop)
    (hQ : ∀ l, Q l → Q' l) (s : MLProcInputToSignals) (h : HandlerInv Q Ev E s) :
    HandlerInv Q' Ev E s :=
  { voices := fun v hv => ⟨fun l hl => hQ l ((h.voices v hv).1 l hl), (h.voices v hv).2⟩,
    main := ⟨fun l hl => hQ l (h.main.1 l hl), trivial⟩,
    pending := h.pending }

theorem handlerInv_lists (Q : List (ℚ × ℤ) → Prop) (Ev E : MLControlEvent → Prop)
    (s : MLProcInputToSignals) (h : HandlerInv Q Ev E s) :
    ∀ v ∈ s.allVoices, ∀ l ∈ v.changeLists, Q l := by
  intro v hv
  unfold allVoices at hv
  rcases List.mem_append.mp hv with h1 | h1
  · exact (h.voices v h1).1
  · rw [List.mem_singleton] at h1
    rw [h1]
    exact h.main.1

theorem handlerInv_of_empty (Q : List (ℚ × ℤ) → Prop) (Ev E : MLControlEvent → Prop)
    (hnil : Q []) (s : MLProcInputToSignals)
    (hempty : ∀ v ∈ s.allVoices, ∀ l ∈ v.changeLists, l = [])
    (hEv : ∀ v ∈ s.mVoices, Ev v.mCurrentNoteEvent)
    (hE : ∀ ev ∈ s.mNoteEventsPending.data, E ev) : HandlerInv Q Ev E s := by
  refine { voices := ?_, main := ?_, pending := hE }
  · intro v hv
    refine ⟨fun l hl => ?_, hEv v hv⟩
    rw [hempty v (List.mem_append_left _ hv) l hl]
    exact hnil
  · refine ⟨fun l hl => ?_, trivial⟩
    rw [hempty _ (List.mem_append_right _ (List.mem_singleton_self _)) l hl]
    exact hnil

theorem range_step (B : ℕ) (hB : 2 ≤ B) (hB31 : B ≤ 2 ^ 31) (s : MLProcInputToSignals)
    (e : MLControlEvent) (scale : ℚ → ℚ) (outs : ℕ) (he : e.mTime < B)
    (h : HandlerInv (OffsetsWithin B) (fun ev => ev.mTime < B) (fun ev => ev.mTime < B) s) :
    HandlerInv (OffsetsWithin B) (fun ev => ev.mTime < B) (fun ev => ev.mTime < B)
      (s.dispatchEvent e scale outs) := by
  have hst : ∀ ev : MLControlEvent, ev.mTime < B →
      (0 ≤ uint64ToInt ev.mTime ∧ uint64ToInt ev.mTime < (B : ℤ)) ∧
      (0 ≤ stealTime ev ∧ stealTime ev < (B : ℤ)) ∧
      (0 ≤ stealTime ev - 1 ∧ stealTime ev - 1 < (B : ℤ)) := by
    intro ev hev
    obtain ⟨h1, h2⟩ := stealTime_of_lt ev B hB31 hev
    rw [h1, h2]
    omega
  apply inv_dispatchEvent (OffsetsWithin B) (fun o => 0 ≤ o ∧ o < (B : ℤ))
    (fun ev => ev.mTime < B) (fun ev => ev.mTime < B)
  · exact fun p hp => absurd hp (List.not_mem_nil p)
  · intro l x o hA hl p hp
    rcases List.mem_append.mp hp with h1 | h1
    · exact hl p h1
    · rw [List.mem_singleton] at h1
      rw [h1]
      exact hA
  · show 0 < B
    omega
  · exact fun _ ev hev => hev
  · exact (hst e he).1
  · exact fun _ => he
  · exact fun _ _ => (hst e he).2
  · exact fun ev hev _ => ⟨(hst ev hev).2.1, (hst ev hev).2.2, hev⟩
  · refine fun _ _ => ⟨⟨le_refl 0, ?_⟩, ?_⟩
    · show (0 : ℤ) < (B : ℤ)
      omega
    · show 0 < B
      omega
  · exact h

theorem range_fold (B : ℕ) (hB : 2 ≤ B) (hB31 : B ≤ 2 ^ 31) (scale : ℚ → ℚ) (outs : ℕ) :
    ∀ (events : List MLControlEvent) (s : MLProcInputToSignals),
      (∀ e ∈ events, e.mTime < B) →
      HandlerInv (OffsetsWithin B) (fun ev => ev.mTime < B) (fun ev => ev.mTime < B) s →
      HandlerInv (OffsetsWithin B) (fun ev => ev.mTime < B) (fun ev => ev.mTime < B)
        (s.dispatchEvents events scale outs) := by
  intro events
  induction events with
  | nil =>
    intro s _ h
    exact h
  | cons e es ih =>
    intro s ht h
    exact ih (s.dispatchEvent e scale outs)
      (fun e' he' => ht e' (List.mem_cons_of_mem e he'))
      (range_step B hB hB31 s e scale outs (ht e (List.mem_cons_self e es)) h)

theorem order_step (slack : ℤ) (h0 : 0 ≤ slack) (B : ℕ) (hB31 : B ≤ 2 ^ 31)
    (s : MLProcInputToSignals) (e : MLControlEvent) (scale : ℚ → ℚ) (outs : ℕ)
    (he : e.mTime < B) (hun : s.mUnisonMode = false)
    (hped : e.mType = EventType.kSustainPedal → floatToInt e.mValue1 ≠ 0)
    (hst : slack = 1 ∨ (e.mType = EventType.kNoteOn → ¬ s.noteOnSteals e))
    (h : HandlerInv (OffsetsUpTo slack (max (e.mTime : ℤ) slack)) (fun _ => True)
      (fun ev => ¬ (ev.mValue1 > 0)) s) :
    HandlerInv (OffsetsUpTo slack (max (e.mTime : ℤ) slack)) (fun _ => True)
      (fun ev => ¬ (ev.mValue1 > 0)) (s.dispatchEvent e scale outs) := by
  obtain ⟨h1, h2⟩ := stealTime_of_lt e B hB31 he
  apply inv_dispatchEvent (OffsetsUpTo slack (max (e.mTime : ℤ) slack))
    (fun o => max (e.mTime : ℤ) slack - slack ≤ o ∧ o ≤ max (e.mTime : ℤ) slack)
    (fun _ => True) (fun ev => ¬ (ev.mValue1 > 0))
  · exact ⟨List.Pairwise.nil, fun p hp => absurd hp (List.not_mem_nil p)⟩
  · exact fun l x o hA hl => offsetsUpTo_append slack _ l x o hA hl
  · show ¬ ((0 : ℚ) > 0)
    exact lt_irrefl 0
  · intro hu
    rw [hun] at hu
    exact absurd hu (by decide)
  · rw [h1]
    constructor <;> omega
  · exact fun _ => trivial
  · intro hty hsteals
    rcases hst with hs | hs
    · rw [h2, hs]
      constructor <;> constructor <;> omega
    · exact absurd hsteals (hs hty)
  · intro ev hev hor
    rcases hor with hu | hpos
    · rw [hun] at hu
      exact absurd hu (by decide)
    · exact absurd hpos hev
  · intro hty hz
    exact absurd hz (hped hty)
  · exact h

theorem order_fold (slack : ℤ) (h0 : 0 ≤ slack) (B : ℕ) (hB31 : B ≤ 2 ^ 31) (scale : ℚ → ℚ)
    (outs : ℕ) :
    ∀ (events : List MLControlEvent) (s : MLProcInputToSignals) (τ : ℕ),
      (∀ e ∈ events, e.mTime < B) → (∀ e ∈ events, τ ≤ e.mTime) →
      events.Pairwise (fun a b => a.mTime ≤ b.mTime) → s.mUnisonMode = false →
      (∀ e ∈ events, e.mType = EventType.kSustainPedal → floatToInt e.mValue1 ≠ 0) →
      (slack = 1 ∨ NoSteals scale outs s events) →
      HandlerInv (OffsetsUpTo slack (max (τ : ℤ) slack)) (fun _ => True)
        (fun ev => ¬ (ev.mValue1 > 0)) s →
      ∃ M : ℤ, HandlerInv (OffsetsUpTo slack M) (fun _ => True)
        (fun ev => ¬ (ev.mValue1 > 0)) (s.dispatchEvents events scale outs) := by
  intro events
  induction events with
  | nil =>
    intro s τ _ _ _ _ _ _ h
    exact ⟨_, h⟩
  | cons e es ih =>
    intro s τ ht hτ hs hun hped hst h
    have hle : (τ : ℤ) ≤ (e.mTime : ℤ) := by
      exact_mod_cast hτ e (List.mem_cons_self e es)
    have h1 : HandlerInv (OffsetsUpTo slack (max (e.mTime : ℤ) slack)) (fun _ => True)
        (fun ev => ¬ (ev.mValue1 > 0)) s :=
      handlerInv_mono _ _ _ _
        (fun l hl => offsetsUpTo_mono slack _ _ (max_le_max hle (le_refl slack)) l hl) s h
    have hst1 : slack = 1 ∨ (e.mType = EventType.kNoteOn → ¬ s.noteOnSteals e) := by
      rcases hst with h2 | h2
      · exact Or.inl h2
      · exact Or.inr h2.1
    have hst2 : slack = 1 ∨ NoSteals scale outs (s.dispatchEvent e scale outs) es := by
      rcases hst with h2 | h2
      · exact Or.inl h2
      · exact Or.inr h2.2
    have h2 := order_step slack h0 B hB31 s e scale outs (ht e (List.mem_cons_self e es)) hun
      (hped e (List.mem_cons_self e es)) hst1 h1
    exact ih (s.dispatchEvent e scale outs) e.mTime
      (fun e' he' => ht e' (List.mem_cons_of_mem e he'))
      (fun e' he' => (List.pairwise_cons.mp hs).1 e' he')
      (List.pairwise_cons.mp hs).2
      (by rw [dispatchEvent_mUnisonMode]; exact hun)
      (fun e' he' => hped e' (List.mem_cons_of_mem e he'))
      hst2 h2

end MLProcInputToSignals

namespace MLProcInputToSignals

/-- C31, as the code has it: for a block of size `B ≥ 2` whose events, given with offsets
below `B`, are dispatched in non-decreasing time order from a state with empty change lists
in which the stored events (the current note event of each voice and the events of the
pending stack) have offsets below `B`, every change of every change list of every voice has
its offset within `[0, B)`, for every mix of events, and the stored events still have offsets
below `B`.  With unison off, no pending note and no pedal release in the block, an offset is
never more than one sample below an earlier offset of the same list (the retrigger pulse of
a steal), and the offsets are non-decreasing in insertion order when no note-on steals a
voice. -/
theorem change_list_offsets (s : MLProcInputToSignals) (events : List MLControlEvent)
    (scale : ℚ → ℚ) (outs B : ℕ) (hB : 2 ≤ B) (hB31 : B ≤ 2 ^ 31)
    (hempty : ∀ v ∈ s.allVoices, ∀ l ∈ v.changeLists, l = [])
    (hvoices : ∀ v ∈ s.mVoices, v.mCurrentNoteEvent.mTime < B)
    (hpending : ∀ ev ∈ s.mNoteEventsPending.data, ev.mTime < B)
    (htimes : ∀ e ∈ events, e.mTime < B)
    (hsorted : events.Pairwise (fun a b => a.mTime ≤ b.mTime)) :
    (∀ v ∈ (s.dispatchEvents events scale outs).allVoices, ∀ l ∈ v.changeLists,
      OffsetsWithin B l) ∧
    (∀ v ∈ (s.dispatchEvents events scale outs).mVoices, v.mCurrentNoteEvent.mTime < B) ∧
    (∀ ev ∈ (s.dispatchEvents events scale outs).mNoteEventsPending.data, ev.mTime < B) ∧
    (s.mUnisonMode = false → (∀ ev ∈ s.mNoteEventsPending.data, ¬ (ev.mValue1 > 0)) →
      (∀ e ∈ events, e.mType = EventType.kSustainPedal → floatToInt e.mValue1 ≠ 0) →
      (∀ v ∈ (s.dispatchEvents events scale outs).allVoices, ∀ l ∈ v.changeLists,
        OffsetsOrdered 1 l) ∧
      (NoSteals scale outs s events →
        ∀ v ∈ (s.dispatchEvents events scale outs).allVoices, ∀ l ∈ v.changeLists,
          OffsetsOrdered 0 l)) := by
  have hr := range_fold B hB hB31 scale outs events s htimes
    (handlerInv_of_empty _ _ _ (fun p hp => absurd hp (List.not_mem_nil p)) s hempty
      hvoices hpending)
  refine ⟨handlerInv_lists _ _ _ _ hr, fun v hv => (hr.voices v hv).2, hr.pending, ?_⟩
  intro hun hpend hped
  have hstart : ∀ slack : ℤ, HandlerInv (OffsetsUpTo slack (max ((0 : ℕ) : ℤ) slack))
      (fun _ => True) (fun ev => ¬ (ev.mValue1 > 0)) s :=
    fun slack => handlerInv_of_empty _ _ _
      ⟨List.Pairwise.nil, fun p hp => absurd hp (List.not_mem_nil p)⟩ s hempty
      (fun _ _ => trivial) hpend
  constructor
  · obtain ⟨M, hM⟩ := order_fold 1 (by decide) B hB31 scale outs events s 0 htimes
      (fun e _ => Nat.zero_le _) hsorted hun hped (Or.inl rfl) (hstart 1)
    exact fun v hv l hl => (handlerInv_lists _ _ _ _ hM v hv l hl).1
  · intro hns
    obtain ⟨M, hM⟩ := order_fold 0 (le_refl 0) B hB31 scale outs events s 0 htimes
      (fun e _ => Nat.zero_le _) hsorted hun hped (Or.inr hns) (hstart 0)
    exact fun v hv l hl => (handlerInv_lists _ _ _ _ hM v hv l hl).1

/-- C31, at a concrete input: two voices of the plain protocol, block size 64.  With three
note-ons (the third one steals a voice), a bend of the pitch wheel and a note-off, the offsets
are within `[0, 64)` and ordered up to one sample; without the third note-on no voice is
stolen and the offsets are non-decreasing. -/
theorem change_list_offsets_witness :
    (2 ≤ 64 ∧ 64 ≤ 2 ^ 31) ∧
    (∀ e ∈ [noteOn 1 60 0 1, noteOn 2 62 3 1, noteOn 3 64 3 1, pitchWheel 1 9000 4,
        noteOff 3 64 5], e.mTime < 64) ∧
    (∀ v ∈ ((cleared 2 2 InputProtocol.kInputProtocolMIDI false).dispatchEvents
        [noteOn 1 60 0 1, noteOn 2 62 3 1, noteOn 3 64 3 1, pitchWheel 1 9000 4,
          noteOff 3 64 5] (fun n => n / 12) 8).allVoices,
      ∀ l ∈ v.changeLists, OffsetsWithin 64 l) ∧
    (∀ v ∈ ((cleared 2 2 InputProtocol.kInputProtocolMIDI false).dispatchEvents
        [noteOn 1 60 0 1, noteOn 2 62 3 1, noteOn 3 64 3 1, pitchWheel 1 9000 4,
          noteOff 3 64 5] (fun n => n / 12) 8).allVoices,
      ∀ l ∈ v.changeLists, OffsetsOrdered 1 l) ∧
    NoSteals (fun n => n / 12) 8 (cleared 2 2 InputProtocol.kInputProtocolMIDI false)
      [noteOn 1 60 0 1, noteOn 2 62 3 1, pitchWheel 1 9000 4, noteOff 2 62 5] ∧
    (∀ v ∈ ((cleared 2 2 InputProtocol.kInputProtocolMIDI false).dispatchEvents
        [noteOn 1 60 0 1, noteOn 2 62 3 1, pitchWheel 1 9000 4, noteOff 2 62 5]
        (fun n => n / 12) 8).allVoices,
      ∀ l ∈ v.changeLists, OffsetsOrdered 0 l) :=
  ⟨⟨by decide, by decide⟩, by decide,
   (change_list_offsets (cleared 2 2 InputProtocol.kInputProtocolMIDI false)
      [noteOn 1 60 0 1, noteOn 2 62 3 1, noteOn 3 64 3 1, pitchWheel 1 9000 4, noteOff 3 64 5]
      (fun n => n / 12) 8 64 (by decide) (by decide) (by decide) (by decide) (by decide)
      (by decide) (by decide)).1,
   ((change_list_offsets (cleared 2 2 InputProtocol.kInputProtocolMIDI false)
      [noteOn 1 60 0 1, noteOn 2 62 3 1, noteOn 3 64 3 1, pitchWheel 1 9000 4, noteOff 3 64 5]
      (fun n => n / 12) 8 64 (by decide) (by decide) (by decide) (by decide) (by decide)
      (by decide) (by decide)).2.2.2 rfl (by decide) (by decide)).1,
   by decide!,
   ((change_list_offsets (cleared 2 2 InputProtocol.kInputProtocolMIDI false)
      [noteOn 1 60 0 1, noteOn 2 62 3 1, pitchWheel 1 9000 4, noteOff 2 62 5]
      (fun n => n / 12) 8 64 (by decide) (by decide) (by decide) (by decide) (by decide)
      (by decide) (by decide)).2.2.2 rfl (by decide) (by decide)).2 (by decide!)⟩

/-- C31 fails as stated: one voice of the plain protocol, a note-on at offset 5 and a second
note-on at offset 5, which steals the voice with a retrigger.  The gate list receives the
offsets 5, 4, 5: within `[0, 64)`, not non-decreasing. -/
theorem change_list_offsets_steal :
    [noteOn 1 60 5 1, noteOn 2 62 5 1].Pairwise (fun a b => a.mTime ≤ b.mTime) ∧
    (((cleared 1 1 InputProtocol.kInputProtocolMIDI false).dispatchEvents
        [noteOn 1 60 5 1, noteOn 2 62 5 1] (fun n => n / 12) 8).voiceAt 0).mdGate.mChanges
      = [(1, 5), (0, 4), (1, 5)] ∧
    ¬ OffsetsOrdered 0 [((1 : ℚ), (5 : ℤ)), (0, 4), (1, 5)] := by
  exact ⟨by decide, by decide!, by decide⟩

end MLProcInputToSignals

namespace MLProcInputToSignals

/-- The release of the pedal schedules the gate change of a sustained voice at offset 0,
whatever the offset of the pedal event: `doSustain` sends a default-constructed event. -/
theorem pedal_release_at_offset_zero :
    (((cleared 1 1 InputProtocol.kInputProtocolMIDI false).dispatchEvents
        [noteOn 1 60 5 1, sustainPedal 127 6, noteOff 1 60 7, sustainPedal 0 8]
        (fun n => n / 12) 8).voiceAt 0).mdGate.mChanges = [(1, 5), (0, 0)] := by
  decide!

/-- In unison mode the note resumed from the pending stack is scheduled at the offset that
its own note-on had, not at the offset of the note-off that resumes it. -/
theorem unison_resume_at_stored_offset :
    ((threeVoicesUnison.dispatchEvents [noteOn 1 60 10 1, noteOn 2 62 20 1, noteOff 2 62 30]
        (fun n => n / 12) 8).voiceAt 0).mdGate.mChanges = [(1, 10), (1, 20), (1, 10)] := by
  decide!

end MLProcInputToSignals

namespace MLProcInputToSignals

/-- C11: from the cleared state that "all sound off" leaves in unison mode, the claim fails
for one note.  The state is cleared, in unison mode, with the pedal up and allocated voices,
and its pending stack has size 1 over a cleared entry, since `clear()` does not reset
`mSize`.  After the note-on 3 the voices sound 3; the note-off 3 then pops the cleared entry
and every active voice ends in state `kOn` with instigator 0, not in state `kOff`.  With the
note-ons 3 and 4, the note-off 4 resumes 3, and the final note-off 3 again leaves the voices
on with instigator 0. -/
theorem unison_lifo_after_all_sound_off :
    unisonAfterAllSoundOff.IsCleared ∧
    unisonAfterAllSoundOff.mUnisonMode = true ∧
    unisonAfterAllSoundOff.mSustainPedal = false ∧
    unisonAfterAllSoundOff.mCurrentVoices ≤ unisonAfterAllSoundOff.mVoices.length ∧
    unisonAfterAllSoundOff.mNoteEventsPending.mSize = 1 ∧
    (unisonAfterAllSoundOff.processNoteEvents [noteOn 3 64 3 1] (fun n => n / 12)).activeVoices.map
        (fun v => (v.mState, v.mInstigatorID))
      = [(VoiceState.kOn, 3), (VoiceState.kOn, 3), (VoiceState.kOn, 3)] ∧
    (unisonAfterAllSoundOff.processNoteEvents [noteOn 3 64 3 1, noteOff 3 64 4]
        (fun n => n / 12)).activeVoices.map (fun v => (v.mState, v.mInstigatorID))
      = [(VoiceState.kOn, 0), (VoiceState.kOn, 0), (VoiceState.kOn, 0)] ∧
    (unisonAfterAllSoundOff.processNoteEvents [noteOn 3 64 3 1, noteOn 4 65 4 1, noteOff 4 65 5]
        (fun n => n / 12)).activeVoices.map (fun v => (v.mState, v.mInstigatorID))
      = [(VoiceState.kOn, 3), (VoiceState.kOn, 3), (VoiceState.kOn, 3)] ∧
    (unisonAfterAllSoundOff.processNoteEvents
        [noteOn 3 64 3 1, noteOn 4 65 4 1, noteOff 4 65 5, noteOff 3 64 6]
        (fun n => n / 12)).activeVoices.map (fun v => (v.mState, v.mInstigatorID))
      = [(VoiceState.kOn, 0), (VoiceState.kOn, 0), (VoiceState.kOn, 0)] := by
  refine ⟨?_, by decide!, by decide!, by decide!, by decide!, by decide!, by decide!,
    by decide!, by decide!⟩
  unfold IsCleared
  decide!

end MLProcInputToSignals
